import Mathlib

/-!
# A shallow embedding of `par_malloc.c`

The allocator keeps its free lists *inside* the memory it manages: a free block
starts with a `header` holding the block size (offset 0) and the link to the next
free block (offset 8).  The embedding therefore carries the memory explicitly.

* `State.mem a` is the 64-bit word stored at byte address `a`.  Every access the
  allocator performs is an access to a `size` field (address of the block) or to a
  `next` field (address of the block plus 8).
* `State.global_list`, `State.buckets`, `State.init` are the C globals of the same
  names (`buckets` is the thread-local array of the single thread that is modelled).
* `State.pages` is the page source: the addresses that the successive calls of
  `mmap` are going to return.  An exhausted page source is the failure of `mmap`.
* Every function that can dereference a null pointer, fail an assertion or loop for
  ever returns in `Except Fault`.  Loops over in-memory lists take a `fuel` bound;
  the theorems say how much fuel is enough.
* `size_t` arithmetic that depends on data is reduced modulo `2 ^ 64`, and the
  comparisons of pointers cast to `long` are signed.  The constant offsets between
  a block, its `next` field and its payload are plain additions and subtractions:
  a header always lies inside the address space.
* `pthread_mutex_lock` / `unlock` of the single modelled thread always succeed.
-/

set_option linter.unusedVariables false

namespace ParMalloc

/-- Ways in which a call does not return normally. -/
inductive Fault where
  | null_deref
  | assert_fail
  | out_of_fuel
  | bad_shift
  | out_of_bounds
  | no_pages
  deriving DecidableEq

/-- Two to the 64: `size_t` and `long` are 64-bit. -/
abbrev WORD : Nat := 18446744073709551616

/-- Source constant `GLOBAL_SIZE_MAX = (1 << 30)`. -/
abbrev GLOBAL_SIZE_MAX : Nat := 1073741824

/-- Source constant `LOCAL_BUCKETS = 20`. -/
abbrev LOCAL_BUCKETS : Nat := 20

/-- Source constant `LOCAL_SIZE_MAX = (1 << 20)`, the chunk size `C`. -/
abbrev LOCAL_SIZE_MAX : Nat := 1048576

/-- Point update of a function on addresses or indices. -/
def upd (f : Nat → Nat) (k v : Nat) : Nat → Nat :=
  fun x => if x = k then v else f x

/-- The allocator state: memory words, the C globals and the page source. -/
structure State where
  mem : Nat → Nat
  global_list : Nat
  buckets : Nat → Nat
  init : Nat
  pages : List Nat

/-- Read `p->size`. -/
def get_size (s : State) (p : Nat) : Except Fault Nat :=
  if p = 0 then .error .null_deref else .ok (s.mem p)

/-- Read `p->next`. -/
def get_next (s : State) (p : Nat) : Except Fault Nat :=
  if p = 0 then .error .null_deref else .ok (s.mem (p + 8))

/-- Write `p->size = v`. -/
def set_size (s : State) (p v : Nat) : Except Fault State :=
  if p = 0 then .error .null_deref else .ok { s with mem := upd s.mem p v }

/-- Write `p->next = v`. -/
def set_next (s : State) (p v : Nat) : Except Fault State :=
  if p = 0 then .error .null_deref else .ok { s with mem := upd s.mem (p + 8) v }

/-- Assignment `buckets[i] = v`. -/
def set_bucket (s : State) (i v : Nat) : State :=
  { s with buckets := upd s.buckets i v }

/-- The expression `(1 << k)` on a 32-bit `int`: defined for `k < 31`. -/
def shl_int (k : Nat) : Except Fault Nat :=
  if k < 31 then .ok (2 ^ k) else .error .bad_shift

/-- Signed comparison `(long)a < (long)b` of two 64-bit words, computed on the
    words biased by `2 ^ 63`. -/
def long_lt (a b : Nat) : Bool :=
  decide ((a + 9223372036854775808) % WORD < (b + 9223372036854775808) % WORD)

/-- Loop of `log_up`: `for(; (1 << out) < size; ++out);`. -/
def log_up_loop : Nat → Nat → Nat → Except Fault Nat
  | 0, _, _ => .error .out_of_fuel
  | fuel + 1, out, size => do
    let p ← shl_int out
    if p < size then log_up_loop fuel (out + 1) size else pure out

/-- Source function `log_up`; `sizeof(header)` is 16. -/
def log_up (size : Nat) : Except Fault Nat :=
  log_up_loop 64 3 (if size < 16 then 16 else size)

/-- Source function `div_up`. -/
def div_up (x y : Nat) : Except Fault Nat :=
  if y = 0 then .error .assert_fail
  else
    let z := x / y
    if z * y = x then .ok z else .ok ((z + 1) % WORD)

/-- Source function `split_block`; the result `0` is the null pointer. -/
def split_block (s : State) (block size : Nat) : Except Fault (State × Nat) := do
  let bsz ← get_size s block
  if bsz = size then pure (s, 0)
  else do
    let block2 := (block + size) % WORD
    let s1 ← set_size s block2 ((bsz + WORD - size % WORD) % WORD)
    let s2 ← set_size s1 block size
    pure (s2, block2)

/-- The page source `mmap(0, n, ...)`: the next address of `pages`, the region
    zero-filled.  With no address left the call fails for good (`no_pages`); the
    value `(void*)-1` that the source tests for is `WORD - 1`. -/
def mmap (s : State) (n : Nat) : Except Fault (State × Nat) :=
  match s.pages with
  | [] => .error .no_pages
  | p :: rest =>
    .ok ({ s with pages := rest,
                  mem := fun a => if p ≤ a ∧ a < p + n then 0 else s.mem a }, p)

/-- The `while` loop of `find_global_block` (the arena head did not fit).
    `out` is the candidate found so far. -/
def find_global_loop : Nat → State → Nat → Nat → Nat → Except Fault (State × Nat)
  | 0, _, _, _, _ => .error .out_of_fuel
  | fuel + 1, s, size, cur, out => do
    let nx ← get_next s cur
    if nx = 0 then pure (s, out)
    else do
      let nsz ← get_size s nx
      if nsz ≥ size then do
        let (s1, free_block) ← split_block s nx size
        if free_block ≠ 0 then do
          let s2 ← set_next s1 cur free_block
          let c ← get_next s2 cur
          find_global_loop fuel s2 size c nx
        else do
          let onx ← get_next s1 nx
          let s2 ← set_next s1 cur onx
          pure (s2, nx)
      else do
        let c ← get_next s cur
        find_global_loop fuel s size c out

/-- Source function `find_global_block`. -/
def find_global_block (fuel : Nat) (s : State) (size0 : Nat) :
    Except Fault (State × Nat) := do
  let num_blocks ← div_up size0 LOCAL_SIZE_MAX
  let size := (num_blocks * LOCAL_SIZE_MAX) % WORD
  let gsz ← get_size s s.global_list
  let (s1, out) ←
    if gsz ≥ size then do
      let out := s.global_list
      let (s1, free_block) ← split_block s out size
      if free_block ≠ 0 then do
        let onx ← get_next s1 out
        let s2 ← set_next s1 free_block onx
        pure ({ s2 with global_list := free_block }, out)
      else do
        let onx ← get_next s1 out
        pure ({ s1 with global_list := onx }, out)
    else find_global_loop fuel s size s.global_list 0
  if out = 0 then do
    let (s2, p) ← mmap s1 size
    if p = WORD - 1 then .error .assert_fail
    else do
      let s3 ← set_size s2 p size
      pure (s3, p)
  else pure (s1, out)

/-- The scan `for (; i <= LOCAL_BUCKETS; ++i) if (buckets[i] != 0) break;`. -/
def scan_buckets : Nat → State → Nat → Nat
  | 0, _, i => i
  | fuel + 1, s, i =>
    if i ≤ LOCAL_BUCKETS then
      if s.buckets i ≠ 0 then i else scan_buckets fuel s (i + 1)
    else i

/-- The split loop `for (; i > log; --i)` of `find_local_block`, for `i = log + n`. -/
def split_down : Nat → State → Nat → Except Fault State
  | 0, s, _ => .ok s
  | n + 1, s, log => do
    let i := log + n + 1
    let s1 := set_bucket s (i - 1) (s.buckets i)
    let nx ← get_next s1 (s1.buckets i)
    let s2 := set_bucket s1 i nx
    let half ← shl_int (i - 1)
    let (s3, block2) ← split_block s2 (s2.buckets (i - 1)) half
    let s4 ← set_next s3 (s3.buckets (i - 1)) block2
    let b2 ← get_next s4 (s4.buckets (i - 1))
    let s5 ← set_next s4 b2 0
    split_down n s5 log

/-- Source function `find_local_block`. -/
def find_local_block (fuel : Nat) (s : State) (size0 : Nat) :
    Except Fault (State × Nat) := do
  let log ← log_up size0
  let _size ← shl_int log
  if log > LOCAL_BUCKETS then .error .assert_fail
  else if s.buckets log ≠ 0 then do
    let out := s.buckets log
    let onx ← get_next s out
    pure (set_bucket s log onx, out)
  else do
    let i := scan_buckets 22 s log
    let (s1, i) ←
      if i > LOCAL_BUCKETS then do
        let (s1, g) ← find_global_block fuel s LOCAL_SIZE_MAX
        let s2 := set_bucket s1 LOCAL_BUCKETS g
        let s3 ← set_next s2 (s2.buckets LOCAL_BUCKETS) 0
        pure (s3, LOCAL_BUCKETS)
      else pure (s, i)
    let s2 ← split_down (i - log) s1 log
    if s2.buckets log = 0 then .error .assert_fail
    else do
      let out := s2.buckets log
      let onx ← get_next s2 out
      pure (set_bucket s2 log onx, out)

/-- Source function `xmalloc`. -/
def xmalloc (fuel : Nat) (s : State) (bytes : Nat) : Except Fault (State × Nat) := do
  let s1 ←
    if s.init = 0 then do
      let (s0, g) ← mmap s GLOBAL_SIZE_MAX
      if g = 0 then .error .assert_fail
      else do
        let s1 ← set_size { s0 with global_list := g } g GLOBAL_SIZE_MAX
        let s2 ← set_next s1 g 0
        pure { s2 with init := 1 }
    else pure s
  let size := (bytes + 8) % WORD
  let (s2, block) ←
    if size > LOCAL_SIZE_MAX then find_global_block fuel s1 size
    else find_local_block fuel s1 size
  pure (s2, block + 8)

/-- Source function `coalesce_next`. -/
def coalesce_next (s : State) (block : Nat) : Except Fault (State × Bool) := do
  let bsz ← get_size s block
  let nx ← get_next s block
  if (block + bsz) % WORD = nx then
    if nx = 0 then .error .assert_fail
    else do
      let nsz ← get_size s nx
      let s1 ← set_size s block ((bsz + nsz) % WORD)
      let nn ← get_next s1 nx
      let s2 ← set_next s1 block nn
      pure (s2, true)
  else pure (s, false)

/-- The `while` loop of `insert_global_block`, with the insertion it performs. -/
def insert_global_loop : Nat → State → Nat → Nat → Except Fault State
  | 0, _, _, _ => .error .out_of_fuel
  | fuel + 1, s, block, cur => do
    let nx ← get_next s cur
    if nx ≠ 0 then
      if long_lt block nx then do
        let s1 ← set_next s block nx
        let s2 ← set_next s1 cur block
        let (s3, _) ← coalesce_next s2 block
        let (s4, _) ← coalesce_next s3 cur
        pure s4
      else insert_global_loop fuel s block nx
    else do
      let s1 ← set_next s cur block
      let s2 ← set_next s1 block 0
      let (s3, _) ← coalesce_next s2 cur
      pure s3

/-- Source function `insert_global_block`. -/
def insert_global_block (fuel : Nat) (s : State) (block : Nat) : Except Fault State :=
  if long_lt block s.global_list ∨ s.global_list = 0 then do
    let s1 ← set_next s block s.global_list
    let (s2, _) ← coalesce_next s1 block
    pure { s2 with global_list := block }
  else insert_global_loop fuel s block s.global_list

/-- The statement `int c = coalesce_next(cur); if (c) { ... insert_local_block(cur); }`
    that occurs twice in `insert_local_block`; `again` is the recursive call. -/
def merge_prev (again : State → Nat → Except Fault State) (s : State)
    (log prev cur : Nat) : Except Fault State := do
  let (s1, c) ← coalesce_next s cur
  if c then do
    let cn ← get_next s1 cur
    let s2 ← if prev = 0 then pure (set_bucket s1 log cn) else set_next s1 prev cn
    again s2 cur
  else pure s1

/-- The `while` loop of `insert_local_block` and the code after it;
    `again` is the recursive call. -/
def insert_local_loop (again : State → Nat → Except Fault State) (log block : Nat)
    (coalesce_after : Bool) : Nat → State → Nat → Nat → Except Fault State
  | 0, _, _, _ => .error .out_of_fuel
  | fuel + 1, s, prev, cur => do
    let nx ← get_next s cur
    if nx ≠ 0 then
      if long_lt block nx then do
        let s1 ← set_next s block nx
        let s2 ← set_next s1 cur block
        if coalesce_after then do
          let (s3, c) ← coalesce_next s2 block
          if c then do
            let bn ← get_next s3 block
            let s4 ← set_next s3 cur bn
            again s4 block
          else pure s3
        else merge_prev again s2 log prev cur
      else insert_local_loop again log block coalesce_after fuel s cur nx
    else do
      let s1 ← set_next s cur block
      let s2 ← set_next s1 block 0
      if !coalesce_after then merge_prev again s2 log prev cur else pure s2

/-- Source function `insert_local_block`; `fuel` bounds both the recursion and
    the list walk. -/
def insert_local_block : Nat → State → Nat → Except Fault State
  | 0, _, _ => .error .out_of_fuel
  | fuel + 1, s, block => do
    let bsz ← get_size s block
    let log ← log_up bsz
    let m ← shl_int (log + 1)
    let coalesce_after := decide (block % m = 0)
    if log > LOCAL_BUCKETS then .error .out_of_bounds
    else if log = LOCAL_BUCKETS ∧ s.buckets LOCAL_BUCKETS ≠ 0 then
      insert_global_block fuel s block
    else if long_lt block (s.buckets log) ∨ s.buckets log = 0 then do
      let s1 ← set_next s block (s.buckets log)
      if coalesce_after then do
        let (s2, c) ← coalesce_next s1 block
        if c then do
          let bn ← get_next s2 block
          insert_local_block fuel (set_bucket s2 log bn) block
        else pure (set_bucket s2 log block)
      else pure (set_bucket s1 log block)
    else
      insert_local_loop (insert_local_block fuel) log block coalesce_after
        fuel s 0 (s.buckets log)

/-- Source function `xfree`. -/
def xfree (fuel : Nat) (s : State) (ptr : Nat) : Except Fault State :=
  if s.init ≠ 1 then .error .assert_fail
  else do
    let block := ptr - 8
    let bsz ← get_size s block
    if bsz > LOCAL_SIZE_MAX then insert_global_block fuel s block
    else insert_local_block fuel s block

/-- Source function `xrealloc`; the result `0` is the null pointer. -/
def xrealloc (fuel : Nat) (s : State) (prev bytes : Nat) : Except Fault (State × Nat) :=
  if s.init ≠ 1 then .error .assert_fail
  else
    let block := prev - 8
    if bytes = 0 then do
      let s1 ← xfree fuel s prev
      pure (s1, 0)
    else do
      let size0 := (bytes + 8) % WORD
      let size ←
        if size0 > LOCAL_SIZE_MAX then do
          let num_blocks ← div_up size0 LOCAL_SIZE_MAX
          pure ((num_blocks * LOCAL_SIZE_MAX) % WORD)
        else do
          let log ← log_up size0
          shl_int log
      let bsz ← get_size s block
      if size = bsz then pure (s, prev)
      else if size > bsz then do
        let s1 ← xfree fuel s prev
        xmalloc fuel s1 bytes
      else if size > LOCAL_SIZE_MAX then do
        let (s1, free_block) ← split_block s block size
        let s2 ← insert_global_block fuel s1 free_block
        pure (s2, block + 8)
      else pure (s, prev)

/-! ## Observations used to state the properties -/

/-- The state of a process before its first call: zero memory, empty lists,
    `init == 0`, and the given page source. -/
def fresh (pages : List Nat) : State :=
  { mem := fun _ => 0, global_list := 0, buckets := fun _ => 0, init := 0, pages := pages }

/-- A store of the caller: the word `v` written at address `addr`. -/
def caller_write (s : State) (addr v : Nat) : State :=
  { s with mem := upd s.mem addr v }

/-- The free list that starts at `p`, read out of memory as (address, size) pairs;
    `none` when it is longer than `fuel`. -/
def read_list : Nat → State → Nat → Option (List (Nat × Nat))
  | 0, _, _ => none
  | fuel + 1, s, p =>
    if p = 0 then some []
    else (read_list fuel s (s.mem (p + 8))).map (fun l => (p, s.mem p) :: l)

/-- Sum of the sizes of the entries of a free list. -/
def total_size (l : List (Nat × Nat)) : Nat :=
  (l.map (fun e => e.2)).sum

/-- What the split loop of `find_local_block` does to a block `h` of size
    `2 ^ (log + n)` that heads bucket `log + n`: relation between the state `s`
    before and the state `s'` after the `n` iterations. -/
structure SplitPost (s s' : State) (h log n : Nat) : Prop where
  gl : s'.global_list = s.global_list
  ini : s'.init = s.init
  pg : s'.pages = s.pages
  zero : n = 0 → s' = s
  b_log : s'.buckets log = h
  b_mid : ∀ t, log < t → t < log + n → s'.buckets t = h + 2 ^ t
  b_top : 0 < n → s'.buckets (log + n) = s.mem (h + 8)
  b_other : ∀ t, t < log ∨ log + n < t → s'.buckets t = s.buckets t
  m_size : s'.mem h = 2 ^ log
  m_next : 0 < n → s'.mem (h + 8) = h + 2 ^ log
  m_half : ∀ t, log ≤ t → t < log + n →
    s'.mem (h + 2 ^ t) = 2 ^ t ∧ s'.mem (h + 2 ^ t + 8) = 0
  m_frame : ∀ a, a < h ∨ h + 2 ^ (log + n) ≤ a → s'.mem a = s.mem a

/-- What `find_local_block` does when it serves a request of class `log` from the
    head `h` of bucket `j` (`log ≤ j`, the buckets `log .. j - 1` being empty). -/
structure LocalPost (s s' : State) (h log j : Nat) : Prop where
  gl : s'.global_list = s.global_list
  ini : s'.init = s.init
  pg : s'.pages = s.pages
  b_low : ∀ t, log ≤ t → t < j → s'.buckets t = h + 2 ^ t
  b_top : s'.buckets j = s.mem (h + 8)
  b_other : ∀ t, t < log ∨ j < t → s'.buckets t = s.buckets t
  m_size : s'.mem h = 2 ^ log
  m_half : ∀ t, log ≤ t → t < j →
    s'.mem (h + 2 ^ t) = 2 ^ t ∧ s'.mem (h + 2 ^ t + 8) = 0
  m_frame : ∀ a, a < h ∨ h + 2 ^ j ≤ a → s'.mem a = s.mem a

/-- What `find_local_block` does when the cache is empty from class `log` upwards
    and the arena head is the block `a` of size `S ≥ C`: one chunk is cut off the
    arena head and split down to class `log`. -/
structure RefillPost (s s' : State) (a S log : Nat) : Prop where
  ini : s'.init = s.init
  pg : s'.pages = s.pages
  gl_eq : S = LOCAL_SIZE_MAX → s'.global_list = s.mem (a + 8)
  gl_ne : S ≠ LOCAL_SIZE_MAX → s'.global_list = a + LOCAL_SIZE_MAX
  b_low : ∀ t, log ≤ t → t < 20 → s'.buckets t = a + 2 ^ t
  b_top : s'.buckets 20 = 0
  b_other : ∀ t, t < log ∨ 20 < t → s'.buckets t = s.buckets t
  m_size : s'.mem a = 2 ^ log
  m_half : ∀ t, log ≤ t → t < 20 →
    s'.mem (a + 2 ^ t) = 2 ^ t ∧ s'.mem (a + 2 ^ t + 8) = 0
  m_rest : S ≠ LOCAL_SIZE_MAX → s'.mem (a + LOCAL_SIZE_MAX) = S - LOCAL_SIZE_MAX ∧
    s'.mem (a + LOCAL_SIZE_MAX + 8) = s.mem (a + 8)
  m_frame : ∀ x, x < a ∨ a + LOCAL_SIZE_MAX + 16 ≤ x ∨ (S = LOCAL_SIZE_MAX ∧ a + LOCAL_SIZE_MAX ≤ x) →
    s'.mem x = s.mem x

/-- What `insert_local_block` does to a released block `h` of class `log` whose
    upper buddies `h + 2 ^ t` are the single entries of the buckets `t` for
    `log ≤ t < j`, bucket `j` being empty: the block climbs to bucket `j`. -/
structure MergePost (s s' : State) (h log j : Nat) : Prop where
  gl : s'.global_list = s.global_list
  ini : s'.init = s.init
  pg : s'.pages = s.pages
  b_low : ∀ t, log ≤ t → t < j → s'.buckets t = 0
  b_top : s'.buckets j = h
  b_other : ∀ t, t < log ∨ j < t → s'.buckets t = s.buckets t
  m_size : s'.mem h = 2 ^ j
  m_next : s'.mem (h + 8) = 0
  m_frame : ∀ a, a ≠ h → a ≠ h + 8 → s'.mem a = s.mem a

/-- The memory `mem` holds, from the pointer `p` on, the null-terminated linked
    list whose entries are the (address, size) pairs `l`. -/
def ListAt (mem : Nat → Nat) : Nat → List (Nat × Nat) → Prop
  | p, [] => p = 0
  | p, e :: l => p = e.1 ∧ e.1 ≠ 0 ∧ mem e.1 = e.2 ∧ ListAt mem (mem (e.1 + 8)) l

/-- The requests `bs` served one after the other; the result lists the returned
    pointers in the order of allocation. -/
def xmalloc_all (fuel : Nat) : State → List Nat → Except Fault (State × List Nat)
  | s, [] => .ok (s, [])
  | s, b :: bs => do
    let (s1, p) ← xmalloc fuel s b
    let (s2, ps) ← xmalloc_all fuel s1 bs
    pure (s2, p :: ps)

/-- The pointers `ps` released one after the other, first to last. -/
def xfree_all (fuel : Nat) : State → List Nat → Except Fault State
  | s, [] => .ok s
  | s, p :: ps => do
    let s1 ← xfree fuel s p
    xfree_all fuel s1 ps

/-- The request for `b` bytes is served by the thread cache without a refill:
    the scan of `find_local_block` stops at a non-empty bucket. -/
def cache_hit (s : State) (b : Nat) : Bool :=
  match log_up ((b + 8) % WORD) with
  | .ok log => decide (scan_buckets 22 s log ≤ LOCAL_BUCKETS)
  | .error _ => false

/-- Every request of the list is served by the thread cache without a refill. -/
def served_by_cache (fuel : Nat) : State → List Nat → Bool
  | _, [] => true
  | s, b :: bs =>
    cache_hit s b &&
      (match xmalloc fuel s b with
       | .ok (s1, _) => served_by_cache fuel s1 bs
       | .error _ => false)

/-- The requests `b :: bs` need a single arena refill, the one of the first request
    `b` on the empty cache: the later ones are served by the cache. -/
def one_refill (fuel : Nat) (s : State) (b : Nat) (bs : List Nat) : Bool :=
  match xmalloc fuel s b with
  | .ok (s1, _) => served_by_cache fuel s1 bs
  | .error _ => false

/-- A thread cache in which every bucket `4 .. 20` holds at most one block, of the
    size of its class, aligned on that size, inside the address space, the blocks
    of different buckets being disjoint. -/
structure SingleCache (s : State) : Prop where
  hdr : ∀ i, 4 ≤ i → i ≤ 20 → s.buckets i ≠ 0 →
    s.mem (s.buckets i) = 2 ^ i ∧ s.mem (s.buckets i + 8) = 0
  al : ∀ i, 4 ≤ i → i ≤ 20 → s.buckets i ≠ 0 → s.buckets i % 2 ^ i = 0
  fit : ∀ i, 4 ≤ i → i ≤ 20 → s.buckets i ≠ 0 → s.buckets i + 2 ^ i < WORD
  disj : ∀ i j, 4 ≤ i → i ≤ 20 → 4 ≤ j → j ≤ 20 → i ≠ j → s.buckets i ≠ 0 →
    s.buckets j ≠ 0 →
    s.buckets i + 2 ^ i ≤ s.buckets j ∨ s.buckets j + 2 ^ j ≤ s.buckets i

/-- The byte at address `x` lies in a block of the thread cache. -/
def FreeByte (s : State) (x : Nat) : Prop :=
  ∃ i, 4 ≤ i ∧ i ≤ 20 ∧ s.buckets i ≠ 0 ∧ s.buckets i ≤ x ∧ x < s.buckets i + 2 ^ i

/-- An initialised state whose arena is the single block `(a, S)` and whose thread
    cache is empty. -/
def seeded (a S : Nat) : State :=
  { mem := upd (fun _ => 0) a S, global_list := a, buckets := fun _ => 0, init := 1,
    pages := [] }

/-- A free list as the data model sees it: every entry is a block with room for a
    header that lies in the lower half of the address space (where the `long`
    comparisons of the source agree with the order of addresses), and every entry
    ends strictly before each later entry begins: ascending, disjoint, not adjacent. -/
def BlockList (l : List (Nat × Nat)) : Prop :=
  (∀ e ∈ l, e.1 ≠ 0 ∧ 16 ≤ e.2 ∧ e.1 + e.2 ≤ 9223372036854775808) ∧
  l.Pairwise (fun e e' => e.1 + e.2 < e'.1)

/-- The arena invariants of the data model: a `BlockList` whose sizes are positive
    multiples of `C`. -/
def ArenaInv (l : List (Nat × Nat)) : Prop :=
  BlockList l ∧ ∀ e ∈ l, 0 < e.2 ∧ LOCAL_SIZE_MAX ∣ e.2

/-- The byte at address `x` lies in a block of the list. -/
def covered (l : List (Nat × Nat)) (x : Nat) : Prop :=
  ∃ e ∈ l, e.1 ≤ x ∧ x < e.1 + e.2

/-- The list `(a, sa) :: l` after `coalesce_next` on its first entry. -/
def merge_next (a sa : Nat) : List (Nat × Nat) → List (Nat × Nat)
  | [] => [(a, sa)]
  | e :: l => if a + sa = e.1 then (a, sa + e.2) :: l else (a, sa) :: e :: l

/-- The list `c :: l` after the loop of `insert_global_block` has inserted the
    block `(y, sz)` somewhere behind `c`. -/
def ins_after (y sz : Nat) : Nat × Nat → List (Nat × Nat) → List (Nat × Nat)
  | c, [] => merge_next c.1 c.2 [(y, sz)]
  | c, e :: l =>
    if y < e.1 then merge_next c.1 c.2 (merge_next y sz (e :: l))
    else c :: ins_after y sz e l

/-- The arena list after `insert_global_block` of the block `(y, sz)`. -/
def arena_insert (y sz : Nat) : List (Nat × Nat) → List (Nat × Nat)
  | [] => [(y, sz)]
  | e :: l => if y < e.1 then merge_next y sz (e :: l) else ins_after y sz e l

/-- The rounding of the large regime: `n` rounded up to a multiple of `C`. -/
def round_chunk (n : Nat) : Nat :=
  ((n + (LOCAL_SIZE_MAX - 1)) / LOCAL_SIZE_MAX) * LOCAL_SIZE_MAX


/-! ## The thread cache as lists of blocks -/

/-- The body of `insert_local_block` with its recursive calls abstracted as `again`;
    `fuel` bounds the walks over the lists. -/
def insert_local_body (again : State → Nat → Except Fault State) (fuel : Nat) (s : State)
    (block : Nat) : Except Fault State := do
  let bsz ← get_size s block
  let log ← log_up bsz
  let m ← shl_int (log + 1)
  let coalesce_after := decide (block % m = 0)
  if log > LOCAL_BUCKETS then .error .out_of_bounds
  else if log = LOCAL_BUCKETS ∧ s.buckets LOCAL_BUCKETS ≠ 0 then
    insert_global_block fuel s block
  else if long_lt block (s.buckets log) ∨ s.buckets log = 0 then do
    let s1 ← set_next s block (s.buckets log)
    if coalesce_after then do
      let (s2, c) ← coalesce_next s1 block
      if c then do
        let bn ← get_next s2 block
        again (set_bucket s2 log bn) block
      else pure (set_bucket s2 log block)
    else pure (set_bucket s1 log block)
  else
    insert_local_loop again log block coalesce_after fuel s 0 (s.buckets log)

/-- The cell that points to the entry `cur` during the walk of `insert_local_block`
    over bucket `log`: the bucket head when `prev == 0`, else `prev->next`. -/
def link (s : State) (log prev : Nat) : Nat :=
  if prev = 0 then s.buckets log else s.mem (prev + 8)

/-- A free list of the thread cache: every entry is a block with room for a header in
    the lower half of the address space, and every entry ends at or before the start
    of each later entry (ascending and disjoint; adjacent entries are allowed). -/
def FreeList (l : List (Nat × Nat)) : Prop :=
  (∀ e ∈ l, e.1 ≠ 0 ∧ 16 ≤ e.2 ∧ e.1 + e.2 ≤ 9223372036854775808) ∧
  l.Pairwise (fun e e' => e.1 + e.2 ≤ e'.1)

/-- What the walk of `insert_local_block` makes of the list `c :: l` when the block
    `(x, sz)` lies behind `c`: the new list, and the merged block that is handed to
    the recursive call, if there is a merge.  `ca` is `coalesce_after`. -/
def local_ins_after (x sz : Nat) (ca : Bool) :
    Nat × Nat → List (Nat × Nat) → List (Nat × Nat) × Option (Nat × Nat)
  | c, [] =>
    if ca = false ∧ c.1 + c.2 = x then ([], some (c.1, c.2 + sz)) else ([c, (x, sz)], none)
  | c, e :: l =>
    if x < e.1 then
      if ca = true then
        if x + sz = e.1 then (c :: l, some (x, sz + e.2))
        else (c :: (x, sz) :: e :: l, none)
      else
        if c.1 + c.2 = x then (e :: l, some (c.1, c.2 + sz))
        else (c :: (x, sz) :: e :: l, none)
    else ((c :: (local_ins_after x sz ca e l).1), (local_ins_after x sz ca e l).2)

/-- What one call of `insert_local_block` makes of the list of the bucket of the
    block `(x, sz)`: the new list and the merged block, if there is a merge. -/
def local_insert (x sz : Nat) (ca : Bool) :
    List (Nat × Nat) → List (Nat × Nat) × Option (Nat × Nat)
  | [] => ([(x, sz)], none)
  | e :: l =>
    if x < e.1 then
      if ca = true ∧ x + sz = e.1 then (l, some (x, sz + e.2))
      else ((x, sz) :: e :: l, none)
    else local_ins_after x sz ca e l

/-- How a call of `insert_local_block` ends once the list is updated: it returns,
    or it calls itself (`again`) on the merged block. -/
def finish (again : State → Nat → Except Fault State) (m : Option (Nat × Nat))
    (s : State) : Except Fault State :=
  match m with
  | none => .ok s
  | some b => again s b.1

/-- What a walk of `insert_local_block` over the list `old` of bucket `log` does to
    the state: the cell that pointed to the list now points to the list `r.1`, the
    merged block `r.2` (if any) has its new size in its header, and nothing but the
    headers of the blocks involved is written. -/
structure WalkPost (s s' : State) (log prev x : Nat) (old : List (Nat × Nat))
    (r : List (Nat × Nat) × Option (Nat × Nat)) : Prop where
  rep : ListAt s'.mem (link s' log prev) r.1
  merged : ∀ m, r.2 = some m → s'.mem m.1 = m.2
  frame : ∀ a, a ≠ x → a ≠ x + 8 → (∀ e ∈ old, a ≠ e.1 ∧ a ≠ e.1 + 8) →
    (prev ≠ 0 → a ≠ prev + 8) → s'.mem a = s.mem a
  b_other : ∀ t, t ≠ log → s'.buckets t = s.buckets t
  b_same : prev ≠ 0 → s'.buckets = s.buckets
  gl : s'.global_list = s.global_list
  ini : s'.init = s.init
  pg : s'.pages = s.pages

/-- Two blocks do not overlap. -/
def Apart (e e' : Nat × Nat) : Prop :=
  e.1 + e.2 ≤ e'.1 ∨ e'.1 + e'.2 ≤ e.1

/-- The list `l` with the block `(x, sz)` inserted at its address-ordered position. -/
def bucket_insert (x sz : Nat) : List (Nat × Nat) → List (Nat × Nat)
  | [] => [(x, sz)]
  | e :: l => if x < e.1 then (x, sz) :: e :: l else e :: bucket_insert x sz l

/-- The lists of the buckets with the list of bucket `i` replaced by `l`. -/
def set_list (L : Nat → List (Nat × Nat)) (i : Nat) (l : List (Nat × Nat)) :
    Nat → List (Nat × Nat) :=
  fun t => if t = i then l else L t

/-- What `insert_local_block` makes of the lists of the buckets `L` and of the arena
    list `A` when the block at `x` of class `i` is released; `n` bounds the number of
    nested calls. -/
def cache_release : Nat → (Nat → List (Nat × Nat)) → List (Nat × Nat) → Nat → Nat →
    (Nat → List (Nat × Nat)) × List (Nat × Nat)
  | 0, L, A, _, _ => (L, A)
  | n + 1, L, A, x, i =>
    if i = 20 ∧ L 20 ≠ [] then (L, arena_insert x (2 ^ 20) A)
    else
      match (local_insert x (2 ^ i) (decide (x % 2 ^ (i + 1) = 0)) (L i)).2 with
      | none => (set_list L i (local_insert x (2 ^ i) (decide (x % 2 ^ (i + 1) = 0)) (L i)).1, A)
      | some m =>
        cache_release n
          (set_list L i (local_insert x (2 ^ i) (decide (x % 2 ^ (i + 1) = 0)) (L i)).1) A
          m.1 (i + 1)

/-- The buckets `4 .. 20` and the arena hold, in memory, the lists `L` and `A`. -/
structure HeapAt (s : State) (L : Nat → List (Nat × Nat)) (A : List (Nat × Nat)) : Prop where
  cache : ∀ t, 4 ≤ t → t ≤ 20 → ListAt s.mem (s.buckets t) (L t)
  arena : ListAt s.mem s.global_list A

/-- The free lists as the data model sees them: every bucket list is a free list of
    blocks of the size of its class, the arena list satisfies the arena invariants,
    and no two blocks of different lists overlap. -/
structure HeapWf (L : Nat → List (Nat × Nat)) (A : List (Nat × Nat)) : Prop where
  lists : ∀ t, FreeList (L t)
  sizes : ∀ t, ∀ e ∈ L t, e.2 = 2 ^ t
  range : ∀ t, t < 4 ∨ 20 < t → L t = []
  arena : ArenaInv A
  apart : ∀ t t', t ≠ t' → ∀ e ∈ L t, ∀ e' ∈ L t', Apart e e'
  apart_arena : ∀ t, ∀ e ∈ L t, ∀ e' ∈ A, Apart e e'

/-- The address `a` is a header word (size or next field) of a free block. -/
def Hdr (L : Nat → List (Nat × Nat)) (A : List (Nat × Nat)) (a : Nat) : Prop :=
  (∃ t, ∃ e ∈ L t, a = e.1 ∨ a = e.1 + 8) ∨ (∃ e ∈ A, a = e.1 ∨ a = e.1 + 8)

/-- The pending state of a release: well-formed free lists and a block of class `i`
    that overlaps none of their blocks. -/
def Pending (L : Nat → List (Nat × Nat)) (A : List (Nat × Nat)) (x i : Nat) : Prop :=
  HeapWf L A ∧ 4 ≤ i ∧ x ≠ 0 ∧ x + 2 ^ i ≤ 9223372036854775808 ∧
    (∀ t, ∀ e ∈ L t, Apart e (x, 2 ^ i)) ∧ (∀ e ∈ A, Apart e (x, 2 ^ i))

/-- The calls that one release makes.  `Climb fuel k s x s'`: the call of
    `insert_local_block` on the block at `x` in the state `s` (with `fuel`) returns the
    state `s'` after exactly `k` nested calls to itself.  Every call is on a block of at
    most `C` bytes (the size it passes to `log_up`), and every recursive call is on a
    block whose size field is twice that of the block of its caller.  A call that
    gives the same result for every continuation `again` makes no recursive call; a
    call that equals `again s1 m` for every `again` ends with the recursive call on
    the block `m` in the state `s1`. -/
inductive Climb : Nat → Nat → State → Nat → State → Prop
  | stop (fuel : Nat) (s : State) (x : Nat) (s' : State) :
      s.mem x ≤ LOCAL_SIZE_MAX →
      (∀ again, insert_local_body again fuel s x = .ok s') → Climb (fuel + 1) 0 s x s'
  | step (fuel k : Nat) (s : State) (x : Nat) (s1 : State) (m : Nat) (s' : State) :
      s.mem x ≤ LOCAL_SIZE_MAX →
      (∀ again, insert_local_body again fuel s x = again s1 m) →
      s1.mem m = 2 * s.mem x → Climb fuel k s1 m s' → Climb (fuel + 1) (k + 1) s x s'

/-- The byte at address `a` lies in a free block (of a bucket or of the arena). -/
def Free (L : Nat → List (Nat × Nat)) (A : List (Nat × Nat)) (a : Nat) : Prop :=
  (∃ t, covered (L t) a) ∨ covered A a

/-- Every entry of bucket `t` starts at a multiple of `2 ^ t`. -/
def Aligned (L : Nat → List (Nat × Nat)) : Prop :=
  ∀ t, ∀ e ∈ L t, e.1 % 2 ^ t = 0

/-- No bucket holds a block aligned on twice its size together with the block that
    follows it in memory (its upper buddy). -/
def NoBuddies (L : Nat → List (Nat × Nat)) : Prop :=
  ∀ t, (L t).Pairwise (fun e e' => ¬ (e.1 % 2 ^ (t + 1) = 0 ∧ e.1 + 2 ^ t = e'.1))

/-- The lists of the buckets after `find_local_block` has served a request of class
    `i` from the head `h` of bucket `j`: the upper halves `h + 2 ^ t` are the single
    entries of the buckets `i ≤ t < j`, bucket `j` keeps its tail. -/
def cache_take (L : Nat → List (Nat × Nat)) (i j h : Nat) : Nat → List (Nat × Nat) :=
  fun t => if i ≤ t ∧ t < j then [(h + 2 ^ t, 2 ^ t)] else if t = j then (L j).tail else L t

/-- The arena list after its head has given one chunk to the thread cache. -/
def arena_take : List (Nat × Nat) → List (Nat × Nat)
  | [] => []
  | e :: rest =>
    if e.2 = LOCAL_SIZE_MAX then rest
    else (e.1 + LOCAL_SIZE_MAX, e.2 - LOCAL_SIZE_MAX) :: rest

/-- The block `e` is one of the free blocks of the lists `L` and `A`. -/
def IsFree (L : Nat → List (Nat × Nat)) (A : List (Nat × Nat)) (e : Nat × Nat) : Prop :=
  (∃ t, e ∈ L t) ∨ e ∈ A

/-- The block `e` lies inside the block `e0`. -/
def Inside (e e0 : Nat × Nat) : Prop :=
  e0.1 ≤ e.1 ∧ e.1 + e.2 ≤ e0.1 + e0.2

/-- What an allocation does to well-formed free lists `L`, `A` held in memory: the
    free lists `L'`, `A'` it leaves are well formed and held in memory, the block `h`
    handed out has the size `sz` in its header and overlaps no free block, every new
    free block and the block handed out lie inside an old free block, and no word
    outside the old free blocks is written. -/
structure TakePost (s s' : State) (L : Nat → List (Nat × Nat)) (A : List (Nat × Nat))
    (L' : Nat → List (Nat × Nat)) (A' : List (Nat × Nat)) (h sz : Nat) : Prop where
  rep : HeapAt s' L' A'
  wf : HeapWf L' A'
  hdr : s'.mem h = sz
  nz : h ≠ 0
  fit : h + sz ≤ 9223372036854775808
  apart : ∀ e, IsFree L' A' e → Apart e (h, sz)
  host : ∀ e, IsFree L' A' e ∨ e = (h, sz) → ∃ e0, IsFree L A e0 ∧ Inside e e0
  frame : ∀ a, (∀ e0, IsFree L A e0 → a < e0.1 ∨ e0.1 + e0.2 ≤ a) → s'.mem a = s.mem a
  ini : s'.init = s.init
/-! ## Runs of a well-behaved caller -/

/-- The first-call initialisation of `xmalloc` (the branch `if (!init)`): the seed of
    `GLOBAL_SIZE_MAX` bytes becomes the only entry of the arena. -/
def initialise (s : State) : Except Fault State := do
  let (s0, g) ← mmap s GLOBAL_SIZE_MAX
  if g = 0 then .error .assert_fail
  else do
    let s1 ← set_size { s0 with global_list := g } g GLOBAL_SIZE_MAX
    let s2 ← set_next s1 g 0
    pure { s2 with init := 1 }

/-- The call `f`, a function of the fuel given to its loops, returns `r`: it yields
    `r` for every fuel from some bound on. -/
def Returns {α : Type} (f : Nat → Except Fault α) (r : α) : Prop :=
  ∃ n, ∀ fuel, n ≤ fuel → f fuel = .ok r

/-- The sizes of the blocks that the allocator hands out: the power of two of a
    class `4 .. 20`, or a multiple of `C` above `C`. -/
def BlockSize (sz : Nat) : Prop :=
  (∃ i, 4 ≤ i ∧ i ≤ 20 ∧ sz = 2 ^ i) ∨ (LOCAL_SIZE_MAX < sz ∧ LOCAL_SIZE_MAX ∣ sz)

/-- The size of the block that serves a request of `b` bytes. -/
def block_size (b : Nat) : Nat :=
  if LOCAL_SIZE_MAX < b + 8 then round_chunk (b + 8)
  else
    match log_up (b + 8) with
    | .ok i => 2 ^ i
    | .error _ => 0

/-- The first entry of the list with at least `r` bytes, if there is one. -/
def first_fit (r : Nat) : List (Nat × Nat) → Option (Nat × Nat)
  | [] => none
  | e :: l => if r ≤ e.2 then some e else first_fit r l

/-- The list without its first entry of at least `r` bytes. -/
def drop_fit (r : Nat) : List (Nat × Nat) → List (Nat × Nat)
  | [] => []
  | e :: l => if r ≤ e.2 then l else e :: drop_fit r l

/-- The first entry of the list with at least `r` bytes, if there is one, has exactly
    `r` bytes: the walk of `find_global_block` unlinks it and splits nothing. -/
def ExactFit (r : Nat) : List (Nat × Nat) → Prop
  | [] => True
  | e :: l => if r ≤ e.2 then e.2 = r else ExactFit r l

/-- The arena list after its head has served a request of `r` bytes. -/
def arena_cut (r : Nat) : List (Nat × Nat) → List (Nat × Nat)
  | [] => []
  | e :: rest => if e.2 = r then rest else (e.1 + r, e.2 - r) :: rest

/-- The state of the allocator and of its caller fit together: the free lists `L`
    (buckets) and `A` (arena) are held in memory and well formed, no bucket holds a
    block together with its upper buddy, bucket 20 holds at most one chunk, and the
    blocks `O` that the caller owns have their size in their header, a size that the
    allocator hands out, and overlap neither each other nor a free block. -/
structure Good (s : State) (L : Nat → List (Nat × Nat)) (A : List (Nat × Nat))
    (O : List (Nat × Nat)) : Prop where
  ini : s.init = 1
  rep : HeapAt s L A
  wf : HeapWf L A
  nb : NoBuddies L
  top : (L 20).length ≤ 1
  own_hdr : ∀ o ∈ O, s.mem o.1 = o.2
  own_ok : ∀ o ∈ O, o.1 ≠ 0 ∧ o.1 + o.2 ≤ 9223372036854775808 ∧ BlockSize o.2
  own_nodup : O.Nodup
  own_apart : ∀ o ∈ O, ∀ o' ∈ O, o ≠ o' → Apart o o'
  own_free : ∀ o ∈ O, ∀ e, IsFree L A e → Apart e o

/-- The page source hands out fresh memory: the region `(p, n)` is not null, lies in
    the lower half of the address space, and overlaps no block that the caller owns
    (`O`) and no free block. -/
def FreshRegion (s : State) (O : List (Nat × Nat)) (p n : Nat) : Prop :=
  p ≠ 0 ∧ p + n ≤ 9223372036854775808 ∧ (∀ o ∈ O, Apart o (p, n)) ∧
    ∀ L A, HeapAt s L A → ∀ e, IsFree L A e → Apart e (p, n)

/-- What a run assumes of a request of `b` bytes in the state `s`: the size
    computations do not wrap (`b + 8 < 2 ^ 63`); and, for a request of the large
    regime that the arena head does not fit, the walk of `find_global_block` splits no
    entry (the first entry that fits, if any, fits exactly), and when no entry fits the
    page source has a fresh region of the rounded size. -/
def MallocOk (s : State) (O : List (Nat × Nat)) (b : Nat) : Prop :=
  b + 8 < 9223372036854775808 ∧
  (LOCAL_SIZE_MAX < b + 8 → ∀ c l, ListAt s.mem s.global_list (c :: l) →
    c.2 < round_chunk (b + 8) →
    ExactFit (round_chunk (b + 8)) l ∧
    (first_fit (round_chunk (b + 8)) l = none →
      ∃ p rest, s.pages = p :: rest ∧ FreshRegion s O p (round_chunk (b + 8))))

/-- The runs of a single thread with a well-behaved caller.  `Reach s O`: the state
    `s`, in which the caller owns the blocks `O` (address of the header, size), is
    reached from the first-call initialisation by calls of `xmalloc`, `xfree` and
    `xrealloc` that return, and by stores of the caller into the payload of blocks it
    owns.  The caller releases and resizes only blocks it owns.  The requests satisfy
    `MallocOk` (for an `xrealloc` that moves the block, in the state `s1` that its
    release of the old block returns); the seed is not null and lies in the lower half
    of the address space. -/
inductive Reach : State → List (Nat × Nat) → Prop
  | init (p : Nat) (pages : List Nat) (s : State) :
      p ≠ 0 → p + GLOBAL_SIZE_MAX ≤ 9223372036854775808 →
      initialise (fresh (p :: pages)) = .ok s → Reach s []
  | malloc (s : State) (O : List (Nat × Nat)) (b : Nat) (s' : State) (q : Nat) :
      Reach s O → MallocOk s O b →
      Returns (fun fuel => xmalloc fuel s b) (s', q) →
      Reach s' ((q - 8, s'.mem (q - 8)) :: O)
  | free (s : State) (O : List (Nat × Nat)) (o : Nat × Nat) (s' : State) :
      Reach s O → o ∈ O →
      Returns (fun fuel => xfree fuel s (o.1 + 8)) s' →
      Reach s' (O.erase o)
  | realloc (s : State) (O : List (Nat × Nat)) (o : Nat × Nat) (b : Nat) (s1 s' : State)
      (q : Nat) :
      Reach s O → o ∈ O → b + 8 < 9223372036854775808 →
      (b ≠ 0 → o.2 < block_size b →
        Returns (fun fuel => xfree fuel s (o.1 + 8)) s1 ∧ MallocOk s1 (O.erase o) b) →
      Returns (fun fuel => xrealloc fuel s (o.1 + 8) b) (s', q) →
      Reach s' (if b = 0 then O.erase o else (q - 8, s'.mem (q - 8)) :: O.erase o)
  | write (s : State) (O : List (Nat × Nat)) (o : Nat × Nat) (addr v : Nat) :
      Reach s O → o ∈ O → o.1 + 8 ≤ addr → addr + 8 ≤ o.1 + o.2 →
      Reach (caller_write s addr v) O

/-- What a release does to well-formed free lists `L`, `A` held in memory: the free
    lists `L'`, `A'` it leaves are well formed and held in memory, they cover no byte
    that was not free or in the released block `(x, sz)`, and no word outside the
    headers of the free blocks and of the released block is written. -/
structure GivePost (s s' : State) (L : Nat → List (Nat × Nat)) (A : List (Nat × Nat))
    (L' : Nat → List (Nat × Nat)) (A' : List (Nat × Nat)) (x sz : Nat) : Prop where
  rep : HeapAt s' L' A'
  wf : HeapWf L' A'
  cover : ∀ a, Free L' A' a → Free L A a ∨ (x ≤ a ∧ a < x + sz)
  frame : ∀ a, ¬ Hdr L A a → a ≠ x → a ≠ x + 8 → s'.mem a = s.mem a
  ini : s'.init = s.init

/-- The part of `xrealloc` that follows the computation of the new block size `size`. -/
def xrealloc_resize (fuel : Nat) (s : State) (prev bytes size : Nat) :
    Except Fault (State × Nat) := do
  let block := prev - 8
  let bsz ← get_size s block
  if size = bsz then pure (s, prev)
  else if size > bsz then do
    let s1 ← xfree fuel s prev
    xmalloc fuel s1 bytes
  else if size > LOCAL_SIZE_MAX then do
    let (s1, free_block) ← split_block s block size
    let s2 ← insert_global_block fuel s1 free_block
    pure (s2, block + 8)
  else pure (s, prev)

/-! ## Elementary facts -/

theorem upd_same (f : Nat → Nat) (k v : Nat) : upd f k v k = v := by simp [upd]

theorem upd_other (f : Nat → Nat) (k v x : Nat) (h : x ≠ k) : upd f k v x = f x := by
  simp [upd, h]

theorem pow_ge_16 (t : Nat) (h : 4 ≤ t) : 16 ≤ 2 ^ t :=
  calc 16 = 2 ^ 4 := by norm_num
    _ ≤ 2 ^ t := Nat.pow_le_pow_right (by norm_num) h

theorem pow_le_chunk (t : Nat) (h : t ≤ 20) : 2 ^ t ≤ 1048576 :=
  calc 2 ^ t ≤ 2 ^ 20 := Nat.pow_le_pow_right (by norm_num) h
    _ = 1048576 := by norm_num

theorem pow_succ_double (t : Nat) : 2 ^ (t + 1) = 2 ^ t + 2 ^ t := by
  rw [pow_succ]; omega

theorem log_up_pow (i : Nat) (h4 : 4 ≤ i) (h20 : i ≤ 20) : log_up (2 ^ i) = .ok i := by
  interval_cases i <;> rfl

theorem log_up_loop_spec (fuel out size : Nat) (hf : 31 ≤ fuel + out) (hs : size ≤ 2 ^ 30)
    (ho : out ≤ 30) :
    ∃ k, log_up_loop fuel out size = .ok k ∧ out ≤ k ∧ k ≤ 30 ∧ size ≤ 2 ^ k ∧
      (k = out ∨ 2 ^ (k - 1) < size) := by
  induction fuel generalizing out with
  | zero => omega
  | succ fuel ih =>
    by_cases hlt : 2 ^ out < size
    · have ho2 : out < 30 := by
        by_contra hc
        have : out = 30 := by omega
        subst this
        omega
      obtain ⟨k, hk, h1, h2, h3, h4⟩ := ih (out + 1) (by omega) (by omega)
      refine ⟨k, ?_, by omega, h2, h3, ?_⟩
      · have ho31 : out < 31 := by omega
        simp [log_up_loop, shl_int, bind, Except.bind, hlt, hk, ho31]
      · rcases h4 with h4 | h4
        · right; subst h4; simpa using hlt
        · right; exact h4
    · refine ⟨out, ?_, le_refl _, ho, by omega, Or.inl rfl⟩
      have ho31 : out < 31 := by omega
      simp [log_up_loop, shl_int, bind, Except.bind, hlt, pure, Except.pure, ho31]

/-- What `log_up` returns: the least `k ≥ 4` with `size ≤ 2 ^ k`. -/
theorem log_up_spec (size : Nat) (hs : size ≤ 2 ^ 30) :
    ∃ k, log_up size = .ok k ∧ 4 ≤ k ∧ k ≤ 30 ∧ size ≤ 2 ^ k ∧
      (k = 4 ∨ 2 ^ (k - 1) < size) := by
  unfold log_up
  by_cases h16 : size < 16
  · refine ⟨4, ?_, by omega, by omega, by omega, Or.inl rfl⟩
    simp [h16]; rfl
  · simp only [h16, if_false]
    obtain ⟨k, hk, h1, h2, h3, h4⟩ := log_up_loop_spec 64 3 size (by omega) hs (by omega)
    have hk4 : 4 ≤ k := by
      by_contra hc
      have : k = 3 := by omega
      subst this
      omega
    refine ⟨k, hk, hk4, h2, h3, ?_⟩
    rcases h4 with h4 | h4
    · omega
    · right; exact h4

/-- In the small regime `log_up` stays within the bucket range. -/
theorem log_up_small (size : Nat) (hs : size ≤ LOCAL_SIZE_MAX) :
    ∃ k, log_up size = .ok k ∧ 4 ≤ k ∧ k ≤ 20 ∧ size ≤ 2 ^ k ∧
      (k = 4 ∨ 2 ^ (k - 1) < size) := by
  obtain ⟨k, hk, h1, h2, h3, h4⟩ := log_up_spec size (by simp only [LOCAL_SIZE_MAX] at hs; omega)
  refine ⟨k, hk, h1, ?_, h3, h4⟩
  rcases h4 with h4 | h4
  · omega
  · by_contra hc
    have h21 : 21 ≤ k - 1 + 1 := by omega
    have : 2 ^ 20 ≤ 2 ^ (k - 1) := Nat.pow_le_pow_right (by norm_num) (by omega)
    simp only [LOCAL_SIZE_MAX] at hs
    omega

theorem scan_buckets_spec (s : State) (fuel i j : Nat) (hf : 22 ≤ fuel + i) (hij : i ≤ j)
    (hj : j ≤ 21) (hempty : ∀ t, i ≤ t → t < j → s.buckets t = 0)
    (hstop : j = 21 ∨ s.buckets j ≠ 0) : scan_buckets fuel s i = j := by
  induction fuel generalizing i with
  | zero => omega
  | succ fuel ih =>
    unfold scan_buckets
    by_cases hi : i = j
    · subst hi
      rcases hstop with h | h
      · subst h; simp
      · simp [h]
    · have hlt : i < j := by omega
      have h0 := hempty i (le_refl _) hlt
      have hi20 : i ≤ LOCAL_BUCKETS := by simp only [LOCAL_BUCKETS]; omega
      simp only [hi20, if_true, h0, ne_eq, not_true_eq_false, if_false]
      exact ih (i + 1) (by omega) (by omega) (fun t h1 h2 => hempty t (by omega) h2)


/-! ## The split loop of `find_local_block` -/

/-- One iteration of the split loop, on the head `h` of bucket `log + n + 1`. -/
theorem split_down_step_eq (s : State) (h log n : Nat) (hb : s.buckets (log + n + 1) = h)
    (h0 : h ≠ 0) (hsz : s.mem h = 2 ^ (log + n + 1)) (hlog : 4 ≤ log)
    (htop : log + n + 1 ≤ 20) (hfit : h + 2 ^ (log + n + 1) ≤ WORD) :
    split_down (n + 1) s log =
      split_down n
        { s with
          buckets := upd (upd s.buckets (log + n) h) (log + n + 1) (s.mem (h + 8)),
          mem := upd (upd (upd (upd s.mem (h + 2 ^ (log + n)) (2 ^ (log + n))) h
            (2 ^ (log + n))) (h + 8) (h + 2 ^ (log + n))) (h + 2 ^ (log + n) + 8) 0 }
        log := by
  have hd := pow_succ_double (log + n)
  have h16 := pow_ge_16 (log + n) (by omega)
  have hle := pow_le_chunk (log + n) (by omega)
  simp only [WORD] at hfit ⊢
  have hmod : (h + 2 ^ (log + n)) % 18446744073709551616 = h + 2 ^ (log + n) :=
    Nat.mod_eq_of_lt (by omega)
  have hne1 : log + n + 1 ≠ log + n := by omega
  have hlt31 : log + n < 31 := by omega
  have hsz2 : ¬ (2 ^ (log + n + 1) = 2 ^ (log + n)) := by omega
  have hsub : (2 ^ (log + n + 1) + 18446744073709551616 -
      2 ^ (log + n) % 18446744073709551616) % 18446744073709551616 = 2 ^ (log + n) := by
    omega
  have hh2 : h + 2 ^ (log + n) ≠ 0 := by omega
  conv => lhs; unfold split_down
  simp [set_bucket, get_next, shl_int, split_block, get_size, set_size, set_next, bind,
    Except.bind, pure, Except.pure, upd_same, upd_other, hb, h0, hsz, hne1, hlt31, hsz2,
    hmod, hsub, hh2, WORD]

/-- One iteration of the split loop, with the new state described field by field. -/
theorem split_down_step (s : State) (h log n : Nat) (hb : s.buckets (log + n + 1) = h)
    (h0 : h ≠ 0) (hsz : s.mem h = 2 ^ (log + n + 1)) (hlog : 4 ≤ log)
    (htop : log + n + 1 ≤ 20) (hfit : h + 2 ^ (log + n + 1) ≤ WORD) :
    ∃ s5 : State, split_down (n + 1) s log = split_down n s5 log ∧
      s5.buckets = upd (upd s.buckets (log + n) h) (log + n + 1) (s.mem (h + 8)) ∧
      s5.mem = upd (upd (upd (upd s.mem (h + 2 ^ (log + n)) (2 ^ (log + n))) h
            (2 ^ (log + n))) (h + 8) (h + 2 ^ (log + n))) (h + 2 ^ (log + n) + 8) 0 ∧
      s5.global_list = s.global_list ∧ s5.init = s.init ∧ s5.pages = s.pages :=
  ⟨_, split_down_step_eq s h log n hb h0 hsz hlog htop hfit, rfl, rfl, rfl, rfl, rfl⟩

/-- The split loop on a block `h` of size `2 ^ (log + n)` at the head of bucket
    `log + n` returns, and leaves `h` with size `2 ^ log` at the head of bucket `log`,
    followed by its upper half; the upper halves `h + 2 ^ t` of the intermediate
    levels are the single entries of the buckets `t`. -/
theorem split_down_spec (log n : Nat) (hlog : 4 ≤ log) :
    ∀ (s : State) (h : Nat), s.buckets (log + n) = h → h ≠ 0 →
      s.mem h = 2 ^ (log + n) → log + n ≤ 20 → h + 2 ^ (log + n) ≤ WORD →
      ∃ s', split_down n s log = .ok s' ∧ SplitPost s s' h log n := by
  induction n with
  | zero =>
    intro s h hb h0 hsz _ _
    refine ⟨s, rfl, ?_⟩
    exact
      { gl := rfl, ini := rfl, pg := rfl, zero := fun _ => rfl, b_log := hb
        b_mid := fun t h1 h2 => by omega
        b_top := fun h => by omega
        b_other := fun _ _ => rfl
        m_size := hsz
        m_next := fun h => by omega
        m_half := fun t h1 h2 => by omega
        m_frame := fun _ _ => rfl }
  | succ n ih =>
    intro s h hb h0 hsz htop hfit
    have e : log + (n + 1) = log + n + 1 := by omega
    rw [e] at hb hsz htop hfit
    have hd := pow_succ_double (log + n)
    have h16 := pow_ge_16 (log + n) (by omega)
    have hle := pow_le_chunk (log + n) (by omega)
    obtain ⟨s5, hstep, hbk, hm, hgl, hini, hpg⟩ :=
      split_down_step s h log n hb h0 hsz hlog htop hfit
    simp only [WORD] at hfit
    obtain ⟨s', hs', post⟩ := ih s5 h
      (by rw [hbk, upd_other _ _ _ _ (by omega), upd_same])
      h0
      (by rw [hm, upd_other _ _ _ _ (by omega), upd_other _ _ _ _ (by omega), upd_same])
      (by omega) (by simp only [WORD]; omega)
    refine ⟨s', by rw [hstep]; exact hs', ?_⟩
    have hfr : ∀ a, a < h ∨ h + 2 ^ (log + n) ≤ a → s'.mem a = s5.mem a :=
      fun a ha => post.m_frame a ha
    exact
      { gl := post.gl.trans hgl
        ini := post.ini.trans hini
        pg := post.pg.trans hpg
        zero := fun h => by omega
        b_log := post.b_log
        b_mid := fun t h1 h2 => by
          by_cases ht : t < log + n
          · exact post.b_mid t h1 ht
          · have : t = log + n := by omega
            subst this
            have hn : 0 < n := by omega
            rw [post.b_top hn, hm, upd_other _ _ _ _ (by omega), upd_same]
        b_top := fun _ => by
          rw [e, post.b_other (log + n + 1) (Or.inr (by omega)), hbk, upd_same]
        b_other := fun t ht => by
          rw [post.b_other t (by omega), hbk, upd_other _ _ _ _ (by omega),
            upd_other _ _ _ _ (by omega)]
        m_size := post.m_size
        m_next := fun _ => by
          by_cases hn : 0 < n
          · exact post.m_next hn
          · have hn0 : n = 0 := by omega
            rw [post.zero hn0, hm]
            subst hn0
            rw [upd_other _ _ _ _ (by omega), upd_same]
            rfl
        m_half := fun t h1 h2 => by
          by_cases ht : t < log + n
          · exact post.m_half t h1 ht
          · have : t = log + n := by omega
            subst this
            rw [hfr _ (Or.inr (le_refl _)), hfr _ (Or.inr (by omega)), hm]
            rw [upd_other _ _ _ _ (by omega), upd_other _ _ _ _ (by omega),
              upd_other _ _ _ _ (by omega), upd_same, upd_same]
            exact ⟨rfl, rfl⟩
        m_frame := fun a ha => by
          rw [e] at ha
          rw [hfr a (by omega), hm]
          rw [upd_other _ _ _ _ (by omega), upd_other _ _ _ _ (by omega),
            upd_other _ _ _ _ (by omega), upd_other _ _ _ _ (by omega)] }


/-! ## `find_local_block` served by the cache -/

/-- The part of `find_local_block` after the refill decision: the split loop from
    bucket `j` down to `log` and the removal of the head of bucket `log`. -/
theorem find_local_block_hit (fuel : Nat) (s : State) (size0 h log j : Nat)
    (hlu : log_up size0 = .ok log) (hlog : 4 ≤ log) (hlj : log ≤ j) (hj : j ≤ 20)
    (hempty : ∀ t, log ≤ t → t < j → s.buckets t = 0)
    (hb : s.buckets j = h) (h0 : h ≠ 0) (hsz : s.mem h = 2 ^ j) (hfit : h + 2 ^ j ≤ WORD) :
    ∃ s', find_local_block fuel s size0 = .ok (s', h) ∧ LocalPost s s' h log j := by
  have hl31 : log < 31 := by omega
  have hl20 : ¬ (log > LOCAL_BUCKETS) := by simp only [LOCAL_BUCKETS]; omega
  by_cases hjl : j = log
  · subst hjl
    refine ⟨set_bucket s j (s.mem (h + 8)), ?_, ?_⟩
    · simp [find_local_block, hlu, shl_int, hl31, hl20, hb, h0, get_next, bind, Except.bind,
        pure, Except.pure]
    · exact
        { gl := rfl, ini := rfl, pg := rfl
          b_low := fun t h1 h2 => by omega
          b_top := by simp [set_bucket, upd_same]
          b_other := fun t ht => by
            simp only [set_bucket]
            rw [upd_other _ _ _ _ (by omega)]
          m_size := hsz
          m_half := fun t h1 h2 => by omega
          m_frame := fun _ _ => rfl }
  · obtain ⟨n, hn⟩ : ∃ n, j = log + n := ⟨j - log, by omega⟩
    subst hn
    have hn0 : 0 < n := by omega
    have hbl : s.buckets log = 0 := hempty log (le_refl _) (by omega)
    have hscan : scan_buckets 22 s log = log + n :=
      scan_buckets_spec s 22 log (log + n) (by omega) (by omega) (by omega) hempty
        (Or.inr (by rw [hb]; exact h0))
    obtain ⟨s2, hs2, post⟩ := split_down_spec log n hlog s h hb h0 hsz hj hfit
    have hnot : ¬ (log + n > LOCAL_BUCKETS) := by simp only [LOCAL_BUCKETS]; omega
    have hsub : log + n - log = n := by omega
    refine ⟨set_bucket s2 log (h + 2 ^ log), ?_, ?_⟩
    · simp [find_local_block, hlu, shl_int, hl31, hl20, hbl, hscan, hnot, hsub, hs2,
        post.b_log, h0, get_next, post.m_next hn0, bind, Except.bind, pure, Except.pure]
    · exact
        { gl := post.gl, ini := post.ini, pg := post.pg
          b_low := fun t h1 h2 => by
            simp only [set_bucket]
            by_cases ht : t = log
            · subst ht; rw [upd_same]
            · rw [upd_other _ _ _ _ ht]
              exact post.b_mid t (by omega) h2
          b_top := by
            simp only [set_bucket]
            rw [upd_other _ _ _ _ (by omega)]
            exact post.b_top hn0
          b_other := fun t ht => by
            simp only [set_bucket]
            rw [upd_other _ _ _ _ (by omega)]
            exact post.b_other t ht
          m_size := post.m_size
          m_half := post.m_half
          m_frame := post.m_frame }


/-! ## `find_global_block` when the arena head fits -/

theorem div_up_exact (k : Nat) : div_up (k * LOCAL_SIZE_MAX) LOCAL_SIZE_MAX = .ok k := by
  simp [div_up, LOCAL_SIZE_MAX]

/-- The head path of `find_global_block`: the head `a` of size `S` fits the rounded
    size `r`; it is returned, and the arena head becomes its successor (`S = r`) or
    the suffix `a + r` of size `S - r`, linked to the old successor. -/
theorem find_global_block_head (fuel : Nat) (s : State) (size0 nb r a S : Nat)
    (hdiv : div_up size0 LOCAL_SIZE_MAX = .ok nb)
    (hr : (nb * LOCAL_SIZE_MAX) % WORD = r)
    (hgl : s.global_list = a) (ha : a ≠ 0) (hS : s.mem a = S) (hrS : r ≤ S)
    (hr16 : 16 ≤ r) (hfit : a + S < WORD) :
    ∃ s', find_global_block fuel s size0 = .ok (s', a) ∧ s'.buckets = s.buckets ∧
      s'.init = s.init ∧ s'.pages = s.pages ∧
      (S = r → s'.mem = s.mem ∧ s'.global_list = s.mem (a + 8)) ∧
      (S ≠ r → s'.mem = upd (upd (upd s.mem (a + r) (S - r)) a r) (a + r + 8) (s.mem (a + 8)) ∧
        s'.global_list = a + r) := by
  simp only [WORD] at hfit hr
  by_cases hSr : S = r
  · refine ⟨{ s with global_list := s.mem (a + 8) }, ?_, rfl, rfl, rfl,
      fun _ => ⟨rfl, rfl⟩, fun h => absurd hSr h⟩
    simp [find_global_block, hdiv, hr, hgl, ha, hS, hSr, get_size, get_next, split_block,
      bind, Except.bind, pure, Except.pure, WORD]
  · refine ⟨{ s with global_list := a + r,
                     mem := upd (upd (upd s.mem (a + r) (S - r)) a r) (a + r + 8)
                       (s.mem (a + 8)) }, ?_, rfl, rfl, rfl,
      fun h => absurd h hSr, fun _ => ⟨rfl, rfl⟩⟩
    have hmod : (a + r) % 18446744073709551616 = a + r := Nat.mod_eq_of_lt (by omega)
    have hsub : (S + 18446744073709551616 - r % 18446744073709551616) %
        18446744073709551616 = S - r := by omega
    have har : a + r ≠ 0 := by omega
    have hge : r ≤ S := hrS
    have h8 : a + 8 ≠ a + r := by omega
    have h8' : ¬ (a = a + r) := by omega
    simp [find_global_block, hdiv, hr, hgl, ha, hS, hSr, get_size, set_size, set_next,
      get_next, split_block, bind, Except.bind, pure, Except.pure, WORD, hmod, hsub, har,
      hge, upd_same, upd_other, h8, h8']


/-! ## `find_local_block` with a refill from the arena head -/

/-- The refill path of `find_local_block`: every bucket from `log` up is empty and
    the arena head `a` has size `S ≥ C`. -/
theorem find_local_block_refill (fuel : Nat) (s : State) (size0 log a S : Nat)
    (hlu : log_up size0 = .ok log) (hlog : 4 ≤ log) (hl20 : log ≤ 20)
    (hempty : ∀ t, log ≤ t → t ≤ 20 → s.buckets t = 0)
    (hgl : s.global_list = a) (ha : a ≠ 0) (hS : s.mem a = S)
    (hSC : LOCAL_SIZE_MAX ≤ S) (hfit : a + S < WORD) :
    ∃ s', find_local_block fuel s size0 = .ok (s', a) ∧ RefillPost s s' a S log := by
  obtain ⟨s1, hs1, hbk1, hini1, hpg1, heq1, hne1⟩ :=
    find_global_block_head fuel s LOCAL_SIZE_MAX 1 LOCAL_SIZE_MAX a S
      (by simpa using div_up_exact 1) (by simp [WORD, LOCAL_SIZE_MAX]) hgl ha hS hSC
      (by simp [LOCAL_SIZE_MAX]) hfit
  simp only [WORD, LOCAL_SIZE_MAX] at hfit hSC heq1 hne1 ⊢
  have hl31 : log < 31 := by omega
  have hnl20 : ¬ (log > LOCAL_BUCKETS) := by simp only [LOCAL_BUCKETS]; omega
  have hbl : s.buckets log = 0 := hempty log (le_refl _) hl20
  have hscan : scan_buckets 22 s log = 21 :=
    scan_buckets_spec s 22 log 21 (by omega) (by omega) (by omega)
      (fun t h1 h2 => hempty t h1 (by omega)) (Or.inl rfl)
  obtain ⟨n, hn⟩ : ∃ n, 20 = log + n := ⟨20 - log, by omega⟩
  -- the state after the chunk is installed as the only entry of bucket 20
  have hs1a : s1.mem a = 1048576 := by
    by_cases hSr : S = 1048576
    · rw [(heq1 hSr).1, hS, hSr]
    · rw [(hne1 hSr).1, upd_other _ _ _ _ (by omega), upd_same]
  obtain ⟨s4, hs4, post⟩ := split_down_spec log n hlog
    { s1 with buckets := upd s1.buckets 20 a, mem := upd s1.mem (a + 8) 0 } a
    (by show upd s1.buckets 20 a (log + n) = a; rw [← hn, upd_same])
    ha
    (by show upd s1.mem (a + 8) 0 a = 2 ^ (log + n)
        rw [upd_other _ _ _ _ (by omega), hs1a, ← hn]; norm_num)
    (by omega)
    (by rw [← hn]; simp only [WORD]; norm_num; omega)
  have hsub : 20 - log = n := by omega
  have hnext : s4.mem (a + 8) = if n = 0 then 0 else a + 2 ^ log := by
    by_cases hn0 : n = 0
    · rw [post.zero hn0]; simp [hn0, upd_same]
    · simp only [hn0, if_false]; exact post.m_next (by omega)
  refine ⟨set_bucket s4 log (s4.mem (a + 8)), ?_, ?_⟩
  · simp [find_local_block, hlu, shl_int, hl31, hnl20, hbl, hscan, hs1, set_bucket,
      set_next, upd_same, ha, hsub, hs4, post.b_log, get_next, bind, Except.bind, pure,
      Except.pure, LOCAL_SIZE_MAX]
  · have hs4mem : ∀ x, x < a ∨ a + 1048576 ≤ x → s4.mem x = upd s1.mem (a + 8) 0 x := by
      intro x hx
      have := post.m_frame x (by rw [← hn]; norm_num; exact hx)
      exact this
    exact
      { ini := by simp only [set_bucket]; rw [post.ini]; exact hini1
        pg := by simp only [set_bucket]; rw [post.pg]; exact hpg1
        gl_eq := fun h => by
          simp only [LOCAL_SIZE_MAX] at h
          simp only [set_bucket]; rw [post.gl]; exact (heq1 h).2
        gl_ne := fun h => by
          simp only [LOCAL_SIZE_MAX] at h ⊢
          simp only [set_bucket]; rw [post.gl]; exact (hne1 h).2
        b_low := fun t h1 h2 => by
          simp only [set_bucket]
          by_cases ht : t = log
          · subst ht
            rw [upd_same, hnext]
            have : n ≠ 0 := by omega
            simp [this]
          · rw [upd_other _ _ _ _ ht]
            exact post.b_mid t (by omega) (by omega)
        b_top := by
          simp only [set_bucket]
          by_cases hn0 : n = 0
          · have : log = 20 := by omega
            subst this
            rw [upd_same, hnext]; simp [hn0]
          · rw [upd_other _ _ _ _ (by omega), hn, post.b_top (by omega)]
            show upd s1.mem (a + 8) 0 (a + 8) = 0
            rw [upd_same]
        b_other := fun t ht => by
          simp only [set_bucket]
          rw [upd_other _ _ _ _ (by omega), post.b_other t (by omega)]
          show upd s1.buckets 20 a t = _
          rw [upd_other _ _ _ _ (by omega), hbk1]
        m_size := post.m_size
        m_half := fun t h1 h2 => post.m_half t h1 (by omega)
        m_rest := fun h => by
          simp only [LOCAL_SIZE_MAX] at h ⊢
          simp only [set_bucket]
          rw [hs4mem _ (Or.inr (le_refl _)), hs4mem _ (Or.inr (by omega)),
            upd_other _ _ _ _ (by omega), upd_other _ _ _ _ (by omega), (hne1 h).1,
            upd_same, upd_other _ _ _ _ (by omega), upd_other _ _ _ _ (by omega), upd_same]
          exact ⟨rfl, rfl⟩
        m_frame := fun x hx => by
          simp only [LOCAL_SIZE_MAX] at hx
          simp only [set_bucket]
          rw [hs4mem x (by omega), upd_other _ _ _ _ (by omega)]
          by_cases hSr : S = 1048576
          · rw [(heq1 hSr).1]
          · rw [(hne1 hSr).1, upd_other _ _ _ _ (by omega), upd_other _ _ _ _ (by omega),
              upd_other _ _ _ _ (by omega)] }


/-! ## `insert_local_block` climbing through its buddies -/

/-- A block aligned on twice its size compares below its upper buddy as a `long`. -/
theorem long_lt_buddy (h t : Nat) (ht4 : 4 ≤ t) (ht : t ≤ 19) (hal : h % 2 ^ (t + 1) = 0)
    (hfit : h + 2 ^ (t + 1) ≤ WORD) : long_lt h (h + 2 ^ t) = true := by
  simp only [WORD] at hfit
  interval_cases t <;> norm_num at hal hfit ⊢ <;> simp only [long_lt, WORD, decide_eq_true_eq] <;> omega

theorem pow_dvd_of_mod (h t j : Nat) (htj : t ≤ j) (hal : h % 2 ^ j = 0) : h % 2 ^ t = 0 :=
  Nat.mod_eq_zero_of_dvd (dvd_trans (Nat.pow_dvd_pow 2 htj) (Nat.dvd_of_mod_eq_zero hal))

/-- Base case: the bucket of the block's class is empty; the block becomes its
    single entry. -/
theorem insert_local_block_empty (fuel : Nat) (s : State) (h j : Nat) (hj4 : 4 ≤ j)
    (hj : j ≤ 20) (h0 : h ≠ 0) (hfit : h + 2 ^ j < WORD) (hsz : s.mem h = 2 ^ j)
    (hb : s.buckets j = 0) :
    insert_local_block (fuel + 1) s h =
      .ok { s with mem := upd s.mem (h + 8) 0, buckets := upd s.buckets j h } := by
  have hlu := log_up_pow j hj4 hj
  have hj31 : j + 1 < 31 := by omega
  have hn20 : ¬ (j > LOCAL_BUCKETS) := by simp only [LOCAL_BUCKETS]; omega
  have hle := pow_le_chunk j hj
  have h16 := pow_ge_16 j hj4
  simp only [WORD] at hfit
  have hmod : ¬ ((h + 2 ^ j) % 18446744073709551616 = 0) := by omega
  have hh8 : ¬ (h = h + 8) := by omega
  rw [insert_local_block]
  by_cases hc : h % 2 ^ (j + 1) = 0
  · simp [get_size, h0, hsz, hlu, shl_int, hj31, hn20, hb, set_next, coalesce_next, get_next,
      set_bucket, bind, Except.bind, pure, Except.pure, upd_same, upd_other, hc, hmod, hh8,
      WORD]
    intro h1 h2
    rw [h1] at hb
    exact absurd hb h2
  · simp [get_size, h0, hsz, hlu, shl_int, hj31, hn20, hb, set_next, coalesce_next, get_next,
      set_bucket, bind, Except.bind, pure, Except.pure, upd_same, upd_other, hc, hmod, hh8,
      WORD]
    intro h1 h2
    rw [h1] at hb
    exact absurd hb h2

/-- One merge: the block `h` of class `log` finds its upper buddy as the single
    entry of bucket `log`, absorbs it and is re-inserted one class higher. -/
theorem insert_local_block_merge_step (fuel : Nat) (s : State) (h log : Nat)
    (hlog : 4 ≤ log) (hl19 : log ≤ 19) (h0 : h ≠ 0) (hal : h % 2 ^ (log + 1) = 0)
    (hfit : h + 2 ^ (log + 1) ≤ WORD) (hsz : s.mem h = 2 ^ log)
    (hb : s.buckets log = h + 2 ^ log) (hbs : s.mem (h + 2 ^ log) = 2 ^ log)
    (hbn : s.mem (h + 2 ^ log + 8) = 0) :
    insert_local_block (fuel + 1) s h =
      insert_local_block fuel
        { s with mem := upd (upd (upd s.mem (h + 8) (h + 2 ^ log)) h (2 ^ (log + 1)))
                   (h + 8) 0,
                 buckets := upd s.buckets log 0 } h := by
  have hlu := log_up_pow log hlog (by omega)
  have hj31 : log + 1 < 31 := by omega
  have hn20 : ¬ (log > LOCAL_BUCKETS) := by simp only [LOCAL_BUCKETS]; omega
  have hne20 : ¬ (log = LOCAL_BUCKETS) := by simp only [LOCAL_BUCKETS]; omega
  have hle := pow_le_chunk log (by omega)
  have h16 := pow_ge_16 log hlog
  have hd := pow_succ_double log
  have hlt := long_lt_buddy h log hlog hl19 hal hfit
  simp only [WORD] at hfit
  have hmod : (h + 2 ^ log) % 18446744073709551616 = h + 2 ^ log :=
    Nat.mod_eq_of_lt (by omega)
  have hmod2 : (2 ^ log + 2 ^ log) % 18446744073709551616 = 2 ^ (log + 1) := by omega
  have hh8 : ¬ (h = h + 8) := by omega
  have hh2 : ¬ (h + 2 ^ log = 0) := by omega
  have e1 : ¬ (h + 2 ^ log = h + 8) := by omega
  have e2 : ¬ (h + 2 ^ log = h) := by omega
  have e3 : ¬ (h + 2 ^ log + 8 = h) := by omega
  have e4 : ¬ (h + 2 ^ log + 8 = h + 8) := by omega
  have e5 : ¬ (2 ^ log = 8) := by omega
  have e6 : ¬ (2 ^ log = 0) := by omega
  rw [insert_local_block]
  simp [get_size, h0, hsz, hlu, shl_int, hj31, hn20, hne20, hb, hlt, set_next, coalesce_next,
    get_next, set_size, set_bucket, bind, Except.bind, pure, Except.pure, upd_same,
    upd_other, hal, hmod, hmod2, hh8, hh2, e1, e2, e3, e4, e5, e6, hbs, hbn, WORD]

/-- The released block `h` of class `log` merges with the single entries
    `h + 2 ^ t` of the buckets `log ≤ t < j` and ends as the single entry of the
    empty bucket `j`; `fuel` only has to exceed the number of merges. -/
theorem insert_local_block_merge_up (j : Nat) (hj : j ≤ 20) :
    ∀ (d log fuel : Nat) (s : State) (h : Nat), log + d = j → 4 ≤ log → d < fuel →
      h ≠ 0 → h % 2 ^ j = 0 → h + 2 ^ j < WORD → s.mem h = 2 ^ log →
      (∀ t, log ≤ t → t < j →
        s.buckets t = h + 2 ^ t ∧ s.mem (h + 2 ^ t) = 2 ^ t ∧ s.mem (h + 2 ^ t + 8) = 0) →
      s.buckets j = 0 →
      ∃ s', insert_local_block fuel s h = .ok s' ∧ MergePost s s' h log j := by
  intro d
  induction d with
  | zero =>
    intro log fuel s h hd hlog hfuel h0 hal hfit hsz _ hb
    have : log = j := by omega
    subst this
    obtain ⟨f, rfl⟩ : ∃ f, fuel = f + 1 := ⟨fuel - 1, by omega⟩
    refine ⟨_, insert_local_block_empty f s h log hlog hj h0 hfit hsz hb, ?_⟩
    exact
      { gl := rfl, ini := rfl, pg := rfl
        b_low := fun t h1 h2 => by omega
        b_top := by show upd s.buckets log h log = h; rw [upd_same]
        b_other := fun t ht => by
          show upd s.buckets log h t = _
          rw [upd_other _ _ _ _ (by omega)]
        m_size := by
          show upd s.mem (h + 8) 0 h = _
          rw [upd_other _ _ _ _ (by omega), hsz]
        m_next := by show upd s.mem (h + 8) 0 (h + 8) = 0; rw [upd_same]
        m_frame := fun a h1 h2 => by
          show upd s.mem (h + 8) 0 a = _
          rw [upd_other _ _ _ _ h2] }
  | succ d ih =>
    intro log fuel s h hd hlog hfuel h0 hal hfit hsz hbud hb
    obtain ⟨f, rfl⟩ : ∃ f, fuel = f + 1 := ⟨fuel - 1, by omega⟩
    have hlj : log < j := by omega
    obtain ⟨hb1, hb2, hb3⟩ := hbud log (le_refl _) hlj
    have hal1 : h % 2 ^ (log + 1) = 0 := pow_dvd_of_mod h (log + 1) j (by omega) hal
    have hpw : 2 ^ (log + 1) ≤ 2 ^ j := Nat.pow_le_pow_right (by norm_num) (by omega)
    have hstep := insert_local_block_merge_step f s h log hlog (by omega) h0 hal1
      (by simp only [WORD] at hfit ⊢; omega) hsz hb1 hb2 hb3
    have h16 := pow_ge_16 log hlog
    have hpos : ∀ t, 4 ≤ t → 16 ≤ 2 ^ t := pow_ge_16
    obtain ⟨s', hs', post⟩ := ih (log + 1) f
      { s with mem := upd (upd (upd s.mem (h + 8) (h + 2 ^ log)) h (2 ^ (log + 1)))
                   (h + 8) 0,
               buckets := upd s.buckets log 0 } h
      (by omega) (by omega) (by omega) h0 hal hfit
      (by show upd (upd (upd s.mem (h + 8) (h + 2 ^ log)) h (2 ^ (log + 1))) (h + 8) 0 h = _
          rw [upd_other _ _ _ _ (by omega), upd_same])
      (by
        intro t h1 h2
        obtain ⟨c1, c2, c3⟩ := hbud t (by omega) h2
        have := hpos t (by omega)
        refine ⟨?_, ?_, ?_⟩
        · show upd s.buckets log 0 t = _
          rw [upd_other _ _ _ _ (by omega), c1]
        · show upd (upd (upd s.mem (h + 8) (h + 2 ^ log)) h (2 ^ (log + 1))) (h + 8) 0
            (h + 2 ^ t) = _
          rw [upd_other _ _ _ _ (by omega), upd_other _ _ _ _ (by omega),
            upd_other _ _ _ _ (by omega), c2]
        · show upd (upd (upd s.mem (h + 8) (h + 2 ^ log)) h (2 ^ (log + 1))) (h + 8) 0
            (h + 2 ^ t + 8) = _
          rw [upd_other _ _ _ _ (by omega), upd_other _ _ _ _ (by omega),
            upd_other _ _ _ _ (by omega), c3])
      (by show upd s.buckets log 0 j = 0
          rw [upd_other _ _ _ _ (by omega), hb])
    refine ⟨s', by rw [hstep]; exact hs', ?_⟩
    exact
      { gl := post.gl, ini := post.ini, pg := post.pg
        b_low := fun t h1 h2 => by
          by_cases ht : t = log
          · subst ht
            rw [post.b_other t (Or.inl (by omega))]
            show upd s.buckets t 0 t = 0
            rw [upd_same]
          · exact post.b_low t (by omega) h2
        b_top := post.b_top
        b_other := fun t ht => by
          rw [post.b_other t (by omega)]
          show upd s.buckets log 0 t = _
          rw [upd_other _ _ _ _ (by omega)]
        m_size := post.m_size
        m_next := post.m_next
        m_frame := fun a h1 h2 => by
          rw [post.m_frame a h1 h2]
          show upd (upd (upd s.mem (h + 8) (h + 2 ^ log)) h (2 ^ (log + 1))) (h + 8) 0 a = _
          rw [upd_other _ _ _ _ h2, upd_other _ _ _ _ h1, upd_other _ _ _ _ h2] }


/-! ## Allocate and release in the small regime -/

/-- A list stays in place when the headers of its entries are not written. -/
theorem ListAt_frame (mem mem' : Nat → Nat) (l : List (Nat × Nat)) :
    ∀ p, ListAt mem p l →
      (∀ e ∈ l, mem' e.1 = mem e.1 ∧ mem' (e.1 + 8) = mem (e.1 + 8)) → ListAt mem' p l := by
  induction l with
  | nil => intro p h _; exact h
  | cons e l ih =>
    intro p h hfr
    obtain ⟨h1, h2, h3, h4⟩ := h
    obtain ⟨f1, f2⟩ := hfr e (List.mem_cons_self _ _)
    refine ⟨h1, h2, by rw [f1, h3], ?_⟩
    rw [f2]
    exact ih _ h4 (fun e' he' => hfr e' (List.mem_cons_of_mem _ he'))

/-- C3: in an initialised state with an empty thread cache and an arena whose head
    is a block of size `S ≥ C` at a `C`-aligned address `a`, `xmalloc(b)` with
    `b + 8 ≤ C` followed by `xfree` of the result returns (with any fuel from 17 on)
    and leaves bucket 20 holding exactly the block `(a, C)`, every other bucket empty,
    and the arena equal to the old one without the bytes `[a, a + C)`.
    The blocks are blocks of the address space: the head ends below `2 ^ 64`, a
    remaining suffix has room for a header, and the other entries are disjoint
    from the head. -/
theorem small_alloc_free_restores_chunk (fuel : Nat) (s : State) (b a S : Nat)
    (rest : List (Nat × Nat)) (hfuel : 17 ≤ fuel) (hinit : s.init = 1)
    (hempty : ∀ i, i ≤ 20 → s.buckets i = 0)
    (harena : ListAt s.mem s.global_list ((a, S) :: rest))
    (hSC : LOCAL_SIZE_MAX ≤ S) (hal : a % LOCAL_SIZE_MAX = 0) (hfit : a + S < WORD)
    (hroom : S = LOCAL_SIZE_MAX ∨ LOCAL_SIZE_MAX + 16 ≤ S)
    (hrest : ∀ e ∈ rest, 16 ≤ e.2 ∧ (e.1 + e.2 ≤ a ∨ a + S ≤ e.1))
    (hb : b + 8 ≤ LOCAL_SIZE_MAX) :
    ∃ s1 p s2, xmalloc fuel s b = .ok (s1, p) ∧ xfree fuel s1 p = .ok s2 ∧
      ListAt s2.mem (s2.buckets 20) [(a, LOCAL_SIZE_MAX)] ∧
      (∀ i, i ≤ 20 → i ≠ 20 → s2.buckets i = 0) ∧
      ListAt s2.mem s2.global_list
        (if S = LOCAL_SIZE_MAX then rest
         else (a + LOCAL_SIZE_MAX, S - LOCAL_SIZE_MAX) :: rest) := by
  obtain ⟨hgl, ha0, hS, hrestAt⟩ := harena
  simp only at hgl ha0 hS hrestAt
  obtain ⟨log, hlu, hlog4, hlog20, _, _⟩ := log_up_small (b + 8) hb
  obtain ⟨s1, hs1, post⟩ := find_local_block_refill fuel s (b + 8) log a S hlu hlog4 hlog20
    (fun t h1 h2 => hempty t h2) hgl ha0 hS hSC hfit
  have hmalloc : xmalloc fuel s b = .ok (s1, a + 8) := by
    have hmod : (b + 8) % WORD = b + 8 :=
      Nat.mod_eq_of_lt (by simp only [WORD, LOCAL_SIZE_MAX] at hb ⊢; omega)
    have hnot : ¬ (b + 8 > LOCAL_SIZE_MAX) := by omega
    simp [xmalloc, hinit, hmod, hnot, hs1, bind, Except.bind, pure, Except.pure]
  have hle := pow_le_chunk log hlog20
  obtain ⟨s2, hs2, mpost⟩ := insert_local_block_merge_up 20 (le_refl _) (20 - log) log fuel s1 a
    (by omega) hlog4 (by omega) ha0 (by simpa [LOCAL_SIZE_MAX] using hal)
    (by simp only [WORD, LOCAL_SIZE_MAX] at hfit hSC ⊢; norm_num; omega)
    post.m_size
    (fun t h1 h2 => ⟨post.b_low t h1 h2, post.m_half t h1 h2⟩)
    post.b_top
  have hfree : xfree fuel s1 (a + 8) = .ok s2 := by
    have hi1 : s1.init = 1 := by rw [post.ini, hinit]
    have hnot : ¬ (2 ^ log > LOCAL_SIZE_MAX) := by simp only [LOCAL_SIZE_MAX]; omega
    simp [xfree, hi1, get_size, ha0, post.m_size, hnot, hs2, bind, Except.bind]
  refine ⟨s1, a + 8, s2, hmalloc, hfree, ?_, ?_, ?_⟩
  · refine ⟨?_, ha0, ?_, ?_⟩
    · exact mpost.b_top
    · show s2.mem a = LOCAL_SIZE_MAX
      rw [mpost.m_size]; norm_num
    · show s2.mem (a + 8) = 0
      exact mpost.m_next
  · intro i hi hne
    by_cases hil : log ≤ i
    · exact mpost.b_low i hil (by omega)
    · rw [mpost.b_other i (Or.inl (by omega)), post.b_other i (Or.inl (by omega))]
      exact hempty i hi
  · have hframe : ∀ e ∈ rest,
        s2.mem e.1 = s.mem e.1 ∧ s2.mem (e.1 + 8) = s.mem (e.1 + 8) := by
      intro e he
      obtain ⟨h16, hdis⟩ := hrest e he
      simp only [LOCAL_SIZE_MAX] at hroom hSC
      constructor
      · rw [mpost.m_frame _ (by omega) (by omega),
          post.m_frame _ (by simp only [LOCAL_SIZE_MAX]; omega)]
      · rw [mpost.m_frame _ (by omega) (by omega),
          post.m_frame _ (by simp only [LOCAL_SIZE_MAX]; omega)]
    by_cases hSeq : S = LOCAL_SIZE_MAX
    · simp only [hSeq, if_true]
      rw [mpost.gl, post.gl_eq hSeq]
      exact ListAt_frame s.mem s2.mem rest _ hrestAt hframe
    · simp only [hSeq, if_false]
      simp only [LOCAL_SIZE_MAX] at hSeq hSC
      refine ⟨?_, ?_, ?_, ?_⟩
      · rw [mpost.gl, post.gl_ne hSeq]
      · show a + LOCAL_SIZE_MAX ≠ 0
        simp only [LOCAL_SIZE_MAX]; omega
      · show s2.mem (a + LOCAL_SIZE_MAX) = S - LOCAL_SIZE_MAX
        rw [mpost.m_frame _ (by simp only [LOCAL_SIZE_MAX]; omega)
          (by simp only [LOCAL_SIZE_MAX]; omega)]
        exact (post.m_rest hSeq).1
      · show ListAt s2.mem (s2.mem (a + LOCAL_SIZE_MAX + 8)) rest
        rw [mpost.m_frame _ (by simp only [LOCAL_SIZE_MAX]; omega)
          (by simp only [LOCAL_SIZE_MAX]; omega), (post.m_rest hSeq).2]
        exact ListAt_frame s.mem s2.mem rest _ hrestAt hframe


/-! ## Releases in the reverse order of allocation -/

theorem scan_buckets_hit (s : State) (fuel i : Nat) (hf : 22 ≤ fuel + i)
    (h : scan_buckets fuel s i ≤ 20) :
    ∃ j, scan_buckets fuel s i = j ∧ i ≤ j ∧ j ≤ 20 ∧ s.buckets j ≠ 0 ∧
      ∀ t, i ≤ t → t < j → s.buckets t = 0 := by
  induction fuel generalizing i with
  | zero =>
    simp only [scan_buckets] at h
    omega
  | succ fuel ih =>
    unfold scan_buckets at h ⊢
    by_cases hi : i ≤ LOCAL_BUCKETS
    · by_cases hb : s.buckets i ≠ 0
      · rw [if_pos hi, if_pos hb]
        simp only [LOCAL_BUCKETS] at hi
        exact ⟨i, rfl, le_refl _, hi, hb, fun t h1 h2 => by omega⟩
      · rw [if_pos hi, if_neg hb] at h ⊢
        obtain ⟨j, hj, h1, h2, h3, h4⟩ := ih (i + 1) (by omega) h
        refine ⟨j, hj, by omega, h2, h3, fun t ht1 ht2 => ?_⟩
        by_cases hti : t = i
        · subst hti; simpa using hb
        · exact h4 t (by omega) ht2
    · rw [if_neg hi] at h
      simp only [LOCAL_BUCKETS] at hi
      omega

theorem xfree_all_append (fuel : Nat) (l1 l2 : List Nat) :
    ∀ s, xfree_all fuel s (l1 ++ l2) =
      (xfree_all fuel s l1 >>= fun s1 => xfree_all fuel s1 l2) := by
  induction l1 with
  | nil => intro s; rfl
  | cons p l1 ih =>
    intro s
    simp only [List.cons_append, xfree_all]
    cases h : xfree fuel s p with
    | error e => rfl
    | ok s1 => simp [bind, Except.bind, ih s1]

theorem pow_lt_pow_two (i j : Nat) (h : i < j) : 2 ^ i + 2 ^ i ≤ 2 ^ j := by
  rw [← pow_succ_double]
  exact Nat.pow_le_pow_right (by norm_num) h

theorem buddy_aligned (h i j : Nat) (hij : i ≤ j) (hal : h % 2 ^ j = 0) :
    (h + 2 ^ i) % 2 ^ i = 0 := by
  rw [Nat.add_mod_right]
  exact pow_dvd_of_mod h i j hij hal

/-- The cache after a request served from the single entry `h` of bucket `j`:
    the upper halves are the new single entries, the other buckets keep theirs. -/
theorem SingleCache_split (s1 : State) (h log j : Nat) (hlj : log ≤ j)
    (hj : j ≤ 20) (hal : h % 2 ^ j = 0) (hfit : h + 2 ^ j < WORD)
    (b_low : ∀ t, log ≤ t → t < j → s1.buckets t = h + 2 ^ t)
    (b_top : s1.buckets j = 0)
    (m_half : ∀ t, log ≤ t → t < j →
      s1.mem (h + 2 ^ t) = 2 ^ t ∧ s1.mem (h + 2 ^ t + 8) = 0)
    (others : ∀ i, 4 ≤ i → i ≤ 20 → (i < log ∨ j < i) → s1.buckets i ≠ 0 →
      (s1.mem (s1.buckets i) = 2 ^ i ∧ s1.mem (s1.buckets i + 8) = 0) ∧
      s1.buckets i % 2 ^ i = 0 ∧ s1.buckets i + 2 ^ i < WORD ∧
      (s1.buckets i + 2 ^ i ≤ h ∨ h + 2 ^ j ≤ s1.buckets i))
    (others_disj : ∀ i k, 4 ≤ i → i ≤ 20 → 4 ≤ k → k ≤ 20 → (i < log ∨ j < i) →
      (k < log ∨ j < k) → i ≠ k → s1.buckets i ≠ 0 → s1.buckets k ≠ 0 →
      s1.buckets i + 2 ^ i ≤ s1.buckets k ∨ s1.buckets k + 2 ^ k ≤ s1.buckets i) :
    SingleCache s1 := by
  have hin : ∀ i, log ≤ i → i < j → 2 ^ i + 2 ^ i ≤ 2 ^ j := fun i _ h2 =>
    pow_lt_pow_two i j h2
  have hcase : ∀ i, 4 ≤ i → i ≤ 20 → s1.buckets i ≠ 0 →
      (log ≤ i ∧ i < j) ∨ (i < log ∨ j < i) := by
    intro i _ _ hne
    by_cases hij : i = j
    · subst hij; exact absurd b_top hne
    · omega
  simp only [WORD] at hfit others
  constructor
  · intro i h4 h20 hne
    rcases hcase i h4 h20 hne with ⟨h1, h2⟩ | h1
    · rw [b_low i h1 h2]; exact m_half i h1 h2
    · exact (others i h4 h20 h1 hne).1
  · intro i h4 h20 hne
    rcases hcase i h4 h20 hne with ⟨h1, h2⟩ | h1
    · rw [b_low i h1 h2]; exact buddy_aligned h i j (by omega) hal
    · exact (others i h4 h20 h1 hne).2.1
  · intro i h4 h20 hne
    rcases hcase i h4 h20 hne with ⟨h1, h2⟩ | h1
    · rw [b_low i h1 h2]
      have := hin i h1 h2
      simp only [WORD]; omega
    · simp only [WORD]; exact (others i h4 h20 h1 hne).2.2.1
  · intro i k hi4 hi20 hk4 hk20 hik hni hnk
    rcases hcase i hi4 hi20 hni with ⟨h1, h2⟩ | h1 <;>
      rcases hcase k hk4 hk20 hnk with ⟨h3, h4⟩ | h3
    · rw [b_low i h1 h2, b_low k h3 h4]
      rcases Nat.lt_or_gt_of_ne hik with hlt | hlt
      · have := pow_lt_pow_two i k hlt; omega
      · have := pow_lt_pow_two k i hlt; omega
    · rw [b_low i h1 h2]
      have q1 := hin i h1 h2
      have q2 := (others k hk4 hk20 h3 hnk).2.2.2
      have q3 := pow_ge_16 i hi4
      omega
    · rw [b_low k h3 h4]
      have q1 := hin k h3 h4
      have q2 := (others i hi4 hi20 h1 hni).2.2.2
      have q3 := pow_ge_16 k hk4
      omega
    · exact others_disj i k hi4 hi20 hk4 hk20 h1 h3 hik hni hnk

/-- A request served by the cache and, after any nested allocations and their
    releases in reverse order, the release of its block restore the cache. -/
theorem cache_lifo (fuel : Nat) (hfuel : 17 ≤ fuel) :
    ∀ (bs : List Nat) (s : State), SingleCache s → s.init = 1 →
      (∀ x ∈ bs, x + 8 ≤ LOCAL_SIZE_MAX) → served_by_cache fuel s bs = true →
      ∃ sn ps s', xmalloc_all fuel s bs = .ok (sn, ps) ∧
        xfree_all fuel sn ps.reverse = .ok s' ∧
        s'.init = 1 ∧
        (∀ i, s'.buckets i = s.buckets i) ∧
        (∀ x, ¬ FreeByte s x → s'.mem x = s.mem x) ∧
        (∀ i, 4 ≤ i → i ≤ 20 → s.buckets i ≠ 0 →
          s'.mem (s.buckets i) = s.mem (s.buckets i) ∧
          s'.mem (s.buckets i + 8) = s.mem (s.buckets i + 8)) := by
  intro bs
  induction bs with
  | nil =>
    intro s _ hinit _ _
    exact ⟨s, [], s, rfl, rfl, hinit, fun _ => rfl, fun _ _ => rfl, fun _ _ _ _ => ⟨rfl, rfl⟩⟩
  | cons b bs ih =>
    intro s hS hinit hbs hserved
    have hb : b + 8 ≤ LOCAL_SIZE_MAX := hbs b (List.mem_cons_self _ _)
    obtain ⟨log, hlu, hlog4, hlog20, _, _⟩ := log_up_small (b + 8) hb
    have hmod : (b + 8) % WORD = b + 8 :=
      Nat.mod_eq_of_lt (by simp only [WORD, LOCAL_SIZE_MAX] at hb ⊢; omega)
    simp only [served_by_cache, Bool.and_eq_true] at hserved
    obtain ⟨hhit, hrest⟩ := hserved
    simp only [cache_hit, hmod, hlu, decide_eq_true_eq, LOCAL_BUCKETS] at hhit
    obtain ⟨j, _, hlj, hj, hj0, hempty⟩ := scan_buckets_hit s 22 log (by omega) hhit
    obtain ⟨hhsz, hhnx⟩ := hS.hdr j (by omega) hj hj0
    have hhal := hS.al j (by omega) hj hj0
    have hhfit := hS.fit j (by omega) hj hj0
    obtain ⟨s1, hs1, post⟩ := find_local_block_hit fuel s (b + 8) (s.buckets j) log j hlu
      hlog4 hlj hj hempty rfl hj0 hhsz (le_of_lt hhfit)
    have hmalloc : xmalloc fuel s b = .ok (s1, s.buckets j + 8) := by
      have hnot : ¬ (b + 8 > LOCAL_SIZE_MAX) := by omega
      simp [xmalloc, hinit, hmod, hnot, hs1, bind, Except.bind, pure, Except.pure]
    rw [hmalloc] at hrest
    simp only at hrest
    have h16 : ∀ t, 4 ≤ t → 16 ≤ 2 ^ t := pow_ge_16
    have hj16 := h16 j (by omega)
    -- blocks of the other buckets, before and after the request
    have hother : ∀ i, 4 ≤ i → i ≤ 20 → (i < log ∨ j < i) → s1.buckets i ≠ 0 →
        s1.buckets i = s.buckets i ∧ s.buckets i ≠ 0 ∧
        (s.buckets i + 2 ^ i ≤ s.buckets j ∨ s.buckets j + 2 ^ j ≤ s.buckets i) := by
      intro i h4 h20 hpos hne
      have e := post.b_other i hpos
      rw [e] at hne
      exact ⟨e, hne, hS.disj i j h4 h20 (by omega) hj (by omega) hne hj0⟩
    have hS1 : SingleCache s1 := by
      refine SingleCache_split s1 (s.buckets j) log j hlj hj hhal hhfit post.b_low
        (by rw [post.b_top, hhnx]) post.m_half ?_ ?_
      · intro i h4 h20 hpos hne
        obtain ⟨e, hne', hd⟩ := hother i h4 h20 hpos hne
        have hi16 := h16 i h4
        obtain ⟨c1, c2⟩ := hS.hdr i h4 h20 hne'
        rw [e]
        refine ⟨⟨?_, ?_⟩, hS.al i h4 h20 hne', hS.fit i h4 h20 hne', hd⟩
        · rw [post.m_frame _ (by omega), c1]
        · rw [post.m_frame _ (by omega), c2]
      · intro i k hi4 hi20 hk4 hk20 hpi hpk hik hni hnk
        obtain ⟨e1, hne1, _⟩ := hother i hi4 hi20 hpi hni
        obtain ⟨e2, hne2, _⟩ := hother k hk4 hk20 hpk hnk
        rw [e1, e2]
        exact hS.disj i k hi4 hi20 hk4 hk20 hik hne1 hne2
    obtain ⟨sn, ps, s1', hma, hfa, hini', hbk', hfr', hhd'⟩ :=
      ih s1 hS1 (by rw [post.ini, hinit]) (fun x hx => hbs x (List.mem_cons_of_mem _ hx)) hrest
    -- the block handed out is not a free byte of the cache
    have hin : ∀ i, log ≤ i → i < j → 2 ^ i + 2 ^ i ≤ 2 ^ j := fun i _ h2 =>
      pow_lt_pow_two i j h2
    have hfree1 : ∀ x, FreeByte s1 x →
        (s.buckets j + 16 ≤ x ∧ x < s.buckets j + 2 ^ j) ∨
        (∃ i, 4 ≤ i ∧ i ≤ 20 ∧ (i < log ∨ j < i) ∧ s.buckets i ≠ 0 ∧
          s.buckets i ≤ x ∧ x < s.buckets i + 2 ^ i) := by
      intro x ⟨i, h4, h20, hne, hlo, hhi⟩
      by_cases hij : i = j
      · subst hij
        rw [post.b_top, hhnx] at hne
        exact absurd rfl hne
      · by_cases hmid : log ≤ i ∧ i < j
        · left
          rw [post.b_low i hmid.1 hmid.2] at hlo hhi
          have := hin i hmid.1 hmid.2
          have := h16 i h4
          omega
        · right
          have hpos : i < log ∨ j < i := by omega
          obtain ⟨e, hne', _⟩ := hother i h4 h20 hpos hne
          rw [e] at hlo hhi
          exact ⟨i, h4, h20, hpos, hne', hlo, hhi⟩
    have hnf : ∀ x, s.buckets j ≤ x → x < s.buckets j + 16 → ¬ FreeByte s1 x := by
      intro x h1 h2 hf
      rcases hfree1 x hf with ⟨h3, _⟩ | ⟨i, h4, h20, hpos, hne, hlo, hhi⟩
      · omega
      · have := hS.disj i j h4 h20 (by omega) hj (by omega) hne hj0
        omega
    have hsz1' : s1'.mem (s.buckets j) = 2 ^ log := by
      rw [hfr' _ (hnf _ (le_refl _) (by omega)), post.m_size]
    obtain ⟨s', hs', mpost⟩ := insert_local_block_merge_up j hj (j - log) log fuel s1'
      (s.buckets j) (by omega) hlog4 (by omega) hj0 hhal hhfit hsz1'
      (by
        intro t h1 h2
        have e := post.b_low t h1 h2
        have ht16 := h16 t (by omega)
        have hne : s1.buckets t ≠ 0 := by rw [e]; omega
        obtain ⟨c1, c2⟩ := hhd' t (by omega) (by omega) hne
        rw [e] at c1 c2
        obtain ⟨d1, d2⟩ := post.m_half t h1 h2
        exact ⟨by rw [hbk' t, e], by rw [c1, d1], by rw [c2, d2]⟩)
      (by rw [hbk' j, post.b_top, hhnx])
    have hle := pow_le_chunk log hlog20
    have hfree : xfree fuel s1' (s.buckets j + 8) = .ok s' := by
      have hnot : ¬ (2 ^ log > LOCAL_SIZE_MAX) := by simp only [LOCAL_SIZE_MAX]; omega
      simp [xfree, hini', get_size, hj0, hsz1', hnot, hs', bind, Except.bind]
    refine ⟨sn, (s.buckets j + 8) :: ps, s', ?_, ?_, ?_, ?_, ?_, ?_⟩
    · simp [xmalloc_all, hmalloc, hma, bind, Except.bind, pure, Except.pure]
    · rw [List.reverse_cons, xfree_all_append, hfa]
      simp [xfree_all, hfree, bind, Except.bind]
    · rw [mpost.ini, hini']
    · intro i
      by_cases hij : i = j
      · subst hij; exact mpost.b_top
      · by_cases hmid : log ≤ i ∧ i < j
        · rw [mpost.b_low i hmid.1 hmid.2, hempty i hmid.1 hmid.2]
        · rw [mpost.b_other i (by omega), hbk' i, post.b_other i (by omega)]
    · intro x hx
      have hout : x < s.buckets j ∨ s.buckets j + 2 ^ j ≤ x := by
        by_contra hc
        exact hx ⟨j, by omega, hj, hj0, by omega, by omega⟩
      have hx1 : ¬ FreeByte s1 x := by
        intro hf
        rcases hfree1 x hf with ⟨h3, h4⟩ | ⟨i, h4, h20, _, hne, hlo, hhi⟩
        · omega
        · exact hx ⟨i, h4, h20, hne, hlo, hhi⟩
      rw [mpost.m_frame x (by omega) (by omega), hfr' x hx1, post.m_frame x hout]
    · intro i h4 h20 hne
      by_cases hij : i = j
      · subst hij
        rw [mpost.m_size, mpost.m_next, hhsz, hhnx]
        exact ⟨rfl, rfl⟩
      · have hpos : i < log ∨ j < i := by
          by_contra hc
          exact hne (hempty i (by omega) (by omega))
        have hd := hS.disj i j h4 h20 (by omega) hj hij hne hj0
        have hi16 := h16 i h4
        have e := post.b_other i hpos
        have hne1 : s1.buckets i ≠ 0 := by rw [e]; exact hne
        obtain ⟨c1, c2⟩ := hhd' i h4 h20 hne1
        rw [e] at c1 c2
        constructor
        · rw [mpost.m_frame _ (by omega) (by omega), c1, post.m_frame _ (by omega)]
        · rw [mpost.m_frame _ (by omega) (by omega), c2, post.m_frame _ (by omega)]
/-- C4: in an initialised state with an empty thread cache and an arena whose head
    is a block of size `S ≥ C` at a `C`-aligned address `a`, let the requests
    `b :: bs` (each with `b_k + 8 ≤ C`) be served with a single arena refill, the one
    of the first request.  Then the allocations return, the releases of the returned
    pointers in the reverse order of allocation return (any fuel from 17 on), and
    afterwards bucket 20 holds exactly the block `(a, C)` and every other bucket is
    empty. -/
theorem lifo_release_restores_chunk (fuel : Nat) (s : State) (b : Nat) (bs : List Nat)
    (a S : Nat) (hfuel : 17 ≤ fuel) (hinit : s.init = 1)
    (hempty : ∀ i, i ≤ 20 → s.buckets i = 0)
    (hgl : s.global_list = a) (ha0 : a ≠ 0) (hS : s.mem a = S)
    (hSC : LOCAL_SIZE_MAX ≤ S) (hal : a % LOCAL_SIZE_MAX = 0) (hfit : a + S < WORD)
    (hb : b + 8 ≤ LOCAL_SIZE_MAX) (hbs : ∀ x ∈ bs, x + 8 ≤ LOCAL_SIZE_MAX)
    (hone : one_refill fuel s b bs = true) :
    ∃ sn ps s', xmalloc_all fuel s (b :: bs) = .ok (sn, ps) ∧
      xfree_all fuel sn ps.reverse = .ok s' ∧
      ListAt s'.mem (s'.buckets 20) [(a, LOCAL_SIZE_MAX)] ∧
      (∀ i, i ≤ 20 → i ≠ 20 → s'.buckets i = 0) := by
  obtain ⟨log, hlu, hlog4, hlog20, _, _⟩ := log_up_small (b + 8) hb
  obtain ⟨s1, hs1, post⟩ := find_local_block_refill fuel s (b + 8) log a S hlu hlog4 hlog20
    (fun t _ h2 => hempty t h2) hgl ha0 hS hSC hfit
  have hmalloc : xmalloc fuel s b = .ok (s1, a + 8) := by
    have hmod : (b + 8) % WORD = b + 8 :=
      Nat.mod_eq_of_lt (by simp only [WORD, LOCAL_SIZE_MAX] at hb ⊢; omega)
    have hnot : ¬ (b + 8 > LOCAL_SIZE_MAX) := by omega
    simp [xmalloc, hinit, hmod, hnot, hs1, bind, Except.bind, pure, Except.pure]
  simp only [one_refill, hmalloc] at hone
  have hal20 : a % 2 ^ 20 = 0 := by simpa [LOCAL_SIZE_MAX] using hal
  have hfit20 : a + 2 ^ 20 < WORD := by
    simp only [WORD, LOCAL_SIZE_MAX] at hfit hSC ⊢; norm_num; omega
  have hlow0 : ∀ i, i ≤ 20 → (i < log ∨ 20 < i) → s1.buckets i = 0 := by
    intro i h20 hpos
    rw [post.b_other i hpos]; exact hempty i h20
  have hS1 : SingleCache s1 :=
    SingleCache_split s1 a log 20 hlog20 (le_refl _) hal20 hfit20 post.b_low post.b_top
      post.m_half
      (fun i _ h20 hpos hne => absurd (hlow0 i h20 hpos) hne)
      (fun i _ _ h20 _ _ hpos _ _ hne _ => absurd (hlow0 i h20 hpos) hne)
  obtain ⟨sn, ps, s1', hma, hfa, hini', hbk', hfr', hhd'⟩ :=
    cache_lifo fuel hfuel bs s1 hS1 (by rw [post.ini, hinit]) hbs hone
  have h16 : ∀ t, 4 ≤ t → 16 ≤ 2 ^ t := pow_ge_16
  have hnf : ¬ FreeByte s1 a := by
    intro ⟨i, h4, h20, hne, hlo, _⟩
    by_cases hmid : log ≤ i ∧ i < 20
    · rw [post.b_low i hmid.1 hmid.2] at hlo
      have := h16 i h4
      omega
    · by_cases hi20 : i = 20
      · subst hi20; exact hne post.b_top
      · exact hne (hlow0 i h20 (by omega))
  have hsz1' : s1'.mem a = 2 ^ log := by rw [hfr' a hnf, post.m_size]
  obtain ⟨s', hs', mpost⟩ := insert_local_block_merge_up 20 (le_refl _) (20 - log) log fuel
    s1' a (by omega) hlog4 (by omega) ha0 hal20 hfit20 hsz1'
    (by
      intro t h1 h2
      have e := post.b_low t h1 h2
      have ht16 := h16 t (by omega)
      have hne : s1.buckets t ≠ 0 := by rw [e]; omega
      obtain ⟨c1, c2⟩ := hhd' t (by omega) (by omega) hne
      rw [e] at c1 c2
      obtain ⟨d1, d2⟩ := post.m_half t h1 h2
      exact ⟨by rw [hbk' t, e], by rw [c1, d1], by rw [c2, d2]⟩)
    (by rw [hbk' 20, post.b_top])
  have hle := pow_le_chunk log hlog20
  have hfree : xfree fuel s1' (a + 8) = .ok s' := by
    have hnot : ¬ (2 ^ log > LOCAL_SIZE_MAX) := by simp only [LOCAL_SIZE_MAX]; omega
    simp [xfree, hini', get_size, ha0, hsz1', hnot, hs', bind, Except.bind]
  refine ⟨sn, (a + 8) :: ps, s', ?_, ?_, ?_, ?_⟩
  · simp [xmalloc_all, hmalloc, hma, bind, Except.bind, pure, Except.pure]
  · rw [List.reverse_cons, xfree_all_append, hfa]
    simp [xfree_all, hfree, bind, Except.bind]
  · refine ⟨mpost.b_top, ha0, ?_, mpost.m_next⟩
    show s'.mem a = LOCAL_SIZE_MAX
    rw [mpost.m_size]; norm_num
  · intro i hi hne
    by_cases hil : log ≤ i
    · exact mpost.b_low i hil (by omega)
    · rw [mpost.b_other i (Or.inl (by omega)), hbk' i]
      exact hlow0 i hi (Or.inl (by omega))


/-! ## The spec instances of the small-regime round trips -/

/-- C3 at the spec's instance: a request of 100 bytes on the freshly seeded arena
    (one block of `2 ^ 30` bytes at address `2 ^ 30`). -/
theorem small_alloc_free_restores_chunk_witness :
    ∃ s1 p s2, xmalloc 17 (seeded 1073741824 1073741824) 100 = .ok (s1, p) ∧
      xfree 17 s1 p = .ok s2 ∧
      ListAt s2.mem (s2.buckets 20) [(1073741824, LOCAL_SIZE_MAX)] ∧
      (∀ i, i ≤ 20 → i ≠ 20 → s2.buckets i = 0) ∧
      ListAt s2.mem s2.global_list
        (if 1073741824 = LOCAL_SIZE_MAX then []
         else [(1073741824 + LOCAL_SIZE_MAX, 1073741824 - LOCAL_SIZE_MAX)]) :=
  small_alloc_free_restores_chunk 17 (seeded 1073741824 1073741824) 100 1073741824
    1073741824 [] (by decide) rfl (fun _ _ => rfl) ⟨rfl, by decide, rfl, rfl⟩ (by decide)
    (by decide) (by decide) (Or.inr (by decide)) (by simp) (by decide)

/-- C4 at the spec's instance: the requests 24, 40, 72, 200 on the freshly seeded
    arena. -/
theorem lifo_release_restores_chunk_witness :
    ∃ sn ps s', xmalloc_all 17 (seeded 1073741824 1073741824) [24, 40, 72, 200] =
        .ok (sn, ps) ∧
      xfree_all 17 sn ps.reverse = .ok s' ∧
      ListAt s'.mem (s'.buckets 20) [(1073741824, LOCAL_SIZE_MAX)] ∧
      (∀ i, i ≤ 20 → i ≠ 20 → s'.buckets i = 0) :=
  lifo_release_restores_chunk 17 (seeded 1073741824 1073741824) 24 [40, 72, 200]
    1073741824 1073741824 (by decide) rfl (fun _ _ => rfl) rfl (by decide) rfl (by decide)
    (by decide) (by decide) (by decide) (by decide) rfl

/-! ## Shrinking in the small regime -/

theorem scan_buckets_miss (s : State) (fuel i : Nat) (h : 20 < scan_buckets fuel s i) :
    ∀ t, i ≤ t → t ≤ 20 → s.buckets t = 0 := by
  induction fuel generalizing i with
  | zero =>
    simp only [scan_buckets] at h
    intro t h1 h2; omega
  | succ fuel ih =>
    unfold scan_buckets at h
    by_cases hi : i ≤ LOCAL_BUCKETS
    · by_cases hb : s.buckets i ≠ 0
      · rw [if_pos hi, if_pos hb] at h
        simp only [LOCAL_BUCKETS] at hi
        omega
      · rw [if_pos hi, if_neg hb] at h
        intro t h1 h2
        by_cases hti : t = i
        · subst hti; simpa using hb
        · exact ih (i + 1) h t (by omega) h2
    · simp only [LOCAL_BUCKETS] at hi
      intro t h1 h2; omega

/-- In the small regime a successful `xmalloc` returns the payload of a block whose
    header records the size of the request's class. -/
theorem xmalloc_small_header (fuel : Nat) (s s1 : State) (b p : Nat) (hinit : s.init = 1)
    (hheads : ∀ i, 4 ≤ i → i ≤ 20 → s.buckets i ≠ 0 →
      s.mem (s.buckets i) = 2 ^ i ∧ s.buckets i + 2 ^ i ≤ WORD)
    (harena : s.global_list ≠ 0 →
      LOCAL_SIZE_MAX ≤ s.mem s.global_list ∧ s.global_list + s.mem s.global_list < WORD)
    (hb : b + 8 ≤ LOCAL_SIZE_MAX) (hm : xmalloc fuel s b = .ok (s1, p)) :
    ∃ log h, log_up (b + 8) = .ok log ∧ 4 ≤ log ∧ log ≤ 20 ∧ p = h + 8 ∧ h ≠ 0 ∧
      s1.mem h = 2 ^ log ∧ s1.init = 1 := by
  obtain ⟨log, hlu, hlog4, hlog20, _, _⟩ := log_up_small (b + 8) hb
  have hmod : (b + 8) % WORD = b + 8 :=
    Nat.mod_eq_of_lt (by simp only [WORD, LOCAL_SIZE_MAX] at hb ⊢; omega)
  have hnot : ¬ (b + 8 > LOCAL_SIZE_MAX) := by omega
  have hx : ∀ s' h, find_local_block fuel s (b + 8) = .ok (s', h) →
      xmalloc fuel s b = .ok (s', h + 8) := by
    intro s' h hf
    simp [xmalloc, hinit, hmod, hnot, hf, bind, Except.bind, pure, Except.pure]
  by_cases hscan : scan_buckets 22 s log ≤ 20
  · obtain ⟨j, _, hlj, hj, hj0, hempty⟩ := scan_buckets_hit s 22 log (by omega) hscan
    obtain ⟨hsz, hfit⟩ := hheads j (by omega) hj hj0
    obtain ⟨s', hs', post⟩ := find_local_block_hit fuel s (b + 8) (s.buckets j) log j hlu
      hlog4 hlj hj hempty rfl hj0 hsz hfit
    rw [hx s' _ hs'] at hm
    simp only [Except.ok.injEq, Prod.mk.injEq] at hm
    obtain ⟨e1, e2⟩ := hm
    subst e1
    exact ⟨log, s.buckets j, hlu, hlog4, hlog20, e2.symm, hj0, post.m_size,
      by rw [post.ini, hinit]⟩
  · have hempty := scan_buckets_miss s 22 log (by omega)
    by_cases hgl : s.global_list = 0
    · exfalso
      have hbl : s.buckets log = 0 := hempty log (le_refl _) hlog20
      have hsc : scan_buckets 22 s log > LOCAL_BUCKETS := by
        simp only [LOCAL_BUCKETS]; omega
      have hl31 : log < 31 := by omega
      have hnl20 : ¬ (log > LOCAL_BUCKETS) := by simp only [LOCAL_BUCKETS]; omega
      have : xmalloc fuel s b = .error .null_deref := by
        simp [xmalloc, hinit, hmod, hnot, find_local_block, hlu, shl_int, hl31, hnl20, hbl,
          hsc, find_global_block, div_up, get_size, hgl, bind, Except.bind, pure,
          Except.pure]
      rw [this] at hm
      cases hm
    · obtain ⟨hSC, hfit⟩ := harena hgl
      obtain ⟨s', hs', post⟩ := find_local_block_refill fuel s (b + 8) log s.global_list
        (s.mem s.global_list) hlu hlog4 hlog20 hempty rfl hgl rfl hSC hfit
      rw [hx s' _ hs'] at hm
      simp only [Except.ok.injEq, Prod.mk.injEq] at hm
      obtain ⟨e1, e2⟩ := hm
      subst e1
      exact ⟨log, s.global_list, hlu, hlog4, hlog20, e2.symm, hgl, post.m_size,
        by rw [post.ini, hinit]⟩

theorem log_up_mono (x y lx ly : Nat) (hxy : x ≤ y) (hy : y ≤ LOCAL_SIZE_MAX)
    (hx : log_up x = .ok lx) (hly : log_up y = .ok ly) : lx ≤ ly := by
  obtain ⟨k, hk, _, _, _, hmin⟩ := log_up_small x (le_trans hxy hy)
  obtain ⟨k2, hk2, h4, _, hle2, _⟩ := log_up_small y hy
  rw [hx] at hk
  rw [hly] at hk2
  simp only [Except.ok.injEq] at hk hk2
  subst hk hk2
  rcases hmin with h | h
  · omega
  · by_contra hc
    have : 2 ^ ly ≤ 2 ^ (lx - 1) := Nat.pow_le_pow_right (by norm_num) (by omega)
    omega

/-- C8: in an initialised state whose bucket heads are blocks of their class and
    whose arena head, if any, holds at least one chunk, let `xmalloc(b1)` with
    `b1 + 8 ≤ C` return `p`.  Then for `0 < b2 ≤ b1`, `xrealloc(p, b2)` returns `p`
    and the state it returns is the state it was given: the arena list, every
    bucket and every block header are unchanged. -/
theorem small_shrink_is_noop (fuel fuel2 : Nat) (s s1 : State) (b1 b2 p : Nat)
    (hinit : s.init = 1)
    (hheads : ∀ i, 4 ≤ i → i ≤ 20 → s.buckets i ≠ 0 →
      s.mem (s.buckets i) = 2 ^ i ∧ s.buckets i + 2 ^ i ≤ WORD)
    (harena : s.global_list ≠ 0 →
      LOCAL_SIZE_MAX ≤ s.mem s.global_list ∧ s.global_list + s.mem s.global_list < WORD)
    (hb1 : b1 + 8 ≤ LOCAL_SIZE_MAX) (hb2 : 0 < b2) (hle : b2 ≤ b1)
    (hm : xmalloc fuel s b1 = .ok (s1, p)) :
    xrealloc fuel2 s1 p b2 = .ok (s1, p) := by
  obtain ⟨log1, h, hlu1, _, hl20, hp, h0, hsz, hi1⟩ :=
    xmalloc_small_header fuel s s1 b1 p hinit hheads harena hb1 hm
  subst hp
  have hb2C : b2 + 8 ≤ LOCAL_SIZE_MAX := by omega
  obtain ⟨log2, hlu2, _, hl2, _, _⟩ := log_up_small (b2 + 8) hb2C
  have hmono := log_up_mono (b2 + 8) (b1 + 8) log2 log1 (by omega) hb1 hlu2 hlu1
  have hmod : (b2 + 8) % WORD = b2 + 8 :=
    Nat.mod_eq_of_lt (by simp only [WORD, LOCAL_SIZE_MAX] at hb2C ⊢; omega)
  have hnot : ¬ (b2 + 8 > LOCAL_SIZE_MAX) := by omega
  have hb0 : b2 ≠ 0 := by omega
  have hl31 : log2 < 31 := by omega
  have hpw : 2 ^ log2 ≤ 2 ^ log1 := Nat.pow_le_pow_right (by norm_num) hmono
  have hpC := pow_le_chunk log2 hl2
  have hngt : ¬ (2 ^ log2 > 2 ^ log1) := by omega
  have hnC : ¬ (2 ^ log2 > LOCAL_SIZE_MAX) := by simp only [LOCAL_SIZE_MAX]; omega
  by_cases heq : 2 ^ log2 = 2 ^ log1
  · simp [xrealloc, hi1, hb0, hmod, hnot, hlu2, shl_int, hl31, get_size, h0, hsz, heq,
      bind, Except.bind, pure, Except.pure]
  · simp [xrealloc, hi1, hb0, hmod, hnot, hlu2, shl_int, hl31, get_size, h0, hsz, heq, hngt,
      hnC, bind, Except.bind, pure, Except.pure]

/-- C8 at the spec's instance: 1000 bytes (a block of 1024), then 500 bytes. -/
theorem small_shrink_is_noop_witness :
    ∃ s1 p, xmalloc 1 (seeded 1073741824 1073741824) 1000 = .ok (s1, p) ∧
      s1.mem (p - 8) = 1024 ∧ xrealloc 1 s1 p 500 = .ok (s1, p) :=
  ⟨_, _, rfl, rfl,
    small_shrink_is_noop 1 1 (seeded 1073741824 1073741824) _ 1000 500 _ rfl
      (fun _ _ _ h => absurd rfl h) (fun _ => ⟨by decide, by decide⟩) (by decide)
      (by decide) (by decide) rfl⟩


/-! ## The arena list: `coalesce_next` and `insert_global_block` -/

/-- Below `2 ^ 63` the signed comparison is the comparison of addresses. -/
theorem long_lt_low (a b : Nat) (ha : a < 9223372036854775808) (hb : b < 9223372036854775808) :
    long_lt a b = decide (a < b) := by
  simp only [long_lt, WORD]
  by_cases h : a < b
  · simp only [h, decide_True, decide_eq_true_eq]
    omega
  · simp only [h, decide_False, decide_eq_false_iff_not]
    omega

/-- On the first entry of an in-memory list `coalesce_next` computes `merge_next`. -/
theorem coalesce_next_spec (s : State) (x sx : Nat) (l : List (Nat × Nat))
    (hl : ListAt s.mem x ((x, sx) :: l)) (hfit : x + sx < WORD)
    (hap : ∀ e ∈ l, x + 16 ≤ e.1 ∧ e.1 + e.2 < WORD) :
    ∃ s' c, coalesce_next s x = .ok (s', c) ∧ ListAt s'.mem x (merge_next x sx l) ∧
      (∀ a, a ≠ x → a ≠ x + 8 → s'.mem a = s.mem a) ∧ s'.buckets = s.buckets ∧
      s'.global_list = s.global_list ∧ s'.init = s.init ∧ s'.pages = s.pages := by
  obtain ⟨_, hx0, hsx, htl⟩ := hl
  simp only at hx0 hsx htl
  simp only [WORD] at hfit hap
  cases l with
  | nil =>
    have hnx : s.mem (x + 8) = 0 := htl
    have hne : ¬ ((x + sx) % 18446744073709551616 = 0) := by omega
    refine ⟨s, false, ?_, ⟨rfl, hx0, hsx, htl⟩, fun _ _ _ => rfl, rfl, rfl, rfl, rfl⟩
    simp [coalesce_next, get_size, get_next, hx0, hsx, hnx, hne, bind, Except.bind, pure,
      Except.pure, WORD]
  | cons e l =>
    obtain ⟨hnx, he0, hesz, hetl⟩ := htl
    obtain ⟨hap1, hap2⟩ := hap e (List.mem_cons_self _ _)
    by_cases hadj : x + sx = e.1
    · have hmod : (x + sx) % 18446744073709551616 = e.1 := by omega
      have hsum : (sx + e.2) % 18446744073709551616 = sx + e.2 := by omega
      have q1 : ¬ (e.1 = x) := by omega
      have q2 : ¬ (e.1 + 8 = x) := by omega
      refine ⟨{ s with mem := upd (upd s.mem x (sx + e.2)) (x + 8) (s.mem (e.1 + 8)) }, true,
        ?_, ?_, ?_, rfl, rfl, rfl, rfl⟩
      · simp [coalesce_next, get_size, get_next, set_size, set_next, hx0, hsx, hnx, hmod, he0,
          hesz, hsum, q1, q2, upd_same, upd_other, bind, Except.bind, pure, Except.pure, WORD]
      · simp only [merge_next, hadj, if_true]
        refine ⟨rfl, hx0, ?_, ?_⟩
        · show upd (upd s.mem x (sx + e.2)) (x + 8) (s.mem (e.1 + 8)) x = sx + e.2
          rw [upd_other _ _ _ _ (by omega), upd_same]
        · show ListAt _ (upd (upd s.mem x (sx + e.2)) (x + 8) (s.mem (e.1 + 8)) (x + 8)) l
          rw [upd_same]
          refine ListAt_frame s.mem _ l _ hetl (fun e' he' => ?_)
          obtain ⟨r1, _⟩ := hap e' (List.mem_cons_of_mem _ he')
          constructor
          · rw [upd_other _ _ _ _ (by omega), upd_other _ _ _ _ (by omega)]
          · rw [upd_other _ _ _ _ (by omega), upd_other _ _ _ _ (by omega)]
      · intro a h1 h2
        show upd (upd s.mem x (sx + e.2)) (x + 8) (s.mem (e.1 + 8)) a = _
        rw [upd_other _ _ _ _ h2, upd_other _ _ _ _ h1]
    · have hmod : ¬ ((x + sx) % 18446744073709551616 = e.1) := by omega
      refine ⟨s, false, ?_, ?_, fun _ _ _ => rfl, rfl, rfl, rfl, rfl⟩
      · simp [coalesce_next, get_size, get_next, hx0, hsx, hnx, hmod, bind, Except.bind, pure,
          Except.pure, WORD]
      · simp only [merge_next, hadj, if_false]
        exact ⟨rfl, hx0, hsx, hnx, he0, hesz, hetl⟩
theorem BlockList_tail (c : Nat × Nat) (l : List (Nat × Nat)) (h : BlockList (c :: l)) :
    BlockList l :=
  ⟨fun e he => h.1 e (List.mem_cons_of_mem _ he), (List.pairwise_cons.mp h.2).2⟩

theorem BlockList_head (c : Nat × Nat) (l : List (Nat × Nat)) (h : BlockList (c :: l)) :
    (c.1 ≠ 0 ∧ 16 ≤ c.2 ∧ c.1 + c.2 ≤ 9223372036854775808) ∧ ∀ e ∈ l, c.1 + c.2 < e.1 :=
  ⟨h.1 c (List.mem_cons_self _ _), (List.pairwise_cons.mp h.2).1⟩

/-- The loop of `insert_global_block`, started at the entry `c` of an in-memory
    block list with `c` below the block `(y, sz)`, computes `ins_after`. -/
theorem insert_global_loop_spec (y sz : Nat) (hy0 : y ≠ 0) (hsz16 : 16 ≤ sz)
    (hyfit : y + sz ≤ 9223372036854775808) :
    ∀ (l : List (Nat × Nat)) (c : Nat × Nat) (fuel : Nat) (s : State),
      l.length < fuel → ListAt s.mem c.1 (c :: l) → BlockList (c :: l) → s.mem y = sz →
      c.1 < y → (∀ e ∈ c :: l, e.1 + e.2 ≤ y ∨ y + sz ≤ e.1) →
      ∃ s', insert_global_loop fuel s y c.1 = .ok s' ∧
        ListAt s'.mem c.1 (ins_after y sz c l) ∧
        (∀ a, a ≠ y → a ≠ y + 8 → (∀ e ∈ c :: l, a ≠ e.1 ∧ a ≠ e.1 + 8) →
          s'.mem a = s.mem a) ∧
        s'.buckets = s.buckets ∧ s'.global_list = s.global_list ∧ s'.init = s.init ∧
        s'.pages = s.pages := by
  intro l
  induction l with
  | nil =>
    intro c fuel s hfuel hl hbl hmy hcy hdis
    obtain ⟨f, rfl⟩ : ∃ f, fuel = f + 1 := ⟨fuel - 1, by simp at hfuel; omega⟩
    obtain ⟨_, hc0, hcsz, hnx⟩ := hl
    have hnx0 : s.mem (c.1 + 8) = 0 := hnx
    obtain ⟨⟨_, hc16, hcfit⟩, _⟩ := BlockList_head c [] hbl
    have hd := hdis c (List.mem_cons_self _ _)
    have hl2 : ListAt (upd (upd s.mem (c.1 + 8) y) (y + 8) 0) c.1 [c, (y, sz)] := by
      refine ⟨rfl, hc0, ?_, ?_, hy0, ?_, ?_⟩
      · rw [upd_other _ _ _ _ (by omega), upd_other _ _ _ _ (by omega), hcsz]
      · rw [upd_other _ _ _ _ (by omega), upd_same]
      · show upd (upd s.mem (c.1 + 8) y) (y + 8) 0 y = sz
        rw [upd_other _ _ _ _ (by omega), upd_other _ _ _ _ (by omega), hmy]
      · show upd (upd s.mem (c.1 + 8) y) (y + 8) 0 (y + 8) = 0
        rw [upd_same]
    obtain ⟨s3, cf, hco, hl3, hfr3, hb3, hg3, hi3, hp3⟩ :=
      coalesce_next_spec { s with mem := upd (upd s.mem (c.1 + 8) y) (y + 8) 0 } c.1 c.2
        [(y, sz)] hl2 (by simp only [WORD]; omega)
        (by
          intro e he
          simp only [List.mem_singleton] at he
          subst he
          simp only [WORD]
          constructor <;> omega)
    refine ⟨s3, ?_, hl3, ?_, hb3, hg3, hi3, hp3⟩
    · rw [insert_global_loop]
      simp [get_next, set_next, hc0, hy0, hnx0, hco, bind, Except.bind, pure, Except.pure]
    · intro a h1 h2 h3
      obtain ⟨h4, h5⟩ := h3 c (List.mem_cons_self _ _)
      rw [hfr3 a h4 h5]
      show upd (upd s.mem (c.1 + 8) y) (y + 8) 0 a = _
      rw [upd_other _ _ _ _ h2, upd_other _ _ _ _ h5]
  | cons e l ih =>
    intro c fuel s hfuel hl hbl hmy hcy hdis
    obtain ⟨f, rfl⟩ : ∃ f, fuel = f + 1 := ⟨fuel - 1, by simp at hfuel; omega⟩
    obtain ⟨_, hc0, hcsz, hnx⟩ := hl
    have hnxe : s.mem (c.1 + 8) = e.1 := hnx.1
    obtain ⟨⟨_, hc16, hcfit⟩, hcl⟩ := BlockList_head c (e :: l) hbl
    have hbl' := BlockList_tail c (e :: l) hbl
    obtain ⟨⟨he0, he16, hefit⟩, hel⟩ := BlockList_head e l hbl'
    have hdc := hdis c (List.mem_cons_self _ _)
    have hde := hdis e (List.mem_cons_of_mem _ (List.mem_cons_self _ _))
    have hce := hcl e (List.mem_cons_self _ _)
    have hlt : long_lt y e.1 = decide (y < e.1) := long_lt_low y e.1 (by omega) (by omega)
    by_cases hye : y < e.1
    · -- the block goes between `c` and `e`
      have hafter : ∀ e' ∈ e :: l, y + 16 ≤ e'.1 ∧ e'.1 + e'.2 < WORD ∧ c.1 + 16 < e'.1 := by
        intro e' he'
        have h1 := hcl e' he'
        have h2 := hdis e' (List.mem_cons_of_mem _ he')
        have h3 := (hbl'.1 e' he').2.2
        have h4 : e.1 ≤ e'.1 := by
          rcases List.mem_cons.mp he' with h | h
          · rw [h]
          · have := hel e' h; omega
        simp only [WORD]
        omega
      have hl2 : ListAt (upd (upd s.mem (y + 8) e.1) (c.1 + 8) y) y ((y, sz) :: e :: l) := by
        refine ⟨rfl, hy0, ?_, ?_⟩
        · show upd (upd s.mem (y + 8) e.1) (c.1 + 8) y y = sz
          rw [upd_other _ _ _ _ (by omega), upd_other _ _ _ _ (by omega), hmy]
        · show ListAt _ (upd (upd s.mem (y + 8) e.1) (c.1 + 8) y (y + 8)) (e :: l)
          rw [upd_other _ _ _ _ (by omega), upd_same]
          refine ListAt_frame s.mem _ (e :: l) _ (by rw [← hnxe]; exact hnx) (fun e' he' => ?_)
          obtain ⟨r1, _, r3⟩ := hafter e' he'
          constructor
          · rw [upd_other _ _ _ _ (by omega), upd_other _ _ _ _ (by omega)]
          · rw [upd_other _ _ _ _ (by omega), upd_other _ _ _ _ (by omega)]
      obtain ⟨s3, cf3, hco3, hl3, hfr3, hb3, hg3, hi3, hp3⟩ :=
        coalesce_next_spec { s with mem := upd (upd s.mem (y + 8) e.1) (c.1 + 8) y } y sz
          (e :: l) hl2 (by simp only [WORD]; omega)
          (fun e' he' => ⟨(hafter e' he').1, (hafter e' he').2.1⟩)
      have hl3c : ListAt s3.mem c.1 ((c.1, c.2) :: merge_next y sz (e :: l)) := by
        refine ⟨rfl, hc0, ?_, ?_⟩
        · show s3.mem c.1 = c.2
          rw [hfr3 _ (by omega) (by omega)]
          show upd (upd s.mem (y + 8) e.1) (c.1 + 8) y c.1 = _
          rw [upd_other _ _ _ _ (by omega), upd_other _ _ _ _ (by omega), hcsz]
        · show ListAt s3.mem (s3.mem (c.1 + 8)) _
          rw [hfr3 _ (by omega) (by omega)]
          show ListAt s3.mem (upd (upd s.mem (y + 8) e.1) (c.1 + 8) y (c.1 + 8)) _
          rw [upd_same]
          exact hl3
      obtain ⟨s4, cf4, hco4, hl4, hfr4, hb4, hg4, hi4, hp4⟩ :=
        coalesce_next_spec s3 c.1 c.2 (merge_next y sz (e :: l)) hl3c
          (by simp only [WORD]; omega)
          (by
            intro e' he'
            simp only [merge_next] at he'
            by_cases hadj : y + sz = e.1
            · rw [if_pos hadj] at he'
              rcases List.mem_cons.mp he' with h | h
              · subst h
                simp only [WORD]
                constructor <;> omega
              · obtain ⟨r1, r2, r3⟩ := hafter e' (List.mem_cons_of_mem _ h)
                exact ⟨by omega, r2⟩
            · rw [if_neg hadj] at he'
              rcases List.mem_cons.mp he' with h | h
              · subst h
                simp only [WORD]
                constructor <;> omega
              · obtain ⟨r1, r2, r3⟩ := hafter e' h
                exact ⟨by omega, r2⟩)
      refine ⟨s4, ?_, ?_, ?_, by rw [hb4, hb3], by rw [hg4, hg3], by rw [hi4, hi3],
        by rw [hp4, hp3]⟩
      · rw [insert_global_loop]
        simp [get_next, set_next, hc0, hy0, hnxe, he0, hlt, hye, hco3, hco4, bind,
          Except.bind, pure, Except.pure]
      · simp only [ins_after, hye, if_true]
        exact hl4
      · intro a h1 h2 h3
        obtain ⟨h4, h5⟩ := h3 c (List.mem_cons_self _ _)
        rw [hfr4 a h4 h5, hfr3 a h1 h2]
        show upd (upd s.mem (y + 8) e.1) (c.1 + 8) y a = _
        rw [upd_other _ _ _ _ h5, upd_other _ _ _ _ h2]
    · -- the walk moves on to `e`
      have hey : e.1 < y := by omega
      obtain ⟨s', hs', hl', hfr', hb', hg', hi', hp'⟩ :=
        ih e f s (by simp at hfuel ⊢; omega) (by rw [← hnxe]; exact hnx) hbl' hmy hey
          (fun e' he' => hdis e' (List.mem_cons_of_mem _ he'))
      have hcfr : ∀ a, (a = c.1 ∨ a = c.1 + 8) → s'.mem a = s.mem a := by
        intro a ha
        refine hfr' a (by omega) (by omega) (fun e' he' => ?_)
        have := hcl e' he'
        omega
      refine ⟨s', ?_, ?_, ?_, hb', hg', hi', hp'⟩
      · rw [insert_global_loop]
        simp [get_next, hc0, hnxe, he0, hlt, hye, hs', bind, Except.bind, pure, Except.pure]
      · simp only [ins_after, hye, if_false]
        refine ⟨rfl, hc0, ?_, ?_⟩
        · rw [hcfr _ (Or.inl rfl), hcsz]
        · rw [hcfr _ (Or.inr rfl), hnxe]
          exact hl'
      · intro a h1 h2 h3
        exact hfr' a h1 h2 (fun e' he' => h3 e' (List.mem_cons_of_mem _ he'))
/-- On an in-memory block list `insert_global_block` computes `arena_insert`, writes
    only headers of the list and of the block, and leaves the buckets alone. -/
theorem insert_global_block_spec (fuel : Nat) (s : State) (y sz : Nat)
    (l : List (Nat × Nat)) (hfuel : l.length < fuel)
    (hl : ListAt s.mem s.global_list l) (hbl : BlockList l) (hmy : s.mem y = sz)
    (hy0 : y ≠ 0) (hsz16 : 16 ≤ sz) (hyfit : y + sz ≤ 9223372036854775808)
    (hdis : ∀ e ∈ l, e.1 + e.2 ≤ y ∨ y + sz ≤ e.1) :
    ∃ s', insert_global_block fuel s y = .ok s' ∧
      ListAt s'.mem s'.global_list (arena_insert y sz l) ∧
      (∀ a, a ≠ y → a ≠ y + 8 → (∀ e ∈ l, a ≠ e.1 ∧ a ≠ e.1 + 8) → s'.mem a = s.mem a) ∧
      s'.buckets = s.buckets ∧ s'.init = s.init ∧ s'.pages = s.pages := by
  cases l with
  | nil =>
    have hgl : s.global_list = 0 := hl
    have hl1 : ListAt (upd s.mem (y + 8) 0) y [(y, sz)] := by
      refine ⟨rfl, hy0, ?_, ?_⟩
      · show upd s.mem (y + 8) 0 y = sz
        rw [upd_other _ _ _ _ (by omega), hmy]
      · show upd s.mem (y + 8) 0 (y + 8) = 0
        rw [upd_same]
    obtain ⟨s2, cf, hco, hl2, hfr2, hb2, _, hi2, hp2⟩ :=
      coalesce_next_spec { s with mem := upd s.mem (y + 8) 0 } y sz [] hl1
        (by simp only [WORD]; omega) (fun e he => absurd he (List.not_mem_nil _))
    refine ⟨{ s2 with global_list := y }, ?_, hl2, ?_, hb2, hi2, hp2⟩
    · simp only [hgl] at hco
      simp [insert_global_block, hgl, set_next, hy0, hco, bind, Except.bind, pure,
        Except.pure]
    · intro a h1 h2 _
      show s2.mem a = _
      rw [hfr2 a h1 h2]
      show upd s.mem (y + 8) 0 a = _
      rw [upd_other _ _ _ _ h2]
  | cons e l =>
    obtain ⟨hgl, he0, _, _⟩ := id hl
    obtain ⟨⟨_, he16, hefit⟩, hel⟩ := BlockList_head e l hbl
    have hde := hdis e (List.mem_cons_self _ _)
    have hlt : long_lt y e.1 = decide (y < e.1) := long_lt_low y e.1 (by omega) (by omega)
    by_cases hye : y < e.1
    · have hafter : ∀ e' ∈ e :: l, y + 16 ≤ e'.1 ∧ e'.1 + e'.2 < WORD := by
        intro e' he'
        have h2 := hdis e' he'
        have h3 := (hbl.1 e' he').2.2
        have h4 : e.1 ≤ e'.1 := by
          rcases List.mem_cons.mp he' with h | h
          · rw [h]
          · have := hel e' h; omega
        simp only [WORD]
        omega
      have hl1 : ListAt (upd s.mem (y + 8) e.1) y ((y, sz) :: e :: l) := by
        refine ⟨rfl, hy0, ?_, ?_⟩
        · show upd s.mem (y + 8) e.1 y = sz
          rw [upd_other _ _ _ _ (by omega), hmy]
        · show ListAt _ (upd s.mem (y + 8) e.1 (y + 8)) (e :: l)
          rw [upd_same]
          refine ListAt_frame s.mem _ (e :: l) _ (by rw [← hgl]; exact hl) (fun e' he' => ?_)
          obtain ⟨r1, _⟩ := hafter e' he'
          constructor
          · rw [upd_other _ _ _ _ (by omega)]
          · rw [upd_other _ _ _ _ (by omega)]
      obtain ⟨s2, cf, hco, hl2, hfr2, hb2, _, hi2, hp2⟩ :=
        coalesce_next_spec { s with mem := upd s.mem (y + 8) e.1 } y sz (e :: l) hl1
          (by simp only [WORD]; omega) hafter
      refine ⟨{ s2 with global_list := y }, ?_, ?_, ?_, hb2, hi2, hp2⟩
      · simp only [hgl] at hco
        simp [insert_global_block, hgl, hlt, hye, set_next, hy0, hco, bind, Except.bind, pure,
          Except.pure]
      · simp only [arena_insert, hye, if_true]
        exact hl2
      · intro a h1 h2 _
        show s2.mem a = _
        rw [hfr2 a h1 h2]
        show upd s.mem (y + 8) e.1 a = _
        rw [upd_other _ _ _ _ h2]
    · have hey : e.1 < y := by omega
      obtain ⟨s', hs', hl', hfr', hb', hg', hi', hp'⟩ :=
        insert_global_loop_spec y sz hy0 hsz16 hyfit l e fuel s
          (by simp at hfuel; omega) (by rw [← hgl]; exact hl) hbl hmy hey hdis
      refine ⟨s', ?_, ?_, hfr', hb', hi', hp'⟩
      · simp [insert_global_block, hgl, hlt, hye, he0, hs']
      · simp only [arena_insert, hye, if_false]
        rw [hg', hgl]
        exact hl'

theorem covered_nil (x : Nat) : covered [] x ↔ False := by
  simp [covered]

theorem covered_cons (e : Nat × Nat) (l : List (Nat × Nat)) (x : Nat) :
    covered (e :: l) x ↔ (e.1 ≤ x ∧ x < e.1 + e.2) ∨ covered l x := by
  simp [covered]

theorem covered_merge_next (a sa : Nat) (l : List (Nat × Nat)) (x : Nat) :
    covered (merge_next a sa l) x ↔ covered ((a, sa) :: l) x := by
  cases l with
  | nil => simp [merge_next]
  | cons e l =>
    simp only [merge_next]
    by_cases h : a + sa = e.1
    · rw [if_pos h]
      simp only [covered_cons]
      constructor
      · rintro (h1 | h1)
        · by_cases hx : x < a + sa
          · left; omega
          · right; left; omega
        · right; right; exact h1
      · rintro (h1 | h1 | h1)
        · left; omega
        · left; omega
        · right; exact h1
    · rw [if_neg h]

theorem covered_ins_after (y sz : Nat) (l : List (Nat × Nat)) :
    ∀ (c : Nat × Nat) (x : Nat),
      covered (ins_after y sz c l) x ↔ covered (c :: l) x ∨ (y ≤ x ∧ x < y + sz) := by
  induction l with
  | nil =>
    intro c x
    simp only [ins_after, covered_merge_next, covered_cons, covered_nil]
    tauto
  | cons e l ih =>
    intro c x
    simp only [ins_after]
    by_cases h : y < e.1
    · rw [if_pos h]
      simp only [covered_merge_next, covered_cons]
      tauto
    · rw [if_neg h]
      rw [covered_cons, ih e x, covered_cons c (e :: l)]
      tauto

/-- The bytes covered by the arena after an insertion: the old ones and the block. -/
theorem covered_arena_insert (y sz : Nat) (l : List (Nat × Nat)) (x : Nat) :
    covered (arena_insert y sz l) x ↔ covered l x ∨ (y ≤ x ∧ x < y + sz) := by
  cases l with
  | nil => simp [arena_insert, covered_cons, covered_nil]
  | cons e l =>
    simp only [arena_insert]
    by_cases h : y < e.1
    · rw [if_pos h, covered_merge_next, covered_cons]
      tauto
    · rw [if_neg h]
      exact covered_ins_after y sz l e x


/-- The result of `div_up` multiplied by `C` is `round_chunk`. -/
theorem div_up_round (n : Nat) (hn : n < 9223372036854775808) :
    ∃ nb, div_up n LOCAL_SIZE_MAX = .ok nb ∧
      (nb * LOCAL_SIZE_MAX) % WORD = round_chunk n := by
  simp only [div_up, LOCAL_SIZE_MAX, WORD, round_chunk]
  by_cases h : n / 1048576 * 1048576 = n
  · refine ⟨n / 1048576, by simp [h], ?_⟩
    omega
  · refine ⟨(n / 1048576 + 1) % 18446744073709551616, by simp [h], ?_⟩
    omega

theorem bind_ok {α β : Type} (a : α) (f : α → Except Fault β) : (Except.ok a >>= f) = f a := rfl

theorem pure_ok {α : Type} (a : α) : (pure a : Except Fault α) = Except.ok a := rfl

/-- The shrink path of `xrealloc` in the large regime, as the sequence of calls it makes. -/
theorem xrealloc_shrink_path (fuel : Nat) (s : State) (x b nb r S : Nat) (hinit : s.init = 1)
    (hb0 : b ≠ 0) (hmod : (b + 8) % WORD = b + 8) (hbC : b + 8 > LOCAL_SIZE_MAX)
    (hdiv : div_up (b + 8) LOCAL_SIZE_MAX = .ok nb) (hnb : (nb * LOCAL_SIZE_MAX) % WORD = r)
    (hx0 : x ≠ 0) (hxS : s.mem x = S) (q1 : ¬ (r = S)) (q2 : ¬ (r > S))
    (q3 : r > LOCAL_SIZE_MAX) :
    xrealloc fuel s (x + 8) b =
      (split_block s x r >>= fun r1 =>
        insert_global_block fuel r1.1 r1.2 >>= fun s2 => pure (s2, x + 8)) := by
  unfold xrealloc
  rw [if_neg (by rw [hinit]; simp), if_neg hb0]
  simp only [hmod, if_pos hbC, hdiv, bind_ok, pure_ok, hnb, Nat.add_sub_cancel, get_size,
    if_neg hx0, hxS, if_neg q1, if_neg q2, if_pos q3]

/-- The effect of `split_block` on a block larger than `size`. -/
theorem split_block_split (s : State) (block size bsz : Nat) (h0 : block ≠ 0)
    (hsz : s.mem block = bsz) (hlt : size < bsz) (hfit : block + bsz ≤ WORD) :
    split_block s block size =
      .ok ({ s with mem := upd (upd s.mem (block + size) (bsz - size)) block size },
        block + size) := by
  simp only [WORD] at hfit
  have hmod : (block + size) % 18446744073709551616 = block + size :=
    Nat.mod_eq_of_lt (by omega)
  have hsub : (bsz + 18446744073709551616 - size % 18446744073709551616) %
      18446744073709551616 = bsz - size := by omega
  have q1 : ¬ (bsz = size) := by omega
  have q2 : block + size ≠ 0 := by omega
  simp only [split_block, get_size, if_neg h0, hsz, bind_ok, if_neg q1, WORD, hmod, hsub,
    set_size, if_neg q2, pure_ok]

/-- C9: the caller owns the block at `x` of recorded size `S`, a multiple of `C`;
    the arena is an in-memory list satisfying the arena invariants and disjoint from
    the block; `b > 0` and the rounded size `r` of `b` satisfies `C < r < S`.  Then
    `xrealloc(x + 8, b)` returns the same pointer (any fuel above the length of the
    arena), the recorded size of the block becomes `r`, no bucket changes, and the
    bytes covered by the arena list are the previous ones plus exactly
    `[x + r, x + S)`. -/
theorem large_shrink_splits_in_place (fuel : Nat) (s : State) (x S b : Nat)
    (l : List (Nat × Nat)) (hfuel : l.length < fuel) (hinit : s.init = 1)
    (hx0 : x ≠ 0) (hxS : s.mem x = S) (hSC : LOCAL_SIZE_MAX ∣ S)
    (hxfit : x + S ≤ 9223372036854775808)
    (hl : ListAt s.mem s.global_list l) (hinv : ArenaInv l)
    (hown : ∀ e ∈ l, e.1 + e.2 ≤ x ∨ x + S ≤ e.1)
    (hb : 0 < b) (hlo : LOCAL_SIZE_MAX < round_chunk (b + 8))
    (hhi : round_chunk (b + 8) < S) :
    ∃ s', xrealloc fuel s (x + 8) b = .ok (s', x + 8) ∧
      s'.mem x = round_chunk (b + 8) ∧
      (∀ i, s'.buckets i = s.buckets i) ∧
      ∃ l', ListAt s'.mem s'.global_list l' ∧
        ∀ a, covered l' a ↔ covered l a ∨ (x + round_chunk (b + 8) ≤ a ∧ a < x + S) := by
  obtain ⟨k, hk⟩ := hSC
  have hrdef : round_chunk (b + 8) = (b + 8 + 1048575) / 1048576 * 1048576 := rfl
  generalize hr : round_chunk (b + 8) = r at *
  simp only [LOCAL_SIZE_MAX] at hlo hk
  have hbr : b + 8 ≤ r := by omega
  have hbC : b + 8 > LOCAL_SIZE_MAX := by simp only [LOCAL_SIZE_MAX]; omega
  have hSr : 1048576 ≤ S - r := by omega
  obtain ⟨nb, hdiv, hnb⟩ := div_up_round (b + 8) (by omega)
  rw [hr] at hnb
  have hmod : (b + 8) % WORD = b + 8 := Nat.mod_eq_of_lt (by simp only [WORD]; omega)
  have hb0 : b ≠ 0 := by omega
  have hfr1 : ∀ e ∈ l, ∀ a, (a = e.1 ∨ a = e.1 + 8) →
      upd (upd s.mem (x + r) (S - r)) x r a = s.mem a := by
    intro e he a ha
    have h1 := hown e he
    have h2 := (hinv.1.1 e he).2.1
    rw [upd_other _ _ _ _ (by omega), upd_other _ _ _ _ (by omega)]
  have hl1 : ListAt (upd (upd s.mem (x + r) (S - r)) x r) s.global_list l :=
    ListAt_frame s.mem _ l _ hl (fun e he =>
      ⟨hfr1 e he _ (Or.inl rfl), hfr1 e he _ (Or.inr rfl)⟩)
  obtain ⟨s', hs', hl', hfr', hb', _, _⟩ :=
    insert_global_block_spec fuel { s with mem := upd (upd s.mem (x + r) (S - r)) x r }
      (x + r) (S - r) l hfuel hl1 hinv.1
      (by show upd (upd s.mem (x + r) (S - r)) x r (x + r) = S - r
          rw [upd_other _ _ _ _ (by omega), upd_same])
      (by omega) (by omega) (by omega)
      (fun e he => by have := hown e he; omega)
  refine ⟨s', ?_, ?_, fun i => by rw [hb'], arena_insert (x + r) (S - r) l, hl', ?_⟩
  · have q1 : ¬ (r = S) := by omega
    have q2 : ¬ (r > S) := by omega
    have q3 : r > LOCAL_SIZE_MAX := by simp only [LOCAL_SIZE_MAX]; omega
    rw [xrealloc_shrink_path fuel s x b nb r S hinit hb0 hmod hbC hdiv hnb hx0 hxS q1 q2 q3,
      split_block_split s x r S hx0 hxS (by omega) (by simp only [WORD]; omega), bind_ok]
    simp only [hs', bind_ok, pure_ok]
  · have e1 : x ≠ x + r := by omega
    have e2 : x ≠ x + r + 8 := by omega
    have e3 : ∀ e ∈ l, x ≠ e.1 ∧ x ≠ e.1 + 8 := by
      intro e he
      have h1 := hown e he
      have h2 := (hinv.1.1 e he).2.1
      constructor <;> omega
    rw [hfr' x e1 e2 e3]
    show upd (upd s.mem (x + r) (S - r)) x r x = r
    rw [upd_same]
  · intro a
    rw [covered_arena_insert]
    have : x + r + (S - r) = x + S := by omega
    rw [this]



/-- C9 at a concrete state: the caller owns the block of `5C` bytes at `2 ^ 30`, the
    arena is the rest of the seed, and the block is shrunk to `2C - 8` bytes. -/
theorem large_shrink_splits_in_place_witness :
    ∃ s', xrealloc 2
        { mem := upd (upd (fun _ => 0) 1073741824 5242880) 1078984704 1068498944,
          global_list := 1078984704, buckets := fun _ => 0, init := 1, pages := [] }
        (1073741824 + 8) 2097144 = .ok (s', 1073741824 + 8) ∧
      s'.mem 1073741824 = round_chunk (2097144 + 8) ∧
      (∀ i, s'.buckets i = 0) ∧
      ∃ l', ListAt s'.mem s'.global_list l' ∧
        ∀ a, covered l' a ↔ covered [(1078984704, 1068498944)] a ∨
          (1073741824 + round_chunk (2097144 + 8) ≤ a ∧ a < 1073741824 + 5242880) :=
  large_shrink_splits_in_place 2
    { mem := upd (upd (fun _ => 0) 1073741824 5242880) 1078984704 1068498944,
      global_list := 1078984704, buckets := fun _ => 0, init := 1, pages := [] }
    1073741824 5242880 2097144 [(1078984704, 1068498944)] (by decide) rfl (by decide) rfl
    ⟨5, by decide⟩ (by decide) ⟨rfl, by decide, rfl, rfl⟩
    ⟨⟨by simp, by simp⟩, fun e he => by
      simp only [List.mem_singleton] at he
      subst he
      exact ⟨by decide, ⟨1019, by decide⟩⟩⟩
    (by simp) (by decide) (by decide) (by decide)


/-! ## `find_global_block` when no arena entry fits -/

/-- The walk of `find_global_block` over an in-memory list whose entries behind the
    current one are all too small finds nothing and changes nothing. -/
theorem find_global_loop_miss (size : Nat) :
    ∀ (l : List (Nat × Nat)) (c : Nat × Nat) (fuel : Nat) (s : State) (out : Nat),
      l.length < fuel → ListAt s.mem c.1 (c :: l) → (∀ e ∈ l, e.2 < size) →
      find_global_loop fuel s size c.1 out = .ok (s, out) := by
  intro l
  induction l with
  | nil =>
    intro c fuel s out hfuel hl _
    obtain ⟨f, rfl⟩ : ∃ f, fuel = f + 1 := ⟨fuel - 1, by simp at hfuel; omega⟩
    obtain ⟨_, hc0, _, hnx⟩ := hl
    have hnx0 : s.mem (c.1 + 8) = 0 := hnx
    rw [find_global_loop]
    simp only [get_next, if_neg hc0, hnx0, bind_ok, if_true, pure_ok]
  | cons e l ih =>
    intro c fuel s out hfuel hl hsmall
    obtain ⟨f, rfl⟩ : ∃ f, fuel = f + 1 := ⟨fuel - 1, by simp at hfuel; omega⟩
    obtain ⟨_, hc0, _, hnx⟩ := hl
    have hnxe : s.mem (c.1 + 8) = e.1 := hnx.1
    have he0 : e.1 ≠ 0 := hnx.2.1
    have hesz : s.mem e.1 = e.2 := hnx.2.2.1
    have hlt : ¬ (e.2 ≥ size) := by
      have := hsmall e (List.mem_cons_self _ _); omega
    rw [find_global_loop]
    simp only [get_next, get_size, if_neg hc0, hnxe, bind_ok, if_neg he0, hesz, if_neg hlt]
    exact ih e f s out (by simp at hfuel ⊢; omega) (by rw [← hnxe]; exact hnx)
      (fun e' he' => hsmall e' (List.mem_cons_of_mem _ he'))

/-- On a non-empty arena list without a fitting entry `find_global_block` returns
    the region obtained from the page source, with the rounded size in its header,
    and leaves the arena list as it was (the region being fresh: disjoint from the
    headers of the arena). -/
theorem find_global_block_miss (fuel : Nat) (s : State) (size0 nb r p : Nat)
    (c : Nat × Nat) (l : List (Nat × Nat)) (rest : List Nat)
    (hdiv : div_up size0 LOCAL_SIZE_MAX = .ok nb)
    (hr : (nb * LOCAL_SIZE_MAX) % WORD = r)
    (hl : ListAt s.mem s.global_list (c :: l)) (hsmall : ∀ e ∈ c :: l, e.2 < r)
    (hfuel : l.length < fuel) (hpages : s.pages = p :: rest) (hp0 : p ≠ 0)
    (hp1 : p ≠ WORD - 1) (hfresh : ∀ e ∈ c :: l, e.1 + 16 ≤ p ∨ p + r ≤ e.1) :
    ∃ s', find_global_block fuel s size0 = .ok (s', p) ∧ s'.mem p = r ∧
      s'.global_list = s.global_list ∧ ListAt s'.mem s'.global_list (c :: l) ∧
      s'.buckets = s.buckets ∧ s'.pages = rest := by
  have hgl : s.global_list = c.1 := hl.1
  have hc0 : c.1 ≠ 0 := hl.2.1
  have hcsz : s.mem c.1 = c.2 := hl.2.2.1
  have hlt : ¬ (c.2 ≥ r) := by
    have := hsmall c (List.mem_cons_self _ _); omega
  have hloop := find_global_loop_miss r l c fuel s 0 hfuel (by rw [← hgl]; exact hl)
    (fun e he => hsmall e (List.mem_cons_of_mem _ he))
  refine ⟨{ s with pages := rest,
                   mem := upd (fun a => if p ≤ a ∧ a < p + r then 0 else s.mem a) p r },
    ?_, by simp [upd_same], rfl, ?_, rfl, rfl⟩
  · unfold find_global_block
    simp only [hdiv, bind_ok, hr, get_size, hgl, if_neg hc0, hcsz, if_neg hlt, hloop, if_true,
      mmap, hpages, if_neg hp1, set_size, if_neg hp0, pure_ok]
  · refine ListAt_frame s.mem _ (c :: l) _ hl (fun e he => ?_)
    have h1 := hfresh e he
    constructor
    · show upd (fun a => if p ≤ a ∧ a < p + r then 0 else s.mem a) p r e.1 = s.mem e.1
      rw [upd_other _ _ _ _ (by omega)]
      exact if_neg (by omega)
    · show upd (fun a => if p ≤ a ∧ a < p + r then 0 else s.mem a) p r (e.1 + 8) =
        s.mem (e.1 + 8)
      rw [upd_other _ _ _ _ (by omega)]
      exact if_neg (by omega)


/-! ## Reallocation to size zero -/

/-- C7: `xrealloc(p, 0)` is `xfree(p)` followed by returning the null pointer:
    whatever the state, the pointer and the fuel, it faults exactly when `xfree`
    faults and otherwise returns `0` with the state `xfree` produces. -/
theorem xrealloc_zero_is_xfree (fuel : Nat) (s : State) (p : Nat) :
    xrealloc fuel s p 0 = (xfree fuel s p).map (fun s1 => (s1, 0)) := by
  unfold xrealloc xfree
  by_cases hinit : s.init = 1
  · simp only [hinit, ne_eq, not_true_eq_false, if_false, if_true]
    cases h : (get_size s (p - 8) >>= fun bsz =>
      if bsz > LOCAL_SIZE_MAX then insert_global_block fuel s (p - 8)
      else insert_local_block fuel s (p - 8)) <;> simp_all [bind, Except.bind, Except.map, pure, Except.pure]
  · simp [hinit, Except.map]


/-! ## The arena invariants under `insert_global_block` -/

theorem mem_merge_next (a sa : Nat) (l : List (Nat × Nat)) (b : Nat × Nat)
    (hb : b ∈ merge_next a sa l) :
    b ∈ l ∨ b = (a, sa) ∨ ∃ e ∈ l, a + sa = e.1 ∧ b = (a, sa + e.2) := by
  cases l with
  | nil =>
    simp only [merge_next, List.mem_singleton] at hb
    exact Or.inr (Or.inl hb)
  | cons e l =>
    simp only [merge_next] at hb
    by_cases h : a + sa = e.1
    · rw [if_pos h] at hb
      rcases List.mem_cons.mp hb with hb | hb
      · exact Or.inr (Or.inr ⟨e, List.mem_cons_self _ _, h, hb⟩)
      · exact Or.inl (List.mem_cons_of_mem _ hb)
    · rw [if_neg h] at hb
      rcases List.mem_cons.mp hb with hb | hb
      · exact Or.inr (Or.inl hb)
      · exact Or.inl hb

/-- Merging the first entry with its neighbour keeps a block list a block list. -/
theorem BlockList_merge_next (a sa : Nat) (l : List (Nat × Nat)) (hl : BlockList l)
    (ha : a ≠ 0) (hsa : 16 ≤ sa) (hfit : a + sa ≤ 9223372036854775808)
    (hlt : ∀ e ∈ l, a + sa ≤ e.1) : BlockList (merge_next a sa l) := by
  cases l with
  | nil =>
    simp only [merge_next]
    exact ⟨fun e he => by rw [List.mem_singleton.mp he]; exact ⟨ha, hsa, hfit⟩,
      List.pairwise_singleton _ _⟩
  | cons e l =>
    have he := hl.1 e (List.mem_cons_self _ _)
    have hp := List.pairwise_cons.mp hl.2
    simp only [merge_next]
    by_cases h : a + sa = e.1
    · rw [if_pos h]
      refine ⟨fun b hb => ?_, List.pairwise_cons.mpr ⟨fun b hb => ?_, hp.2⟩⟩
      · rcases List.mem_cons.mp hb with hb | hb
        · rw [hb]; simp only; omega
        · exact hl.1 b (List.mem_cons_of_mem _ hb)
      · have := hp.1 b hb
        simp only; omega
    · rw [if_neg h]
      have hae := hlt e (List.mem_cons_self _ _)
      refine ⟨fun b hb => ?_, List.pairwise_cons.mpr ⟨fun b hb => ?_, hl.2⟩⟩
      · rcases List.mem_cons.mp hb with hb | hb
        · rw [hb]; exact ⟨ha, hsa, hfit⟩
        · exact hl.1 b hb
      · rcases List.mem_cons.mp hb with hb | hb
        · rw [hb]; simp only; omega
        · have := hlt b (List.mem_cons_of_mem _ hb)
          have := hp.1 b hb
          have := hl.1 b (List.mem_cons_of_mem _ hb)
          simp only; omega

theorem merge_next_head (a sa : Nat) (l : List (Nat × Nat)) :
    ∃ sa' l', merge_next a sa l = (a, sa') :: l' ∧ sa ≤ sa' ∧ (∀ b ∈ l', b ∈ l) := by
  cases l with
  | nil => exact ⟨sa, [], rfl, le_refl _, fun b hb => hb⟩
  | cons e l =>
    simp only [merge_next]
    by_cases h : a + sa = e.1
    · rw [if_pos h]
      exact ⟨sa + e.2, l, rfl, by omega, fun b hb => List.mem_cons_of_mem _ hb⟩
    · rw [if_neg h]
      exact ⟨sa, e :: l, rfl, le_refl _, fun b hb => hb⟩

/-- The walk of `insert_global_block` keeps a block list a block list, and the
    first entry stays where it was. -/
theorem BlockList_ins_after (y sz : Nat) (hy0 : y ≠ 0) (hsz : 16 ≤ sz)
    (hyfit : y + sz ≤ 9223372036854775808) :
    ∀ (l : List (Nat × Nat)) (c : Nat × Nat), BlockList (c :: l) → c.1 < y →
      (∀ e ∈ c :: l, e.1 + e.2 ≤ y ∨ y + sz ≤ e.1) →
      BlockList (ins_after y sz c l) ∧ ∀ b ∈ ins_after y sz c l, c.1 ≤ b.1 := by
  intro l
  induction l with
  | nil =>
    intro c hbl hcy hdis
    have hc := hbl.1 c (List.mem_cons_self _ _)
    have hd := hdis c (List.mem_cons_self _ _)
    simp only [ins_after]
    constructor
    · refine BlockList_merge_next c.1 c.2 [(y, sz)] ?_ hc.1 hc.2.1 hc.2.2 ?_
      · exact ⟨fun e he => by rw [List.mem_singleton.mp he]; exact ⟨hy0, hsz, hyfit⟩,
          List.pairwise_singleton _ _⟩
      · intro e he; rw [List.mem_singleton.mp he]; simp only; omega
    · intro b hb
      rcases mem_merge_next _ _ _ _ hb with hb | hb | ⟨e, _, _, hb⟩
      · rw [List.mem_singleton.mp hb]; simp only; omega
      · rw [hb]
      · rw [hb]
  | cons e l ih =>
    intro c hbl hcy hdis
    have hc := hbl.1 c (List.mem_cons_self _ _)
    have hd := hdis c (List.mem_cons_self _ _)
    have hbt := BlockList_tail c (e :: l) hbl
    have hce := (BlockList_head c (e :: l) hbl).2
    have hde := hdis e (List.mem_cons_of_mem _ (List.mem_cons_self _ _))
    simp only [ins_after]
    by_cases h : y < e.1
    · rw [if_pos h]
      have hlt : ∀ b ∈ e :: l, y + sz ≤ b.1 := by
        intro b hb
        rcases List.mem_cons.mp hb with hb | hb
        · rw [hb]; omega
        · have := (BlockList_head e l hbt).2 b hb
          omega
      have h1 := BlockList_merge_next y sz (e :: l) hbt hy0 hsz hyfit hlt
      have hmem : ∀ b ∈ merge_next y sz (e :: l), c.1 + c.2 ≤ b.1 := by
        intro b hb
        rcases mem_merge_next _ _ _ _ hb with hb | hb | ⟨e', _, _, hb⟩
        · have := hce b hb; omega
        · rw [hb]; simp only; omega
        · rw [hb]; simp only; omega
      constructor
      · exact BlockList_merge_next c.1 c.2 _ h1 hc.1 hc.2.1 hc.2.2 hmem
      · intro b hb
        rcases mem_merge_next _ _ _ _ hb with hb | hb | ⟨e', _, _, hb⟩
        · have := hmem b hb; omega
        · rw [hb]
        · rw [hb]
    · rw [if_neg h]
      have hey : e.1 < y := by
        have := hbt.1 e (List.mem_cons_self _ _)
        omega
      obtain ⟨i1, i2⟩ := ih e hbt hey (fun b hb => hdis b (List.mem_cons_of_mem _ hb))
      have hce' := hce e (List.mem_cons_self _ _)
      constructor
      · refine ⟨fun b hb => ?_, List.pairwise_cons.mpr ⟨fun b hb => ?_, i1.2⟩⟩
        · rcases List.mem_cons.mp hb with hb | hb
          · rw [hb]; exact hc
          · exact i1.1 b hb
        · have := i2 b hb; omega
      · intro b hb
        rcases List.mem_cons.mp hb with hb | hb
        · rw [hb]
        · have := i2 b hb; omega

/-- Inserting a disjoint block keeps a block list a block list. -/
theorem BlockList_arena_insert (y sz : Nat) (l : List (Nat × Nat)) (hl : BlockList l)
    (hy0 : y ≠ 0) (hsz : 16 ≤ sz) (hyfit : y + sz ≤ 9223372036854775808)
    (hdis : ∀ e ∈ l, e.1 + e.2 ≤ y ∨ y + sz ≤ e.1) : BlockList (arena_insert y sz l) := by
  cases l with
  | nil =>
    exact ⟨fun e he => by rw [List.mem_singleton.mp he]; exact ⟨hy0, hsz, hyfit⟩,
      List.pairwise_singleton _ _⟩
  | cons e l =>
    simp only [arena_insert]
    have he := hl.1 e (List.mem_cons_self _ _)
    have hd := hdis e (List.mem_cons_self _ _)
    by_cases h : y < e.1
    · rw [if_pos h]
      refine BlockList_merge_next y sz (e :: l) hl hy0 hsz hyfit ?_
      intro b hb
      rcases List.mem_cons.mp hb with hb | hb
      · rw [hb]; omega
      · have := (BlockList_head e l hl).2 b hb
        omega
    · rw [if_neg h]
      have hey : e.1 < y := by omega
      exact (BlockList_ins_after y sz hy0 hsz hyfit l e hl hey hdis).1

/-- A property of sizes that sums keep holds of every entry after `merge_next`. -/
theorem sizes_merge_next (P : Nat → Prop) (hadd : ∀ m n, P m → P n → P (m + n))
    (a sa : Nat) (l : List (Nat × Nat)) (hsa : P sa) (hl : ∀ e ∈ l, P e.2) :
    ∀ b ∈ merge_next a sa l, P b.2 := by
  intro b hb
  rcases mem_merge_next _ _ _ _ hb with hb | hb | ⟨e, he, _, hb⟩
  · exact hl b hb
  · rw [hb]; exact hsa
  · rw [hb]; exact hadd _ _ hsa (hl e he)

theorem sizes_ins_after (P : Nat → Prop) (hadd : ∀ m n, P m → P n → P (m + n))
    (y sz : Nat) (hsz : P sz) :
    ∀ (l : List (Nat × Nat)) (c : Nat × Nat), (∀ e ∈ c :: l, P e.2) →
      ∀ b ∈ ins_after y sz c l, P b.2 := by
  intro l
  induction l with
  | nil =>
    intro c hl
    simp only [ins_after]
    refine sizes_merge_next P hadd _ _ _ (hl c (List.mem_cons_self _ _)) ?_
    intro e he; rw [List.mem_singleton.mp he]; exact hsz
  | cons e l ih =>
    intro c hl
    have hl' : ∀ b ∈ e :: l, P b.2 := fun b hb => hl b (List.mem_cons_of_mem _ hb)
    simp only [ins_after]
    by_cases h : y < e.1
    · rw [if_pos h]
      exact sizes_merge_next P hadd _ _ _ (hl c (List.mem_cons_self _ _))
        (sizes_merge_next P hadd _ _ _ hsz hl')
    · rw [if_neg h]
      intro b hb
      rcases List.mem_cons.mp hb with hb | hb
      · rw [hb]; exact hl c (List.mem_cons_self _ _)
      · exact ih e hl' b hb

theorem sizes_arena_insert (P : Nat → Prop) (hadd : ∀ m n, P m → P n → P (m + n))
    (y sz : Nat) (hsz : P sz) (l : List (Nat × Nat)) (hl : ∀ e ∈ l, P e.2) :
    ∀ b ∈ arena_insert y sz l, P b.2 := by
  cases l with
  | nil => intro b hb; rw [List.mem_singleton.mp hb]; exact hsz
  | cons e l =>
    simp only [arena_insert]
    by_cases h : y < e.1
    · rw [if_pos h]; exact sizes_merge_next P hadd _ _ _ hsz hl
    · rw [if_neg h]; exact sizes_ins_after P hadd y sz hsz l e hl

theorem total_size_cons (e : Nat × Nat) (l : List (Nat × Nat)) :
    total_size (e :: l) = e.2 + total_size l := by
  simp [total_size]

theorem total_size_merge_next (a sa : Nat) (l : List (Nat × Nat)) :
    total_size (merge_next a sa l) = sa + total_size l := by
  cases l with
  | nil => simp [merge_next, total_size]
  | cons e l =>
    simp only [merge_next]
    by_cases h : a + sa = e.1
    · rw [if_pos h]; simp only [total_size_cons]; omega
    · rw [if_neg h]; simp only [total_size_cons]

theorem total_size_ins_after (y sz : Nat) :
    ∀ (l : List (Nat × Nat)) (c : Nat × Nat),
      total_size (ins_after y sz c l) = c.2 + (sz + total_size l) := by
  intro l
  induction l with
  | nil =>
    intro c
    simp only [ins_after, total_size_merge_next, total_size_cons]
  | cons e l ih =>
    intro c
    simp only [ins_after]
    by_cases h : y < e.1
    · rw [if_pos h]; simp only [total_size_merge_next, total_size_cons]
    · rw [if_neg h]; simp only [total_size_cons, ih]; omega

theorem total_size_arena_insert (y sz : Nat) (l : List (Nat × Nat)) :
    total_size (arena_insert y sz l) = total_size l + sz := by
  cases l with
  | nil => simp [arena_insert, total_size]
  | cons e l =>
    simp only [arena_insert]
    by_cases h : y < e.1
    · rw [if_pos h]; simp only [total_size_merge_next, total_size_cons]; omega
    · rw [if_neg h]; simp only [total_size_ins_after, total_size_cons]; omega

/-- Inserting a disjoint block whose size is a positive multiple of `C` keeps the
    arena invariants. -/
theorem ArenaInv_arena_insert (y sz : Nat) (l : List (Nat × Nat)) (hl : ArenaInv l)
    (hy0 : y ≠ 0) (hpos : 0 < sz) (hC : LOCAL_SIZE_MAX ∣ sz)
    (hyfit : y + sz ≤ 9223372036854775808)
    (hdis : ∀ e ∈ l, e.1 + e.2 ≤ y ∨ y + sz ≤ e.1) : ArenaInv (arena_insert y sz l) := by
  have hsz : 16 ≤ sz := by
    have := Nat.le_of_dvd hpos hC
    simp only [LOCAL_SIZE_MAX] at this
    omega
  refine ⟨BlockList_arena_insert y sz l hl.1 hy0 hsz hyfit hdis, ?_⟩
  exact sizes_arena_insert (fun n => 0 < n ∧ LOCAL_SIZE_MAX ∣ n)
    (fun m n hm hn => ⟨by omega, Dvd.dvd.add hm.2 hn.2⟩) y sz ⟨hpos, hC⟩ l hl.2

/-- **C16.** `insert_global_block` keeps the arena invariants and adds exactly the
    bytes of the released block.  For every in-memory arena list `l` (possibly
    empty) that satisfies the arena invariants (finite, strictly ascending, entries
    disjoint and not adjacent, sizes positive multiples of `C`) and every block
    `(y, sz)` with `sz` a positive multiple of `C` that is disjoint from every entry,
    the call returns (fuel above the length of the list), the resulting in-memory
    list satisfies the same invariants, a byte is covered by it exactly when it was
    covered before or lies in `[y, y + sz)`, and the total size grows by `sz`. -/
theorem insert_global_block_keeps_arena (fuel : Nat) (s : State) (y sz : Nat)
    (l : List (Nat × Nat)) (hfuel : l.length < fuel)
    (hl : ListAt s.mem s.global_list l) (hinv : ArenaInv l) (hmy : s.mem y = sz)
    (hy0 : y ≠ 0) (hpos : 0 < sz) (hC : LOCAL_SIZE_MAX ∣ sz)
    (hyfit : y + sz ≤ 9223372036854775808)
    (hdis : ∀ e ∈ l, e.1 + e.2 ≤ y ∨ y + sz ≤ e.1) :
    ∃ s' l', insert_global_block fuel s y = .ok s' ∧
      ListAt s'.mem s'.global_list l' ∧ ArenaInv l' ∧
      (∀ x, covered l' x ↔ covered l x ∨ (y ≤ x ∧ x < y + sz)) ∧
      total_size l' = total_size l + sz ∧ s'.buckets = s.buckets := by
  have hsz : 16 ≤ sz := by
    have := Nat.le_of_dvd hpos hC
    simp only [LOCAL_SIZE_MAX] at this
    omega
  obtain ⟨s', h1, h2, _, h4, _, _⟩ :=
    insert_global_block_spec fuel s y sz l hfuel hl hinv.1 hmy hy0 hsz hyfit hdis
  exact ⟨s', arena_insert y sz l, h1, h2,
    ArenaInv_arena_insert y sz l hinv hy0 hpos hC hyfit hdis,
    fun x => covered_arena_insert y sz l x, total_size_arena_insert y sz l, h4⟩

/-! ## The result of a cache miss -/

/-- **C17.** The split-down result of `find_local_block`.  Let `i` be the class of
    the request (`4 ≤ i ≤ 20`) and let either `j ≥ i` be the first non-empty bucket
    at or above `i`, with head `h` of size `2 ^ j`, or let every bucket from `i` up
    be empty, `j = 20`, and `h` be the arena head (size at least `C`), from which
    the refill cuts the chunk.  Then `find_local_block` returns `h` with size field
    `2 ^ i`, every bucket `t` with `i ≤ t < j` is exactly the one-element list
    holding the block `h + 2 ^ t` of size `2 ^ t`, bucket `j` is the previous tail
    of `h` (empty after a refill), and every other bucket is unchanged.  A direct
    hit (`j = i`) changes nothing but the head of bucket `i`. -/
theorem find_local_block_split_result (fuel : Nat) (s : State) (size0 i j h : Nat)
    (hlu : log_up size0 = .ok i) (hi : 4 ≤ i) (hij : i ≤ j) (hj : j ≤ 20)
    (hempty : ∀ t, i ≤ t → t < j → s.buckets t = 0) (h0 : h ≠ 0)
    (hcase : (s.buckets j = h ∧ s.mem h = 2 ^ j ∧ h + 2 ^ j ≤ WORD) ∨
      (j = 20 ∧ s.buckets 20 = 0 ∧ s.global_list = h ∧ LOCAL_SIZE_MAX ≤ s.mem h ∧
        h + s.mem h < WORD)) :
    ∃ s', find_local_block fuel s size0 = .ok (s', h) ∧ s'.mem h = 2 ^ i ∧
      (∀ t, i ≤ t → t < j → ListAt s'.mem (s'.buckets t) [(h + 2 ^ t, 2 ^ t)]) ∧
      (s.buckets j = h → s'.buckets j = s.mem (h + 8)) ∧
      (s.buckets j = 0 → s'.buckets j = 0) ∧
      (∀ t, t < i ∨ j < t → s'.buckets t = s.buckets t) ∧
      (s.buckets j = h → s'.global_list = s.global_list ∧
        ∀ a, a < h ∨ h + 2 ^ j ≤ a → s'.mem a = s.mem a) ∧
      (s.buckets j = h → j = i → s' = set_bucket s i (s.mem (h + 8))) := by
  have hone : ∀ (s' : State) (t : Nat), 4 ≤ t → s'.buckets t = h + 2 ^ t →
      s'.mem (h + 2 ^ t) = 2 ^ t ∧ s'.mem (h + 2 ^ t + 8) = 0 →
      ListAt s'.mem (s'.buckets t) [(h + 2 ^ t, 2 ^ t)] := by
    intro s' t ht hb hm
    have := pow_ge_16 t ht
    exact ⟨hb, by simp only; omega, hm.1, hm.2⟩
  rcases hcase with ⟨hb, hsz, hfit⟩ | ⟨hj20, hb20, hgl, hSC, hfit⟩
  · by_cases hji : j = i
    · subst hji
      have hl31 : j < 31 := by omega
      have hl20 : ¬ (j > LOCAL_BUCKETS) := by simp only [LOCAL_BUCKETS]; omega
      refine ⟨set_bucket s j (s.mem (h + 8)), ?_, hsz, fun t h1 h2 => by omega,
        fun _ => by simp [set_bucket, upd_same], fun hz => by omega, fun t ht => ?_,
        fun _ => ⟨rfl, fun a _ => rfl⟩, fun _ _ => rfl⟩
      · simp [find_local_block, hlu, shl_int, hl31, hl20, hb, h0, get_next, bind,
          Except.bind, pure, Except.pure]
      · simp only [set_bucket]
        rw [upd_other _ _ _ _ (by omega)]
    · obtain ⟨s', hs', post⟩ :=
        find_local_block_hit fuel s size0 h i j hlu hi hij hj hempty hb h0 hsz hfit
      refine ⟨s', hs', post.m_size,
        fun t h1 h2 => hone s' t (by omega) (post.b_low t h1 h2) (post.m_half t h1 h2),
        fun _ => post.b_top, fun hz => by omega, post.b_other,
        fun _ => ⟨post.gl, post.m_frame⟩, fun _ hji' => absurd hji' hji⟩
  · subst hj20
    obtain ⟨s', hs', post⟩ :=
      find_local_block_refill fuel s size0 i h (s.mem h) hlu hi hij
        (fun t h1 h2 => by
          rcases Nat.lt_or_ge t 20 with h3 | h3
          · exact hempty t h1 h3
          · rw [show t = 20 by omega]; exact hb20)
        hgl h0 rfl hSC hfit
    refine ⟨s', hs', post.m_size,
      fun t h1 h2 => hone s' t (by omega) (post.b_low t h1 h2) (post.m_half t h1 h2),
      fun hb => by omega, fun _ => post.b_top, post.b_other,
      fun hb => by omega, fun hb => by omega⟩

/-- C17 at a concrete state: bucket 8 holds the block of 256 bytes at `2 ^ 20`,
    followed by the block at `2 ^ 21`; the buckets 5 to 7 are empty and 40 bytes
    (class 6 with the header) are requested. -/
theorem find_local_block_split_result_witness :
    ∃ s', find_local_block 1
        { mem := upd (upd (upd (fun _ => 0) 1048576 256) 1048584 2097152) 2097152 256,
          global_list := 0, buckets := upd (fun _ => 0) 8 1048576, init := 1, pages := [] }
        48 = .ok (s', 1048576) ∧ s'.mem 1048576 = 2 ^ 6 ∧
      (∀ t, 6 ≤ t → t < 8 → ListAt s'.mem (s'.buckets t) [(1048576 + 2 ^ t, 2 ^ t)]) ∧
      s'.buckets 8 = 2097152 :=
  have h := find_local_block_split_result 1
    { mem := upd (upd (upd (fun _ => 0) 1048576 256) 1048584 2097152) 2097152 256,
      global_list := 0, buckets := upd (fun _ => 0) 8 1048576, init := 1, pages := [] }
    48 6 8 1048576 rfl (by decide) (by decide) (by decide)
    (fun t h1 h2 => by
      have : t = 6 ∨ t = 7 := by omega
      rcases this with rfl | rfl <;> rfl)
    (by decide) (Or.inl ⟨rfl, rfl, by decide⟩)
  match h with
  | ⟨s', h1, h2, h3, h4, _⟩ => ⟨s', h1, h2, h3, h4 rfl⟩

/-- C16 at a concrete state: the arena is `[(2C, C), (5C, 2C)]` and the block of `2C`
    bytes at `3C` is released; it closes the gap between the two entries. -/
theorem insert_global_block_keeps_arena_witness :
    ∃ s' l', insert_global_block 3
        { mem := upd (upd (upd (upd (fun _ => 0) 2097152 1048576) 2097160 5242880)
            5242880 2097152) 3145728 2097152,
          global_list := 2097152, buckets := fun _ => 0, init := 1, pages := [] }
        3145728 = .ok s' ∧
      ListAt s'.mem s'.global_list l' ∧ ArenaInv l' ∧
      (∀ x, covered l' x ↔ covered [(2097152, 1048576), (5242880, 2097152)] x ∨
        (3145728 ≤ x ∧ x < 3145728 + 2097152)) ∧
      total_size l' = total_size [(2097152, 1048576), (5242880, 2097152)] + 2097152 :=
  have h := insert_global_block_keeps_arena 3
    { mem := upd (upd (upd (upd (fun _ => 0) 2097152 1048576) 2097160 5242880)
        5242880 2097152) 3145728 2097152,
      global_list := 2097152, buckets := fun _ => 0, init := 1, pages := [] }
    3145728 2097152 [(2097152, 1048576), (5242880, 2097152)] (by decide)
    ⟨rfl, by decide, rfl, rfl, by decide, rfl, rfl⟩
    ⟨⟨fun e he => by
        simp only [List.mem_cons, List.mem_singleton, List.not_mem_nil, or_false] at he
        rcases he with rfl | rfl <;> decide,
      List.pairwise_cons.mpr ⟨fun b hb => by
        rw [List.mem_singleton.mp hb]; decide, List.pairwise_singleton _ _⟩⟩,
     fun e he => by
        simp only [List.mem_cons, List.mem_singleton, List.not_mem_nil, or_false] at he
        rcases he with rfl | rfl
        · exact ⟨by decide, ⟨1, by decide⟩⟩
        · exact ⟨by decide, ⟨2, by decide⟩⟩⟩
    rfl (by decide) (by decide) ⟨2, by decide⟩ (by decide)
    (fun e he => by
      simp only [List.mem_cons, List.mem_singleton, List.not_mem_nil, or_false] at he
      rcases he with rfl | rfl <;> decide)
  match h with
  | ⟨s', l', h1, h2, h3, h4, h5, _⟩ => ⟨s', l', h1, h2, h3, h4, h5⟩

/-! ## One call of `insert_local_block` on a bucket list -/

theorem insert_local_block_succ (fuel : Nat) (s : State) (block : Nat) :
    insert_local_block (fuel + 1) s block =
      insert_local_body (insert_local_block fuel) fuel s block := rfl

theorem coalesce_next_no (s : State) (x : Nat) (hx0 : x ≠ 0)
    (h : (x + s.mem x) % WORD ≠ s.mem (x + 8)) : coalesce_next s x = .ok (s, false) := by
  simp only [coalesce_next, get_size, get_next, if_neg hx0, bind_ok, if_neg h, pure_ok]

theorem coalesce_next_yes (s : State) (x : Nat) (hx0 : x ≠ 0)
    (h : (x + s.mem x) % WORD = s.mem (x + 8)) (hn0 : s.mem (x + 8) ≠ 0) :
    coalesce_next s x = .ok ({ s with mem :=
      (upd (upd s.mem x ((s.mem x + s.mem (s.mem (x + 8))) % WORD)) (x + 8)
        (upd s.mem x ((s.mem x + s.mem (s.mem (x + 8))) % WORD) (s.mem (x + 8) + 8))) },
      true) := by
  simp only [coalesce_next, get_size, get_next, set_size, set_next, if_neg hx0, bind_ok,
    if_pos h, if_neg hn0, pure_ok]

theorem merge_prev_no (again : State → Nat → Except Fault State) (s : State)
    (log prev cur : Nat) (h : coalesce_next s cur = .ok (s, false)) :
    merge_prev again s log prev cur = .ok s := by
  simp only [merge_prev, h, bind_ok, pure_ok, Bool.false_eq_true, if_false]

theorem merge_prev_yes (again : State → Nat → Except Fault State) (s s1 : State)
    (log prev cur : Nat) (h : coalesce_next s cur = .ok (s1, true)) (hc0 : cur ≠ 0) :
    merge_prev again s log prev cur =
      again (if prev = 0 then set_bucket s1 log (s1.mem (cur + 8))
             else { s1 with mem := upd s1.mem (prev + 8) (s1.mem (cur + 8)) }) cur := by
  simp only [merge_prev, h, bind_ok, pure_ok, if_true, get_next, if_neg hc0, set_next]
  by_cases hp : prev = 0
  · simp only [if_pos hp, bind_ok, pure_ok]
  · simp only [if_neg hp, bind_ok]

/-- The walk of `insert_local_block` at the last entry `c` of the list. -/
theorem insert_local_loop_end
    (log x sz : Nat) (ca : Bool) (hx0 : x ≠ 0) (hsz : 16 ≤ sz)
    (hxfit : x + sz ≤ 9223372036854775808) (c : Nat × Nat) (fuel : Nat) (s : State)
    (prev : Nat) (hl : ListAt s.mem c.1 [c]) (hbl : FreeList [c]) (hmx : s.mem x = sz)
    (hcx : c.1 < x) (hdis : c.1 + c.2 ≤ x) (hprev : prev = 0 ∨ prev + 16 ≤ c.1)
    (hlink : link s log prev = c.1) :
    ∃ s', (∀ again, insert_local_loop again log x ca (fuel + 1) s prev c.1 =
        finish again (local_ins_after x sz ca c []).2 s') ∧
      WalkPost s s' log prev x [c] (local_ins_after x sz ca c []) := by
  obtain ⟨_, hc0, hcsz, hnx⟩ := hl
  have hnx0 : s.mem (c.1 + 8) = 0 := hnx
  obtain ⟨_, hc16, hcfit⟩ := hbl.1 c (List.mem_cons_self _ _)
  -- the state after the block is linked behind `c`
  have hstep : ∀ again, insert_local_loop again log x ca (fuel + 1) s prev c.1 =
      if (!ca) = true then
        merge_prev again { s with mem := upd (upd s.mem (c.1 + 8) x) (x + 8) 0 } log prev c.1
      else .ok { s with mem := upd (upd s.mem (c.1 + 8) x) (x + 8) 0 } := by
    intro again
    rw [insert_local_loop]
    simp only [get_next, set_next, if_neg hc0, if_neg hx0, hnx0, bind_ok, pure_ok, ne_eq,
      not_true_eq_false, if_false]
  have hm2c : upd (upd s.mem (c.1 + 8) x) (x + 8) 0 c.1 = c.2 := by
    rw [upd_other _ _ _ _ (by omega), upd_other _ _ _ _ (by omega), hcsz]
  have hm2cn : upd (upd s.mem (c.1 + 8) x) (x + 8) 0 (c.1 + 8) = x := by
    rw [upd_other _ _ _ _ (by omega), upd_same]
  have hm2x : upd (upd s.mem (c.1 + 8) x) (x + 8) 0 x = sz := by
    rw [upd_other _ _ _ _ (by omega), upd_other _ _ _ _ (by omega), hmx]
  have hm2xn : upd (upd s.mem (c.1 + 8) x) (x + 8) 0 (x + 8) = 0 := upd_same _ _ _
  have hlink2 : link { s with mem := upd (upd s.mem (c.1 + 8) x) (x + 8) 0 } log prev = c.1 := by
    unfold link at hlink ⊢
    by_cases hp : prev = 0
    · rw [if_pos hp] at hlink ⊢
      exact hlink
    · rw [if_neg hp] at hlink ⊢
      show upd (upd s.mem (c.1 + 8) x) (x + 8) 0 (prev + 8) = c.1
      rw [upd_other _ _ _ _ (by omega), upd_other _ _ _ _ (by omega)]
      exact hlink
  -- the result when nothing is merged
  have hplain : WalkPost s { s with mem := upd (upd s.mem (c.1 + 8) x) (x + 8) 0 } log prev x
      [c] ([c, (x, sz)], none) :=
    { rep := by
        rw [hlink2]
        exact ⟨rfl, hc0, hm2c, by simp only [hm2cn]; exact ⟨rfl, hx0, hm2x, hm2xn⟩⟩
      merged := fun m hm => by simp at hm
      frame := fun a h1 h2 h3 _ => by
        show upd (upd s.mem (c.1 + 8) x) (x + 8) 0 a = _
        rw [upd_other _ _ _ _ h2, upd_other _ _ _ _ (h3 c (List.mem_cons_self _ _)).2]
      b_other := fun _ _ => rfl
      b_same := fun _ => rfl
      gl := rfl, ini := rfl, pg := rfl }
  cases ca with
  | true =>
    have hr : local_ins_after x sz true c [] = ([c, (x, sz)], none) := by
      simp [local_ins_after]
    rw [hr]
    exact ⟨_, fun again => by rw [hstep again]; simp [finish], hplain⟩
  | false =>
    by_cases hadj : c.1 + c.2 = x
    · have hr : local_ins_after x sz false c [] = ([], some (c.1, c.2 + sz)) := by
        simp [local_ins_after, hadj]
      rw [hr]
      have hco := coalesce_next_yes { s with mem := upd (upd s.mem (c.1 + 8) x) (x + 8) 0 }
        c.1 hc0 (by
          simp only [hm2c, hm2cn, WORD]; omega) (by
          simp only [hm2cn]; exact hx0)
      simp only [hm2c, hm2cn, hm2x] at hco
      have hmod : (c.2 + sz) % WORD = c.2 + sz := by simp only [WORD]; omega
      rw [hmod, upd_other _ _ _ _ (show x + 8 ≠ c.1 by omega), hm2xn] at hco
      refine ⟨_, fun again => by
        rw [hstep again]
        simp only [Bool.not_false, if_true]
        rw [merge_prev_yes again _ _ log prev c.1 hco hc0]
        rfl, ?_⟩
      by_cases hp : prev = 0
      · simp only [if_pos hp]
        exact
          { rep := by simp [link, hp, set_bucket, upd_same, ListAt]
            merged := fun m hm => by
              simp only [Option.some.injEq] at hm
              subst hm
              show upd (upd _ c.1 (c.2 + sz)) (c.1 + 8) 0 c.1 = _
              rw [upd_other _ _ _ _ (by omega), upd_same]
            frame := fun a h1 h2 h3 _ => by
              obtain ⟨h4, h5⟩ := h3 c (List.mem_cons_self _ _)
              show upd (upd (upd (upd s.mem (c.1 + 8) x) (x + 8) 0) c.1 (c.2 + sz)) (c.1 + 8) 0 a = _
              rw [upd_other _ _ _ _ h5, upd_other _ _ _ _ h4, upd_other _ _ _ _ h2,
                upd_other _ _ _ _ h5]
            b_other := fun t ht => by
              simp only [set_bucket]
              rw [upd_other _ _ _ _ ht]
            b_same := fun h => absurd hp h
            gl := rfl, ini := rfl, pg := rfl }
      · simp only [if_neg hp]
        have hp16 : prev + 16 ≤ c.1 := by omega
        exact
          { rep := by simp [link, hp, upd_same, ListAt]
            merged := fun m hm => by
              simp only [Option.some.injEq] at hm
              subst hm
              show upd (upd (upd _ c.1 (c.2 + sz)) (c.1 + 8) 0) (prev + 8) _ c.1 = _
              rw [upd_other _ _ _ _ (by omega), upd_other _ _ _ _ (by omega), upd_same]
            frame := fun a h1 h2 h3 h6 => by
              obtain ⟨h4, h5⟩ := h3 c (List.mem_cons_self _ _)
              show upd (upd (upd (upd (upd s.mem (c.1 + 8) x) (x + 8) 0) c.1 (c.2 + sz))
                (c.1 + 8) 0) (prev + 8) _ a = _
              rw [upd_other _ _ _ _ (h6 hp), upd_other _ _ _ _ h5, upd_other _ _ _ _ h4,
                upd_other _ _ _ _ h2, upd_other _ _ _ _ h5]
            b_other := fun _ _ => rfl
            b_same := fun _ => rfl
            gl := rfl, ini := rfl, pg := rfl }
    · have hr : local_ins_after x sz false c [] = ([c, (x, sz)], none) := by
        simp [local_ins_after, hadj]
      rw [hr]
      have hco := coalesce_next_no { s with mem := upd (upd s.mem (c.1 + 8) x) (x + 8) 0 }
        c.1 hc0 (by
          simp only [hm2c, hm2cn, WORD]; omega)
      exact ⟨_, fun again => by
        rw [hstep again]
        simp only [Bool.not_false, if_true]
        rw [merge_prev_no again _ log prev c.1 hco]
        simp [finish], hplain⟩

/-- The walk of `insert_local_block` when the block belongs between the entry `c`
    and its successor `e`. -/
theorem insert_local_loop_mid
    (log x sz : Nat) (ca : Bool) (hx0 : x ≠ 0) (hsz : 16 ≤ sz)
    (hxfit : x + sz ≤ 9223372036854775808) (c e : Nat × Nat) (l : List (Nat × Nat))
    (fuel : Nat) (s : State) (prev : Nat) (hl : ListAt s.mem c.1 (c :: e :: l))
    (hbl : FreeList (c :: e :: l)) (hmx : s.mem x = sz)
    (hdc : c.1 + c.2 ≤ x) (hde : x + sz ≤ e.1) (hprev : prev = 0 ∨ prev + 16 ≤ c.1)
    (hlink : link s log prev = c.1) :
    ∃ s', (∀ again, insert_local_loop again log x ca (fuel + 1) s prev c.1 =
        finish again (local_ins_after x sz ca c (e :: l)).2 s') ∧
      WalkPost s s' log prev x (c :: e :: l) (local_ins_after x sz ca c (e :: l)) := by
  obtain ⟨_, hc0, hcsz, hnx⟩ := hl
  have hnxe : s.mem (c.1 + 8) = e.1 := hnx.1
  obtain ⟨_, he0, hesz, hetl⟩ := hnx
  obtain ⟨_, hc16, hcfit⟩ := hbl.1 c (List.mem_cons_self _ _)
  obtain ⟨_, he16, hefit⟩ := hbl.1 e (List.mem_cons_of_mem _ (List.mem_cons_self _ _))
  have hpw := List.pairwise_cons.mp hbl.2
  have hpw2 := List.pairwise_cons.mp hpw.2
  have hye : x < e.1 := by omega
  have hlt : long_lt x e.1 = true := by
    rw [long_lt_low x e.1 (by omega) (by omega)]; simp [hye]
  have hafter : ∀ e' ∈ l, e.1 + e.2 ≤ e'.1 := fun e' he' => hpw2.1 e' he'
  have hstep : ∀ again, insert_local_loop again log x ca (fuel + 1) s prev c.1 =
      if ca = true then
        (coalesce_next { s with mem := upd (upd s.mem (x + 8) e.1) (c.1 + 8) x } x >>= fun r =>
          if r.2 = true then
            (get_next r.1 x >>= fun bn => set_next r.1 c.1 bn >>= fun s4 => again s4 x)
          else pure r.1)
      else merge_prev again { s with mem := upd (upd s.mem (x + 8) e.1) (c.1 + 8) x } log prev c.1 := by
    intro again
    rw [insert_local_loop]
    simp only [get_next, set_next, if_neg hc0, if_neg hx0, hnxe, bind_ok, pure_ok, ne_eq,
      he0, not_false_eq_true, if_true, hlt]
  have hm2c : upd (upd s.mem (x + 8) e.1) (c.1 + 8) x c.1 = c.2 := by
    rw [upd_other _ _ _ _ (by omega), upd_other _ _ _ _ (by omega), hcsz]
  have hm2cn : upd (upd s.mem (x + 8) e.1) (c.1 + 8) x (c.1 + 8) = x := upd_same _ _ _
  have hm2x : upd (upd s.mem (x + 8) e.1) (c.1 + 8) x x = sz := by
    rw [upd_other _ _ _ _ (by omega), upd_other _ _ _ _ (by omega), hmx]
  have hm2xn : upd (upd s.mem (x + 8) e.1) (c.1 + 8) x (x + 8) = e.1 := by
    rw [upd_other _ _ _ _ (by omega), upd_same]
  have hm2e : upd (upd s.mem (x + 8) e.1) (c.1 + 8) x e.1 = e.2 := by
    rw [upd_other _ _ _ _ (by omega), upd_other _ _ _ _ (by omega), hesz]
  have hm2en : upd (upd s.mem (x + 8) e.1) (c.1 + 8) x (e.1 + 8) = s.mem (e.1 + 8) := by
    rw [upd_other _ _ _ _ (by omega), upd_other _ _ _ _ (by omega)]
  have hlink2 : link { s with mem := upd (upd s.mem (x + 8) e.1) (c.1 + 8) x } log prev = c.1 := by
    unfold link at hlink ⊢
    by_cases hp : prev = 0
    · rw [if_pos hp] at hlink ⊢
      exact hlink
    · rw [if_neg hp] at hlink ⊢
      show upd (upd s.mem (x + 8) e.1) (c.1 + 8) x (prev + 8) = c.1
      rw [upd_other _ _ _ _ (by omega), upd_other _ _ _ _ (by omega)]
      exact hlink
  -- the tail behind `e` is not touched by the writes
  have htail : ∀ (mem' : Nat → Nat), (∀ a, e.1 + e.2 ≤ a → mem' a = s.mem a) →
      ListAt mem' (s.mem (e.1 + 8)) l := by
    intro mem' hfr
    refine ListAt_frame s.mem mem' l _ hetl (fun e' he' => ?_)
    have := hafter e' he'
    exact ⟨hfr _ (by omega), hfr _ (by omega)⟩
  -- the result when nothing is merged
  have hplain : WalkPost s { s with mem := upd (upd s.mem (x + 8) e.1) (c.1 + 8) x } log prev x
      (c :: e :: l) (c :: (x, sz) :: e :: l, none) :=
    { rep := by
        rw [hlink2]
        refine ⟨rfl, hc0, hm2c, ?_⟩
        simp only [hm2cn]
        refine ⟨rfl, hx0, hm2x, ?_⟩
        simp only [hm2xn]
        refine ⟨rfl, he0, hm2e, ?_⟩
        simp only [hm2en]
        exact htail _ (fun a ha => by
          rw [upd_other _ _ _ _ (by omega), upd_other _ _ _ _ (by omega)])
      merged := fun m hm => by simp at hm
      frame := fun a h1 h2 h3 _ => by
        show upd (upd s.mem (x + 8) e.1) (c.1 + 8) x a = _
        rw [upd_other _ _ _ _ (h3 c (List.mem_cons_self _ _)).2, upd_other _ _ _ _ h2]
      b_other := fun _ _ => rfl
      b_same := fun _ => rfl
      gl := rfl, ini := rfl, pg := rfl }
  cases ca with
  | true =>
    by_cases hadj : x + sz = e.1
    · have hr : local_ins_after x sz true c (e :: l) = (c :: l, some (x, sz + e.2)) := by
        simp [local_ins_after, hye, hadj]
      rw [hr]
      have hco := coalesce_next_yes { s with mem := upd (upd s.mem (x + 8) e.1) (c.1 + 8) x }
        x hx0 (by simp only [hm2x, hm2xn, WORD]; omega) (by simp only [hm2xn]; exact he0)
      simp only [hm2x, hm2xn, hm2e] at hco
      have hmod : (sz + e.2) % WORD = sz + e.2 := by simp only [WORD]; omega
      rw [hmod, upd_other _ _ _ _ (show e.1 + 8 ≠ x by omega), hm2en] at hco
      refine ⟨_, fun again => by
        rw [hstep again]
        simp only [if_true]
        rw [hco]
        simp only [bind_ok, if_true, get_next, set_next, if_neg hx0, if_neg hc0, upd_same]
        rfl, ?_⟩
      exact
        { rep := by
            have hlk : link { s with mem := upd (upd (upd (upd (upd s.mem (x + 8) e.1) (c.1 + 8) x)
                x (sz + e.2)) (x + 8) (s.mem (e.1 + 8))) (c.1 + 8) (s.mem (e.1 + 8)) } log prev
                = c.1 := by
              unfold link at hlink ⊢
              by_cases hp : prev = 0
              · rw [if_pos hp] at hlink ⊢
                exact hlink
              · rw [if_neg hp] at hlink ⊢
                show upd (upd (upd (upd (upd s.mem (x + 8) e.1) (c.1 + 8) x) x (sz + e.2))
                  (x + 8) (s.mem (e.1 + 8))) (c.1 + 8) (s.mem (e.1 + 8)) (prev + 8) = c.1
                rw [upd_other _ _ _ _ (by omega), upd_other _ _ _ _ (by omega),
                  upd_other _ _ _ _ (by omega), upd_other _ _ _ _ (by omega),
                  upd_other _ _ _ _ (by omega)]
                exact hlink
            rw [hlk]
            refine ⟨rfl, hc0, ?_, ?_⟩
            · show upd (upd (upd (upd (upd s.mem (x + 8) e.1) (c.1 + 8) x) x (sz + e.2))
                (x + 8) (s.mem (e.1 + 8))) (c.1 + 8) (s.mem (e.1 + 8)) c.1 = c.2
              rw [upd_other _ _ _ _ (by omega), upd_other _ _ _ _ (by omega),
                upd_other _ _ _ _ (by omega), hm2c]
            · show ListAt _ (upd (upd (upd (upd (upd s.mem (x + 8) e.1) (c.1 + 8) x) x (sz + e.2))
                (x + 8) (s.mem (e.1 + 8))) (c.1 + 8) (s.mem (e.1 + 8)) (c.1 + 8)) l
              rw [upd_same]
              exact htail (upd (upd (upd (upd (upd s.mem (x + 8) e.1) (c.1 + 8) x) x (sz + e.2))
                (x + 8) (s.mem (e.1 + 8))) (c.1 + 8) (s.mem (e.1 + 8))) (fun a ha => by
                rw [upd_other _ _ _ _ (by omega), upd_other _ _ _ _ (by omega),
                  upd_other _ _ _ _ (by omega), upd_other _ _ _ _ (by omega),
                  upd_other _ _ _ _ (by omega)])
          merged := fun m hm => by
            simp only [Option.some.injEq] at hm
            subst hm
            show upd (upd (upd (upd (upd s.mem (x + 8) e.1) (c.1 + 8) x) x (sz + e.2))
              (x + 8) (s.mem (e.1 + 8))) (c.1 + 8) (s.mem (e.1 + 8)) x = sz + e.2
            rw [upd_other _ _ _ _ (by omega), upd_other _ _ _ _ (by omega), upd_same]
          frame := fun a h1 h2 h3 _ => by
            obtain ⟨h4, h5⟩ := h3 c (List.mem_cons_self _ _)
            show upd (upd (upd (upd (upd s.mem (x + 8) e.1) (c.1 + 8) x) x (sz + e.2))
              (x + 8) (s.mem (e.1 + 8))) (c.1 + 8) (s.mem (e.1 + 8)) a = _
            rw [upd_other _ _ _ _ h5, upd_other _ _ _ _ h2, upd_other _ _ _ _ h1,
              upd_other _ _ _ _ h5, upd_other _ _ _ _ h2]
          b_other := fun _ _ => rfl
          b_same := fun _ => rfl
          gl := rfl, ini := rfl, pg := rfl }
    · have hr : local_ins_after x sz true c (e :: l) = (c :: (x, sz) :: e :: l, none) := by
        simp [local_ins_after, hye, hadj]
      rw [hr]
      have hco := coalesce_next_no { s with mem := upd (upd s.mem (x + 8) e.1) (c.1 + 8) x }
        x hx0 (by simp only [hm2x, hm2xn, WORD]; omega)
      exact ⟨_, fun again => by
        rw [hstep again]
        simp only [if_true]
        rw [hco]
        simp only [bind_ok, Bool.false_eq_true, if_false, pure_ok]
        simp [finish], hplain⟩
  | false =>
    by_cases hadj : c.1 + c.2 = x
    · have hr : local_ins_after x sz false c (e :: l) = (e :: l, some (c.1, c.2 + sz)) := by
        simp [local_ins_after, hye, hadj]
      rw [hr]
      have hco := coalesce_next_yes { s with mem := upd (upd s.mem (x + 8) e.1) (c.1 + 8) x }
        c.1 hc0 (by simp only [hm2c, hm2cn, WORD]; omega) (by simp only [hm2cn]; exact hx0)
      simp only [hm2c, hm2cn, hm2x] at hco
      have hmod : (c.2 + sz) % WORD = c.2 + sz := by simp only [WORD]; omega
      rw [hmod, upd_other _ _ _ _ (show x + 8 ≠ c.1 by omega), hm2xn] at hco
      refine ⟨_, fun again => by
        rw [hstep again]
        simp only [Bool.false_eq_true, if_false]
        rw [merge_prev_yes again _ _ log prev c.1 hco hc0]
        rfl, ?_⟩
      have hm3 : ∀ a, e.1 ≤ a →
          upd (upd (upd (upd s.mem (x + 8) e.1) (c.1 + 8) x) c.1 (c.2 + sz)) (c.1 + 8) e.1 a
            = s.mem a := by
        intro a ha
        rw [upd_other _ _ _ _ (by omega), upd_other _ _ _ _ (by omega),
          upd_other _ _ _ _ (by omega), upd_other _ _ _ _ (by omega)]
      have hrest : ∀ (mem' : Nat → Nat), (∀ a, e.1 ≤ a → mem' a = s.mem a) →
          ListAt mem' e.1 (e :: l) := by
        intro mem' hfr
        refine ⟨rfl, he0, by rw [hfr _ (le_refl _)]; exact hesz, ?_⟩
        rw [hfr _ (by omega)]
        exact htail mem' (fun a ha => hfr a (by omega))
      by_cases hp : prev = 0
      · simp only [if_pos hp]
        exact
          { rep := by
              simp only [link, if_pos hp, set_bucket, upd_same]
              exact hrest _ hm3
            merged := fun m hm => by
              simp only [Option.some.injEq] at hm
              subst hm
              show upd (upd _ c.1 (c.2 + sz)) (c.1 + 8) e.1 c.1 = _
              rw [upd_other _ _ _ _ (by omega), upd_same]
            frame := fun a h1 h2 h3 _ => by
              obtain ⟨h4, h5⟩ := h3 c (List.mem_cons_self _ _)
              show upd (upd (upd (upd s.mem (x + 8) e.1) (c.1 + 8) x) c.1 (c.2 + sz))
                (c.1 + 8) e.1 a = _
              rw [upd_other _ _ _ _ h5, upd_other _ _ _ _ h4, upd_other _ _ _ _ h5,
                upd_other _ _ _ _ h2]
            b_other := fun t ht => by
              simp only [set_bucket]
              rw [upd_other _ _ _ _ ht]
            b_same := fun h => absurd hp h
            gl := rfl, ini := rfl, pg := rfl }
      · simp only [if_neg hp]
        have hp16 : prev + 16 ≤ c.1 := by omega
        exact
          { rep := by
              simp only [link, if_neg hp, upd_same]
              exact hrest _ (fun a ha => by
                rw [upd_other _ _ _ _ (by omega)]
                exact hm3 a ha)
            merged := fun m hm => by
              simp only [Option.some.injEq] at hm
              subst hm
              show upd (upd (upd _ c.1 (c.2 + sz)) (c.1 + 8) e.1) (prev + 8) _ c.1 = _
              rw [upd_other _ _ _ _ (by omega), upd_other _ _ _ _ (by omega), upd_same]
            frame := fun a h1 h2 h3 h6 => by
              obtain ⟨h4, h5⟩ := h3 c (List.mem_cons_self _ _)
              show upd (upd (upd (upd (upd s.mem (x + 8) e.1) (c.1 + 8) x) c.1 (c.2 + sz))
                (c.1 + 8) e.1) (prev + 8) _ a = _
              rw [upd_other _ _ _ _ (h6 hp), upd_other _ _ _ _ h5, upd_other _ _ _ _ h4,
                upd_other _ _ _ _ h5, upd_other _ _ _ _ h2]
            b_other := fun _ _ => rfl
            b_same := fun _ => rfl
            gl := rfl, ini := rfl, pg := rfl }
    · have hr : local_ins_after x sz false c (e :: l) = (c :: (x, sz) :: e :: l, none) := by
        simp [local_ins_after, hye, hadj]
      rw [hr]
      have hco := coalesce_next_no { s with mem := upd (upd s.mem (x + 8) e.1) (c.1 + 8) x }
        c.1 hc0 (by simp only [hm2c, hm2cn, WORD]; omega)
      exact ⟨_, fun again => by
        rw [hstep again]
        simp only [Bool.false_eq_true, if_false]
        rw [merge_prev_no again _ log prev c.1 hco]
        simp [finish], hplain⟩

/-- The walk of `insert_local_block` over an in-memory free list, started at the entry
    `c` that lies below the block `(x, sz)`, computes `local_ins_after`. -/
theorem insert_local_loop_spec
    (log x sz : Nat) (ca : Bool) (hx0 : x ≠ 0) (hsz : 16 ≤ sz)
    (hxfit : x + sz ≤ 9223372036854775808) :
    ∀ (l : List (Nat × Nat)) (c : Nat × Nat) (fuel : Nat) (s : State) (prev : Nat),
      l.length < fuel → ListAt s.mem c.1 (c :: l) → FreeList (c :: l) → s.mem x = sz →
      c.1 < x → (∀ e ∈ c :: l, e.1 + e.2 ≤ x ∨ x + sz ≤ e.1) →
      (prev = 0 ∨ prev + 16 ≤ c.1) → link s log prev = c.1 →
      ∃ s', (∀ again, insert_local_loop again log x ca fuel s prev c.1 =
          finish again (local_ins_after x sz ca c l).2 s') ∧
        WalkPost s s' log prev x (c :: l) (local_ins_after x sz ca c l) := by
  intro l
  induction l with
  | nil =>
    intro c fuel s prev hfuel hl hbl hmx hcx hdis hprev hlink
    obtain ⟨f, rfl⟩ : ∃ f, fuel = f + 1 := ⟨fuel - 1, by simp at hfuel; omega⟩
    have hd := hdis c (List.mem_cons_self _ _)
    exact insert_local_loop_end log x sz ca hx0 hsz hxfit c f s prev hl hbl hmx hcx
      (by omega) hprev hlink
  | cons e l ih =>
    intro c fuel s prev hfuel hl hbl hmx hcx hdis hprev hlink
    obtain ⟨f, rfl⟩ : ∃ f, fuel = f + 1 := ⟨fuel - 1, by simp at hfuel; omega⟩
    have hdc := hdis c (List.mem_cons_self _ _)
    have hde := hdis e (List.mem_cons_of_mem _ (List.mem_cons_self _ _))
    obtain ⟨_, hc16, hcfit⟩ := hbl.1 c (List.mem_cons_self _ _)
    obtain ⟨_, he16, hefit⟩ := hbl.1 e (List.mem_cons_of_mem _ (List.mem_cons_self _ _))
    have hpw := List.pairwise_cons.mp hbl.2
    have hce := hpw.1 e (List.mem_cons_self _ _)
    by_cases hye : x < e.1
    · exact insert_local_loop_mid log x sz ca hx0 hsz hxfit c e l f s prev hl hbl hmx
        (by omega) (by omega) hprev hlink
    · obtain ⟨_, hc0, hcsz, hnx⟩ := hl
      have hnxe : s.mem (c.1 + 8) = e.1 := hnx.1
      have he0 : e.1 ≠ 0 := hnx.2.1
      have hlt : long_lt x e.1 = false := by
        rw [long_lt_low x e.1 (by omega) (by omega)]; simp [hye]
      have hstep : ∀ again, insert_local_loop again log x ca (f + 1) s prev c.1 =
          insert_local_loop again log x ca f s c.1 e.1 := by
        intro again
        rw [insert_local_loop]
        simp only [get_next, if_neg hc0, hnxe, bind_ok, ne_eq, he0, not_false_eq_true, if_true,
          hlt, Bool.false_eq_true, if_false]
      have hbl' : FreeList (e :: l) :=
        ⟨fun b hb => hbl.1 b (List.mem_cons_of_mem _ hb), hpw.2⟩
      have hlink' : link s log c.1 = e.1 := by
        simp only [link, if_neg hc0, hnxe]
      obtain ⟨s', hs', post⟩ := ih e f s c.1 (by simp at hfuel; omega)
        (by rw [← hnxe]; exact hnx) hbl' hmx (by omega)
        (fun b hb => hdis b (List.mem_cons_of_mem _ hb)) (Or.inr (by omega)) hlink'
      have hr : local_ins_after x sz ca c (e :: l) =
          (c :: (local_ins_after x sz ca e l).1, (local_ins_after x sz ca e l).2) := by
        simp only [local_ins_after, if_neg hye]
      rw [hr]
      refine ⟨s', fun again => by rw [hstep again]; exact hs' again, ?_⟩
      have hge : ∀ b ∈ e :: l, e.1 ≤ b.1 := by
        intro b hb
        rcases List.mem_cons.mp hb with h | h
        · rw [h]
        · have := (List.pairwise_cons.mp hpw.2).1 b h
          omega
      have hfc : s'.mem c.1 = s.mem c.1 :=
        post.frame c.1 (by omega) (by omega)
          (fun b hb => by have := hge b hb; constructor <;> omega) (fun _ => by omega)
      have hbk : s'.buckets = s.buckets := post.b_same hc0
      have hlk : link s' log prev = c.1 := by
        unfold link at hlink ⊢
        by_cases hp : prev = 0
        · rw [if_pos hp] at hlink ⊢
          rw [hbk]; exact hlink
        · rw [if_neg hp] at hlink ⊢
          rw [post.frame (prev + 8) (by omega) (by omega)
            (fun b hb => by have := hge b hb; constructor <;> omega) (fun _ => by omega)]
          exact hlink
      exact
        { rep := by
            rw [hlk]
            refine ⟨rfl, hc0, by rw [hfc]; exact hcsz, ?_⟩
            have := post.rep
            simp only [link, if_neg hc0] at this
            exact this
          merged := post.merged
          frame := fun a h1 h2 h3 h4 =>
            post.frame a h1 h2 (fun b hb => h3 b (List.mem_cons_of_mem _ hb))
              (fun _ => (h3 c (List.mem_cons_self _ _)).2)
          b_other := post.b_other
          b_same := fun _ => hbk
          gl := post.gl, ini := post.ini, pg := post.pg }

/-- The preamble of `insert_local_block` on a block of class `i`, the top case apart. -/
theorem insert_local_body_pre (again : State → Nat → Except Fault State) (fuel : Nat)
    (s : State) (x i : Nat) (hi : 4 ≤ i) (hi20 : i ≤ 20)
    (htop : ¬ (i = 20 ∧ s.buckets 20 ≠ 0)) (hmx : s.mem x = 2 ^ i) (hx0 : x ≠ 0) :
    insert_local_body again fuel s x =
      if long_lt x (s.buckets i) = true ∨ s.buckets i = 0 then
        (if decide (x % 2 ^ (i + 1) = 0) = true then
          (coalesce_next { s with mem := upd s.mem (x + 8) (s.buckets i) } x >>= fun r =>
            if r.2 = true then
              (get_next r.1 x >>= fun bn => again (set_bucket r.1 i bn) x)
            else pure (set_bucket r.1 i x))
        else pure (set_bucket { s with mem := upd s.mem (x + 8) (s.buckets i) } i x))
      else insert_local_loop again i x (decide (x % 2 ^ (i + 1) = 0)) fuel s 0 (s.buckets i) := by
  have hl20 : ¬ (i > LOCAL_BUCKETS) := by simp only [LOCAL_BUCKETS]; omega
  have htop' : ¬ (i = LOCAL_BUCKETS ∧ s.buckets LOCAL_BUCKETS ≠ 0) := htop
  have hl31 : i + 1 < 31 := by omega
  unfold insert_local_body
  simp only [get_size, if_neg hx0, hmx, bind_ok]
  rw [log_up_pow i hi hi20]
  simp only [bind_ok, shl_int, if_pos hl31, if_neg hl20]
  rw [if_neg htop']
  simp only [set_next, if_neg hx0, bind_ok]

/-- One call of `insert_local_block` on a block of class `i`, the top case apart:
    the list of bucket `i` becomes `local_insert`, and the call ends with the
    recursive call on the merged block if there is one. -/
theorem insert_local_body_spec (fuel : Nat)
    (s : State) (x i : Nat) (l : List (Nat × Nat)) (hi : 4 ≤ i) (hi20 : i ≤ 20)
    (htop : ¬ (i = 20 ∧ s.buckets 20 ≠ 0)) (hmx : s.mem x = 2 ^ i) (hx0 : x ≠ 0)
    (hxfit : x + 2 ^ i ≤ 9223372036854775808) (hl : ListAt s.mem (s.buckets i) l)
    (hbl : FreeList l) (hdis : ∀ e ∈ l, e.1 + e.2 ≤ x ∨ x + 2 ^ i ≤ e.1)
    (hfuel : l.length ≤ fuel) :
    ∃ s', (∀ again, insert_local_body again fuel s x =
        finish again (local_insert x (2 ^ i) (decide (x % 2 ^ (i + 1) = 0)) l).2 s') ∧
      WalkPost s s' i 0 x l (local_insert x (2 ^ i) (decide (x % 2 ^ (i + 1) = 0)) l) := by
  have h16 := pow_ge_16 i hi
  have hpre := fun again => insert_local_body_pre again fuel s x i hi hi20 htop hmx hx0
  cases l with
  | nil =>
    have hb0 : s.buckets i = 0 := hl
    have hr : local_insert x (2 ^ i) (decide (x % 2 ^ (i + 1) = 0)) [] = ([(x, 2 ^ i)], none) := rfl
    rw [hr]
    have hplain : WalkPost s (set_bucket { s with mem := upd s.mem (x + 8) 0 } i x) i 0 x []
        ([(x, 2 ^ i)], none) :=
      { rep := by
          simp only [link, if_true, set_bucket, upd_same]
          refine ⟨rfl, hx0, ?_, ?_⟩
          · show upd s.mem (x + 8) 0 x = 2 ^ i
            rw [upd_other _ _ _ _ (by omega), hmx]
          · show upd s.mem (x + 8) 0 (x + 8) = 0
            rw [upd_same]
        merged := fun m hm => by simp at hm
        frame := fun a _ h2 _ _ => by
          show upd s.mem (x + 8) 0 a = _
          rw [upd_other _ _ _ _ h2]
        b_other := fun t ht => by
          simp only [set_bucket]
          rw [upd_other _ _ _ _ ht]
        b_same := fun h => absurd rfl h
        gl := rfl, ini := rfl, pg := rfl }
    refine ⟨_, fun again => ?_, hplain⟩
    rw [hpre again, if_pos (Or.inr hb0), hb0]
    by_cases hca : x % 2 ^ (i + 1) = 0
    · have hco := coalesce_next_no { s with mem := upd s.mem (x + 8) 0 } x hx0 (by
        show (x + upd s.mem (x + 8) 0 x) % WORD ≠ upd s.mem (x + 8) 0 (x + 8)
        rw [upd_same, upd_other _ _ _ _ (by omega), hmx]
        simp only [WORD]; omega)
      simp only [hca, decide_True, if_true, hco, bind_ok, Bool.false_eq_true, if_false, pure_ok,
        finish]
    · simp only [hca, decide_False, Bool.false_eq_true, if_false, pure_ok, finish]
  | cons e l =>
    obtain ⟨hbe, he0, hesz, hetl⟩ := hl
    obtain ⟨_, he16, hefit⟩ := hbl.1 e (List.mem_cons_self _ _)
    have hpw := List.pairwise_cons.mp hbl.2
    have hde := hdis e (List.mem_cons_self _ _)
    have hlt : long_lt x e.1 = decide (x < e.1) := long_lt_low x e.1 (by omega) (by omega)
    by_cases hxe : x < e.1
    · have hfront : ∀ again, insert_local_body again fuel s x =
          (if decide (x % 2 ^ (i + 1) = 0) = true then
            (coalesce_next { s with mem := upd s.mem (x + 8) e.1 } x >>= fun r =>
              if r.2 = true then
                (get_next r.1 x >>= fun bn => again (set_bucket r.1 i bn) x)
              else pure (set_bucket r.1 i x))
          else pure (set_bucket { s with mem := upd s.mem (x + 8) e.1 } i x)) := by
        intro again
        rw [hpre again, hbe, hlt, if_pos (Or.inl (by simp [hxe]))]
      have hm1x : upd s.mem (x + 8) e.1 x = 2 ^ i := by
        rw [upd_other _ _ _ _ (by omega), hmx]
      have hm1xn : upd s.mem (x + 8) e.1 (x + 8) = e.1 := upd_same _ _ _
      have hplain : WalkPost s (set_bucket { s with mem := upd s.mem (x + 8) e.1 } i x) i 0 x
          (e :: l) ((x, 2 ^ i) :: e :: l, none) :=
        { rep := by
            simp only [link, if_true, set_bucket, upd_same]
            refine ⟨rfl, hx0, hm1x, ?_⟩
            simp only [hm1xn]
            refine ⟨rfl, he0, ?_, ?_⟩
            · show upd s.mem (x + 8) e.1 e.1 = e.2
              rw [upd_other _ _ _ _ (by omega), hesz]
            · show ListAt _ (upd s.mem (x + 8) e.1 (e.1 + 8)) l
              rw [upd_other _ _ _ _ (by omega)]
              refine ListAt_frame s.mem _ l _ hetl (fun e' he' => ?_)
              have := hpw.1 e' he'
              constructor
              · rw [upd_other _ _ _ _ (by omega)]
              · rw [upd_other _ _ _ _ (by omega)]
          merged := fun m hm => by simp at hm
          frame := fun a _ h2 _ _ => by
            show upd s.mem (x + 8) e.1 a = _
            rw [upd_other _ _ _ _ h2]
          b_other := fun t ht => by
            simp only [set_bucket]
            rw [upd_other _ _ _ _ ht]
          b_same := fun h => absurd rfl h
          gl := rfl, ini := rfl, pg := rfl }
      by_cases hca : x % 2 ^ (i + 1) = 0
      · by_cases hadj : x + 2 ^ i = e.1
        · have hr : local_insert x (2 ^ i) (decide (x % 2 ^ (i + 1) = 0)) (e :: l) =
              (l, some (x, 2 ^ i + e.2)) := by
            simp [local_insert, hxe, hadj, hca]
          rw [hr]
          have hco := coalesce_next_yes { s with mem := upd s.mem (x + 8) e.1 } x hx0
            (by simp only [hm1x, hm1xn, WORD]; omega) (by simp only [hm1xn]; exact he0)
          simp only [hm1x, hm1xn] at hco
          have hm1e : upd s.mem (x + 8) e.1 e.1 = e.2 := by
            rw [upd_other _ _ _ _ (by omega), hesz]
          have hmod : (2 ^ i + e.2) % WORD = 2 ^ i + e.2 := by simp only [WORD]; omega
          rw [hm1e, hmod, upd_other _ _ _ _ (show e.1 + 8 ≠ x by omega),
            upd_other _ _ _ _ (show e.1 + 8 ≠ x + 8 by omega)] at hco
          refine ⟨_, fun again => by
            rw [hfront again]
            simp only [hca, decide_True, if_true]
            rw [hco]
            simp only [bind_ok, if_true, get_next, if_neg hx0, upd_same]
            rfl, ?_⟩
          exact
            { rep := by
                simp only [link, if_true, set_bucket, upd_same]
                refine ListAt_frame s.mem _ l _ hetl (fun e' he' => ?_)
                have := hpw.1 e' he'
                constructor
                · show upd (upd (upd s.mem (x + 8) e.1) x (2 ^ i + e.2)) (x + 8) _ e'.1 = _
                  rw [upd_other _ _ _ _ (by omega), upd_other _ _ _ _ (by omega),
                    upd_other _ _ _ _ (by omega)]
                · show upd (upd (upd s.mem (x + 8) e.1) x (2 ^ i + e.2)) (x + 8) _ (e'.1 + 8) = _
                  rw [upd_other _ _ _ _ (by omega), upd_other _ _ _ _ (by omega),
                    upd_other _ _ _ _ (by omega)]
              merged := fun m hm => by
                simp only [Option.some.injEq] at hm
                subst hm
                show upd (upd (upd s.mem (x + 8) e.1) x (2 ^ i + e.2)) (x + 8) _ x = _
                rw [upd_other _ _ _ _ (by omega), upd_same]
              frame := fun a h1 h2 _ _ => by
                show upd (upd (upd s.mem (x + 8) e.1) x (2 ^ i + e.2)) (x + 8) _ a = _
                rw [upd_other _ _ _ _ h2, upd_other _ _ _ _ h1, upd_other _ _ _ _ h2]
              b_other := fun t ht => by
                simp only [set_bucket]
                rw [upd_other _ _ _ _ ht]
              b_same := fun h => absurd rfl h
              gl := rfl, ini := rfl, pg := rfl }
        · have hr : local_insert x (2 ^ i) (decide (x % 2 ^ (i + 1) = 0)) (e :: l) =
              ((x, 2 ^ i) :: e :: l, none) := by
            simp [local_insert, hxe, hadj]
          rw [hr]
          have hco := coalesce_next_no { s with mem := upd s.mem (x + 8) e.1 } x hx0
            (by simp only [hm1x, hm1xn, WORD]; omega)
          exact ⟨_, fun again => by
            rw [hfront again]
            simp only [hca, decide_True, if_true]
            rw [hco]
            simp only [bind_ok, Bool.false_eq_true, if_false, pure_ok, finish], hplain⟩
      · have hr : local_insert x (2 ^ i) (decide (x % 2 ^ (i + 1) = 0)) (e :: l) =
            ((x, 2 ^ i) :: e :: l, none) := by
          simp [local_insert, hxe, hca]
        rw [hr]
        exact ⟨_, fun again => by
          rw [hfront again]
          simp only [hca, decide_False, Bool.false_eq_true, if_false, pure_ok, finish], hplain⟩
    · have hcond : ¬ (decide (x < e.1) = true ∨ e.1 = 0) := by
        simp only [hxe, decide_False, Bool.false_eq_true, false_or]
        exact he0
      have hloop : ∀ again, insert_local_body again fuel s x =
          insert_local_loop again i x (decide (x % 2 ^ (i + 1) = 0)) fuel s 0 e.1 := by
        intro again
        rw [hpre again, hbe, hlt, if_neg hcond]
      have hr : local_insert x (2 ^ i) (decide (x % 2 ^ (i + 1) = 0)) (e :: l) =
          local_ins_after x (2 ^ i) (decide (x % 2 ^ (i + 1) = 0)) e l := by
        simp only [local_insert, if_neg hxe]
      rw [hr]
      obtain ⟨s', hs', post⟩ := insert_local_loop_spec i x (2 ^ i) _ hx0 h16 hxfit l e fuel s 0
        (by simp at hfuel; omega) ⟨rfl, he0, hesz, hetl⟩ hbl hmx (by omega) hdis (Or.inl rfl)
        (by simp only [link, if_true]; exact hbe)
      exact ⟨s', fun again => by rw [hloop again]; exact hs' again, post⟩

/-! ## The list operations of the thread cache -/

theorem local_ins_after_none (x sz : Nat) (ca : Bool) :
    ∀ (l : List (Nat × Nat)) (c : Nat × Nat), (local_ins_after x sz ca c l).2 = none →
      (local_ins_after x sz ca c l).1 = c :: bucket_insert x sz l := by
  intro l
  induction l with
  | nil =>
    intro c h
    simp only [local_ins_after] at h ⊢
    by_cases h1 : ca = false ∧ c.1 + c.2 = x
    · rw [if_pos h1] at h
      simp at h
    · rw [if_neg h1]
      rfl
  | cons e l ih =>
    intro c h
    simp only [local_ins_after, bucket_insert] at h ⊢
    by_cases hx : x < e.1
    · simp only [if_pos hx] at h ⊢
      by_cases hca : ca = true
      · simp only [if_pos hca] at h ⊢
        by_cases hadj : x + sz = e.1
        · simp only [if_pos hadj] at h
          simp at h
        · simp only [if_neg hadj]
      · simp only [if_neg hca] at h ⊢
        by_cases hadj : c.1 + c.2 = x
        · simp only [if_pos hadj] at h
          simp at h
        · simp only [if_neg hadj]
    · simp only [if_neg hx] at h ⊢
      rw [ih e h]

/-- Without a merge, one call of `insert_local_block` inserts the block at its
    address-ordered position. -/
theorem local_insert_none (x sz : Nat) (ca : Bool) (l : List (Nat × Nat))
    (h : (local_insert x sz ca l).2 = none) :
    (local_insert x sz ca l).1 = bucket_insert x sz l := by
  cases l with
  | nil => rfl
  | cons e l =>
    simp only [local_insert, bucket_insert] at h ⊢
    by_cases hx : x < e.1
    · simp only [if_pos hx] at h ⊢
      by_cases hc : ca = true ∧ x + sz = e.1
      · simp only [if_pos hc] at h
        simp at h
      · simp only [if_neg hc]
    · simp only [if_neg hx] at h ⊢
      exact local_ins_after_none x sz ca l e h

theorem local_ins_after_some (x sz : Nat) (ca : Bool) :
    ∀ (l : List (Nat × Nat)) (c : Nat × Nat) (m : Nat × Nat),
      (local_ins_after x sz ca c l).2 = some m →
      ∃ b, ((ca = true ∧ m = (x, sz + b.2) ∧ x + sz = b.1) ∨
          (ca = false ∧ m = (b.1, b.2 + sz) ∧ b.1 + b.2 = x)) ∧
        (c :: l).Perm (b :: (local_ins_after x sz ca c l).1) ∧
        ((local_ins_after x sz ca c l).1).Sublist (c :: l) := by
  intro l
  induction l with
  | nil =>
    intro c m h
    simp only [local_ins_after] at h ⊢
    by_cases h1 : ca = false ∧ c.1 + c.2 = x
    · simp only [if_pos h1, Option.some.injEq] at h ⊢
      exact ⟨c, Or.inr ⟨h1.1, h.symm, h1.2⟩, List.Perm.refl _, List.nil_sublist _⟩
    · simp only [if_neg h1] at h
      simp at h
  | cons e l ih =>
    intro c m h
    simp only [local_ins_after] at h ⊢
    by_cases hx : x < e.1
    · simp only [if_pos hx] at h ⊢
      by_cases hca : ca = true
      · simp only [if_pos hca] at h ⊢
        by_cases hadj : x + sz = e.1
        · simp only [if_pos hadj, Option.some.injEq] at h ⊢
          exact ⟨e, Or.inl ⟨hca, h.symm, hadj⟩, List.Perm.swap _ _ _,
            (List.sublist_cons_self e l).cons₂ c⟩
        · simp only [if_neg hadj] at h
          simp at h
      · simp only [if_neg hca] at h ⊢
        by_cases hadj : c.1 + c.2 = x
        · simp only [if_pos hadj, Option.some.injEq] at h ⊢
          exact ⟨c, Or.inr ⟨by simpa using hca, h.symm, hadj⟩, List.Perm.refl _,
            List.sublist_cons_self c _⟩
        · simp only [if_neg hadj] at h
          simp at h
    · simp only [if_neg hx] at h ⊢
      obtain ⟨b, hb, hp, hs⟩ := ih e m h
      exact ⟨b, hb, (List.Perm.cons c hp).trans (List.Perm.swap _ _ _), hs.cons₂ c⟩

/-- With a merge, one call of `insert_local_block` removes one entry `b` from the
    list; the merged block is `b` joined with the released block. -/
theorem local_insert_some (x sz : Nat) (ca : Bool) (l : List (Nat × Nat)) (m : Nat × Nat)
    (h : (local_insert x sz ca l).2 = some m) :
    ∃ b, ((ca = true ∧ m = (x, sz + b.2) ∧ x + sz = b.1) ∨
        (ca = false ∧ m = (b.1, b.2 + sz) ∧ b.1 + b.2 = x)) ∧
      l.Perm (b :: (local_insert x sz ca l).1) ∧ ((local_insert x sz ca l).1).Sublist l := by
  cases l with
  | nil => simp [local_insert] at h
  | cons e l =>
    simp only [local_insert] at h ⊢
    by_cases hx : x < e.1
    · simp only [if_pos hx] at h ⊢
      by_cases hc : ca = true ∧ x + sz = e.1
      · simp only [if_pos hc, Option.some.injEq] at h ⊢
        exact ⟨e, Or.inl ⟨hc.1, h.symm, hc.2⟩, List.Perm.refl _, List.sublist_cons_self e l⟩
      · simp only [if_neg hc] at h
        simp at h
    · simp only [if_neg hx] at h ⊢
      exact local_ins_after_some x sz ca l e m h

theorem bucket_insert_perm (x sz : Nat) (l : List (Nat × Nat)) :
    (bucket_insert x sz l).Perm ((x, sz) :: l) := by
  induction l with
  | nil => exact List.Perm.refl _
  | cons e l ih =>
    simp only [bucket_insert]
    by_cases hx : x < e.1
    · rw [if_pos hx]
    · rw [if_neg hx]
      exact (List.Perm.cons e ih).trans (List.Perm.swap _ _ _)

/-- Ordered insertion of a block that overlaps no entry keeps a free list a free list. -/
theorem FreeList_bucket_insert (x sz : Nat) (hx0 : x ≠ 0) (hsz : 16 ≤ sz)
    (hxfit : x + sz ≤ 9223372036854775808) (l : List (Nat × Nat)) (hl : FreeList l)
    (hdis : ∀ e ∈ l, Apart e (x, sz)) : FreeList (bucket_insert x sz l) := by
  induction l with
  | nil =>
    exact ⟨fun e he => by rw [List.mem_singleton.mp he]; exact ⟨hx0, hsz, hxfit⟩,
      List.pairwise_singleton _ _⟩
  | cons e l ih =>
    have he := hl.1 e (List.mem_cons_self _ _)
    have hp := List.pairwise_cons.mp hl.2
    have hd := hdis e (List.mem_cons_self _ _)
    simp only [Apart] at hd
    simp only [bucket_insert]
    by_cases hx : x < e.1
    · rw [if_pos hx]
      refine ⟨fun b hb => ?_, List.pairwise_cons.mpr ⟨fun b hb => ?_, hl.2⟩⟩
      · rcases List.mem_cons.mp hb with hb | hb
        · rw [hb]; exact ⟨hx0, hsz, hxfit⟩
        · exact hl.1 b hb
      · rcases List.mem_cons.mp hb with hb | hb
        · rw [hb]; simp only; omega
        · have := hp.1 b hb
          simp only; omega
    · rw [if_neg hx]
      have ih' := ih ⟨fun b hb => hl.1 b (List.mem_cons_of_mem _ hb), hp.2⟩
        (fun b hb => hdis b (List.mem_cons_of_mem _ hb))
      refine ⟨fun b hb => ?_, List.pairwise_cons.mpr ⟨fun b hb => ?_, ih'.2⟩⟩
      · rcases List.mem_cons.mp hb with hb | hb
        · rw [hb]; exact he
        · exact ih'.1 b hb
      · rcases List.mem_cons.mp ((bucket_insert_perm x sz l).subset hb) with hb | hb
        · rw [hb]; simp only; omega
        · exact hp.1 b hb

/-! ## `insert_local_block` on the whole thread cache -/

theorem ListAt_nil_iff (mem : Nat → Nat) (p : Nat) (l : List (Nat × Nat))
    (h : ListAt mem p l) : l = [] ↔ p = 0 := by
  cases l with
  | nil => exact ⟨fun _ => h, fun _ => rfl⟩
  | cons e l =>
    obtain ⟨h1, h2, _⟩ := h
    constructor
    · intro h; cases h
    · intro h; rw [h1] at h; exact absurd h h2

/-- The top case of `insert_local_block`: a block of class 20 while bucket 20 is not
    empty goes to the arena. -/
theorem insert_local_body_top (again : State → Nat → Except Fault State) (fuel : Nat)
    (s : State) (x : Nat) (hmx : s.mem x = 2 ^ 20) (hx0 : x ≠ 0) (hb : s.buckets 20 ≠ 0) :
    insert_local_body again fuel s x = insert_global_block fuel s x := by
  have hl20 : ¬ (20 > LOCAL_BUCKETS) := by simp only [LOCAL_BUCKETS]; omega
  have hl31 : 20 + 1 < 31 := by omega
  unfold insert_local_body
  simp only [get_size, if_neg hx0, hmx, bind_ok]
  rw [log_up_pow 20 (by omega) (by omega)]
  simp only [bind_ok, shl_int, if_pos hl31, if_neg hl20]
  rw [if_pos ⟨trivial, hb⟩]

theorem FreeList_pairwise_apart (l : List (Nat × Nat)) (h : FreeList l) : l.Pairwise Apart :=
  h.2.imp (fun h => Or.inl h)

theorem FreeList_sublist (l l' : List (Nat × Nat)) (h : FreeList l) (hs : l'.Sublist l) :
    FreeList l' :=
  ⟨fun e he => h.1 e (hs.subset he), h.2.sublist hs⟩

theorem Apart_symm (e e' : Nat × Nat) (h : Apart e e') : Apart e' e := Or.symm h

/-- Entries of a list that are apart from a block and from the listed blocks keep
    their headers under a write that only touches those. -/
theorem ListAt_apart_frame (mem mem' : Nat → Nat) (l : List (Nat × Nat)) (p : Nat)
    (hl : ListAt mem p l) (W : Nat → Prop)
    (hfr : ∀ a, ¬ W a → mem' a = mem a) (hW : ∀ e ∈ l, ¬ W e.1 ∧ ¬ W (e.1 + 8)) :
    ListAt mem' p l :=
  ListAt_frame mem mem' l p hl (fun e he => ⟨hfr _ (hW e he).1, hfr _ (hW e he).2⟩)

theorem set_list_same (L : Nat → List (Nat × Nat)) (i : Nat) (l : List (Nat × Nat)) :
    set_list L i l i = l := by
  simp [set_list]

theorem set_list_other (L : Nat → List (Nat × Nat)) (i t : Nat) (l : List (Nat × Nat))
    (h : t ≠ i) : set_list L i l t = L t := by
  simp [set_list, h]

/-- Replacing the list of bucket `i` by a list whose entries were all there keeps
    the free lists well formed. -/
theorem HeapWf_set_sublist (L : Nat → List (Nat × Nat)) (A : List (Nat × Nat)) (i : Nat)
    (l : List (Nat × Nat)) (hwf : HeapWf L A) (hs : l.Sublist (L i)) :
    HeapWf (set_list L i l) A := by
  have hmem : ∀ t, ∀ e ∈ set_list L i l t, e ∈ L t := by
    intro t e he
    by_cases ht : t = i
    · subst ht; rw [set_list_same] at he; exact hs.subset he
    · rw [set_list_other _ _ _ _ ht] at he; exact he
  refine
    { lists := fun t => ?_
      sizes := fun t e he => hwf.sizes t e (hmem t e he)
      range := fun t ht => ?_
      arena := hwf.arena
      apart := fun t t' htt e he e' he' => hwf.apart t t' htt e (hmem t e he) e' (hmem t' e' he')
      apart_arena := fun t e he e' he' => hwf.apart_arena t e (hmem t e he) e' he' }
  · by_cases ht : t = i
    · subst ht; rw [set_list_same]; exact FreeList_sublist _ _ (hwf.lists t) hs
    · rw [set_list_other _ _ _ _ ht]; exact hwf.lists t
  · by_cases hti : t = i
    · subst hti
      rw [set_list_same]
      have := hwf.range t ht
      rw [this] at hs
      exact List.sublist_nil.mp hs
    · rw [set_list_other _ _ _ _ hti]; exact hwf.range t ht

/-- Inserting a block that overlaps no free block into the list of its class keeps
    the free lists well formed. -/
theorem HeapWf_set_insert (L : Nat → List (Nat × Nat)) (A : List (Nat × Nat)) (i x : Nat)
    (hwf : HeapWf L A) (hi : 4 ≤ i) (hi20 : i ≤ 20) (hx0 : x ≠ 0)
    (hxfit : x + 2 ^ i ≤ 9223372036854775808)
    (hdis : ∀ t, ∀ e ∈ L t, Apart e (x, 2 ^ i)) (hdisA : ∀ e ∈ A, Apart e (x, 2 ^ i)) :
    HeapWf (set_list L i (bucket_insert x (2 ^ i) (L i))) A := by
  have h16 := pow_ge_16 i hi
  have hmem : ∀ t, ∀ e ∈ set_list L i (bucket_insert x (2 ^ i) (L i)) t,
      e ∈ L t ∨ (t = i ∧ e = (x, 2 ^ i)) := by
    intro t e he
    by_cases ht : t = i
    · subst ht
      rw [set_list_same] at he
      rcases List.mem_cons.mp ((bucket_insert_perm x (2 ^ t) (L t)).subset he) with h | h
      · exact Or.inr ⟨rfl, h⟩
      · exact Or.inl h
    · rw [set_list_other _ _ _ _ ht] at he; exact Or.inl he
  refine
    { lists := fun t => ?_
      sizes := fun t e he => ?_
      range := fun t ht => ?_
      arena := hwf.arena
      apart := fun t t' htt e he e' he' => ?_
      apart_arena := fun t e he e' he' => ?_ }
  · by_cases ht : t = i
    · subst ht
      rw [set_list_same]
      exact FreeList_bucket_insert x (2 ^ t) hx0 h16 hxfit (L t) (hwf.lists t) (hdis t)
    · rw [set_list_other _ _ _ _ ht]; exact hwf.lists t
  · rcases hmem t e he with h | ⟨rfl, h⟩
    · exact hwf.sizes t e h
    · rw [h]
  · have hti : t ≠ i := by omega
    rw [set_list_other _ _ _ _ hti]; exact hwf.range t ht
  · rcases hmem t e he with h | ⟨rfl, h⟩
    · rcases hmem t' e' he' with h' | ⟨rfl, h'⟩
      · exact hwf.apart t t' htt e h e' h'
      · rw [h']; exact hdis t e h
    · rcases hmem t' e' he' with h' | ⟨rfl, h'⟩
      · rw [h]; exact Apart_symm _ _ (hdis t' e' h')
      · exact absurd rfl htt
  · rcases hmem t e he with h | ⟨rfl, h⟩
    · exact hwf.apart_arena t e h e' he'
    · rw [h]; exact Apart_symm _ _ (hdisA e' he')

/-- After a merge: the remaining lists are well formed and the merged block is a
    block of the next class that overlaps none of them. -/
theorem HeapWf_merge (L : Nat → List (Nat × Nat)) (A : List (Nat × Nat)) (i x : Nat)
    (ca : Bool) (m : Nat × Nat) (hwf : HeapWf L A) (hi : 4 ≤ i) (hx0 : x ≠ 0)
    (hxfit : x + 2 ^ i ≤ 9223372036854775808)
    (hdis : ∀ t, ∀ e ∈ L t, Apart e (x, 2 ^ i)) (hdisA : ∀ e ∈ A, Apart e (x, 2 ^ i))
    (hm : (local_insert x (2 ^ i) ca (L i)).2 = some m) :
    HeapWf (set_list L i (local_insert x (2 ^ i) ca (L i)).1) A ∧
      m.2 = 2 ^ (i + 1) ∧ m.1 ≠ 0 ∧ m.1 + m.2 ≤ 9223372036854775808 ∧
      (∀ t, ∀ e ∈ set_list L i (local_insert x (2 ^ i) ca (L i)).1 t, Apart e m) ∧
      (∀ e ∈ A, Apart e m) ∧
      (∀ t, ∀ e ∈ set_list L i (local_insert x (2 ^ i) ca (L i)).1 t, e ∈ L t) ∧
      (m.1 = x ∨ ∃ b ∈ L i, m.1 = b.1) := by
  have h16 := pow_ge_16 i hi
  have hd := pow_succ_double i
  obtain ⟨b, hb, hperm, hsub⟩ := local_insert_some x (2 ^ i) ca (L i) m hm
  have hbl : b ∈ L i := hperm.symm.subset (List.mem_cons_self _ _)
  have hbsz := hwf.sizes i b hbl
  have hbok := (hwf.lists i).1 b hbl
  have hbx := hdis i b hbl
  have hmem : ∀ t, ∀ e ∈ set_list L i (local_insert x (2 ^ i) ca (L i)).1 t, e ∈ L t := by
    intro t e he
    by_cases ht : t = i
    · subst ht; rw [set_list_same] at he; exact hsub.subset he
    · rw [set_list_other _ _ _ _ ht] at he; exact he
  have hpw : (b :: (local_insert x (2 ^ i) ca (L i)).1).Pairwise Apart :=
    (hperm.pairwise_iff (fun {a b} h => Apart_symm a b h)).mp
      (FreeList_pairwise_apart _ (hwf.lists i))
  have hbr := (List.pairwise_cons.mp hpw).1
  -- every remaining block is apart from `b`
  have hapb : ∀ t, ∀ e ∈ set_list L i (local_insert x (2 ^ i) ca (L i)).1 t, Apart e b := by
    intro t e he
    by_cases ht : t = i
    · subst ht
      rw [set_list_same] at he
      exact Apart_symm _ _ (hbr e he)
    · rw [set_list_other _ _ _ _ ht] at he
      exact hwf.apart t i ht e he b hbl
  have hm1 : (m = (x, 2 ^ i + b.2) ∧ x + 2 ^ i = b.1) ∨ (m = (b.1, b.2 + 2 ^ i) ∧ b.1 + b.2 = x) := by
    rcases hb with ⟨_, h1, h2⟩ | ⟨_, h1, h2⟩
    · exact Or.inl ⟨h1, h2⟩
    · exact Or.inr ⟨h1, h2⟩
  have hjoin : ∀ e : Nat × Nat, 16 ≤ e.2 → Apart e (x, 2 ^ i) → Apart e b → Apart e m := by
    intro e h0 h1 h2
    simp only [Apart] at h1 h2 ⊢
    rcases hm1 with ⟨rfl, h⟩ | ⟨rfl, h⟩ <;> simp only <;> omega
  refine ⟨HeapWf_set_sublist L A i _ hwf hsub, ?_, ?_, ?_, ?_, ?_, hmem, ?_⟩
  · rcases hm1 with ⟨rfl, h⟩ | ⟨rfl, h⟩ <;> simp only <;> omega
  · rcases hm1 with ⟨rfl, h⟩ | ⟨rfl, h⟩
    · exact hx0
    · exact hbok.1
  · rcases hm1 with ⟨rfl, h⟩ | ⟨rfl, h⟩ <;> simp only <;> omega
  · intro t e he
    exact hjoin e ((hwf.lists t).1 e (hmem t e he)).2.1 (hdis t e (hmem t e he)) (hapb t e he)
  · intro e he
    exact hjoin e (hwf.arena.1.1 e he).2.1 (hdisA e he)
      (Apart_symm _ _ (hwf.apart_arena i b hbl e he))
  · rcases hm1 with ⟨rfl, h⟩ | ⟨rfl, h⟩
    · exact Or.inl rfl
    · exact Or.inr ⟨b, hbl, rfl⟩

/-- A walk over bucket `i` leaves the other lists in place. -/
theorem HeapAt_walk (s s1 : State) (L : Nat → List (Nat × Nat)) (A : List (Nat × Nat))
    (i x : Nat) (r : List (Nat × Nat) × Option (Nat × Nat)) (hat : HeapAt s L A)
    (hwf : HeapWf L A) (hi : 4 ≤ i)
    (hdis : ∀ t, ∀ e ∈ L t, Apart e (x, 2 ^ i)) (hdisA : ∀ e ∈ A, Apart e (x, 2 ^ i))
    (post : WalkPost s s1 i 0 x (L i) r) : HeapAt s1 (set_list L i r.1) A := by
  have h16 := pow_ge_16 i hi
  -- a block apart from `x` and from the entries of bucket `i` keeps its header
  have hkeep : ∀ e : Nat × Nat, 16 ≤ e.2 → Apart e (x, 2 ^ i) → (∀ e' ∈ L i, Apart e e') →
      s1.mem e.1 = s.mem e.1 ∧ s1.mem (e.1 + 8) = s.mem (e.1 + 8) := by
    intro e he hex hei
    simp only [Apart] at hex
    have hne : ∀ e' ∈ L i, (e.1 ≠ e'.1 ∧ e.1 ≠ e'.1 + 8) ∧ (e.1 + 8 ≠ e'.1 ∧ e.1 + 8 ≠ e'.1 + 8) := by
      intro e' he'
      have h1 := hei e' he'
      have h2 := ((hwf.lists i).1 e' he').2.1
      simp only [Apart] at h1
      refine ⟨⟨?_, ?_⟩, ?_, ?_⟩ <;> omega
    constructor
    · exact post.frame e.1 (by omega) (by omega) (fun e' he' => (hne e' he').1)
        (fun h => absurd rfl h)
    · exact post.frame (e.1 + 8) (by omega) (by omega) (fun e' he' => (hne e' he').2)
        (fun h => absurd rfl h)
  constructor
  · intro t ht4 ht20
    by_cases ht : t = i
    · subst ht
      rw [set_list_same]
      have := post.rep
      simp only [link, if_true] at this
      exact this
    · rw [set_list_other _ _ _ _ ht, post.b_other t ht]
      exact ListAt_frame s.mem s1.mem (L t) _ (hat.cache t ht4 ht20) (fun e he =>
        hkeep e ((hwf.lists t).1 e he).2.1 (hdis t e he) (hwf.apart t i ht e he))
  · rw [post.gl]
    exact ListAt_frame s.mem s1.mem A _ hat.arena (fun e he =>
      hkeep e (hwf.arena.1.1 e he).2.1 (hdisA e he)
        (fun e' he' => Apart_symm _ _ (hwf.apart_arena i e' he' e he)))

theorem Hdr_set_sublist (L : Nat → List (Nat × Nat)) (A : List (Nat × Nat)) (i : Nat)
    (l : List (Nat × Nat)) (hmem : ∀ t, ∀ e ∈ set_list L i l t, e ∈ L t) (a : Nat)
    (h : Hdr (set_list L i l) A a) : Hdr L A a := by
  rcases h with ⟨t, e, he, h⟩ | h
  · exact Or.inl ⟨t, e, hmem t e he, h⟩
  · exact Or.inr h

/-- A release that makes `k` nested calls returns. -/
theorem Climb_result (fuel k : Nat) (s : State) (x : Nat) (s' : State)
    (h : Climb fuel k s x s') : insert_local_block fuel s x = .ok s' := by
  induction h with
  | stop fuel s x s' _ h => rw [insert_local_block_succ]; exact h _
  | step fuel k s x s1 m s' _ h _ _ ih => rw [insert_local_block_succ, h _]; exact ih

/-- **Refinement.** On well-formed free lists held in memory, `insert_local_block`
    of a block of class `i` that overlaps no free block returns after at most `20 - i`
    nested calls (the fuel being above the length of every list plus the number of
    classes left), and the free lists it leaves in memory are `cache_release`.  Only
    header words of free blocks and of the released block are written. -/
theorem insert_local_block_climbs :
    ∀ (n i : Nat) (L : Nat → List (Nat × Nat)) (A : List (Nat × Nat)) (s : State)
      (x fuel : Nat), i + n = 21 → 4 ≤ i → i ≤ 20 → HeapAt s L A → HeapWf L A →
      s.mem x = 2 ^ i → x ≠ 0 → x + 2 ^ i ≤ 9223372036854775808 →
      (∀ t, ∀ e ∈ L t, Apart e (x, 2 ^ i)) → (∀ e ∈ A, Apart e (x, 2 ^ i)) →
      (∀ t, (L t).length + n < fuel) → A.length + n < fuel →
      ∃ k s', k + i ≤ 20 ∧ Climb fuel k s x s' ∧
        HeapAt s' (cache_release n L A x i).1 (cache_release n L A x i).2 ∧
        (∀ a, ¬ Hdr L A a → a ≠ x → a ≠ x + 8 → s'.mem a = s.mem a) ∧
        s'.init = s.init ∧ s'.pages = s.pages := by
  intro n
  induction n with
  | zero => intro i L A s x fuel h1 _ h3; omega
  | succ n ih =>
    intro i L A s x fuel hin hi hi20 hat hwf hmx hx0 hxfit hdis hdisA hfuel hfuelA
    obtain ⟨f, rfl⟩ : ∃ f, fuel = f + 1 := ⟨fuel - 1, by have := hfuelA; omega⟩
    have h16 := pow_ge_16 i hi
    have hleC : s.mem x ≤ LOCAL_SIZE_MAX := by
      rw [hmx]; exact pow_le_chunk i hi20
    by_cases htop : i = 20 ∧ s.buckets 20 ≠ 0
    · -- the block goes to the arena
      obtain ⟨rfl, hb⟩ := htop
      have hL20 : L 20 ≠ [] := fun h =>
        hb ((ListAt_nil_iff _ _ _ (hat.cache 20 (by omega) (by omega))).mp h)
      have hcr : cache_release (n + 1) L A x 20 = (L, arena_insert x (2 ^ 20) A) := by
        simp only [cache_release]
        rw [if_pos ⟨trivial, hL20⟩]
      rw [hcr]
      obtain ⟨s', hs', hl', hfr, hbk, hini, hpg⟩ :=
        insert_global_block_spec f s x (2 ^ 20) A (by omega) hat.arena hwf.arena.1 hmx hx0
          (by norm_num) hxfit hdisA
      refine ⟨0, s', by omega, Climb.stop f s x s' hleC (fun again => by
        rw [insert_local_body_top _ f s x hmx hx0 hb]; exact hs'),
        ⟨fun t ht4 ht20 => ?_, hl'⟩, fun a ha h1 h2 => ?_, hini, hpg⟩
      · rw [hbk]
        refine ListAt_frame s.mem s'.mem (L t) _ (hat.cache t ht4 ht20) (fun e he => ?_)
        have hex := hdis t e he
        have hesz := ((hwf.lists t).1 e he).2.1
        simp only [Apart] at hex
        have hne : ∀ e' ∈ A, (e.1 ≠ e'.1 ∧ e.1 ≠ e'.1 + 8) ∧
            (e.1 + 8 ≠ e'.1 ∧ e.1 + 8 ≠ e'.1 + 8) := by
          intro e' he'
          have h1 := hwf.apart_arena t e he e' he'
          have h2 := (hwf.arena.1.1 e' he').2.1
          simp only [Apart] at h1
          refine ⟨⟨?_, ?_⟩, ?_, ?_⟩ <;> omega
        exact ⟨hfr _ (by omega) (by omega) (fun e' he' => (hne e' he').1),
          hfr _ (by omega) (by omega) (fun e' he' => (hne e' he').2)⟩
      · exact hfr a h1 h2 (fun e he => by
          constructor
          · intro h; exact ha (Or.inr ⟨e, he, Or.inl h⟩)
          · intro h; exact ha (Or.inr ⟨e, he, Or.inr h⟩))
    · -- the block goes to bucket `i`
      obtain ⟨s1, hs1, post⟩ := insert_local_body_spec f s x i (L i)
        hi hi20 htop hmx hx0 hxfit (hat.cache i hi hi20) (hwf.lists i) (hdis i)
        (by have := hfuel i; omega)
      have hat1 := HeapAt_walk s s1 L A i x _ hat hwf hi hdis hdisA post
      have hfr1 : ∀ a, ¬ Hdr L A a → a ≠ x → a ≠ x + 8 → s1.mem a = s.mem a := by
        intro a ha h1 h2
        exact post.frame a h1 h2 (fun e he => by
          constructor
          · intro h; exact ha (Or.inl ⟨i, e, he, Or.inl h⟩)
          · intro h; exact ha (Or.inl ⟨i, e, he, Or.inr h⟩)) (fun h => absurd rfl h)
      have htop' : ¬ (i = 20 ∧ L 20 ≠ []) := by
        rintro ⟨rfl, h⟩
        exact htop ⟨rfl, fun hb =>
          h ((ListAt_nil_iff _ _ _ (hat.cache 20 (by omega) (by omega))).mpr hb)⟩
      cases hm : (local_insert x (2 ^ i) (decide (x % 2 ^ (i + 1) = 0)) (L i)).2 with
      | none =>
        have hcr : cache_release (n + 1) L A x i =
            (set_list L i (local_insert x (2 ^ i) (decide (x % 2 ^ (i + 1) = 0)) (L i)).1, A) := by
          simp only [cache_release, if_neg htop', hm]
        rw [hcr]
        refine ⟨0, s1, by omega, Climb.stop f s x s1 hleC (fun again => ?_), hat1, hfr1,
          post.ini, post.pg⟩
        rw [hs1 again, hm]
        rfl
      | some m =>
        have hcr : cache_release (n + 1) L A x i =
            cache_release n
              (set_list L i (local_insert x (2 ^ i) (decide (x % 2 ^ (i + 1) = 0)) (L i)).1) A
              m.1 (i + 1) := by
          simp only [cache_release, if_neg htop', hm]
        rw [hcr]
        obtain ⟨hwf1, hm2, hm0, hmfit, hmdis, hmdisA, hmem, hmx'⟩ :=
          HeapWf_merge L A i x _ m hwf hi hx0 hxfit hdis hdisA hm
        -- a merge needs an entry in the list: the class is below 20
        have hi19 : i ≤ 19 := by
          by_contra hcon
          have hi' : i = 20 := by omega
          subst hi'
          have hb0 : s.buckets 20 = 0 := by
            by_contra hb; exact htop ⟨rfl, hb⟩
          have hnil := (ListAt_nil_iff _ _ _ (hat.cache 20 (by omega) (by omega))).mpr hb0
          rw [hnil] at hm
          simp [local_insert] at hm
        have hlen : ∀ t, (set_list L i (local_insert x (2 ^ i)
            (decide (x % 2 ^ (i + 1) = 0)) (L i)).1 t).length ≤ (L t).length := by
          intro t
          by_cases ht : t = i
          · subst ht
            rw [set_list_same]
            obtain ⟨_, _, _, hsub⟩ := local_insert_some x (2 ^ t) _ (L t) m hm
            exact hsub.length_le
          · rw [set_list_other _ _ _ _ ht]
        have hm1 : s1.mem m.1 = 2 ^ (i + 1) := by rw [post.merged m hm, hm2]
        obtain ⟨k, s', hk, hcl, hat', hfr', hini', hpg'⟩ := ih (i + 1) _ A s1 m.1 f (by omega)
          (by omega) (by omega) hat1 hwf1 hm1 hm0
          (by rw [← hm2]; exact hmfit)
          (fun t e he => by rw [← hm2]; exact hmdis t e he)
          (fun e he => by rw [← hm2]; exact hmdisA e he)
          (fun t => by have := hfuel t; have := hlen t; omega) (by omega)
        refine ⟨k + 1, s', by omega, Climb.step f k s x s1 m.1 s' hleC (fun again => ?_)
          (by rw [hm1, hmx, pow_succ]; omega) hcl, hat', fun a ha h1 h2 => ?_,
          by rw [hini', post.ini], by rw [hpg', post.pg]⟩
        · rw [hs1 again, hm]
          rfl
        · have hna : ¬ Hdr (set_list L i (local_insert x (2 ^ i)
              (decide (x % 2 ^ (i + 1) = 0)) (L i)).1) A a :=
            fun h => ha (Hdr_set_sublist L A i _ hmem a h)
          have hma : a ≠ m.1 ∧ a ≠ m.1 + 8 := by
            rcases hmx' with h | ⟨b, hb, h⟩
            · rw [h]; exact ⟨h1, h2⟩
            · rw [h]
              constructor
              · intro h'; exact ha (Or.inl ⟨i, b, hb, Or.inl h'⟩)
              · intro h'; exact ha (Or.inl ⟨i, b, hb, Or.inr h'⟩)
          rw [hfr' a hna hma.1 hma.2, hfr1 a ha h1 h2]

/-! ## Invariants of `cache_release` -/

/-- Proof rule for `cache_release`: a property `I` of the lists and the pending block
    that every merge hands on to the next class yields the property `J` of the
    result, provided `J` holds where the block comes to rest. -/
theorem cache_release_rule
    (I : (Nat → List (Nat × Nat)) → List (Nat × Nat) → Nat → Nat → Prop)
    (J : (Nat → List (Nat × Nat)) → List (Nat × Nat) → Prop)
    (htop : ∀ L A x, I L A x 20 → L 20 ≠ [] → J L (arena_insert x (2 ^ 20) A))
    (hnone : ∀ L A x i, I L A x i → i ≤ 20 → ¬ (i = 20 ∧ L 20 ≠ []) →
      (local_insert x (2 ^ i) (decide (x % 2 ^ (i + 1) = 0)) (L i)).2 = none →
      J (set_list L i (local_insert x (2 ^ i) (decide (x % 2 ^ (i + 1) = 0)) (L i)).1) A)
    (hsome : ∀ L A x i m, I L A x i → i < 20 →
      (local_insert x (2 ^ i) (decide (x % 2 ^ (i + 1) = 0)) (L i)).2 = some m →
      I (set_list L i (local_insert x (2 ^ i) (decide (x % 2 ^ (i + 1) = 0)) (L i)).1) A
        m.1 (i + 1)) :
    ∀ (n i : Nat) (L : Nat → List (Nat × Nat)) (A : List (Nat × Nat)) (x : Nat),
      i + n = 21 → i ≤ 20 → I L A x i →
      J (cache_release n L A x i).1 (cache_release n L A x i).2 := by
  intro n
  induction n with
  | zero => intro i L A x h1 h2; omega
  | succ n ih =>
    intro i L A x hin hi20 hI
    by_cases htop' : i = 20 ∧ L 20 ≠ []
    · obtain ⟨rfl, hL⟩ := htop'
      have hcr : cache_release (n + 1) L A x 20 = (L, arena_insert x (2 ^ 20) A) := by
        simp only [cache_release]
        rw [if_pos ⟨trivial, hL⟩]
      rw [hcr]
      exact htop L A x hI hL
    · cases hm : (local_insert x (2 ^ i) (decide (x % 2 ^ (i + 1) = 0)) (L i)).2 with
      | none =>
        have hcr : cache_release (n + 1) L A x i =
            (set_list L i (local_insert x (2 ^ i) (decide (x % 2 ^ (i + 1) = 0)) (L i)).1, A) := by
          simp only [cache_release, if_neg htop', hm]
        rw [hcr]
        exact hnone L A x i hI hi20 htop' hm
      | some m =>
        have hcr : cache_release (n + 1) L A x i =
            cache_release n
              (set_list L i (local_insert x (2 ^ i) (decide (x % 2 ^ (i + 1) = 0)) (L i)).1) A
              m.1 (i + 1) := by
          simp only [cache_release, if_neg htop', hm]
        rw [hcr]
        have hi19 : i < 20 := by
          by_contra hcon
          have hi' : i = 20 := by omega
          subst hi'
          have hnil : L 20 = [] := by
            by_contra h; exact htop' ⟨rfl, h⟩
          rw [hnil] at hm
          simp [local_insert] at hm
        exact ih (i + 1) _ A m.1 (by omega) (by omega) (hsome L A x i m hI hi19 hm)

/-- A block that overlaps no block of `l` overlaps no block whose bytes are all
    covered by `l`. -/
theorem Apart_of_covered (l l' : List (Nat × Nat)) (e : Nat × Nat)
    (hcov : ∀ a, covered l' a → covered l a) (hap : ∀ b ∈ l, Apart e b) (he0 : 0 < e.2)
    (hpos : ∀ e' ∈ l', 0 < e'.2) : ∀ e' ∈ l', Apart e e' := by
  intro e' he'
  have hp := hpos e' he'
  by_contra hcon
  simp only [Apart, not_or, not_le] at hcon
  have hcv : covered l' (max e.1 e'.1) := ⟨e', he', le_max_right _ _, by
    rcases le_total e.1 e'.1 with h | h
    · rw [max_eq_right h]; omega
    · rw [max_eq_left h]; omega⟩
  obtain ⟨b, hb, hb1, hb2⟩ := hcov _ hcv
  have := hap b hb
  simp only [Apart] at this
  rcases le_total e.1 e'.1 with h | h
  · rw [max_eq_right h] at hb1 hb2; omega
  · rw [max_eq_left h] at hb1 hb2; omega

theorem Pending_merge (L : Nat → List (Nat × Nat)) (A : List (Nat × Nat)) (x i : Nat)
    (m : Nat × Nat) (h : Pending L A x i)
    (hm : (local_insert x (2 ^ i) (decide (x % 2 ^ (i + 1) = 0)) (L i)).2 = some m) :
    Pending (set_list L i (local_insert x (2 ^ i) (decide (x % 2 ^ (i + 1) = 0)) (L i)).1) A
      m.1 (i + 1) := by
  obtain ⟨hwf, hi, hx0, hxfit, hdis, hdisA⟩ := h
  obtain ⟨hwf1, hm2, hm0, hmfit, hmdis, hmdisA, _, _⟩ :=
    HeapWf_merge L A i x _ m hwf hi hx0 hxfit hdis hdisA hm
  exact ⟨hwf1, by omega, hm0, by rw [← hm2]; exact hmfit,
    fun t e he => by rw [← hm2]; exact hmdis t e he,
    fun e he => by rw [← hm2]; exact hmdisA e he⟩

/-- `cache_release` keeps the free lists well formed. -/
theorem cache_release_wf (n i : Nat) (L : Nat → List (Nat × Nat)) (A : List (Nat × Nat))
    (x : Nat) (hin : i + n = 21) (hi20 : i ≤ 20) (h : Pending L A x i) :
    HeapWf (cache_release n L A x i).1 (cache_release n L A x i).2 := by
  refine cache_release_rule Pending HeapWf ?_ ?_ ?_ n i L A x hin hi20 h
  · intro L A x ⟨hwf, hi, hx0, hxfit, hdis, hdisA⟩ _
    have hinv := ArenaInv_arena_insert x (2 ^ 20) A hwf.arena hx0 (by norm_num)
      ⟨1, by norm_num⟩ hxfit hdisA
    refine { hwf with arena := hinv, apart_arena := fun t e he => ?_ }
    have he16 := ((hwf.lists t).1 e he).2.1
    refine Apart_of_covered ((x, 2 ^ 20) :: A) _ e (fun a ha => ?_) (fun b hb => ?_)
      (by omega) (fun e' he' => (hinv.2 e' he').1)
    · rcases (covered_arena_insert x (2 ^ 20) A a).mp ha with h | h
      · obtain ⟨b, hb, h1⟩ := h
        exact ⟨b, List.mem_cons_of_mem _ hb, h1⟩
      · exact ⟨(x, 2 ^ 20), List.mem_cons_self _ _, h⟩
    · rcases List.mem_cons.mp hb with hb | hb
      · rw [hb]; exact hdis t e he
      · exact hwf.apart_arena t e he b hb
  · intro L A x i ⟨hwf, hi, hx0, hxfit, hdis, hdisA⟩ hi20 _ hm
    rw [local_insert_none _ _ _ _ hm]
    exact HeapWf_set_insert L A i x hwf hi hi20 hx0 hxfit hdis hdisA
  · intro L A x i m hI _ hm
    exact Pending_merge L A x i m hI hm

theorem lower_buddy_aligned (x i : Nat) (hx : x % 2 ^ i = 0) (hnx : x % 2 ^ (i + 1) ≠ 0) :
    2 ^ i ≤ x ∧ (x - 2 ^ i) % 2 ^ (i + 1) = 0 := by
  obtain ⟨q, rfl⟩ := Nat.dvd_of_mod_eq_zero hx
  have hpos : 0 < 2 ^ i := Nat.two_pow_pos i
  have hq : q % 2 = 1 := by
    rw [pow_succ, Nat.mul_mod_mul_left] at hnx
    rcases Nat.mod_two_eq_zero_or_one q with h | h
    · rw [h] at hnx; simp at hnx
    · exact h
  obtain ⟨r, hr⟩ : ∃ r, q = 2 * r + 1 := ⟨q / 2, by omega⟩
  subst hr
  constructor
  · calc 2 ^ i = 2 ^ i * 1 := (Nat.mul_one _).symm
      _ ≤ 2 ^ i * (2 * r + 1) := Nat.mul_le_mul_left _ (by omega)
  · have : 2 ^ i * (2 * r + 1) - 2 ^ i = 2 ^ (i + 1) * r := by
      rw [Nat.mul_add, Nat.mul_one, Nat.add_sub_cancel, pow_succ, Nat.mul_assoc]
    rw [this, Nat.mul_mod_right]

theorem upper_buddy_not_aligned (e i : Nat) (he : e % 2 ^ (i + 1) = 0) :
    (e + 2 ^ i) % 2 ^ (i + 1) ≠ 0 := by
  have hpos : 0 < 2 ^ i := Nat.two_pow_pos i
  have hd := pow_succ_double i
  rw [Nat.add_mod, he, Nat.zero_add, Nat.mod_mod, Nat.mod_eq_of_lt (by omega)]
  omega

/-- `cache_release` keeps the entries of every bucket aligned on the size of its class. -/
theorem cache_release_aligned (n i : Nat) (L : Nat → List (Nat × Nat)) (A : List (Nat × Nat))
    (x : Nat) (hin : i + n = 21) (hi20 : i ≤ 20) (h : Pending L A x i) (hal : Aligned L)
    (hx : x % 2 ^ i = 0) : Aligned (cache_release n L A x i).1 := by
  refine cache_release_rule (fun L A x i => Pending L A x i ∧ Aligned L ∧ x % 2 ^ i = 0)
    (fun L _ => Aligned L) ?_ ?_ ?_ n i L A x hin hi20 ⟨h, hal, hx⟩
  · intro L A x h _; exact h.2.1
  · intro L A x i ⟨_, hal, hx⟩ _ _ hm t e he
    rw [local_insert_none _ _ _ _ hm] at he
    by_cases ht : t = i
    · subst ht
      rw [set_list_same] at he
      rcases List.mem_cons.mp ((bucket_insert_perm x (2 ^ t) (L t)).subset he) with h | h
      · rw [h]; exact hx
      · exact hal t e h
    · rw [set_list_other _ _ _ _ ht] at he; exact hal t e he
  · intro L A x i m ⟨hp, hal, hx⟩ _ hm
    refine ⟨Pending_merge L A x i m hp hm, ?_, ?_⟩
    · intro t e he
      obtain ⟨hwf, hi, hx0, hxfit, hdis, hdisA⟩ := hp
      obtain ⟨_, _, _, _, _, _, hmem, _⟩ :=
        HeapWf_merge L A i x _ m hwf hi hx0 hxfit hdis hdisA hm
      exact hal t e (hmem t e he)
    · obtain ⟨b, hb, hperm, _⟩ := local_insert_some x (2 ^ i) _ (L i) m hm
      have hbl : b ∈ L i := hperm.symm.subset (List.mem_cons_self _ _)
      rcases hb with ⟨hca, rfl, _⟩ | ⟨hca, rfl, hadj⟩
      · rw [decide_eq_true_eq] at hca; exact hca
      · rw [decide_eq_false_iff_not] at hca
        have := lower_buddy_aligned x i hx hca
        have hb2 := hp.1.sizes i b hbl
        have : b.1 = x - 2 ^ i := by omega
        simp only
        rw [this]
        exact (lower_buddy_aligned x i hx hca).2

/-- `cache_release` keeps at most one entry in bucket 20. -/
theorem cache_release_top (n i : Nat) (L : Nat → List (Nat × Nat)) (A : List (Nat × Nat))
    (x : Nat) (hin : i + n = 21) (hi20 : i ≤ 20) (h : (L 20).length ≤ 1) :
    ((cache_release n L A x i).1 20).length ≤ 1 := by
  refine cache_release_rule (fun L _ _ _ => (L 20).length ≤ 1)
    (fun L _ => (L 20).length ≤ 1) ?_ ?_ ?_ n i L A x hin hi20 h
  · intro L A x h _; exact h
  · intro L A x i h _ htop hm
    by_cases hi : i = 20
    · subst hi
      have hnil : L 20 = [] := by
        by_contra hne; exact htop ⟨rfl, hne⟩
      rw [set_list_same, hnil]
      simp [local_insert]
    · rw [set_list_other _ _ _ _ (fun h => hi h.symm)]; exact h
  · intro L A x i m h hi _
    rw [set_list_other _ _ _ _ (by omega)]; exact h

theorem covered_perm (l l' : List (Nat × Nat)) (h : l.Perm l') (a : Nat) :
    covered l a ↔ covered l' a := by
  constructor
  · rintro ⟨e, he, h1⟩; exact ⟨e, h.subset he, h1⟩
  · rintro ⟨e, he, h1⟩; exact ⟨e, h.symm.subset he, h1⟩

theorem Free_set_list (L : Nat → List (Nat × Nat)) (A : List (Nat × Nat)) (i : Nat)
    (l : List (Nat × Nat)) (a : Nat) :
    Free (set_list L i l) A a ↔
      (covered l a ∨ (∃ t, t ≠ i ∧ covered (L t) a)) ∨ covered A a := by
  simp only [Free]
  constructor
  · rintro (⟨t, h⟩ | h)
    · by_cases ht : t = i
      · subst ht; rw [set_list_same] at h; exact Or.inl (Or.inl h)
      · rw [set_list_other _ _ _ _ ht] at h; exact Or.inl (Or.inr ⟨t, ht, h⟩)
    · exact Or.inr h
  · rintro ((h | ⟨t, ht, h⟩) | h)
    · exact Or.inl ⟨i, by rw [set_list_same]; exact h⟩
    · exact Or.inl ⟨t, by rw [set_list_other _ _ _ _ ht]; exact h⟩
    · exact Or.inr h

theorem Free_split (L : Nat → List (Nat × Nat)) (A : List (Nat × Nat)) (i : Nat) (a : Nat) :
    Free L A a ↔ (covered (L i) a ∨ (∃ t, t ≠ i ∧ covered (L t) a)) ∨ covered A a := by
  simp only [Free]
  constructor
  · rintro (⟨t, h⟩ | h)
    · by_cases ht : t = i
      · subst ht; exact Or.inl (Or.inl h)
      · exact Or.inl (Or.inr ⟨t, ht, h⟩)
    · exact Or.inr h
  · rintro ((h | ⟨t, _, h⟩) | h)
    · exact Or.inl ⟨i, h⟩
    · exact Or.inl ⟨t, h⟩
    · exact Or.inr h

theorem block_join (x sz b1 b2 a : Nat) (h : x + sz = b1) :
    (x ≤ a ∧ a < x + (sz + b2)) ↔ ((x ≤ a ∧ a < x + sz) ∨ (b1 ≤ a ∧ a < b1 + b2)) := by
  omega

theorem Free_release_top (L : Nat → List (Nat × Nat)) (A : List (Nat × Nat)) (x sz a : Nat) :
    Free L (arena_insert x sz A) a ↔ Free L A a ∨ (x ≤ a ∧ a < x + sz) := by
  simp only [Free]
  rw [covered_arena_insert, or_assoc]

theorem Free_release_none (L : Nat → List (Nat × Nat)) (A : List (Nat × Nat))
    (x sz i a : Nat) :
    Free (set_list L i (bucket_insert x sz (L i))) A a ↔
      Free L A a ∨ (x ≤ a ∧ a < x + sz) := by
  rw [Free_set_list, Free_split L A i, covered_perm _ _ (bucket_insert_perm x sz (L i)) a,
    covered_cons]
  generalize covered (L i) a = P
  generalize (∃ t, t ≠ i ∧ covered (L t) a) = Q
  generalize covered A a = R
  simp only
  generalize (x ≤ a ∧ a < x + sz) = X
  simp only [or_assoc, or_comm, or_left_comm]

theorem Free_release_some (L : Nat → List (Nat × Nat)) (A : List (Nat × Nat))
    (x sz i a : Nat) (ca : Bool) (m : Nat × Nat)
    (hm : (local_insert x sz ca (L i)).2 = some m) :
    (Free (set_list L i (local_insert x sz ca (L i)).1) A a ∨ (m.1 ≤ a ∧ a < m.1 + m.2)) ↔
      Free L A a ∨ (x ≤ a ∧ a < x + sz) := by
  obtain ⟨b, hb, hperm, _⟩ := local_insert_some x sz ca (L i) m hm
  rw [Free_set_list, Free_split L A i, covered_perm _ _ hperm a, covered_cons]
  have hM : (m.1 ≤ a ∧ a < m.1 + m.2) ↔ ((x ≤ a ∧ a < x + sz) ∨ (b.1 ≤ a ∧ a < b.1 + b.2)) := by
    rcases hb with ⟨_, rfl, hadj⟩ | ⟨_, rfl, hadj⟩
    · exact block_join x sz b.1 b.2 a hadj
    · rw [or_comm]
      exact block_join b.1 b.2 x sz a hadj
  rw [hM]
  generalize covered (local_insert x sz ca (L i)).1 a = P
  generalize (∃ t, t ≠ i ∧ covered (L t) a) = Q
  generalize covered A a = R
  generalize (x ≤ a ∧ a < x + sz) = X
  generalize (b.1 ≤ a ∧ a < b.1 + b.2) = B
  simp only [or_assoc, or_comm, or_left_comm]

/-- The bytes of the free blocks after a release: those that were free before and
    those of the released block. -/
theorem cache_release_free (n i : Nat) (L : Nat → List (Nat × Nat)) (A : List (Nat × Nat))
    (x : Nat) (hin : i + n = 21) (hi20 : i ≤ 20) (h : Pending L A x i) (a : Nat) :
    Free (cache_release n L A x i).1 (cache_release n L A x i).2 a ↔
      Free L A a ∨ (x ≤ a ∧ a < x + 2 ^ i) := by
  have h1 : ∀ (L' : Nat → List (Nat × Nat)) (A' : List (Nat × Nat)) (x' : Nat),
      (Pending L' A' x' 20 ∧ ((Free L' A' a ∨ (x' ≤ a ∧ a < x' + 2 ^ 20)) ↔
        (Free L A a ∨ (x ≤ a ∧ a < x + 2 ^ i)))) → L' 20 ≠ [] →
      (Free L' (arena_insert x' (2 ^ 20) A') a ↔ (Free L A a ∨ (x ≤ a ∧ a < x + 2 ^ i))) := by
    intro L' A' x' h _
    rw [← h.2, Free_release_top]
  have h2 : ∀ (L' : Nat → List (Nat × Nat)) (A' : List (Nat × Nat)) (x' i' : Nat),
      (Pending L' A' x' i' ∧ ((Free L' A' a ∨ (x' ≤ a ∧ a < x' + 2 ^ i')) ↔
        (Free L A a ∨ (x ≤ a ∧ a < x + 2 ^ i)))) → i' ≤ 20 → ¬ (i' = 20 ∧ L' 20 ≠ []) →
      (local_insert x' (2 ^ i') (decide (x' % 2 ^ (i' + 1) = 0)) (L' i')).2 = none →
      (Free (set_list L' i'
        (local_insert x' (2 ^ i') (decide (x' % 2 ^ (i' + 1) = 0)) (L' i')).1) A' a ↔
        (Free L A a ∨ (x ≤ a ∧ a < x + 2 ^ i))) := by
    intro L' A' x' i' h _ _ hm
    rw [← h.2, local_insert_none _ _ _ _ hm, Free_release_none]
  have h3 : ∀ (L' : Nat → List (Nat × Nat)) (A' : List (Nat × Nat)) (x' i' : Nat)
      (m : Nat × Nat),
      (Pending L' A' x' i' ∧ ((Free L' A' a ∨ (x' ≤ a ∧ a < x' + 2 ^ i')) ↔
        (Free L A a ∨ (x ≤ a ∧ a < x + 2 ^ i)))) → i' < 20 →
      (local_insert x' (2 ^ i') (decide (x' % 2 ^ (i' + 1) = 0)) (L' i')).2 = some m →
      (Pending (set_list L' i'
          (local_insert x' (2 ^ i') (decide (x' % 2 ^ (i' + 1) = 0)) (L' i')).1) A' m.1 (i' + 1) ∧
        ((Free (set_list L' i'
          (local_insert x' (2 ^ i') (decide (x' % 2 ^ (i' + 1) = 0)) (L' i')).1) A' a ∨
            (m.1 ≤ a ∧ a < m.1 + 2 ^ (i' + 1))) ↔
          (Free L A a ∨ (x ≤ a ∧ a < x + 2 ^ i)))) := by
    intro L' A' x' i' m h _ hm
    refine ⟨Pending_merge L' A' x' i' m h.1 hm, ?_⟩
    obtain ⟨hwf, hi, hx0, hxfit, hdis, hdisA⟩ := h.1
    obtain ⟨_, hm2, _⟩ := HeapWf_merge L' A' i' x' _ m hwf hi hx0 hxfit hdis hdisA hm
    have key := Free_release_some L' A' x' (2 ^ i') i' a _ m hm
    rw [hm2] at key
    rw [← h.2]
    exact key
  exact cache_release_rule
    (fun L' A' x' i' => Pending L' A' x' i' ∧ ((Free L' A' a ∨ (x' ≤ a ∧ a < x' + 2 ^ i')) ↔
      (Free L A a ∨ (x ≤ a ∧ a < x + 2 ^ i))))
    (fun L' A' => Free L' A' a ↔ (Free L A a ∨ (x ≤ a ∧ a < x + 2 ^ i)))
    h1 h2 h3 n i L A x hin hi20 ⟨h, Iff.rfl⟩

/-! ## The buddy of a block -/

theorem xor_one_eq (q : Nat) : q ^^^ 1 = if q % 2 = 0 then q + 1 else q - 1 := by
  have h1 : (q ^^^ 1) / 2 = q / 2 := by
    rw [Nat.xor_div_two]; simp
  have h2 : (q ^^^ 1) % 2 = (q + 1) % 2 := Nat.xor_mod_two_eq
  have h3 := Nat.div_add_mod (q ^^^ 1) 2
  have h4 := Nat.div_add_mod q 2
  rw [h1, h2] at h3
  split_ifs with h <;> omega

theorem two_pow_mul_xor (i a b : Nat) : 2 ^ i * a ^^^ 2 ^ i * b = 2 ^ i * (a ^^^ b) := by
  apply Nat.eq_of_testBit_eq
  intro j
  simp only [Nat.testBit_xor, Nat.testBit_mul_pow_two]
  cases decide (j ≥ i) <;> simp

/-- The address `x XOR 2 ^ i` of the buddy of a block of class `i`: the block above
    when `x` is aligned on `2 ^ (i + 1)`, the block below otherwise. -/
theorem xor_pow_buddy (x i : Nat) (hal : x % 2 ^ i = 0) :
    x ^^^ 2 ^ i = if x % 2 ^ (i + 1) = 0 then x + 2 ^ i else x - 2 ^ i := by
  obtain ⟨q, hq⟩ := Nat.dvd_of_mod_eq_zero hal
  have hpos : 0 < 2 ^ i := Nat.two_pow_pos i
  have h1 : x ^^^ 2 ^ i = 2 ^ i * (q ^^^ 1) := by
    rw [← two_pow_mul_xor, Nat.mul_one, ← hq]
  have h2 : x % 2 ^ (i + 1) = 0 ↔ q % 2 = 0 := by
    rw [hq, pow_succ, Nat.mul_mod_mul_left]
    constructor
    · intro h
      rcases Nat.mul_eq_zero.mp h with h | h
      · omega
      · exact h
    · intro h; rw [h]; rfl
  rw [h1, xor_one_eq]
  by_cases hq2 : q % 2 = 0
  · rw [if_pos hq2, if_pos (h2.mpr hq2), hq, Nat.mul_add, Nat.mul_one]
  · rw [if_neg hq2, if_neg (fun h => hq2 (h2.mp h)), hq, Nat.mul_sub, Nat.mul_one]

/-! ## When a release merges -/

theorem FreeList_tail (c : Nat × Nat) (l : List (Nat × Nat)) (h : FreeList (c :: l)) :
    FreeList l :=
  ⟨fun e he => h.1 e (List.mem_cons_of_mem _ he), (List.pairwise_cons.mp h.2).2⟩

theorem local_ins_after_no_partner (x sz : Nat) (ca : Bool) (hsz : 0 < sz) :
    ∀ (l : List (Nat × Nat)) (c : Nat × Nat), FreeList (c :: l) → c.1 < x →
      (∀ e ∈ c :: l, Apart e (x, sz)) → (local_ins_after x sz ca c l).2 = none →
      ∀ e ∈ c :: l, ¬ (ca = true ∧ x + sz = e.1) ∧ ¬ (ca = false ∧ e.1 + e.2 = x) := by
  intro l
  induction l with
  | nil =>
    intro c hbl hcx hdis h e he
    rw [List.mem_singleton.mp he]
    simp only [local_ins_after] at h
    by_cases h1 : ca = false ∧ c.1 + c.2 = x
    · rw [if_pos h1] at h; simp at h
    · exact ⟨fun h2 => by omega, h1⟩
  | cons e' l ih =>
    intro c hbl hcx hdis h e he
    have hc := hbl.1 c (List.mem_cons_self _ _)
    have hpw := List.pairwise_cons.mp hbl.2
    have hpw2 := List.pairwise_cons.mp hpw.2
    have hce := hpw.1 e' (List.mem_cons_self _ _)
    have hde := hdis e' (List.mem_cons_of_mem _ (List.mem_cons_self _ _))
    have he'ok := hbl.1 e' (List.mem_cons_of_mem _ (List.mem_cons_self _ _))
    simp only [Apart] at hde
    simp only [local_ins_after] at h
    by_cases hx : x < e'.1
    · simp only [if_pos hx] at h
      -- entries behind `e'` lie too far up to be partners
      have hfar : ∀ b ∈ l, x + sz < b.1 := by
        intro b hb
        have := hpw2.1 b hb
        omega
      by_cases hca : ca = true
      · simp only [if_pos hca] at h
        by_cases hadj : x + sz = e'.1
        · simp only [if_pos hadj] at h; simp at h
        · rcases List.mem_cons.mp he with h1 | h1
          · rw [h1]; exact ⟨fun h2 => by omega, fun h2 => by simp [hca] at h2⟩
          · rcases List.mem_cons.mp h1 with h1 | h1
            · rw [h1]; exact ⟨fun h2 => hadj h2.2, fun h2 => by simp [hca] at h2⟩
            · have := hfar e h1
              exact ⟨fun h2 => by omega, fun h2 => by simp [hca] at h2⟩
      · simp only [if_neg hca] at h
        by_cases hadj : c.1 + c.2 = x
        · simp only [if_pos hadj] at h; simp at h
        · rcases List.mem_cons.mp he with h1 | h1
          · rw [h1]; exact ⟨fun h2 => hca h2.1, fun h2 => hadj h2.2⟩
          · rcases List.mem_cons.mp h1 with h1 | h1
            · rw [h1]; exact ⟨fun h2 => hca h2.1, fun h2 => by omega⟩
            · have := hfar e h1
              exact ⟨fun h2 => hca h2.1, fun h2 => by omega⟩
    · simp only [if_neg hx] at h
      rcases List.mem_cons.mp he with h1 | h1
      · rw [h1]; exact ⟨fun h2 => by omega, fun h2 => by omega⟩
      · exact ih e' (FreeList_tail c _ hbl) (by omega)
          (fun b hb => hdis b (List.mem_cons_of_mem _ hb)) h e h1

/-- Without a merge, no entry of the list is adjacent to the released block on the
    side on which the block can merge. -/
theorem local_insert_no_partner (x sz : Nat) (ca : Bool) (hsz : 0 < sz)
    (l : List (Nat × Nat)) (hbl : FreeList l) (hdis : ∀ e ∈ l, Apart e (x, sz))
    (h : (local_insert x sz ca l).2 = none) :
    ∀ e ∈ l, ¬ (ca = true ∧ x + sz = e.1) ∧ ¬ (ca = false ∧ e.1 + e.2 = x) := by
  cases l with
  | nil => intro e he; cases he
  | cons e' l =>
    intro e he
    have hpw := List.pairwise_cons.mp hbl.2
    have hde := hdis e' (List.mem_cons_self _ _)
    have he'ok := hbl.1 e' (List.mem_cons_self _ _)
    simp only [Apart] at hde
    simp only [local_insert] at h
    by_cases hx : x < e'.1
    · simp only [if_pos hx] at h
      by_cases hc : ca = true ∧ x + sz = e'.1
      · simp only [if_pos hc] at h; simp at h
      · rcases List.mem_cons.mp he with h1 | h1
        · rw [h1]; exact ⟨hc, fun h2 => by omega⟩
        · have := hpw.1 e h1
          exact ⟨fun h2 => by omega, fun h2 => by omega⟩
    · simp only [if_neg hx] at h
      exact local_ins_after_no_partner x sz ca hsz l e' hbl (by omega) hdis h e he

theorem local_ins_after_erase (x sz : Nat) (ca : Bool) :
    ∀ (l : List (Nat × Nat)) (c : Nat × Nat) (m : Nat × Nat), FreeList (c :: l) →
      (local_ins_after x sz ca c l).2 = some m →
      ∃ b ∈ c :: l, ((ca = true ∧ m = (x, sz + b.2) ∧ x + sz = b.1) ∨
          (ca = false ∧ m = (b.1, b.2 + sz) ∧ b.1 + b.2 = x)) ∧
        (local_ins_after x sz ca c l).1 = (c :: l).erase b := by
  intro l
  induction l with
  | nil =>
    intro c m _ h
    simp only [local_ins_after] at h ⊢
    by_cases h1 : ca = false ∧ c.1 + c.2 = x
    · simp only [if_pos h1, Option.some.injEq] at h ⊢
      exact ⟨c, List.mem_cons_self _ _, Or.inr ⟨h1.1, h.symm, h1.2⟩, by simp⟩
    · simp only [if_neg h1] at h
      simp at h
  | cons e l ih =>
    intro c m hbl h
    have hpw := List.pairwise_cons.mp hbl.2
    have hc := hbl.1 c (List.mem_cons_self _ _)
    have hne : ∀ b ∈ e :: l, c ≠ b := by
      intro b hb hcb
      have := hpw.1 b hb
      rw [hcb] at this hc
      omega
    simp only [local_ins_after] at h ⊢
    by_cases hx : x < e.1
    · simp only [if_pos hx] at h ⊢
      by_cases hca : ca = true
      · simp only [if_pos hca] at h ⊢
        by_cases hadj : x + sz = e.1
        · simp only [if_pos hadj, Option.some.injEq] at h ⊢
          refine ⟨e, List.mem_cons_of_mem _ (List.mem_cons_self _ _),
            Or.inl ⟨hca, h.symm, hadj⟩, ?_⟩
          rw [List.erase_cons_tail (by simpa using hne e (List.mem_cons_self _ _)),
            List.erase_cons_head]
        · simp only [if_neg hadj] at h
          simp at h
      · simp only [if_neg hca] at h ⊢
        by_cases hadj : c.1 + c.2 = x
        · simp only [if_pos hadj, Option.some.injEq] at h ⊢
          exact ⟨c, List.mem_cons_self _ _, Or.inr ⟨by simpa using hca, h.symm, hadj⟩,
            by rw [List.erase_cons_head]⟩
        · simp only [if_neg hadj] at h
          simp at h
    · simp only [if_neg hx] at h ⊢
      obtain ⟨b, hb, hrel, her⟩ := ih e m (FreeList_tail c _ hbl) h
      refine ⟨b, List.mem_cons_of_mem _ hb, hrel, ?_⟩
      rw [List.erase_cons_tail (by simpa using hne b hb), her]

/-- With a merge, exactly one entry `b` leaves the list: the one adjacent to the
    released block on the side on which the block can merge. -/
theorem local_insert_erase (x sz : Nat) (ca : Bool) (l : List (Nat × Nat)) (m : Nat × Nat)
    (hbl : FreeList l) (h : (local_insert x sz ca l).2 = some m) :
    ∃ b ∈ l, ((ca = true ∧ m = (x, sz + b.2) ∧ x + sz = b.1) ∨
        (ca = false ∧ m = (b.1, b.2 + sz) ∧ b.1 + b.2 = x)) ∧
      (local_insert x sz ca l).1 = l.erase b := by
  cases l with
  | nil => simp [local_insert] at h
  | cons e l =>
    simp only [local_insert] at h ⊢
    by_cases hx : x < e.1
    · simp only [if_pos hx] at h ⊢
      by_cases hc : ca = true ∧ x + sz = e.1
      · simp only [if_pos hc, Option.some.injEq] at h ⊢
        exact ⟨e, List.mem_cons_self _ _, Or.inl ⟨hc.1, h.symm, hc.2⟩,
          by rw [List.erase_cons_head]⟩
      · simp only [if_neg hc] at h
        simp at h
    · simp only [if_neg hx] at h ⊢
      exact local_ins_after_erase x sz ca l e m hbl h

theorem pairwise_bucket_insert (R : Nat × Nat → Nat × Nat → Prop) (x sz : Nat)
    (l : List (Nat × Nat)) (hl : l.Pairwise R)
    (hx : ∀ e ∈ l, R e (x, sz) ∧ R (x, sz) e) : (bucket_insert x sz l).Pairwise R := by
  induction l with
  | nil => exact List.pairwise_singleton _ _
  | cons e l ih =>
    have hp := List.pairwise_cons.mp hl
    simp only [bucket_insert]
    by_cases h : x < e.1
    · rw [if_pos h]
      exact List.pairwise_cons.mpr ⟨fun b hb => (hx b hb).2, hl⟩
    · rw [if_neg h]
      refine List.pairwise_cons.mpr ⟨fun b hb => ?_,
        ih hp.2 (fun b hb => hx b (List.mem_cons_of_mem _ hb))⟩
      rcases List.mem_cons.mp ((bucket_insert_perm x sz l).subset hb) with hb | hb
      · rw [hb]; exact (hx e (List.mem_cons_self _ _)).1
      · exact hp.1 b hb

/-- `cache_release` never leaves a block and its upper buddy together in a bucket. -/
theorem cache_release_nobuddies (n i : Nat) (L : Nat → List (Nat × Nat))
    (A : List (Nat × Nat)) (x : Nat) (hin : i + n = 21) (hi20 : i ≤ 20)
    (h : Pending L A x i) (hnb : NoBuddies L) : NoBuddies (cache_release n L A x i).1 := by
  refine cache_release_rule (fun L A x i => Pending L A x i ∧ NoBuddies L)
    (fun L _ => NoBuddies L) ?_ ?_ ?_ n i L A x hin hi20 ⟨h, hnb⟩
  · intro L A x h _; exact h.2
  · intro L A x i ⟨⟨hwf, hi, hx0, hxfit, hdis, hdisA⟩, hnb⟩ _ _ hm t
    have hno := local_insert_no_partner x (2 ^ i) _ (Nat.two_pow_pos i) (L i) (hwf.lists i)
      (hdis i) hm
    rw [local_insert_none _ _ _ _ hm]
    by_cases ht : t = i
    · subst ht
      rw [set_list_same]
      refine pairwise_bucket_insert _ x (2 ^ t) (L t) (hnb t) (fun e he => ⟨?_, ?_⟩)
      · rintro ⟨h1, h2⟩
        have h3 := upper_buddy_not_aligned e.1 t h1
        simp only at h2
        rw [h2] at h3
        exact (hno e he).2 ⟨by simp [h3], by rw [hwf.sizes t e he]; exact h2⟩
      · rintro ⟨h1, h2⟩
        exact (hno e he).1 ⟨by simpa using h1, h2⟩
    · rw [set_list_other _ _ _ _ ht]; exact hnb t
  · intro L A x i m ⟨hp, hnb⟩ _ hm
    refine ⟨Pending_merge L A x i m hp hm, fun t => ?_⟩
    by_cases ht : t = i
    · subst ht
      rw [set_list_same]
      obtain ⟨_, _, _, hsub⟩ := local_insert_some x (2 ^ t) _ (L t) m hm
      exact (hnb t).sublist hsub
    · rw [set_list_other _ _ _ _ ht]; exact hnb t

theorem aligned_apart (p a b : Nat) (ha : a % p = 0) (hb : b % p = 0) (hlt : a < b) :
    a + p ≤ b := by
  obtain ⟨q, hq⟩ := Nat.dvd_of_mod_eq_zero ha
  obtain ⟨r, hr⟩ := Nat.dvd_of_mod_eq_zero hb
  subst hq hr
  have hqr : q < r := by
    by_contra h
    have := Nat.mul_le_mul_left p (Nat.le_of_not_lt h)
    omega
  calc p * q + p = p * (q + 1) := by rw [Nat.mul_add, Nat.mul_one]
    _ ≤ p * r := Nat.mul_le_mul_left p hqr

/-- **C18.** One call of `insert_local_block` merges exactly with the buddy.  Let
    `4 ≤ i < 20`, let bucket `i` hold in memory the list `l` of blocks of size `2 ^ i`,
    aligned on `2 ^ i`, strictly ascending, and let the released block `x` have size
    `2 ^ i`, be aligned on `2 ^ i` and be none of the entries.  `again` stands for the
    recursive call (`insert_local_block (fuel + 1)` is `insert_local_body` with
    `again := insert_local_block fuel`); what holds for every `again` does not
    depend on a recursive call.  If the block at `x XOR 2 ^ i` is an entry of
    the list, the call removes that entry and ends with the recursive call on the block
    `min x (x XOR 2 ^ i)`, whose header now holds `2 ^ (i + 1)`; otherwise the call
    returns without a recursive call and the list is `l` with `x` inserted at its
    address-ordered position.  In both cases no other bucket and no word outside the
    headers of `x` and of the entries of `l` changes. -/
theorem release_merges_exactly_with_buddy
    (fuel : Nat) (s : State) (x i : Nat) (l : List (Nat × Nat)) (hi : 4 ≤ i) (hi19 : i < 20)
    (hmx : s.mem x = 2 ^ i) (hx0 : x ≠ 0) (hxfit : x + 2 ^ i ≤ 9223372036854775808)
    (hxal : x % 2 ^ i = 0) (hl : ListAt s.mem (s.buckets i) l) (hbl : FreeList l)
    (hsz : ∀ e ∈ l, e.2 = 2 ^ i) (hal : ∀ e ∈ l, e.1 % 2 ^ i = 0) (hnot : ∀ e ∈ l, e.1 ≠ x)
    (hfuel : l.length ≤ fuel) :
    ((x ^^^ 2 ^ i, 2 ^ i) ∈ l →
      ∃ s', (∀ again, insert_local_body again fuel s x = again s' (min x (x ^^^ 2 ^ i))) ∧
        s'.mem (min x (x ^^^ 2 ^ i)) = 2 ^ (i + 1) ∧
        ListAt s'.mem (s'.buckets i) (l.erase (x ^^^ 2 ^ i, 2 ^ i)) ∧
        (∀ t, t ≠ i → s'.buckets t = s.buckets t) ∧ s'.global_list = s.global_list ∧
        ∀ a, a ≠ x → a ≠ x + 8 → (∀ e ∈ l, a ≠ e.1 ∧ a ≠ e.1 + 8) → s'.mem a = s.mem a) ∧
    ((x ^^^ 2 ^ i, 2 ^ i) ∉ l →
      ∃ s', (∀ again, insert_local_body again fuel s x = .ok s') ∧
        ListAt s'.mem (s'.buckets i) (bucket_insert x (2 ^ i) l) ∧
        (∀ t, t ≠ i → s'.buckets t = s.buckets t) ∧ s'.global_list = s.global_list ∧
        ∀ a, a ≠ x → a ≠ x + 8 → (∀ e ∈ l, a ≠ e.1 ∧ a ≠ e.1 + 8) → s'.mem a = s.mem a) := by
  have h16 := pow_ge_16 i hi
  have hd := pow_succ_double i
  have hdis : ∀ e ∈ l, Apart e (x, 2 ^ i) := by
    intro e he
    have h1 := hnot e he
    have h2 := hal e he
    have h3 := hsz e he
    simp only [Apart]
    rcases Nat.lt_or_gt_of_ne h1 with h | h
    · left; rw [h3]; exact aligned_apart _ _ _ h2 hxal h
    · right; exact aligned_apart _ _ _ hxal h2 h
  have hx2 : 2 ^ i ≤ x := by
    have := aligned_apart (2 ^ i) 0 x (by simp) hxal (by omega)
    omega
  obtain ⟨s', hs', post⟩ := insert_local_body_spec fuel s x i l hi (by omega)
    (fun h => by omega) hmx hx0 hxfit hl hbl hdis hfuel
  have hrep := post.rep
  simp only [link, if_true] at hrep
  have hfr : ∀ a, a ≠ x → a ≠ x + 8 → (∀ e ∈ l, a ≠ e.1 ∧ a ≠ e.1 + 8) →
      s'.mem a = s.mem a := fun a h1 h2 h3 => post.frame a h1 h2 h3 (fun h => absurd rfl h)
  have hxor := xor_pow_buddy x i hxal
  -- the partner of a merge is the buddy
  have hpartner : ∀ b ∈ l, ∀ m : Nat × Nat,
      ((decide (x % 2 ^ (i + 1) = 0) = true ∧ m = (x, 2 ^ i + b.2) ∧ x + 2 ^ i = b.1) ∨
        (decide (x % 2 ^ (i + 1) = 0) = false ∧ m = (b.1, b.2 + 2 ^ i) ∧ b.1 + b.2 = x)) →
      b = (x ^^^ 2 ^ i, 2 ^ i) ∧ m.1 = min x (x ^^^ 2 ^ i) ∧ m.2 = 2 ^ (i + 1) := by
    intro b hb m hrel
    have hb2 := hsz b hb
    rcases hrel with ⟨hca, rfl, hadj⟩ | ⟨hca, rfl, hadj⟩
    · rw [decide_eq_true_eq] at hca
      rw [hxor, if_pos hca]
      refine ⟨Prod.ext (by simp only; omega) (by simp only; omega), ?_, by simp only; omega⟩
      simp only
      rw [Nat.min_eq_left (by omega)]
    · rw [decide_eq_false_iff_not] at hca
      rw [hxor, if_neg hca]
      refine ⟨Prod.ext (by simp only; omega) (by simp only; omega), ?_, by simp only; omega⟩
      simp only
      rw [Nat.min_eq_right (by omega)]
      omega
  constructor
  · intro hin
    cases hm : (local_insert x (2 ^ i) (decide (x % 2 ^ (i + 1) = 0)) l).2 with
    | none =>
      exfalso
      have hno := local_insert_no_partner x (2 ^ i) _ (by omega) l hbl hdis hm _ hin
      by_cases hca : x % 2 ^ (i + 1) = 0
      · refine hno.1 ⟨by simp [hca], ?_⟩
        rw [hxor, if_pos hca]
      · refine hno.2 ⟨by simp [hca], ?_⟩
        simp only
        rw [hxor, if_neg hca]
        omega
    | some m =>
      obtain ⟨b, hb, hrel, her⟩ := local_insert_erase x (2 ^ i) _ l m hbl hm
      obtain ⟨hbe, hm1, hm2⟩ := hpartner b hb m hrel
      rw [hm] at hs'
      simp only [finish] at hs'
      refine ⟨s', fun again => by rw [hs' again, hm1], ?_, ?_, post.b_other, post.gl, hfr⟩
      · rw [← hm1, post.merged m hm, hm2]
      · rw [← hbe, ← her]; exact hrep
  · intro hnin
    cases hm : (local_insert x (2 ^ i) (decide (x % 2 ^ (i + 1) = 0)) l).2 with
    | none =>
      rw [hm] at hs'
      simp only [finish] at hs'
      refine ⟨s', hs', ?_, post.b_other, post.gl, hfr⟩
      rw [← local_insert_none _ _ _ _ hm]; exact hrep
    | some m =>
      exfalso
      obtain ⟨b, hb, hrel, _⟩ := local_insert_erase x (2 ^ i) _ l m hbl hm
      obtain ⟨hbe, _, _⟩ := hpartner b hb m hrel
      rw [hbe] at hb
      exact hnin hb

/-! ## Concrete runs -/

/-- C10: for each of the eight byte counts `b = 2 ^ 64 - 8 + k`, `k < 8`, `xmalloc(b)`
    on a fresh process returns a pointer into a block whose recorded size is 16:
    `bytes + sizeof(size_t)` wraps around to `k`, so the payload has 8 bytes, fewer
    than `b`. -/
theorem xmalloc_wrapped_request_gets_16 (k : Fin 8) :
    ∃ s p, xmalloc 8 (fresh [1073741824]) (WORD - 8 + k.val) = .ok (s, p) ∧
      p = 1073741824 + 8 ∧ s.mem (p - 8) = 16 ∧ s.mem (p - 8) - 8 < WORD - 8 + k.val := by
  fin_cases k <;> exact ⟨_, _, rfl, rfl, rfl, by decide⟩

/-- C6: on a fresh process `xmalloc(2^30 - 8)` takes the whole seed, the arena is then
    the empty list, and the next `xmalloc(1)` dereferences the null `global_list`
    in `find_global_block` whatever the fuel: it does not reach the page source. -/
theorem xmalloc_on_empty_arena_null_deref :
    ∃ s1 p1, xmalloc 8 (fresh [1073741824, 4294967296]) (2 ^ 30 - 8) = .ok (s1, p1) ∧
      s1.global_list = 0 ∧ s1.pages = [4294967296] ∧
      (∀ fuel, find_global_block fuel s1 LOCAL_SIZE_MAX = .error .null_deref) ∧
      (∀ fuel, xmalloc fuel s1 1 = .error .null_deref) :=
  ⟨_, _, rfl, rfl, rfl, fun _ => rfl, fun _ => rfl⟩

/-- C2: the caller keeps `p2`, writes one word inside the payload of `p3` before
    releasing it, and a later `xmalloc` returns `p2` again while it is still owned. -/
theorem xmalloc_returns_owned_block :
    ∃ s1 p1 s2 p2 s3 p3 s4 s5 s6 p4,
      xmalloc 8 (fresh [1073741824]) (2 * LOCAL_SIZE_MAX - 8) = .ok (s1, p1) ∧
      xmalloc 8 s1 (3 * LOCAL_SIZE_MAX - 8) = .ok (s2, p2) ∧
      xmalloc 8 s2 (4 * LOCAL_SIZE_MAX - 8) = .ok (s3, p3) ∧
      p3 ≤ 1073741824 + 8 * LOCAL_SIZE_MAX + 8 ∧
      1073741824 + 8 * LOCAL_SIZE_MAX + 16 ≤ (p3 - 8) + s3.mem (p3 - 8) ∧
      xfree 8 (caller_write s3 (1073741824 + 8 * LOCAL_SIZE_MAX + 8)
        (1073741824 + 2 * LOCAL_SIZE_MAX)) p3 = .ok s4 ∧
      xfree 8 s4 p1 = .ok s5 ∧
      xmalloc 8 s5 (3 * LOCAL_SIZE_MAX - 8) = .ok (s6, p4) ∧
      p4 = p2 :=
  ⟨_, _, _, _, _, _, _, _, _, _, rfl, rfl, rfl, by decide, by decide, rfl, rfl, rfl, rfl⟩

/-- C1: the arena is the well-formed list `[(A, 2C), (A + 4C, 2^30 - 4C)]`, and
    `xmalloc(3C - 8)` returns a pointer whose block header does not record `3C`.
    The fitting entry is not the head; the loop of `find_global_block` links the
    split-off suffix without setting its `next` field and walks on through the
    word the caller left there. -/
theorem xmalloc_large_wrong_recorded_size :
    ∃ s1 p1 s2 p2 s3 p3 s4 s5 s6 p4,
      xmalloc 8 (fresh [1073741824]) (2 * LOCAL_SIZE_MAX - 8) = .ok (s1, p1) ∧
      xmalloc 8 s1 (2 * LOCAL_SIZE_MAX - 8) = .ok (s2, p2) ∧
      xmalloc 8 s2 (5 * LOCAL_SIZE_MAX - 8) = .ok (s3, p3) ∧
      p3 ≤ 1073741824 + 7 * LOCAL_SIZE_MAX + 8 ∧
      1073741824 + 7 * LOCAL_SIZE_MAX + 16 ≤ (p3 - 8) + s3.mem (p3 - 8) ∧
      xfree 8 (caller_write s3 (1073741824 + 7 * LOCAL_SIZE_MAX + 8)
        (1073741824 + 7 * LOCAL_SIZE_MAX + 8)) p3 = .ok s4 ∧
      xfree 8 s4 p1 = .ok s5 ∧
      read_list 8 s5 s5.global_list =
        some [(1073741824, 2 * LOCAL_SIZE_MAX),
              (1073741824 + 4 * LOCAL_SIZE_MAX, 2 ^ 30 - 4 * LOCAL_SIZE_MAX)] ∧
      (∀ i, s5.buckets i = 0) ∧
      xmalloc 8 s5 (3 * LOCAL_SIZE_MAX - 8) = .ok (s6, p4) ∧
      s6.mem (p4 - 8) = 1073741824 + 10 * LOCAL_SIZE_MAX + 8 ∧
      s6.mem (p4 - 8) ≠ 3 * LOCAL_SIZE_MAX :=
  ⟨_, _, _, _, _, _, _, _, _, _, rfl, rfl, rfl, by decide, by decide, rfl, rfl, rfl,
    fun _ => rfl, rfl, rfl, by decide⟩

/-- C5: with the arena `[(A, 2C), (A + 4C, 5C), (A + 11C, 2^30 - 11C)]` and zero bytes
    in the free blocks, `xmalloc(3C - 8)` followed by `xfree` leaves the arena
    `[(A, 2C), (A + 4C, 5C)]`: the entry after the fitting one is lost, and the
    sum of the sizes is smaller than before. -/
theorem large_roundtrip_loses_arena_entry :
    ∃ s1 p1 s2 p2 s3 p3 s4 p4 s5 s6 s7 p5 s8,
      xmalloc 8 (fresh [1073741824]) (2 * LOCAL_SIZE_MAX - 8) = .ok (s1, p1) ∧
      xmalloc 8 s1 (2 * LOCAL_SIZE_MAX - 8) = .ok (s2, p2) ∧
      xmalloc 8 s2 (5 * LOCAL_SIZE_MAX - 8) = .ok (s3, p3) ∧
      xmalloc 8 s3 (2 * LOCAL_SIZE_MAX - 8) = .ok (s4, p4) ∧
      xfree 8 s4 p3 = .ok s5 ∧
      xfree 8 s5 p1 = .ok s6 ∧
      read_list 8 s6 s6.global_list =
        some [(1073741824, 2 * LOCAL_SIZE_MAX),
              (1073741824 + 4 * LOCAL_SIZE_MAX, 5 * LOCAL_SIZE_MAX),
              (1073741824 + 11 * LOCAL_SIZE_MAX, 2 ^ 30 - 11 * LOCAL_SIZE_MAX)] ∧
      xmalloc 8 s6 (3 * LOCAL_SIZE_MAX - 8) = .ok (s7, p5) ∧
      xfree 8 s7 p5 = .ok s8 ∧
      read_list 8 s8 s8.global_list =
        some [(1073741824, 2 * LOCAL_SIZE_MAX),
              (1073741824 + 4 * LOCAL_SIZE_MAX, 5 * LOCAL_SIZE_MAX)] ∧
      (read_list 8 s8 s8.global_list).map total_size = some (7 * LOCAL_SIZE_MAX) ∧
      (read_list 8 s6 s6.global_list).map total_size =
        some (2 ^ 30 - 4 * LOCAL_SIZE_MAX) :=
  ⟨_, _, _, _, _, _, _, _, _, _, _, _, _, rfl, rfl, rfl, rfl, rfl, rfl, rfl, rfl, rfl,
    rfl, rfl, rfl⟩

/-- C15: with the arena `[(A, 2C), (A + 4C, 5C), (A + 11C, 2^30 - 11C)]` and zero
    bytes in the free blocks, `find_global_block` for `3C` bytes returns the first
    fitting entry `A + 4C` with size field `3C`, but the list it leaves is
    `[(A, 2C), (A + 7C, 2C)]`: the suffix `A + 7C` is linked in, and the entry
    `(A + 11C, 2^30 - 11C)` behind the fitting one is no longer in the list. -/
theorem find_global_block_drops_entries_behind_fit :
    ∃ s1 p1 s2 p2 s3 p3 s4 p4 s5 s6 s7 out,
      xmalloc 8 (fresh [1073741824]) (2 * LOCAL_SIZE_MAX - 8) = .ok (s1, p1) ∧
      xmalloc 8 s1 (2 * LOCAL_SIZE_MAX - 8) = .ok (s2, p2) ∧
      xmalloc 8 s2 (5 * LOCAL_SIZE_MAX - 8) = .ok (s3, p3) ∧
      xmalloc 8 s3 (2 * LOCAL_SIZE_MAX - 8) = .ok (s4, p4) ∧
      xfree 8 s4 p3 = .ok s5 ∧
      xfree 8 s5 p1 = .ok s6 ∧
      read_list 8 s6 s6.global_list =
        some [(1073741824, 2 * LOCAL_SIZE_MAX),
              (1073741824 + 4 * LOCAL_SIZE_MAX, 5 * LOCAL_SIZE_MAX),
              (1073741824 + 11 * LOCAL_SIZE_MAX, 2 ^ 30 - 11 * LOCAL_SIZE_MAX)] ∧
      find_global_block 8 s6 (3 * LOCAL_SIZE_MAX) = .ok (s7, out) ∧
      out = 1073741824 + 4 * LOCAL_SIZE_MAX ∧
      s7.mem out = 3 * LOCAL_SIZE_MAX ∧
      read_list 8 s7 s7.global_list =
        some [(1073741824, 2 * LOCAL_SIZE_MAX),
              (1073741824 + 7 * LOCAL_SIZE_MAX, 2 * LOCAL_SIZE_MAX)] ∧
      read_list 8 s7 s7.global_list ≠
        some [(1073741824, 2 * LOCAL_SIZE_MAX),
              (1073741824 + 7 * LOCAL_SIZE_MAX, 2 * LOCAL_SIZE_MAX),
              (1073741824 + 11 * LOCAL_SIZE_MAX, 2 ^ 30 - 11 * LOCAL_SIZE_MAX)] :=
  ⟨_, _, _, _, _, _, _, _, _, _, _, _, rfl, rfl, rfl, rfl, rfl, rfl, rfl, rfl, rfl, rfl,
    rfl, by decide⟩

/-! ## `find_local_block` on the whole thread cache -/

theorem mem_cache_take (L : Nat → List (Nat × Nat)) (i j h t : Nat) (tl : List (Nat × Nat))
    (hLj : L j = (h, 2 ^ j) :: tl) (e : Nat × Nat) (he : e ∈ cache_take L i j h t) :
    (i ≤ t ∧ t < j ∧ e = (h + 2 ^ t, 2 ^ t)) ∨ (t = j ∧ e ∈ tl) ∨
      (¬ (i ≤ t ∧ t < j) ∧ t ≠ j ∧ e ∈ L t) := by
  simp only [cache_take] at he
  by_cases h1 : i ≤ t ∧ t < j
  · rw [if_pos h1] at he
    exact Or.inl ⟨h1.1, h1.2, List.mem_singleton.mp he⟩
  · rw [if_neg h1] at he
    by_cases h2 : t = j
    · rw [if_pos h2, hLj] at he
      exact Or.inr (Or.inl ⟨h2, he⟩)
    · rw [if_neg h2] at he
      exact Or.inr (Or.inr ⟨h1, h2, he⟩)

/-- Every block of the lists after the take is an old block or a part of the block
    that was split. -/
theorem cache_take_host (L : Nat → List (Nat × Nat)) (A : List (Nat × Nat)) (i j h t : Nat)
    (tl : List (Nat × Nat)) (hwf : HeapWf L A) (hLj : L j = (h, 2 ^ j) :: tl)
    (e : Nat × Nat) (he : e ∈ cache_take L i j h t) :
    (e ∈ L t ∧ (t = j → h + 2 ^ j ≤ e.1)) ∨
      (i ≤ t ∧ t < j ∧ e = (h + 2 ^ t, 2 ^ t) ∧ h + 2 ^ t + 2 ^ t ≤ h + 2 ^ j) := by
  rcases mem_cache_take L i j h t tl hLj e he with ⟨h1, h2, h3⟩ | ⟨h1, h2⟩ | ⟨_, h2, h3⟩
  · exact Or.inr ⟨h1, h2, h3, by have := pow_lt_pow_two t j h2; omega⟩
  · left
    have hfl := hwf.lists j
    rw [hLj] at hfl
    have := (List.pairwise_cons.mp hfl.2).1 e h2
    refine ⟨by rw [h1, hLj]; exact List.mem_cons_of_mem _ h2, fun _ => this⟩
  · exact Or.inl ⟨h3, fun h => absurd h h2⟩

/-- The take keeps the free lists well formed, and the block handed out overlaps
    none of the blocks that stay free. -/
theorem HeapWf_take (L : Nat → List (Nat × Nat)) (A : List (Nat × Nat)) (i j h : Nat)
    (tl : List (Nat × Nat)) (hwf : HeapWf L A) (hi : 4 ≤ i) (hij : i ≤ j) (hj : j ≤ 20)
    (hLj : L j = (h, 2 ^ j) :: tl) :
    HeapWf (cache_take L i j h) A ∧
      (∀ t, ∀ e ∈ cache_take L i j h t, Apart e (h, 2 ^ i)) ∧
      (∀ e ∈ A, Apart e (h, 2 ^ i)) ∧ h ≠ 0 ∧ h + 2 ^ i ≤ 9223372036854775808 := by
  have hfl := hwf.lists j
  rw [hLj] at hfl
  have hh := hfl.1 (h, 2 ^ j) (List.mem_cons_self _ _)
  simp only at hh
  have hhj : (h, 2 ^ j) ∈ L j := by rw [hLj]; exact List.mem_cons_self _ _
  have hpij : 2 ^ i ≤ 2 ^ j := Nat.pow_le_pow_right (by norm_num) hij
  have hhost := fun t e he => cache_take_host L A i j h t tl hwf hLj e he
  -- an old block of another place lies outside the split block
  have hout : ∀ t, ∀ e ∈ L t, (t = j → h + 2 ^ j ≤ e.1) → Apart e (h, 2 ^ j) := by
    intro t e he htj
    by_cases ht : t = j
    · exact Or.inr (htj ht)
    · exact hwf.apart t j ht e he _ hhj
  refine ⟨?_, ?_, ?_, hh.1, by omega⟩
  · refine
      { lists := fun t => ?_
        sizes := fun t e he => ?_
        range := fun t ht => ?_
        arena := hwf.arena
        apart := fun t t' htt e he e' he' => ?_
        apart_arena := fun t e he e' he' => ?_ }
    · simp only [cache_take]
      by_cases h1 : i ≤ t ∧ t < j
      · rw [if_pos h1]
        have := pow_lt_pow_two t j h1.2
        have := pow_ge_16 t (by omega)
        exact ⟨fun e he => by
          rw [List.mem_singleton.mp he]; simp only; omega, List.pairwise_singleton _ _⟩
      · rw [if_neg h1]
        by_cases h2 : t = j
        · rw [if_pos h2, hLj]
          exact FreeList_tail _ _ hfl
        · rw [if_neg h2]; exact hwf.lists t
    · rcases hhost t e he with ⟨h1, _⟩ | ⟨_, _, h1, _⟩
      · exact hwf.sizes t e h1
      · rw [h1]
    · simp only [cache_take]
      rw [if_neg (by omega), if_neg (by omega)]
      exact hwf.range t ht
    · rcases hhost t e he with ⟨h1, h2⟩ | ⟨h1, h2, h3, h4⟩
      · rcases hhost t' e' he' with ⟨h1', _⟩ | ⟨h1', h2', h3', h4'⟩
        · exact hwf.apart t t' htt e h1 e' h1'
        · have ha := hout t e h1 h2
          have := ((hwf.lists t).1 e h1).2.1
          have := Nat.two_pow_pos t'
          rw [h3']
          simp only [Apart] at ha ⊢
          omega
      · rcases hhost t' e' he' with ⟨h1', h2'⟩ | ⟨h1', h2', h3', h4'⟩
        · have ha := hout t' e' h1' h2'
          have := ((hwf.lists t').1 e' h1').2.1
          have := Nat.two_pow_pos t
          rw [h3]
          simp only [Apart] at ha ⊢
          omega
        · rw [h3, h3']
          have := Nat.two_pow_pos t
          have := Nat.two_pow_pos t'
          simp only [Apart]
          rcases Nat.lt_or_gt_of_ne htt with hlt | hlt
          · have := pow_lt_pow_two t t' hlt; omega
          · have := pow_lt_pow_two t' t hlt; omega
    · rcases hhost t e he with ⟨h1, _⟩ | ⟨_, _, h3, h4⟩
      · exact hwf.apart_arena t e h1 e' he'
      · have ha := hwf.apart_arena j _ hhj e' he'
        have := (hwf.arena.1.1 e' he').2.1
        have := Nat.two_pow_pos t
        rw [h3]
        simp only [Apart] at ha ⊢
        omega
  · intro t e he
    rcases hhost t e he with ⟨h1, h2⟩ | ⟨h1, _, h3, h4⟩
    · have ha := hout t e h1 h2
      have := ((hwf.lists t).1 e h1).2.1
      simp only [Apart] at ha ⊢
      omega
    · rw [h3]
      have : 2 ^ i ≤ 2 ^ t := Nat.pow_le_pow_right (by norm_num) h1
      have := Nat.two_pow_pos i
      simp only [Apart]
      omega
  · intro e he
    have ha := hwf.apart_arena j _ hhj e he
    have := (hwf.arena.1.1 e he).2.1
    simp only [Apart] at ha ⊢
    omega

/-- After `find_local_block` has served class `i` from the head `h` of bucket `j`,
    the memory holds the lists `cache_take`. -/
theorem HeapAt_take (s s' : State) (L : Nat → List (Nat × Nat)) (A : List (Nat × Nat))
    (i j h : Nat) (tl : List (Nat × Nat)) (hat : HeapAt s L A) (hwf : HeapWf L A)
    (hi : 4 ≤ i) (hij : i ≤ j) (hj : j ≤ 20) (hLj : L j = (h, 2 ^ j) :: tl)
    (post : LocalPost s s' h i j) : HeapAt s' (cache_take L i j h) A := by
  have hfl := hwf.lists j
  rw [hLj] at hfl
  have hh := hfl.1 (h, 2 ^ j) (List.mem_cons_self _ _)
  simp only at hh
  have hhj : (h, 2 ^ j) ∈ L j := by rw [hLj]; exact List.mem_cons_self _ _
  have hlj := hat.cache j (by omega) hj
  rw [hLj] at hlj
  obtain ⟨hbj, _, _, htl⟩ := hlj
  simp only at htl
  -- a block outside the split block keeps its header
  have hkeep : ∀ e : Nat × Nat, 16 ≤ e.2 → Apart e (h, 2 ^ j) →
      s'.mem e.1 = s.mem e.1 ∧ s'.mem (e.1 + 8) = s.mem (e.1 + 8) := by
    intro e he hap
    simp only [Apart] at hap
    exact ⟨post.m_frame _ (by omega), post.m_frame _ (by omega)⟩
  constructor
  · intro t ht4 ht20
    simp only [cache_take]
    by_cases h1 : i ≤ t ∧ t < j
    · rw [if_pos h1, post.b_low t h1.1 h1.2]
      have := pow_ge_16 t ht4
      obtain ⟨m1, m2⟩ := post.m_half t h1.1 h1.2
      exact ⟨rfl, by simp only; omega, m1, m2⟩
    · rw [if_neg h1]
      by_cases h2 : t = j
      · rw [if_pos h2, hLj, h2, post.b_top]
        refine ListAt_frame s.mem s'.mem tl _ htl (fun e he => ?_)
        have h3 := (List.pairwise_cons.mp hfl.2).1 e he
        simp only at h3
        exact hkeep e (hfl.1 e (List.mem_cons_of_mem _ he)).2.1 (Or.inr h3)
      · rw [if_neg h2, post.b_other t (by omega)]
        exact ListAt_frame s.mem s'.mem (L t) _ (hat.cache t ht4 ht20) (fun e he =>
          hkeep e ((hwf.lists t).1 e he).2.1 (hwf.apart t j h2 e he _ hhj))
  · rw [post.gl]
    exact ListAt_frame s.mem s'.mem A _ hat.arena (fun e he =>
      hkeep e (hwf.arena.1.1 e he).2.1 (Apart_symm _ _ (hwf.apart_arena j _ hhj e he)))

theorem Aligned_take (L : Nat → List (Nat × Nat)) (A : List (Nat × Nat)) (i j h : Nat)
    (tl : List (Nat × Nat)) (hwf : HeapWf L A) (hLj : L j = (h, 2 ^ j) :: tl)
    (hal : Aligned L) : Aligned (cache_take L i j h) := by
  intro t e he
  have hh : h % 2 ^ j = 0 := hal j (h, 2 ^ j) (by rw [hLj]; exact List.mem_cons_self _ _)
  rcases cache_take_host L A i j h t tl hwf hLj e he with ⟨h1, _⟩ | ⟨_, h2, h3, _⟩
  · exact hal t e h1
  · rw [h3]; exact buddy_aligned h t j (by omega) hh

theorem NoBuddies_take (L : Nat → List (Nat × Nat)) (i j h : Nat) (hnb : NoBuddies L) :
    NoBuddies (cache_take L i j h) := by
  intro t
  simp only [cache_take]
  by_cases h1 : i ≤ t ∧ t < j
  · rw [if_pos h1]; exact List.pairwise_singleton _ _
  · rw [if_neg h1]
    by_cases h2 : t = j
    · rw [if_pos h2, h2]; exact (hnb j).sublist (List.tail_sublist _)
    · rw [if_neg h2]; exact hnb t

theorem top_take (L : Nat → List (Nat × Nat)) (i j h : Nat) (hj : j ≤ 20)
    (htop : (L 20).length ≤ 1) : (cache_take L i j h 20).length ≤ 1 := by
  simp only [cache_take]
  rw [if_neg (by omega)]
  by_cases h2 : 20 = j
  · rw [if_pos h2, ← h2, List.length_tail]; omega
  · rw [if_neg h2]; exact htop

theorem chunk_multiple (S : Nat) (hpos : 0 < S) (hC : LOCAL_SIZE_MAX ∣ S) :
    LOCAL_SIZE_MAX ≤ S ∧ (S ≠ LOCAL_SIZE_MAX → 2 * LOCAL_SIZE_MAX ≤ S ∧
      0 < S - LOCAL_SIZE_MAX ∧ LOCAL_SIZE_MAX ∣ S - LOCAL_SIZE_MAX) := by
  obtain ⟨k, rfl⟩ := hC
  have hk : 1 ≤ k := by
    rcases Nat.eq_zero_or_pos k with h | h
    · rw [h] at hpos; simp at hpos
    · exact h
  simp only [LOCAL_SIZE_MAX] at *
  refine ⟨by omega, fun hne => ?_⟩
  have hk2 : 2 ≤ k := by
    by_contra hcon
    have : k = 1 := by omega
    rw [this] at hne; simp at hne
  exact ⟨by omega, by omega, ⟨k - 1, by omega⟩⟩

/-- The arena head gives one chunk to bucket 20: the free lists stay well formed. -/
theorem HeapWf_refill (L : Nat → List (Nat × Nat)) (a S : Nat) (rest : List (Nat × Nat))
    (hwf : HeapWf L ((a, S) :: rest)) (h20 : L 20 = []) :
    HeapWf (set_list L 20 [(a, 2 ^ 20)]) (arena_take ((a, S) :: rest)) := by
  have hA := hwf.arena
  obtain ⟨ha0, hS16, hSfit⟩ := hA.1.1 (a, S) (List.mem_cons_self _ _)
  simp only at ha0 hS16 hSfit
  have hpw := List.pairwise_cons.mp hA.1.2
  obtain ⟨hSpos, hSC⟩ := hA.2 (a, S) (List.mem_cons_self _ _)
  simp only at hSpos hSC
  obtain ⟨hCS, hbig⟩ := chunk_multiple S hSpos hSC
  simp only [LOCAL_SIZE_MAX] at hCS hbig
  have hmem : ∀ t, ∀ e ∈ set_list L 20 [(a, 2 ^ 20)] t, e ∈ L t ∨ (t = 20 ∧ e = (a, 2 ^ 20)) := by
    intro t e he
    by_cases ht : t = 20
    · subst ht; rw [set_list_same] at he; exact Or.inr ⟨rfl, List.mem_singleton.mp he⟩
    · rw [set_list_other _ _ _ _ ht] at he; exact Or.inl he
  have hmemA : ∀ e ∈ arena_take ((a, S) :: rest),
      e ∈ rest ∨ (S ≠ 1048576 ∧ e = (a + 1048576, S - 1048576)) := by
    intro e he
    simp only [arena_take, LOCAL_SIZE_MAX] at he
    by_cases hS : S = 1048576
    · rw [if_pos hS] at he; exact Or.inl he
    · rw [if_neg hS] at he
      rcases List.mem_cons.mp he with h | h
      · exact Or.inr ⟨hS, h⟩
      · exact Or.inl h
  have hrestA : ∀ e ∈ rest, e ∈ (a, S) :: rest := fun e he => List.mem_cons_of_mem _ he
  refine
    { lists := fun t => ?_
      sizes := fun t e he => ?_
      range := fun t ht => ?_
      arena := ?_
      apart := fun t t' htt e he e' he' => ?_
      apart_arena := fun t e he e' he' => ?_ }
  · by_cases ht : t = 20
    · subst ht; rw [set_list_same]
      exact ⟨fun e he => by
        rw [List.mem_singleton.mp he]; simp only; omega, List.pairwise_singleton _ _⟩
    · rw [set_list_other _ _ _ _ ht]; exact hwf.lists t
  · rcases hmem t e he with h | ⟨rfl, h⟩
    · exact hwf.sizes t e h
    · rw [h]
  · rw [set_list_other _ _ _ _ (by omega)]; exact hwf.range t ht
  · simp only [arena_take, LOCAL_SIZE_MAX]
    by_cases hS : S = 1048576
    · rw [if_pos hS]
      exact ⟨BlockList_tail _ _ hA.1, fun e he => hA.2 e (hrestA e he)⟩
    · rw [if_neg hS]
      obtain ⟨h2, h3, h4⟩ := hbig hS
      refine ⟨⟨fun e he => ?_, List.pairwise_cons.mpr ⟨fun e he => ?_, hpw.2⟩⟩, fun e he => ?_⟩
      · rcases List.mem_cons.mp he with h | h
        · rw [h]; simp only; omega
        · exact hA.1.1 e (hrestA e h)
      · have := hpw.1 e he
        simp only at this ⊢
        omega
      · rcases List.mem_cons.mp he with h | h
        · rw [h]; exact ⟨h3, h4⟩
        · exact hA.2 e (hrestA e h)
  · rcases hmem t e he with h | ⟨rfl, h⟩
    · rcases hmem t' e' he' with h' | ⟨rfl, h'⟩
      · exact hwf.apart t t' htt e h e' h'
      · have ha := hwf.apart_arena t e h (a, S) (List.mem_cons_self _ _)
        rw [h']
        simp only [Apart] at ha ⊢
        omega
    · rcases hmem t' e' he' with h' | ⟨rfl, h'⟩
      · have ha := hwf.apart_arena t' e' h' (a, S) (List.mem_cons_self _ _)
        rw [h]
        simp only [Apart] at ha ⊢
        omega
      · exact absurd rfl htt
  · rcases hmem t e he with h | ⟨rfl, h⟩
    · rcases hmemA e' he' with h' | ⟨hS, h'⟩
      · exact hwf.apart_arena t e h e' (hrestA e' h')
      · have ha := hwf.apart_arena t e h (a, S) (List.mem_cons_self _ _)
        rw [h']
        simp only [Apart] at ha ⊢
        omega
    · rcases hmemA e' he' with h' | ⟨hS, h'⟩
      · have := hpw.1 e' h'
        rw [h]
        simp only [Apart] at this ⊢
        omega
      · rw [h, h']
        simp only [Apart]
        omega

/-- After the refill path of `find_local_block`, the memory holds the lists of a
    take from the chunk that the arena head gave to bucket 20. -/
theorem HeapAt_refill (s s' : State) (L : Nat → List (Nat × Nat)) (a S i : Nat)
    (rest : List (Nat × Nat)) (hat : HeapAt s L ((a, S) :: rest))
    (hwf : HeapWf L ((a, S) :: rest)) (hi : 4 ≤ i) (hi20 : i ≤ 20)
    (post : RefillPost s s' a S i) :
    HeapAt s' (cache_take (set_list L 20 [(a, 2 ^ 20)]) i 20 a)
      (arena_take ((a, S) :: rest)) := by
  have hA := hwf.arena
  obtain ⟨ha0, hS16, hSfit⟩ := hA.1.1 (a, S) (List.mem_cons_self _ _)
  simp only at ha0 hS16 hSfit
  have hpw := List.pairwise_cons.mp hA.1.2
  obtain ⟨hSpos, hSC⟩ := hA.2 (a, S) (List.mem_cons_self _ _)
  simp only at hSpos hSC
  obtain ⟨hCS, hbig⟩ := chunk_multiple S hSpos hSC
  simp only [LOCAL_SIZE_MAX] at hCS hbig
  obtain ⟨_, _, _, hrest⟩ := hat.arena
  simp only at hrest
  have hgeq := post.gl_eq
  have hgne := post.gl_ne
  have hmrest := post.m_rest
  have hfr := post.m_frame
  simp only [LOCAL_SIZE_MAX] at hgeq hgne hmrest hfr
  -- a block outside the arena head keeps its header
  have hkeep : ∀ e : Nat × Nat, 16 ≤ e.2 → Apart e (a, S) →
      s'.mem e.1 = s.mem e.1 ∧ s'.mem (e.1 + 8) = s.mem (e.1 + 8) := by
    intro e he hap
    simp only [Apart] at hap
    by_cases hS : S = 1048576
    · exact ⟨hfr _ (by omega), hfr _ (by omega)⟩
    · have := (hbig hS).1
      exact ⟨hfr _ (by omega), hfr _ (by omega)⟩
  have hrest' : ListAt s'.mem (s.mem (a + 8)) rest :=
    ListAt_frame s.mem s'.mem rest _ hrest (fun e he =>
      hkeep e (hA.1.1 e (List.mem_cons_of_mem _ he)).2.1 (Or.inr (by
        have := hpw.1 e he
        simp only at this ⊢
        omega)))
  constructor
  · intro t ht4 ht20
    simp only [cache_take]
    by_cases h1 : i ≤ t ∧ t < 20
    · rw [if_pos h1, post.b_low t h1.1 h1.2]
      have := pow_ge_16 t ht4
      obtain ⟨m1, m2⟩ := post.m_half t h1.1 h1.2
      exact ⟨rfl, by simp only; omega, m1, m2⟩
    · rw [if_neg h1]
      by_cases h2 : t = 20
      · rw [if_pos h2, set_list_same, h2, post.b_top]
        rfl
      · rw [if_neg h2, set_list_other _ _ _ _ h2, post.b_other t (by omega)]
        exact ListAt_frame s.mem s'.mem (L t) _ (hat.cache t ht4 ht20) (fun e he =>
          hkeep e ((hwf.lists t).1 e he).2.1
            (hwf.apart_arena t e he _ (List.mem_cons_self _ _)))
  · simp only [arena_take, LOCAL_SIZE_MAX]
    by_cases hS : S = 1048576
    · rw [if_pos hS, hgeq hS]
      exact hrest'
    · rw [if_neg hS, hgne hS]
      obtain ⟨m1, m2⟩ := hmrest hS
      refine ⟨rfl, by simp only; omega, m1, ?_⟩
      simp only
      rw [m2]
      exact hrest'

/-- `find_local_block` served from the thread cache, on well-formed free lists. -/
theorem find_local_block_take (fuel : Nat) (s : State) (L : Nat → List (Nat × Nat))
    (A : List (Nat × Nat)) (size0 i j h : Nat) (tl : List (Nat × Nat))
    (hat : HeapAt s L A) (hwf : HeapWf L A) (hlu : log_up size0 = .ok i) (hi : 4 ≤ i)
    (hij : i ≤ j) (hj : j ≤ 20) (hempty : ∀ t, i ≤ t → t < j → L t = [])
    (hLj : L j = (h, 2 ^ j) :: tl) :
    ∃ s', find_local_block fuel s size0 = .ok (s', h) ∧
      TakePost s s' L A (cache_take L i j h) A h (2 ^ i) ∧ s'.pages = s.pages := by
  have hfl := hwf.lists j
  rw [hLj] at hfl
  have hh := hfl.1 (h, 2 ^ j) (List.mem_cons_self _ _)
  simp only at hh
  have hhj : (h, 2 ^ j) ∈ L j := by rw [hLj]; exact List.mem_cons_self _ _
  have hlj := hat.cache j (by omega) hj
  rw [hLj] at hlj
  obtain ⟨hbj, _, hmh, _⟩ := hlj
  simp only at hbj hmh
  have hpij : 2 ^ i ≤ 2 ^ j := Nat.pow_le_pow_right (by norm_num) hij
  obtain ⟨s', hs', post⟩ := find_local_block_hit fuel s size0 h i j hlu hi hij hj
    (fun t h1 h2 => (ListAt_nil_iff _ _ _ (hat.cache t (by omega) (by omega))).mp
      (hempty t h1 h2))
    hbj hh.1 hmh (by simp only [WORD]; omega)
  obtain ⟨hwf', hap, hapA, _, _⟩ := HeapWf_take L A i j h tl hwf hi hij hj hLj
  refine ⟨s', hs', ?_, post.pg⟩
  exact
    { rep := HeapAt_take s s' L A i j h tl hat hwf hi hij hj hLj post
      wf := hwf'
      hdr := post.m_size
      nz := hh.1
      fit := by omega
      apart := fun e he => by
        rcases he with ⟨t, he⟩ | he
        · exact hap t e he
        · exact hapA e he
      host := fun e he => by
        rcases he with (⟨t, he⟩ | he) | he
        · rcases cache_take_host L A i j h t tl hwf hLj e he with ⟨h1, _⟩ | ⟨_, _, h3, h4⟩
          · exact ⟨e, Or.inl ⟨t, h1⟩, le_refl _, le_refl _⟩
          · refine ⟨(h, 2 ^ j), Or.inl ⟨j, hhj⟩, ?_⟩
            rw [h3]
            have := Nat.two_pow_pos t
            simp only [Inside]
            omega
        · exact ⟨e, Or.inr he, le_refl _, le_refl _⟩
        · refine ⟨(h, 2 ^ j), Or.inl ⟨j, hhj⟩, ?_⟩
          rw [he]
          simp only [Inside]
          omega
      frame := fun a ha => by
        have := ha (h, 2 ^ j) (Or.inl ⟨j, hhj⟩)
        exact post.m_frame a this
      ini := post.ini }

/-- `find_local_block` with a refill from the arena head, on well-formed free lists. -/
theorem find_local_block_refill_take (fuel : Nat) (s : State) (L : Nat → List (Nat × Nat))
    (a S : Nat) (rest : List (Nat × Nat)) (size0 i : Nat)
    (hat : HeapAt s L ((a, S) :: rest)) (hwf : HeapWf L ((a, S) :: rest))
    (hlu : log_up size0 = .ok i) (hi : 4 ≤ i) (hi20 : i ≤ 20)
    (hempty : ∀ t, i ≤ t → t ≤ 20 → L t = []) :
    ∃ s', find_local_block fuel s size0 = .ok (s', a) ∧
      TakePost s s' L ((a, S) :: rest) (cache_take (set_list L 20 [(a, 2 ^ 20)]) i 20 a)
        (arena_take ((a, S) :: rest)) a (2 ^ i) ∧ s'.pages = s.pages := by
  have hA := hwf.arena
  obtain ⟨ha0, hS16, hSfit⟩ := hA.1.1 (a, S) (List.mem_cons_self _ _)
  simp only at ha0 hS16 hSfit
  obtain ⟨hSpos, hSC⟩ := hA.2 (a, S) (List.mem_cons_self _ _)
  simp only at hSpos hSC
  obtain ⟨hCS, hbig⟩ := chunk_multiple S hSpos hSC
  obtain ⟨hgl, _, hmS, _⟩ := hat.arena
  simp only at hgl hmS
  have hpi : 2 ^ i ≤ 2 ^ 20 := Nat.pow_le_pow_right (by norm_num) hi20
  obtain ⟨s', hs', post⟩ := find_local_block_refill fuel s size0 i a S hlu hi hi20
    (fun t h1 h2 => (ListAt_nil_iff _ _ _ (hat.cache t (by omega) h2)).mp (hempty t h1 h2))
    hgl ha0 hmS hCS (by simp only [WORD]; omega)
  have hwf1 := HeapWf_refill L a S rest hwf (hempty 20 hi20 (le_refl _))
  have h20 : set_list L 20 [(a, 2 ^ 20)] 20 = (a, 2 ^ 20) :: [] := set_list_same _ _ _
  obtain ⟨hwf', hap, hapA, _, _⟩ := HeapWf_take _ _ i 20 a [] hwf1 hi hi20 (le_refl _) h20
  have hfr := post.m_frame
  simp only [LOCAL_SIZE_MAX] at hCS hbig hfr
  refine ⟨s', hs', ?_, post.pg⟩
  exact
    { rep := HeapAt_refill s s' L a S i rest hat hwf hi hi20 post
      wf := hwf'
      hdr := post.m_size
      nz := ha0
      fit := by omega
      apart := fun e he => by
        rcases he with ⟨t, he⟩ | he
        · exact hap t e he
        · exact hapA e he
      host := fun e he => by
        have hin : ∀ e' : Nat × Nat, a ≤ e'.1 → e'.1 + e'.2 ≤ a + S →
            ∃ e0, IsFree L ((a, S) :: rest) e0 ∧ Inside e' e0 :=
          fun e' h1 h2 => ⟨(a, S), Or.inr (List.mem_cons_self _ _), h1, h2⟩
        rcases he with (⟨t, he⟩ | he) | he
        · rcases cache_take_host _ _ i 20 a t [] hwf1 h20 e he with ⟨h1, _⟩ | ⟨_, _, h3, h4⟩
          · by_cases ht : t = 20
            · subst ht
              rw [set_list_same] at h1
              rw [List.mem_singleton.mp h1]
              exact hin _ (le_refl _) (by simp only; omega)
            · rw [set_list_other _ _ _ _ ht] at h1
              exact ⟨e, Or.inl ⟨t, h1⟩, le_refl _, le_refl _⟩
          · rw [h3]
            have := Nat.two_pow_pos t
            exact hin _ (by simp only; omega) (by simp only; omega)
        · simp only [arena_take, LOCAL_SIZE_MAX] at he
          by_cases hS : S = 1048576
          · rw [if_pos hS] at he
            exact ⟨e, Or.inr (List.mem_cons_of_mem _ he), le_refl _, le_refl _⟩
          · rw [if_neg hS] at he
            have := (hbig hS).1
            rcases List.mem_cons.mp he with h | h
            · rw [h]
              exact hin _ (by simp only; omega) (by simp only; omega)
            · exact ⟨e, Or.inr (List.mem_cons_of_mem _ h), le_refl _, le_refl _⟩
        · rw [he]
          exact hin _ (le_refl _) (by simp only; omega)
      frame := fun x hx => by
        have := hx (a, S) (Or.inr (List.mem_cons_self _ _))
        simp only at this
        by_cases hS : S = 1048576
        · exact hfr x (by omega)
        · have := (hbig hS).1
          exact hfr x (by omega)
      ini := post.ini }

/-! ## The bucket invariant -/

/-- **C12.** The bucket invariant is preserved on free lists whose blocks do not
    overlap.  Let the buckets and the arena hold in memory the lists `L` and `A`, well
    formed (`HeapWf`: every bucket list is finite, null-terminated, strictly ascending,
    of blocks of exactly the size of its class, the arena satisfies its invariants, and
    no two free blocks overlap) with every entry of bucket `t` aligned on `2 ^ t`.
    (1) `find_local_block` for a request of class `i` returns and leaves free lists
    with the same properties, provided that, when every bucket from `i` up is empty,
    the arena is not empty and its head (the refill block) starts at a multiple of `C`.
    (2) `insert_local_block` of a block of size `2 ^ i` (`4 ≤ i ≤ 20`), aligned on
    `2 ^ i`, that overlaps no free block returns (fuel above the list lengths) and
    leaves free lists with the same properties. -/
theorem bucket_invariant_preserved (fuel : Nat) (s : State) (L : Nat → List (Nat × Nat))
    (A : List (Nat × Nat)) (hat : HeapAt s L A) (hwf : HeapWf L A) (hal : Aligned L) :
    (∀ size0 i, log_up size0 = .ok i → 4 ≤ i → i ≤ 20 →
      ((∀ t, i ≤ t → t ≤ 20 → L t = []) →
        ∃ a S rest, A = (a, S) :: rest ∧ a % LOCAL_SIZE_MAX = 0) →
      ∃ s' h L' A', find_local_block fuel s size0 = .ok (s', h) ∧
        HeapAt s' L' A' ∧ HeapWf L' A' ∧ Aligned L') ∧
    (∀ x i, 4 ≤ i → i ≤ 20 → s.mem x = 2 ^ i → x ≠ 0 → x % 2 ^ i = 0 →
      x + 2 ^ i ≤ 9223372036854775808 → (∀ t, ∀ e ∈ L t, Apart e (x, 2 ^ i)) →
      (∀ e ∈ A, Apart e (x, 2 ^ i)) → (∀ t, (L t).length + 22 ≤ fuel) →
      A.length + 22 ≤ fuel →
      ∃ s' L' A', insert_local_block fuel s x = .ok s' ∧
        HeapAt s' L' A' ∧ HeapWf L' A' ∧ Aligned L') := by
  constructor
  · intro size0 i hlu hi hi20 hrefill
    by_cases hex : ∃ j, i ≤ j ∧ j ≤ 20 ∧ L j ≠ []
    · -- the first non-empty bucket from `i` up serves the request
      classical
      let j := Nat.find hex
      obtain ⟨hij, hj, hne⟩ := Nat.find_spec hex
      have hmin : ∀ t, i ≤ t → t < j → L t = [] := by
        intro t h1 h2
        by_contra hcon
        exact Nat.find_min hex h2 ⟨h1, by omega, hcon⟩
      obtain ⟨e, tl, hLj⟩ := List.exists_cons_of_ne_nil hne
      have he2 : e.2 = 2 ^ j := hwf.sizes j e (by
        show e ∈ L (Nat.find hex)
        rw [hLj]; exact List.mem_cons_self _ _)
      have hLj' : L j = (e.1, 2 ^ j) :: tl := by
        show L (Nat.find hex) = _
        rw [hLj, ← he2]
      obtain ⟨s', hs', post, _⟩ :=
        find_local_block_take fuel s L A size0 i j e.1 tl hat hwf hlu hi hij hj hmin hLj'
      exact ⟨s', e.1, _, _, hs', post.rep, post.wf, Aligned_take L A i j e.1 tl hwf hLj' hal⟩
    · -- every bucket from `i` up is empty: refill from the arena head
      have hempty : ∀ t, i ≤ t → t ≤ 20 → L t = [] := by
        intro t h1 h2
        by_contra hcon
        exact hex ⟨t, h1, h2, hcon⟩
      obtain ⟨a, S, rest, rfl, haC⟩ := hrefill hempty
      obtain ⟨s', hs', post, _⟩ :=
        find_local_block_refill_take fuel s L a S rest size0 i hat hwf hlu hi hi20 hempty
      refine ⟨s', a, _, _, hs', post.rep, post.wf, ?_⟩
      have hwf1 := HeapWf_refill L a S rest hwf (hempty 20 hi20 (le_refl _))
      refine Aligned_take _ _ i 20 a [] hwf1 (set_list_same _ _ _) ?_
      intro t e he
      by_cases ht : t = 20
      · subst ht
        rw [set_list_same] at he
        rw [List.mem_singleton.mp he]
        exact haC
      · rw [set_list_other _ _ _ _ ht] at he
        exact hal t e he
  · intro x i hi hi20 hmx hx0 hxal hxfit hdis hdisA hfuel hfuelA
    obtain ⟨k, s', _, hcl, hat', _, _, _⟩ :=
      insert_local_block_climbs (21 - i) i L A s x fuel (by omega) hi hi20 hat hwf hmx hx0
        hxfit hdis hdisA (fun t => by have := hfuel t; omega) (by omega)
    exact ⟨s', _, _, Climb_result fuel k s x s' hcl, hat',
      cache_release_wf (21 - i) i L A x (by omega) hi20 ⟨hwf, hi, hx0, hxfit, hdis, hdisA⟩,
      cache_release_aligned (21 - i) i L A x (by omega) hi20
        ⟨hwf, hi, hx0, hxfit, hdis, hdisA⟩ hal hxal⟩

/-- **C20.** Recursive re-insertion ends within the bucket range.  On well-formed
    free lists held in memory, the release of a block of size `2 ^ i` (`4 ≤ i ≤ 20`)
    that overlaps no free block makes `k ≤ 20 - i` nested calls of `insert_local_block`
    and returns (`Climb`: every recursive call is on a block of twice the size of the
    block of its caller, and every call is on a block of at most `C` bytes, the size it
    passes to `log_up`); the free lists it leaves are well formed, so that every entry
    of a bucket has at most `C` bytes. -/
theorem release_ends_within_classes (fuel : Nat) (s : State) (L : Nat → List (Nat × Nat))
    (A : List (Nat × Nat)) (x i : Nat) (hat : HeapAt s L A) (hwf : HeapWf L A)
    (hi : 4 ≤ i) (hi20 : i ≤ 20) (hmx : s.mem x = 2 ^ i) (hx0 : x ≠ 0)
    (hxfit : x + 2 ^ i ≤ 9223372036854775808) (hdis : ∀ t, ∀ e ∈ L t, Apart e (x, 2 ^ i))
    (hdisA : ∀ e ∈ A, Apart e (x, 2 ^ i)) (hfuel : ∀ t, (L t).length + 22 ≤ fuel)
    (hfuelA : A.length + 22 ≤ fuel) :
    ∃ k s', k ≤ 20 - i ∧ Climb fuel k s x s' ∧ insert_local_block fuel s x = .ok s' ∧
      ∃ L' A', HeapAt s' L' A' ∧ HeapWf L' A' ∧ ∀ t, ∀ e ∈ L' t, e.2 ≤ LOCAL_SIZE_MAX := by
  obtain ⟨k, s', hk, hcl, hat', _, _, _⟩ :=
    insert_local_block_climbs (21 - i) i L A s x fuel (by omega) hi hi20 hat hwf hmx hx0
      hxfit hdis hdisA (fun t => by have := hfuel t; omega) (by omega)
  have hwf' := cache_release_wf (21 - i) i L A x (by omega) hi20
    ⟨hwf, hi, hx0, hxfit, hdis, hdisA⟩
  refine ⟨k, s', by omega, hcl, Climb_result fuel k s x s' hcl, _, _, hat', hwf', ?_⟩
  intro t e he
  rw [hwf'.sizes t e he]
  by_cases ht : t ≤ 20
  · exact pow_le_chunk t ht
  · rw [hwf'.range t (by omega)] at he
    cases he

/-! ## Concrete instances -/

theorem FreeList_nil : FreeList [] :=
  ⟨fun e he => absurd he (List.not_mem_nil e), List.Pairwise.nil⟩

theorem FreeList_single (a sz : Nat) (ha : a ≠ 0) (hsz : 16 ≤ sz)
    (hfit : a + sz ≤ 9223372036854775808) : FreeList [(a, sz)] :=
  ⟨fun e he => by rw [List.mem_singleton.mp he]; exact ⟨ha, hsz, hfit⟩,
    List.pairwise_singleton _ _⟩

theorem ArenaInv_nil : ArenaInv [] :=
  ⟨⟨fun e he => absurd he (List.not_mem_nil e), List.Pairwise.nil⟩,
    fun e he => absurd he (List.not_mem_nil e)⟩

theorem ArenaInv_single (a S : Nat) (ha : a ≠ 0) (hpos : 0 < S) (hC : LOCAL_SIZE_MAX ∣ S)
    (hfit : a + S ≤ 9223372036854775808) : ArenaInv [(a, S)] := by
  have := (chunk_multiple S hpos hC).1
  simp only [LOCAL_SIZE_MAX] at this
  have h16 : 16 ≤ S := by omega
  refine ⟨⟨fun e he => ?_, List.pairwise_singleton _ _⟩, fun e he => ?_⟩
  · rw [List.mem_singleton.mp he]; exact ⟨ha, h16, hfit⟩
  · rw [List.mem_singleton.mp he]; exact ⟨hpos, hC⟩

/-- An empty thread cache next to a well-formed arena. -/
theorem HeapWf_empty (A : List (Nat × Nat)) (hA : ArenaInv A) : HeapWf (fun _ => []) A :=
  { lists := fun _ => FreeList_nil
    sizes := fun _ e he => by cases he
    range := fun _ _ => rfl
    arena := hA
    apart := fun _ _ _ e he => by cases he
    apart_arena := fun _ e he => by cases he }

/-- A thread cache with a single block, the arena being empty. -/
theorem HeapWf_single (t0 a : Nat) (ht4 : 4 ≤ t0) (ht20 : t0 ≤ 20) (ha : a ≠ 0)
    (hfit : a + 2 ^ t0 ≤ 9223372036854775808) :
    HeapWf (set_list (fun _ => []) t0 [(a, 2 ^ t0)]) [] := by
  have hmem : ∀ t, ∀ e ∈ set_list (fun _ => []) t0 [(a, 2 ^ t0)] t,
      t = t0 ∧ e = (a, 2 ^ t0) := by
    intro t e he
    by_cases ht : t = t0
    · subst ht; rw [set_list_same] at he; exact ⟨rfl, List.mem_singleton.mp he⟩
    · rw [set_list_other _ _ _ _ ht] at he; cases he
  exact
    { lists := fun t => by
        by_cases ht : t = t0
        · subst ht; rw [set_list_same]
          exact FreeList_single a _ ha (pow_ge_16 t ht4) hfit
        · rw [set_list_other _ _ _ _ ht]; exact FreeList_nil
      sizes := fun t e he => by
        obtain ⟨rfl, rfl⟩ := hmem t e he
        rfl
      range := fun t ht => set_list_other _ _ _ _ (by omega)
      arena := ArenaInv_nil
      apart := fun t t' htt e he e' he' => by
        obtain ⟨h1, _⟩ := hmem t e he
        obtain ⟨h2, _⟩ := hmem t' e' he'
        exact absurd (h1.trans h2.symm) htt
      apart_arena := fun _ _ _ e' he' => by cases he' }

/-- C12 at a concrete state: the cache is empty, the arena is the chunk at `C`, and
    the block of 16 bytes at 64 is owned: a request of class 7 is served by a refill,
    and the release of the block at 64 puts it into bucket 4. -/
theorem bucket_invariant_preserved_witness :
    (∃ s' h L' A', find_local_block 23
        { mem := upd (upd (fun _ => 0) 1048576 1048576) 64 16, global_list := 1048576,
          buckets := fun _ => 0, init := 1, pages := [] } 100 = .ok (s', h) ∧
      HeapAt s' L' A' ∧ HeapWf L' A' ∧ Aligned L') ∧
    (∃ s' L' A', insert_local_block 23
        { mem := upd (upd (fun _ => 0) 1048576 1048576) 64 16, global_list := 1048576,
          buckets := fun _ => 0, init := 1, pages := [] } 64 = .ok s' ∧
      HeapAt s' L' A' ∧ HeapWf L' A' ∧ Aligned L') :=
  have h := bucket_invariant_preserved 23
    { mem := upd (upd (fun _ => 0) 1048576 1048576) 64 16, global_list := 1048576,
      buckets := fun _ => 0, init := 1, pages := [] }
    (fun _ => []) [(1048576, 1048576)]
    ⟨fun _ _ _ => rfl, ⟨rfl, by decide, rfl, rfl⟩⟩
    (HeapWf_empty _ (ArenaInv_single 1048576 1048576 (by decide) (by decide) ⟨1, by decide⟩
      (by decide)))
    (fun _ e he => by cases he)
  ⟨h.1 100 7 rfl (by decide) (by decide) (fun _ => ⟨1048576, 1048576, [], rfl, by decide⟩),
   h.2 64 4 (by decide) (by decide) rfl (by decide) (by decide) (by decide)
    (fun _ e he => by cases he)
    (fun e he => by rw [List.mem_singleton.mp he]; exact Or.inr (by decide))
    (fun _ => by simp) (by decide)⟩

/-- C18 at a concrete state: bucket 4 holds the block at 48, and the block at 32 (its
    lower buddy, `32 XOR 16 = 48`) is released: the entry leaves the bucket and the call
    ends with the recursive call on the block at 32, now of 32 bytes. -/
theorem release_merges_exactly_with_buddy_witness :
    ∃ s', (∀ again : State → Nat → Except Fault State, insert_local_body again 1
        { mem := upd (upd (fun _ => 0) 32 16) 48 16, global_list := 0,
          buckets := upd (fun _ => 0) 4 48, init := 1, pages := [] } 32 =
          again s' (min 32 (32 ^^^ 2 ^ 4))) ∧
      s'.mem (min 32 (32 ^^^ 2 ^ 4)) = 2 ^ (4 + 1) ∧
      ListAt s'.mem (s'.buckets 4) ([(48, 16)].erase (32 ^^^ 2 ^ 4, 2 ^ 4)) :=
  have h := release_merges_exactly_with_buddy 1
    { mem := upd (upd (fun _ => 0) 32 16) 48 16, global_list := 0,
      buckets := upd (fun _ => 0) 4 48, init := 1, pages := [] }
    32 4 [(48, 16)] (by decide) (by decide) rfl (by decide) (by decide) (by decide)
    ⟨rfl, by decide, rfl, rfl⟩ (FreeList_single 48 16 (by decide) (by decide) (by decide))
    (fun e he => by rw [List.mem_singleton.mp he]; rfl)
    (fun e he => by rw [List.mem_singleton.mp he]; rfl)
    (fun e he => by rw [List.mem_singleton.mp he]; decide) (by decide)
  match h.1 (List.mem_singleton.mpr rfl) with
  | ⟨s', h1, h2, h3, _⟩ => ⟨s', h1, h2, h3⟩

/-- C20 at a concrete state: bucket 4 holds the block at 48 and the block at 32 is
    released; the release returns after at most 16 nested calls. -/
theorem release_ends_within_classes_witness :
    ∃ k s', k ≤ 20 - 4 ∧
      Climb 23 k
        { mem := upd (upd (fun _ => 0) 32 16) 48 16, global_list := 0,
          buckets := upd (fun _ => 0) 4 48, init := 1, pages := [] } 32 s' ∧
      insert_local_block 23
        { mem := upd (upd (fun _ => 0) 32 16) 48 16, global_list := 0,
          buckets := upd (fun _ => 0) 4 48, init := 1, pages := [] } 32 = .ok s' ∧
      ∃ L' A', HeapAt s' L' A' ∧ HeapWf L' A' ∧ ∀ t, ∀ e ∈ L' t, e.2 ≤ LOCAL_SIZE_MAX :=
  release_ends_within_classes 23
    { mem := upd (upd (fun _ => 0) 32 16) 48 16, global_list := 0,
      buckets := upd (fun _ => 0) 4 48, init := 1, pages := [] }
    (set_list (fun _ => []) 4 [(48, 2 ^ 4)]) [] 32 4
    ⟨fun t _ _ => by
        by_cases ht : t = 4
        · subst ht; exact ⟨rfl, by decide, rfl, rfl⟩
        · rw [set_list_other _ _ _ _ ht]
          show upd (fun _ => 0) 4 48 t = 0
          exact upd_other _ _ _ _ ht,
      rfl⟩
    (HeapWf_single 4 48 (by decide) (by decide) (by decide) (by decide))
    (by decide) (by decide) rfl (by decide) (by decide)
    (fun t e he => by
      by_cases ht : t = 4
      · subst ht
        rw [set_list_same] at he
        rw [List.mem_singleton.mp he]
        exact Or.inr (by decide)
      · rw [set_list_other _ _ _ _ ht] at he; cases he)
    (fun e he => by cases he)
    (fun t => by
      by_cases ht : t = 4
      · subst ht; rw [set_list_same]; decide
      · rw [set_list_other _ _ _ _ ht]; decide)
    (by decide)
/-! ## The invariant of a run -/

theorem apart_inside (e e0 o : Nat × Nat) (hin : Inside e e0) (hap : Apart e0 o) :
    Apart e o := by
  simp only [Inside, Apart] at *
  omega

theorem BlockSize_ge (sz : Nat) (h : BlockSize sz) : 16 ≤ sz := by
  rcases h with ⟨i, hi, _, rfl⟩ | ⟨h, _⟩
  · exact pow_ge_16 i hi
  · simp only [LOCAL_SIZE_MAX] at h; omega

theorem IsFree_block (L : Nat → List (Nat × Nat)) (A : List (Nat × Nat)) (hwf : HeapWf L A)
    (e : Nat × Nat) (he : IsFree L A e) :
    e.1 ≠ 0 ∧ 16 ≤ e.2 ∧ e.1 + e.2 ≤ 9223372036854775808 := by
  rcases he with ⟨t, he⟩ | he
  · exact (hwf.lists t).1 e he
  · exact hwf.arena.1.1 e he

theorem Free_of_IsFree (L : Nat → List (Nat × Nat)) (A : List (Nat × Nat)) (e : Nat × Nat)
    (he : IsFree L A e) (a : Nat) (h1 : e.1 ≤ a) (h2 : a < e.1 + e.2) : Free L A a := by
  rcases he with ⟨t, he⟩ | he
  · exact Or.inl ⟨t, e, he, h1, h2⟩
  · exact Or.inr ⟨e, he, h1, h2⟩

theorem IsFree_of_Free (L : Nat → List (Nat × Nat)) (A : List (Nat × Nat)) (a : Nat)
    (h : Free L A a) : ∃ e, IsFree L A e ∧ e.1 ≤ a ∧ a < e.1 + e.2 := by
  rcases h with ⟨t, e, he, h1, h2⟩ | ⟨e, he, h1, h2⟩
  · exact ⟨e, Or.inl ⟨t, he⟩, h1, h2⟩
  · exact ⟨e, Or.inr he, h1, h2⟩

/-- A block that is apart from every free block is no header word of one. -/
theorem not_Hdr_of_apart (L : Nat → List (Nat × Nat)) (A : List (Nat × Nat))
    (hwf : HeapWf L A) (o : Nat × Nat) (ho : 0 < o.2) (hap : ∀ e, IsFree L A e → Apart e o)
    (a : Nat) (h1 : o.1 ≤ a) (h2 : a < o.1 + o.2) : ¬ Hdr L A a := by
  intro hh
  have key : ∀ e, IsFree L A e → (a = e.1 ∨ a = e.1 + 8) → False := by
    intro e he hae
    have hb := IsFree_block L A hwf e he
    have := hap e he
    simp only [Apart] at this
    omega
  rcases hh with ⟨t, e, he, hae⟩ | ⟨e, he, hae⟩
  · exact key e (Or.inl ⟨t, he⟩) hae
  · exact key e (Or.inr he) hae

/-- An allocation keeps the invariant; the block handed out joins the owned blocks. -/
theorem Good_take (s s' : State) (L : Nat → List (Nat × Nat)) (A : List (Nat × Nat))
    (L' : Nat → List (Nat × Nat)) (A' : List (Nat × Nat)) (O : List (Nat × Nat))
    (h sz : Nat) (g : Good s L A O) (post : TakePost s s' L A L' A' h sz)
    (hnb : NoBuddies L') (htop : (L' 20).length ≤ 1) (hsz : BlockSize sz) :
    Good s' L' A' ((h, sz) :: O) := by
  have hsz16 := BlockSize_ge sz hsz
  obtain ⟨e0, he0, hin0⟩ := post.host (h, sz) (Or.inr rfl)
  have hnew : ∀ o ∈ O, Apart (h, sz) o := fun o ho =>
    apart_inside _ e0 o hin0 (g.own_free o ho e0 he0)
  have hnotin : (h, sz) ∉ O := by
    intro hmem
    have := hnew _ hmem
    simp only [Apart] at this
    omega
  have hold : ∀ o ∈ O, s'.mem o.1 = o.2 := by
    intro o ho
    have h16 := BlockSize_ge o.2 (g.own_ok o ho).2.2
    rw [post.frame o.1 (fun e1 he1 => by
      have := g.own_free o ho e1 he1
      simp only [Apart] at this
      omega)]
    exact g.own_hdr o ho
  refine
    { ini := by rw [post.ini]; exact g.ini
      rep := post.rep
      wf := post.wf
      nb := hnb
      top := htop
      own_hdr := ?_
      own_ok := ?_
      own_nodup := List.nodup_cons.mpr ⟨hnotin, g.own_nodup⟩
      own_apart := ?_
      own_free := ?_ }
  · intro o ho
    rcases List.mem_cons.mp ho with h1 | h1
    · rw [h1]; exact post.hdr
    · exact hold o h1
  · intro o ho
    rcases List.mem_cons.mp ho with h1 | h1
    · rw [h1]; exact ⟨post.nz, post.fit, hsz⟩
    · exact g.own_ok o h1
  · intro o ho o' ho' hne
    rcases List.mem_cons.mp ho with h1 | h1
    · rcases List.mem_cons.mp ho' with h2 | h2
      · exact absurd (h1.trans h2.symm) hne
      · rw [h1]; exact hnew o' h2
    · rcases List.mem_cons.mp ho' with h2 | h2
      · rw [h2]; exact Apart_symm _ _ (hnew o h1)
      · exact g.own_apart o h1 o' h2 hne
  · intro o ho e he
    rcases List.mem_cons.mp ho with h1 | h1
    · rw [h1]; exact post.apart e he
    · obtain ⟨e1, he1, hin1⟩ := post.host e (Or.inl he)
      exact apart_inside e e1 o hin1 (g.own_free o h1 e1 he1)

/-- A release keeps the invariant; the released block leaves the owned blocks. -/
theorem Good_give (s s' : State) (L : Nat → List (Nat × Nat)) (A : List (Nat × Nat))
    (L' : Nat → List (Nat × Nat)) (A' : List (Nat × Nat)) (O : List (Nat × Nat))
    (o : Nat × Nat) (g : Good s L A O) (ho : o ∈ O)
    (post : GivePost s s' L A L' A' o.1 o.2)
    (hnb : NoBuddies L') (htop : (L' 20).length ≤ 1) :
    Good s' L' A' (O.erase o) := by
  have hmem : ∀ o' ∈ O.erase o, o' ∈ O ∧ o' ≠ o := by
    intro o' ho'
    exact ⟨List.mem_of_mem_erase ho', fun h => by
      rw [h] at ho'
      exact (List.Nodup.not_mem_erase g.own_nodup) ho'⟩
  refine
    { ini := by rw [post.ini]; exact g.ini
      rep := post.rep
      wf := post.wf
      nb := hnb
      top := htop
      own_hdr := ?_
      own_ok := fun o' ho' => g.own_ok o' (hmem o' ho').1
      own_nodup := g.own_nodup.erase o
      own_apart := fun o1 h1 o2 h2 hne => g.own_apart o1 (hmem o1 h1).1 o2 (hmem o2 h2).1 hne
      own_free := ?_ }
  · intro o' ho'
    obtain ⟨hin, hne⟩ := hmem o' ho'
    have h16 := BlockSize_ge o'.2 (g.own_ok o' hin).2.2
    have h16o := BlockSize_ge o.2 (g.own_ok o ho).2.2
    have hap := g.own_apart o' hin o ho hne
    simp only [Apart] at hap
    rw [post.frame o'.1
      (not_Hdr_of_apart L A g.wf o' (by omega) (g.own_free o' hin) o'.1 (le_refl _) (by omega))
      (by omega) (by omega)]
    exact g.own_hdr o' hin
  · intro o' ho' e he
    obtain ⟨hin, hne⟩ := hmem o' ho'
    have h16 := BlockSize_ge o'.2 (g.own_ok o' hin).2.2
    have hb := IsFree_block L' A' post.wf e he
    by_contra hcon
    simp only [Apart, not_or, not_le] at hcon
    have hfree : Free L' A' (max e.1 o'.1) := Free_of_IsFree L' A' e he _ (le_max_left _ _) (by
      rcases le_total e.1 o'.1 with h | h
      · rw [max_eq_right h]; omega
      · rw [max_eq_left h]; omega)
    have hmax : o'.1 ≤ max e.1 o'.1 ∧ max e.1 o'.1 < o'.1 + o'.2 := by
      rcases le_total e.1 o'.1 with h | h
      · rw [max_eq_right h]; omega
      · rw [max_eq_left h]; omega
    rcases post.cover _ hfree with hf | hf
    · obtain ⟨e1, he1, h1, h2⟩ := IsFree_of_Free L A _ hf
      have := g.own_free o' hin e1 he1
      simp only [Apart] at this
      omega
    · have := g.own_apart o' hin o ho hne
      simp only [Apart] at this
      omega

/-- A store of the caller into the payload of a block it owns keeps the invariant. -/
theorem Good_write (s : State) (L : Nat → List (Nat × Nat)) (A : List (Nat × Nat))
    (O : List (Nat × Nat)) (o : Nat × Nat) (addr v : Nat) (g : Good s L A O) (ho : o ∈ O)
    (h1 : o.1 + 8 ≤ addr) (h2 : addr + 8 ≤ o.1 + o.2) :
    Good (caller_write s addr v) L A O := by
  have hfr : ∀ e, IsFree L A e →
      upd s.mem addr v e.1 = s.mem e.1 ∧ upd s.mem addr v (e.1 + 8) = s.mem (e.1 + 8) := by
    intro e he
    have hb := IsFree_block L A g.wf e he
    have := g.own_free o ho e he
    simp only [Apart] at this
    constructor
    · rw [upd_other _ _ _ _ (by omega)]
    · rw [upd_other _ _ _ _ (by omega)]
  refine
    { g with
      ini := g.ini
      rep := ⟨fun t ht1 ht2 => ?_, ?_⟩
      own_hdr := ?_ }
  · exact ListAt_frame s.mem _ (L t) _ (g.rep.cache t ht1 ht2)
      (fun e he => hfr e (Or.inl ⟨t, he⟩))
  · exact ListAt_frame s.mem _ A _ g.rep.arena (fun e he => hfr e (Or.inr he))
  · intro o' ho'
    show upd s.mem addr v o'.1 = o'.2
    have h16 := BlockSize_ge o'.2 (g.own_ok o' ho').2.2
    by_cases hoo : o' = o
    · rw [hoo, upd_other _ _ _ _ (by omega)]
      exact g.own_hdr o ho
    · have := g.own_apart o' ho' o ho hoo
      simp only [Apart] at this
      rw [upd_other _ _ _ _ (by omega)]
      exact g.own_hdr o' ho'

/-- The invariant does not depend on the order in which the owned blocks are listed. -/
theorem Good_perm (s : State) (L : Nat → List (Nat × Nat)) (A : List (Nat × Nat))
    (O O' : List (Nat × Nat)) (g : Good s L A O) (hp : O.Perm O') : Good s L A O' :=
  { g with
    ini := g.ini
    own_hdr := fun o ho => g.own_hdr o (hp.symm.subset ho)
    own_ok := fun o ho => g.own_ok o (hp.symm.subset ho)
    own_nodup := hp.nodup_iff.mp g.own_nodup
    own_apart := fun o ho o' ho' hne =>
      g.own_apart o (hp.symm.subset ho) o' (hp.symm.subset ho') hne
    own_free := fun o ho e he => g.own_free o (hp.symm.subset ho) e he }
/-! ## `xfree` keeps the invariant -/

/-- A block that overlaps no free block, released to the arena, leaves free lists
    that are well formed. -/
theorem HeapWf_arena_insert (L : Nat → List (Nat × Nat)) (A : List (Nat × Nat)) (x sz : Nat)
    (hwf : HeapWf L A) (hx0 : x ≠ 0) (hpos : 0 < sz) (hC : LOCAL_SIZE_MAX ∣ sz)
    (hxfit : x + sz ≤ 9223372036854775808) (hdis : ∀ t, ∀ e ∈ L t, Apart e (x, sz))
    (hdisA : ∀ e ∈ A, Apart e (x, sz)) : HeapWf L (arena_insert x sz A) := by
  have hinv := ArenaInv_arena_insert x sz A hwf.arena hx0 hpos hC hxfit hdisA
  refine { hwf with arena := hinv, apart_arena := fun t e he => ?_ }
  have he16 := ((hwf.lists t).1 e he).2.1
  refine Apart_of_covered ((x, sz) :: A) _ e (fun a ha => ?_) (fun b hb => ?_)
    (by omega) (fun e' he' => (hinv.2 e' he').1)
  · rcases (covered_arena_insert x sz A a).mp ha with h | h
    · obtain ⟨b, hb, h1⟩ := h
      exact ⟨b, List.mem_cons_of_mem _ hb, h1⟩
    · exact ⟨(x, sz), List.mem_cons_self _ _, h⟩
  · rcases List.mem_cons.mp hb with hb | hb
    · rw [hb]; exact hdis t e he
    · exact hwf.apart_arena t e he b hb

/-- `insert_global_block` of a block that overlaps no free block, on well-formed free
    lists held in memory. -/
theorem insert_global_block_give (fuel : Nat) (s : State) (L : Nat → List (Nat × Nat))
    (A : List (Nat × Nat)) (x sz : Nat) (hat : HeapAt s L A) (hwf : HeapWf L A)
    (hmx : s.mem x = sz) (hx0 : x ≠ 0) (hpos : 0 < sz) (hC : LOCAL_SIZE_MAX ∣ sz)
    (hxfit : x + sz ≤ 9223372036854775808) (hdis : ∀ e, IsFree L A e → Apart e (x, sz))
    (hfuel : A.length < fuel) :
    ∃ s', insert_global_block fuel s x = .ok s' ∧
      GivePost s s' L A L (arena_insert x sz A) x sz := by
  have hsz : 16 ≤ sz := by
    have := Nat.le_of_dvd hpos hC
    simp only [LOCAL_SIZE_MAX] at this
    omega
  obtain ⟨s', hs', hl', hfr', hb', hi', _⟩ :=
    insert_global_block_spec fuel s x sz A hfuel hat.arena hwf.arena.1 hmx hx0 hsz hxfit
      (fun e he => hdis e (Or.inr he))
  refine ⟨s', hs', ?_⟩
  exact
    { rep := ⟨fun t ht1 ht2 => by
        rw [hb']
        refine ListAt_frame s.mem _ (L t) _ (hat.cache t ht1 ht2) (fun e he => ?_)
        have hb := (hwf.lists t).1 e he
        have h1 := hdis e (Or.inl ⟨t, he⟩)
        simp only [Apart] at h1
        have h2 : ∀ e' ∈ A, (e.1 ≠ e'.1 ∧ e.1 ≠ e'.1 + 8) ∧
            (e.1 + 8 ≠ e'.1 ∧ e.1 + 8 ≠ e'.1 + 8) := by
          intro e' he'
          have hb' := hwf.arena.1.1 e' he'
          have := hwf.apart_arena t e he e' he'
          simp only [Apart] at this
          omega
        exact ⟨hfr' _ (by omega) (by omega) (fun e' he' => (h2 e' he').1),
          hfr' _ (by omega) (by omega) (fun e' he' => (h2 e' he').2)⟩, hl'⟩
      wf := HeapWf_arena_insert L A x sz hwf hx0 hpos hC hxfit
        (fun t e he => hdis e (Or.inl ⟨t, he⟩)) (fun e he => hdis e (Or.inr he))
      cover := fun a ha => (Free_release_top L A x sz a).mp ha
      frame := fun a ha h1 h2 => hfr' a h1 h2 (fun e he =>
        ⟨fun h => ha (Or.inr ⟨e, he, Or.inl h⟩), fun h => ha (Or.inr ⟨e, he, Or.inr h⟩)⟩)
      ini := hi' }

/-- `insert_local_block` of a block of a class `4 .. 20` that overlaps no free block,
    on well-formed free lists held in memory. -/
theorem insert_local_block_give (fuel : Nat) (s : State) (L : Nat → List (Nat × Nat))
    (A : List (Nat × Nat)) (x i : Nat) (hat : HeapAt s L A) (hwf : HeapWf L A)
    (hi : 4 ≤ i) (hi20 : i ≤ 20) (hmx : s.mem x = 2 ^ i) (hx0 : x ≠ 0)
    (hxfit : x + 2 ^ i ≤ 9223372036854775808) (hdis : ∀ e, IsFree L A e → Apart e (x, 2 ^ i))
    (hfuel : ∀ t, (L t).length + 22 ≤ fuel) (hfuelA : A.length + 22 ≤ fuel) :
    ∃ s', insert_local_block fuel s x = .ok s' ∧
      GivePost s s' L A (cache_release (21 - i) L A x i).1 (cache_release (21 - i) L A x i).2
        x (2 ^ i) := by
  have hpend : Pending L A x i :=
    ⟨hwf, hi, hx0, hxfit, fun t e he => hdis e (Or.inl ⟨t, he⟩), fun e he => hdis e (Or.inr he)⟩
  obtain ⟨k, s', _, hcl, hat', hfr, hini, _⟩ :=
    insert_local_block_climbs (21 - i) i L A s x fuel (by omega) hi hi20 hat hwf hmx hx0
      hxfit hpend.2.2.2.2.1 hpend.2.2.2.2.2 (fun t => by have := hfuel t; omega) (by omega)
  refine ⟨s', Climb_result fuel k s x s' hcl, ?_⟩
  exact
    { rep := hat'
      wf := cache_release_wf (21 - i) i L A x (by omega) hi20 hpend
      cover := fun a ha => (cache_release_free (21 - i) i L A x (by omega) hi20 hpend a).mp ha
      frame := hfr
      ini := hini }

/-- `xfree` of an owned block returns, for every fuel above the lengths of the free
    lists, and keeps the invariant. -/
theorem xfree_good (fuel : Nat) (s : State) (L : Nat → List (Nat × Nat))
    (A : List (Nat × Nat)) (O : List (Nat × Nat)) (o : Nat × Nat) (g : Good s L A O)
    (ho : o ∈ O) (hfuel : ∀ t, (L t).length + 22 ≤ fuel) (hfuelA : A.length + 22 ≤ fuel) :
    ∃ s' L' A', xfree fuel s (o.1 + 8) = .ok s' ∧ Good s' L' A' (O.erase o) := by
  obtain ⟨ho0, hofit, hosz⟩ := g.own_ok o ho
  have hhdr := g.own_hdr o ho
  have hini : ¬ (s.init ≠ 1) := by rw [g.ini]; simp
  have hpair : ∀ sz, o.2 = sz → ∀ e, IsFree L A e → Apart e (o.1, sz) := by
    intro sz hsz e he
    have := g.own_free o ho e he
    simp only [Apart] at this ⊢
    rw [← hsz]
    exact this
  rcases hosz with ⟨i, hi, hi20, hsz⟩ | ⟨hbig, hC⟩
  · have hle : ¬ (2 ^ i > LOCAL_SIZE_MAX) := by
      have := pow_le_chunk i hi20
      simp only [LOCAL_SIZE_MAX]; omega
    rw [hsz] at hhdr hofit
    obtain ⟨s', hs', post⟩ := insert_local_block_give fuel s L A o.1 i g.rep g.wf hi hi20
      hhdr ho0 hofit (hpair _ hsz) hfuel hfuelA
    have hpend : Pending L A o.1 i :=
      ⟨g.wf, hi, ho0, hofit, fun t e he => hpair _ hsz e (Or.inl ⟨t, he⟩),
        fun e he => hpair _ hsz e (Or.inr he)⟩
    refine ⟨s', _, _, ?_, Good_give s s' L A _ _ O o g ho (by rw [hsz]; exact post)
      (cache_release_nobuddies (21 - i) i L A o.1 (by omega) hi20 hpend g.nb)
      (cache_release_top (21 - i) i L A o.1 (by omega) hi20 g.top)⟩
    unfold xfree
    rw [if_neg hini]
    simp only [Nat.add_sub_cancel, get_size, if_neg ho0, hhdr, bind_ok, if_neg hle]
    exact hs'
  · have hpos : 0 < o.2 := by omega
    obtain ⟨s', hs', post⟩ := insert_global_block_give fuel s L A o.1 o.2 g.rep g.wf hhdr ho0
      hpos hC hofit (hpair _ rfl) (by omega)
    refine ⟨s', _, _, ?_, Good_give s s' L A _ _ O o g ho post g.nb g.top⟩
    unfold xfree
    rw [if_neg hini]
    simp only [Nat.add_sub_cancel, get_size, if_neg ho0, hhdr, bind_ok, if_pos hbig]
    exact hs'
/-! ## `xmalloc` in the small regime keeps the invariant -/

/-- On the empty arena `find_global_block` dereferences the null pointer. -/
theorem find_global_block_empty (fuel : Nat) (s : State) (size0 nb : Nat)
    (hdiv : div_up size0 LOCAL_SIZE_MAX = .ok nb) (hgl : s.global_list = 0) :
    find_global_block fuel s size0 = .error .null_deref := by
  unfold find_global_block
  simp only [hdiv, bind_ok, get_size, hgl, if_true]
  rfl

/-- With every bucket from the class of the request up empty and the arena empty,
    `find_local_block` dereferences the null pointer. -/
theorem find_local_block_empty (fuel : Nat) (s : State) (size0 log : Nat)
    (hlu : log_up size0 = .ok log) (hl20 : log ≤ 20)
    (hempty : ∀ t, log ≤ t → t ≤ 20 → s.buckets t = 0) (hgl : s.global_list = 0) :
    find_local_block fuel s size0 = .error .null_deref := by
  have hl31 : log < 31 := by omega
  have hnl20 : ¬ (log > LOCAL_BUCKETS) := by simp only [LOCAL_BUCKETS]; omega
  have hbl : s.buckets log = 0 := hempty log (le_refl _) hl20
  have hscan : scan_buckets 22 s log = 21 :=
    scan_buckets_spec s 22 log 21 (by omega) (by omega) (by omega)
      (fun t h1 h2 => hempty t h1 (by omega)) (Or.inl rfl)
  have hg := find_global_block_empty fuel s LOCAL_SIZE_MAX 1 (by simpa using div_up_exact 1) hgl
  unfold find_local_block
  simp only [hlu, bind_ok, shl_int, if_pos hl31, if_neg hnl20, hbl, ne_eq, not_true_eq_false,
    if_false, hscan]
  rw [if_pos (by simp only [LOCAL_BUCKETS]; omega), hg]
  rfl

theorem NoBuddies_set_single (L : Nat → List (Nat × Nat)) (i : Nat) (e : Nat × Nat)
    (hnb : NoBuddies L) : NoBuddies (set_list L i [e]) := by
  intro t
  by_cases ht : t = i
  · subst ht; rw [set_list_same]; exact List.pairwise_singleton _ _
  · rw [set_list_other _ _ _ _ ht]; exact hnb t

/-- `find_local_block` keeps the invariant; the block it returns joins the owned
    blocks with the size of the class of the request. -/
theorem find_local_block_good (fuel : Nat) (s : State) (L : Nat → List (Nat × Nat))
    (A : List (Nat × Nat)) (O : List (Nat × Nat)) (size0 i : Nat) (g : Good s L A O)
    (hlu : log_up size0 = .ok i) (hi : 4 ≤ i) (hi20 : i ≤ 20) (s' : State) (h : Nat)
    (hret : find_local_block fuel s size0 = .ok (s', h)) :
    ∃ L' A', Good s' L' A' ((h, 2 ^ i) :: O) ∧ s'.mem h = 2 ^ i := by
  have hat := g.rep
  have hwf := g.wf
  have hbs : BlockSize (2 ^ i) := Or.inl ⟨i, hi, hi20, rfl⟩
  by_cases hex : ∃ j, i ≤ j ∧ j ≤ 20 ∧ L j ≠ []
  · classical
    obtain ⟨hij, hj, hne⟩ := Nat.find_spec hex
    have hmin : ∀ t, i ≤ t → t < Nat.find hex → L t = [] := by
      intro t h1 h2
      by_contra hcon
      exact Nat.find_min hex h2 ⟨h1, by omega, hcon⟩
    generalize Nat.find hex = j at hij hj hne hmin
    obtain ⟨e, tl, hLj⟩ := List.exists_cons_of_ne_nil hne
    have he2 : e.2 = 2 ^ j := hwf.sizes j e (by rw [hLj]; exact List.mem_cons_self _ _)
    have hLj' : L j = (e.1, 2 ^ j) :: tl := by rw [hLj, ← he2]
    obtain ⟨s1, hs1, post, _⟩ :=
      find_local_block_take fuel s L A size0 i j e.1 tl hat hwf hlu hi hij hj hmin hLj'
    rw [hs1] at hret
    injection hret with hret
    injection hret with h1 h2
    subst h1 h2
    exact ⟨_, _, Good_take s s1 L A _ _ O e.1 (2 ^ i) g post (NoBuddies_take L i j e.1 g.nb)
      (top_take L i j e.1 hj g.top) hbs, post.hdr⟩
  · have hempty : ∀ t, i ≤ t → t ≤ 20 → L t = [] := by
      intro t h1 h2
      by_contra hcon
      exact hex ⟨t, h1, h2, hcon⟩
    have hempty' : ∀ t, i ≤ t → t ≤ 20 → s.buckets t = 0 := fun t h1 h2 =>
      (ListAt_nil_iff _ _ _ (hat.cache t (by omega) h2)).mp (hempty t h1 h2)
    cases hA : A with
    | nil =>
      have hgl : s.global_list = 0 := by
        have := hat.arena
        rw [hA] at this
        exact this
      rw [find_local_block_empty fuel s size0 i hlu hi20 hempty' hgl] at hret
      cases hret
    | cons c rest =>
      subst hA
      obtain ⟨s1, hs1, post, _⟩ :=
        find_local_block_refill_take fuel s L c.1 c.2 rest size0 i hat hwf hlu hi hi20 hempty
      rw [hs1] at hret
      injection hret with hret
      injection hret with h1 h2
      subst h1 h2
      refine ⟨_, _, Good_take s s1 L _ _ _ O c.1 (2 ^ i) g post
        (NoBuddies_take _ i 20 c.1 (NoBuddies_set_single L 20 _ g.nb))
        (top_take _ i 20 c.1 (le_refl _) (by rw [set_list_same]; simp)) hbs, post.hdr⟩
/-! ## `xmalloc` in the large regime: the arena head fits -/

theorem chunk_le_of_dvd (r : Nat) (hpos : 0 < r) (hC : LOCAL_SIZE_MAX ∣ r) : 1048576 ≤ r := by
  have := Nat.le_of_dvd hpos hC
  simp only [LOCAL_SIZE_MAX] at this
  exact this

theorem chunk_dvd_sub (S r : Nat) (hS : LOCAL_SIZE_MAX ∣ S) (hr : LOCAL_SIZE_MAX ∣ r)
    (hlt : r < S) : 0 < S - r ∧ LOCAL_SIZE_MAX ∣ S - r ∧ 1048576 ≤ S - r := by
  have h1 : LOCAL_SIZE_MAX ∣ S - r := Nat.dvd_sub' hS hr
  have h2 : 0 < S - r := by omega
  exact ⟨h2, h1, chunk_le_of_dvd _ h2 h1⟩

/-- The arena list whose head has served `r` bytes is well formed, with the free
    lists of the buckets. -/
theorem HeapWf_cut (L : Nat → List (Nat × Nat)) (a S r : Nat) (rest : List (Nat × Nat))
    (hwf : HeapWf L ((a, S) :: rest)) (hrpos : 0 < r) (hrC : LOCAL_SIZE_MAX ∣ r)
    (hrS : r ≤ S) : HeapWf L (arena_cut r ((a, S) :: rest)) := by
  have hA := hwf.arena
  obtain ⟨ha0, hS16, hSfit⟩ := hA.1.1 (a, S) (List.mem_cons_self _ _)
  simp only at ha0 hS16 hSfit
  have hpw := List.pairwise_cons.mp hA.1.2
  obtain ⟨hSpos, hSC⟩ := hA.2 (a, S) (List.mem_cons_self _ _)
  simp only at hSpos hSC
  simp only [arena_cut]
  by_cases hSr : S = r
  · rw [if_pos hSr]
    exact
      { hwf with
        arena := ⟨BlockList_tail _ _ hA.1, fun e he => hA.2 e (List.mem_cons_of_mem _ he)⟩
        apart_arena := fun t e he e' he' =>
          hwf.apart_arena t e he e' (List.mem_cons_of_mem _ he') }
  · rw [if_neg hSr]
    obtain ⟨h1, h2, h3⟩ := chunk_dvd_sub S r hSC hrC (by omega)
    refine
      { hwf with
        arena := ⟨⟨fun e he => ?_, List.pairwise_cons.mpr ⟨fun e he => ?_, hpw.2⟩⟩,
          fun e he => ?_⟩
        apart_arena := fun t e he e' he' => ?_ }
    · rcases List.mem_cons.mp he with h | h
      · rw [h]; simp only; omega
      · exact hA.1.1 e (List.mem_cons_of_mem _ h)
    · have := hpw.1 e he
      simp only at this ⊢
      omega
    · rcases List.mem_cons.mp he with h | h
      · rw [h]; exact ⟨h1, h2⟩
      · exact hA.2 e (List.mem_cons_of_mem _ h)
    · rcases List.mem_cons.mp he' with h | h
      · have := hwf.apart_arena t e he (a, S) (List.mem_cons_self _ _)
        rw [h]
        simp only [Apart] at this ⊢
        omega
      · exact hwf.apart_arena t e he e' (List.mem_cons_of_mem _ h)

/-- The head path of `find_global_block` on well-formed free lists. -/
theorem find_global_block_head_take (fuel : Nat) (s : State) (L : Nat → List (Nat × Nat))
    (a S : Nat) (rest : List (Nat × Nat)) (size0 nb r : Nat)
    (hat : HeapAt s L ((a, S) :: rest)) (hwf : HeapWf L ((a, S) :: rest))
    (hdiv : div_up size0 LOCAL_SIZE_MAX = .ok nb) (hr : (nb * LOCAL_SIZE_MAX) % WORD = r)
    (hrpos : 0 < r) (hrC : LOCAL_SIZE_MAX ∣ r) (hrS : r ≤ S) :
    ∃ s', find_global_block fuel s size0 = .ok (s', a) ∧
      TakePost s s' L ((a, S) :: rest) L (arena_cut r ((a, S) :: rest)) a r := by
  have hA := hwf.arena
  obtain ⟨ha0, hS16, hSfit⟩ := hA.1.1 (a, S) (List.mem_cons_self _ _)
  simp only at ha0 hS16 hSfit
  have hpw := List.pairwise_cons.mp hA.1.2
  obtain ⟨hSpos, hSC⟩ := hA.2 (a, S) (List.mem_cons_self _ _)
  simp only at hSpos hSC
  have hr20 := chunk_le_of_dvd r hrpos hrC
  obtain ⟨hgl, _, hmS, hrest⟩ := hat.arena
  simp only at hgl hmS hrest
  obtain ⟨s', hs', hbk, hini, _, heq, hne⟩ :=
    find_global_block_head fuel s size0 nb r a S hdiv hr hgl ha0 hmS hrS (by omega)
      (by simp only [WORD]; omega)
  have hwf' := HeapWf_cut L a S r rest hwf hrpos hrC hrS
  -- the words outside the head block are not written
  have hframe : ∀ x, x < a ∨ a + S ≤ x → s'.mem x = s.mem x := by
    intro x hx
    by_cases hSr : S = r
    · rw [(heq hSr).1]
    · obtain ⟨_, _, h3⟩ := chunk_dvd_sub S r hSC hrC (by omega)
      rw [(hne hSr).1, upd_other _ _ _ _ (by omega), upd_other _ _ _ _ (by omega),
        upd_other _ _ _ _ (by omega)]
  have hkeep : ∀ e : Nat × Nat, 16 ≤ e.2 → Apart e (a, S) →
      s'.mem e.1 = s.mem e.1 ∧ s'.mem (e.1 + 8) = s.mem (e.1 + 8) := by
    intro e he hap
    simp only [Apart] at hap
    exact ⟨hframe _ (by omega), hframe _ (by omega)⟩
  have hrest' : ListAt s'.mem (s.mem (a + 8)) rest :=
    ListAt_frame s.mem _ rest _ hrest (fun e he => hkeep e
      (hA.1.1 e (List.mem_cons_of_mem _ he)).2.1 (by
        have := hpw.1 e he
        simp only [Apart]
        simp only at this
        omega))
  refine ⟨s', hs', ?_⟩
  exact
    { rep := ⟨fun t ht1 ht2 => by
        rw [hbk]
        exact ListAt_frame s.mem _ (L t) _ (hat.cache t ht1 ht2) (fun e he =>
          hkeep e ((hwf.lists t).1 e he).2.1
            (hwf.apart_arena t e he (a, S) (List.mem_cons_self _ _))), by
        simp only [arena_cut]
        by_cases hSr : S = r
        · rw [if_pos hSr, (heq hSr).2]
          exact hrest'
        · rw [if_neg hSr, (hne hSr).2]
          obtain ⟨_, _, h3⟩ := chunk_dvd_sub S r hSC hrC (by omega)
          refine ⟨rfl, by simp only; omega, ?_, ?_⟩
          · show s'.mem (a + r) = S - r
            rw [(hne hSr).1, upd_other _ _ _ _ (by omega), upd_other _ _ _ _ (by omega),
              upd_same]
          · show ListAt s'.mem (s'.mem (a + r + 8)) rest
            have : s'.mem (a + r + 8) = s.mem (a + 8) := by
              rw [(hne hSr).1, upd_same]
            rw [this]
            exact hrest'⟩
      wf := hwf'
      hdr := by
        by_cases hSr : S = r
        · rw [(heq hSr).1, hmS, hSr]
        · rw [(hne hSr).1, upd_other _ _ _ _ (by omega), upd_same]
      nz := ha0
      fit := by omega
      apart := fun e he => by
        rcases he with ⟨t, he⟩ | he
        · have := hwf.apart_arena t e he (a, S) (List.mem_cons_self _ _)
          simp only [Apart] at this ⊢
          omega
        · simp only [arena_cut] at he
          by_cases hSr : S = r
          · rw [if_pos hSr] at he
            have := hpw.1 e he
            simp only [Apart]
            simp only at this
            omega
          · rw [if_neg hSr] at he
            rcases List.mem_cons.mp he with h | h
            · rw [h]; simp only [Apart]; omega
            · have := hpw.1 e h
              simp only [Apart]
              simp only at this
              omega
      host := fun e he => by
        have hhead : IsFree L ((a, S) :: rest) (a, S) := Or.inr (List.mem_cons_self _ _)
        rcases he with (⟨t, he⟩ | he) | he
        · exact ⟨e, Or.inl ⟨t, he⟩, le_refl _, le_refl _⟩
        · simp only [arena_cut] at he
          by_cases hSr : S = r
          · rw [if_pos hSr] at he
            exact ⟨e, Or.inr (List.mem_cons_of_mem _ he), le_refl _, le_refl _⟩
          · rw [if_neg hSr] at he
            rcases List.mem_cons.mp he with h | h
            · refine ⟨(a, S), hhead, ?_⟩
              rw [h]
              simp only [Inside]
              omega
            · exact ⟨e, Or.inr (List.mem_cons_of_mem _ h), le_refl _, le_refl _⟩
        · refine ⟨(a, S), hhead, ?_⟩
          rw [he]
          simp only [Inside]
          omega
      frame := fun x hx => by
        have := hx (a, S) (Or.inr (List.mem_cons_self _ _))
        exact hframe x this
      ini := hini }
/-! ## `xmalloc` in the large regime: an entry behind the head fits exactly -/

theorem ListAt_mem (mem : Nat → Nat) (l : List (Nat × Nat)) :
    ∀ p, ListAt mem p l → ∀ e ∈ l, e.1 ≠ 0 ∧ mem e.1 = e.2 := by
  induction l with
  | nil => intro p _ e he; cases he
  | cons c l ih =>
    intro p h e he
    obtain ⟨_, h2, h3, h4⟩ := h
    rcases List.mem_cons.mp he with h | h
    · rw [h]; exact ⟨h2, h3⟩
    · exact ih _ h4 e h

theorem first_fit_mem (r : Nat) (l : List (Nat × Nat)) (e : Nat × Nat)
    (h : first_fit r l = some e) : e ∈ l ∧ r ≤ e.2 := by
  induction l with
  | nil => cases h
  | cons x l ih =>
    simp only [first_fit] at h
    by_cases hx : r ≤ x.2
    · rw [if_pos hx] at h
      injection h with h
      rw [← h]
      exact ⟨List.mem_cons_self _ _, hx⟩
    · rw [if_neg hx] at h
      exact ⟨List.mem_cons_of_mem _ (ih h).1, (ih h).2⟩

theorem first_fit_none (r : Nat) (l : List (Nat × Nat)) (h : first_fit r l = none) :
    ∀ e ∈ l, e.2 < r := by
  induction l with
  | nil => intro e he; cases he
  | cons x l ih =>
    simp only [first_fit] at h
    by_cases hx : r ≤ x.2
    · rw [if_pos hx] at h; cases h
    · rw [if_neg hx] at h
      intro e he
      rcases List.mem_cons.mp he with h1 | h1
      · rw [h1]; omega
      · exact ih h e h1

theorem first_fit_exact (r : Nat) (l : List (Nat × Nat)) (e : Nat × Nat)
    (h : first_fit r l = some e) (hex : ExactFit r l) : e.2 = r := by
  induction l with
  | nil => cases h
  | cons x l ih =>
    simp only [first_fit] at h
    simp only [ExactFit] at hex
    by_cases hx : r ≤ x.2
    · rw [if_pos hx] at h hex
      injection h with h
      rw [← h]
      exact hex
    · rw [if_neg hx] at h hex
      exact ih h hex

theorem drop_fit_sublist (r : Nat) (l : List (Nat × Nat)) : (drop_fit r l).Sublist l := by
  induction l with
  | nil => exact List.Sublist.refl _
  | cons x l ih =>
    simp only [drop_fit]
    by_cases hx : r ≤ x.2
    · rw [if_pos hx]; exact List.sublist_cons_self _ _
    · rw [if_neg hx]; exact ih.cons₂ _

/-- The entries that stay in the list are apart from the entry taken out. -/
theorem drop_fit_apart (r : Nat) (l : List (Nat × Nat)) (e : Nat × Nat)
    (hbl : BlockList l) (h : first_fit r l = some e) : ∀ e' ∈ drop_fit r l, Apart e' e := by
  induction l with
  | nil => cases h
  | cons x l ih =>
    simp only [first_fit] at h
    simp only [drop_fit]
    obtain ⟨_, hxl⟩ := BlockList_head x l hbl
    by_cases hx : r ≤ x.2
    · rw [if_pos hx] at h ⊢
      injection h with h
      intro e' he'
      have := hxl e' he'
      rw [← h]
      simp only [Apart]
      omega
    · rw [if_neg hx] at h ⊢
      intro e' he'
      rcases List.mem_cons.mp he' with h1 | h1
      · have := hxl e (first_fit_mem r l e h).1
        rw [h1]
        simp only [Apart]
        omega
      · exact ih (BlockList_tail x l hbl) h e' h1

/-- The walk of `find_global_block` over an in-memory block list in which the first
    entry that fits, if any, fits exactly: that entry is unlinked and returned, and
    only the link of its predecessor is written. -/
theorem find_global_loop_exact (r : Nat) :
    ∀ (l : List (Nat × Nat)) (c : Nat × Nat) (fuel : Nat) (s : State) (out : Nat),
      l.length < fuel → ListAt s.mem c.1 (c :: l) → BlockList (c :: l) → ExactFit r l →
      ∃ s', find_global_loop fuel s r c.1 out =
          .ok (s', match first_fit r l with
                   | none => out
                   | some e => e.1) ∧
        ListAt s'.mem c.1 (c :: drop_fit r l) ∧
        (∀ a, (∀ e ∈ c :: l, a ≠ e.1 + 8) → s'.mem a = s.mem a) ∧
        (first_fit r l = none → s' = s) ∧
        s'.global_list = s.global_list ∧ s'.buckets = s.buckets ∧ s'.init = s.init ∧
        s'.pages = s.pages := by
  intro l
  induction l with
  | nil =>
    intro c fuel s out hfuel hl _ _
    obtain ⟨f, rfl⟩ : ∃ f, fuel = f + 1 := ⟨fuel - 1, by simp at hfuel; omega⟩
    obtain ⟨_, hc0, _, hnx⟩ := id hl
    have hnx0 : s.mem (c.1 + 8) = 0 := hnx
    refine ⟨s, ?_, hl, fun _ _ => rfl, fun _ => rfl, rfl, rfl, rfl, rfl⟩
    rw [find_global_loop]
    simp only [get_next, if_neg hc0, hnx0, bind_ok, if_true, pure_ok, first_fit]
  | cons e l ih =>
    intro c fuel s out hfuel hl hbl hex
    obtain ⟨f, rfl⟩ : ∃ f, fuel = f + 1 := ⟨fuel - 1, by simp at hfuel; omega⟩
    obtain ⟨_, hc0, hcsz, hnx⟩ := id hl
    have hnxe : s.mem (c.1 + 8) = e.1 := hnx.1
    have he0 : e.1 ≠ 0 := hnx.2.1
    have hesz : s.mem e.1 = e.2 := hnx.2.2.1
    have htl : ListAt s.mem (s.mem (e.1 + 8)) l := hnx.2.2.2
    obtain ⟨⟨_, hc16, _⟩, hcl⟩ := BlockList_head c (e :: l) hbl
    have hbl' := BlockList_tail c (e :: l) hbl
    obtain ⟨⟨_, he16, _⟩, hel⟩ := BlockList_head e l hbl'
    have hce := hcl e (List.mem_cons_self _ _)
    simp only [ExactFit] at hex
    by_cases hfit : r ≤ e.2
    · rw [if_pos hfit] at hex
      refine ⟨{ s with mem := upd s.mem (c.1 + 8) (s.mem (e.1 + 8)) }, ?_, ?_, ?_, ?_,
        rfl, rfl, rfl, rfl⟩
      · rw [find_global_loop]
        simp only [get_next, get_size, if_neg hc0, hnxe, bind_ok, if_neg he0, hesz,
          ge_iff_le, if_pos hfit, split_block, hex, if_true, pure_ok, ne_eq, not_true_eq_false,
          if_false, set_next, first_fit]
        rw [if_pos (le_refl r), if_pos (le_refl r)]
      · simp only [drop_fit, if_pos hfit]
        refine ⟨rfl, hc0, ?_, ?_⟩
        · show upd s.mem (c.1 + 8) (s.mem (e.1 + 8)) c.1 = c.2
          rw [upd_other _ _ _ _ (by omega)]
          exact hcsz
        · show ListAt _ (upd s.mem (c.1 + 8) (s.mem (e.1 + 8)) (c.1 + 8)) l
          rw [upd_same]
          refine ListAt_frame s.mem _ l _ htl (fun e' he' => ?_)
          have h1 := hcl e' (List.mem_cons_of_mem _ he')
          exact ⟨upd_other _ _ _ _ (by omega), upd_other _ _ _ _ (by omega)⟩
      · intro a ha
        have := ha c (List.mem_cons_self _ _)
        show upd s.mem (c.1 + 8) (s.mem (e.1 + 8)) a = s.mem a
        rw [upd_other _ _ _ _ this]
      · intro hnone
        simp only [first_fit, if_pos hfit] at hnone
        cases hnone
    · rw [if_neg hfit] at hex
      obtain ⟨s', hs', hl', hfr', hnone', hg', hb', hi', hp'⟩ :=
        ih e f s out (by simp at hfuel ⊢; omega) (by rw [← hnxe]; exact hnx) hbl' hex
      refine ⟨s', ?_, ?_, ?_, ?_, hg', hb', hi', hp'⟩
      · rw [find_global_loop]
        simp only [get_next, get_size, if_neg hc0, hnxe, bind_ok, if_neg he0, hesz,
          ge_iff_le, if_neg hfit, first_fit]
        exact hs'
      · simp only [drop_fit, if_neg hfit]
        have hcells : ∀ e' ∈ e :: l, c.1 ≠ e'.1 + 8 ∧ c.1 + 8 ≠ e'.1 + 8 := by
          intro e' he'
          have := hcl e' he'
          omega
        refine ⟨rfl, hc0, ?_, ?_⟩
        · rw [hfr' c.1 (fun e' he' => (hcells e' he').1)]
          exact hcsz
        · rw [hfr' (c.1 + 8) (fun e' he' => (hcells e' he').2), hnxe]
          exact hl'
      · intro a ha
        exact hfr' a (fun e' he' => ha e' (List.mem_cons_of_mem _ he'))
      · intro hnone
        simp only [first_fit, if_neg hfit] at hnone
        exact hnone' hnone
theorem HeapWf_arena_sublist (L : Nat → List (Nat × Nat)) (A A' : List (Nat × Nat))
    (hwf : HeapWf L A) (hs : A'.Sublist A) : HeapWf L A' :=
  { hwf with
    arena := ⟨⟨fun e he => hwf.arena.1.1 e (hs.subset he), hwf.arena.1.2.sublist hs⟩,
      fun e he => hwf.arena.2 e (hs.subset he)⟩
    apart_arena := fun t e he e' he' => hwf.apart_arena t e he e' (hs.subset he') }

/-- The loop path of `find_global_block` on well-formed free lists, when the first
    entry behind the head that fits has exactly the rounded size. -/
theorem find_global_block_exact_take (fuel : Nat) (s : State) (L : Nat → List (Nat × Nat))
    (c : Nat × Nat) (l : List (Nat × Nat)) (size0 nb r : Nat) (e : Nat × Nat)
    (hat : HeapAt s L (c :: l)) (hwf : HeapWf L (c :: l))
    (hdiv : div_up size0 LOCAL_SIZE_MAX = .ok nb) (hr : (nb * LOCAL_SIZE_MAX) % WORD = r)
    (hcr : c.2 < r) (hex : ExactFit r l) (hff : first_fit r l = some e)
    (hfuel : l.length < fuel) :
    ∃ s', find_global_block fuel s size0 = .ok (s', e.1) ∧
      TakePost s s' L (c :: l) L (c :: drop_fit r l) e.1 r := by
  have hbl := hwf.arena.1
  obtain ⟨hgl, hc0, hcsz, _⟩ := id hat.arena
  obtain ⟨⟨_, hc16, _⟩, hcl⟩ := BlockList_head c l hbl
  obtain ⟨hel, _⟩ := first_fit_mem r l e hff
  have he2 := first_fit_exact r l e hff hex
  obtain ⟨he0, he16, hefit⟩ := hbl.1 e (List.mem_cons_of_mem _ hel)
  have hesz := (ListAt_mem s.mem (c :: l) _ hat.arena e (List.mem_cons_of_mem _ hel)).2
  obtain ⟨s', hs', hl', hfr', _, hg', hb', hi', _⟩ :=
    find_global_loop_exact r l c fuel s 0 hfuel (by rw [← hgl]; exact hat.arena) hbl hex
  rw [hff] at hs'
  simp only at hs'
  have hlt : ¬ (c.2 ≥ r) := by omega
  -- the words written are link fields of arena entries
  have hkeep : ∀ x : Nat × Nat, (∀ e' ∈ c :: l, Apart x e' ∨ x = e') →
      s'.mem x.1 = s.mem x.1 := by
    intro x hx
    refine hfr' _ (fun e' he' => ?_)
    have h16 := (hbl.1 e' he').2.1
    rcases hx e' he' with h | h
    · simp only [Apart] at h; omega
    · rw [h]; omega
  have hpair : ∀ e1 ∈ c :: l, ∀ e2 ∈ c :: l, Apart e1 e2 ∨ e1 = e2 := by
    intro e1 h1 e2 h2
    by_cases h : e1 = e2
    · exact Or.inr h
    · left
      have hp : (c :: l).Pairwise Apart := hbl.2.imp (fun h => Or.inl (by omega))
      exact hp.forall (fun a b hab => Apart_symm a b hab) h1 h2 h
  refine ⟨s', ?_, ?_⟩
  · unfold find_global_block
    simp only [hdiv, bind_ok, hr, get_size, hgl, if_neg hc0, hcsz, if_neg hlt, hs', if_neg he0,
      pure_ok]
  · exact
      { rep := ⟨fun t ht1 ht2 => by
          rw [hb']
          refine ListAt_frame s.mem _ (L t) _ (hat.cache t ht1 ht2) (fun x hx => ?_)
          have hx16 := ((hwf.lists t).1 x hx).2.1
          constructor
          · exact hkeep x (fun e' he' => Or.inl (hwf.apart_arena t x hx e' he'))
          · refine hfr' _ (fun e' he' => ?_)
            have h16 := (hbl.1 e' he').2.1
            have := hwf.apart_arena t x hx e' he'
            simp only [Apart] at this
            omega, by
          rw [hg', hgl]
          exact hl'⟩
        wf := HeapWf_arena_sublist L (c :: l) _ hwf ((drop_fit_sublist r l).cons₂ c)
        hdr := by
          rw [hkeep e (fun e' he' => hpair e (List.mem_cons_of_mem _ hel) e' he'), hesz, he2]
        nz := he0
        fit := by rw [← he2]; exact hefit
        apart := fun x hx => by
          have key : Apart x e := by
            rcases hx with ⟨t, hx⟩ | hx
            · exact hwf.apart_arena t x hx e (List.mem_cons_of_mem _ hel)
            · rcases List.mem_cons.mp hx with h | h
              · have := hcl e hel
                rw [h]
                simp only [Apart]
                omega
              · exact drop_fit_apart r l e (BlockList_tail c l hbl) hff x h
          simp only [Apart] at key ⊢
          rw [← he2]
          exact key
        host := fun x hx => by
          rcases hx with (⟨t, hx⟩ | hx) | hx
          · exact ⟨x, Or.inl ⟨t, hx⟩, le_refl _, le_refl _⟩
          · exact ⟨x, Or.inr (((drop_fit_sublist r l).cons₂ c).subset hx), le_refl _, le_refl _⟩
          · refine ⟨e, Or.inr (List.mem_cons_of_mem _ hel), ?_⟩
            rw [hx]
            simp only [Inside]
            omega
        frame := fun a ha => by
          refine hfr' a (fun e' he' => ?_)
          have h16 := (hbl.1 e' he').2.1
          have := ha e' (Or.inr he')
          omega
        ini := hi' }

theorem round_chunk_spec (n : Nat) (hn : LOCAL_SIZE_MAX < n) :
    LOCAL_SIZE_MAX ∣ round_chunk n ∧ LOCAL_SIZE_MAX < round_chunk n ∧ n ≤ round_chunk n ∧
      round_chunk n < n + 1048576 := by
  have h1 : LOCAL_SIZE_MAX ∣ round_chunk n := Dvd.intro_left _ rfl
  simp only [round_chunk, LOCAL_SIZE_MAX] at hn ⊢
  refine ⟨h1, ?_, ?_, ?_⟩ <;> omega

/-- The miss path of `find_global_block` keeps the invariant: the region obtained from
    the page source joins the owned blocks. -/
theorem find_global_block_miss_good (fuel : Nat) (s : State) (L : Nat → List (Nat × Nat))
    (c : Nat × Nat) (l : List (Nat × Nat)) (O : List (Nat × Nat)) (size0 nb r p : Nat)
    (rest : List Nat) (g : Good s L (c :: l) O)
    (hdiv : div_up size0 LOCAL_SIZE_MAX = .ok nb) (hr : (nb * LOCAL_SIZE_MAX) % WORD = r)
    (hrbig : LOCAL_SIZE_MAX < r) (hrC : LOCAL_SIZE_MAX ∣ r)
    (hcr : c.2 < r) (hnone : first_fit r l = none) (hfuel : l.length < fuel)
    (hpages : s.pages = p :: rest) (hfresh : FreshRegion s O p r) :
    ∃ s', find_global_block fuel s size0 = .ok (s', p) ∧ Good s' L (c :: l) ((p, r) :: O) ∧
      s'.mem p = r := by
  obtain ⟨hp0, hpfit, hfo, hff⟩ := hfresh
  have hfree := hff L (c :: l) g.rep
  have hat := g.rep
  obtain ⟨hgl, hc0, hcsz, _⟩ := id hat.arena
  have hlt : ¬ (c.2 ≥ r) := by omega
  have hloop := find_global_loop_miss r l c fuel s 0 hfuel (by rw [← hgl]; exact hat.arena)
    (first_fit_none r l hnone)
  have hp1 : p ≠ WORD - 1 := by simp only [WORD]; omega
  simp only [LOCAL_SIZE_MAX] at hrbig
  have hout : ∀ x : Nat × Nat, 16 ≤ x.2 → Apart x (p, r) →
      upd (fun a => if p ≤ a ∧ a < p + r then 0 else s.mem a) p r x.1 = s.mem x.1 ∧
      upd (fun a => if p ≤ a ∧ a < p + r then 0 else s.mem a) p r (x.1 + 8) =
        s.mem (x.1 + 8) := by
    intro x hx hap
    simp only [Apart] at hap
    constructor
    · rw [upd_other _ _ _ _ (by omega)]
      exact if_neg (by omega)
    · rw [upd_other _ _ _ _ (by omega)]
      exact if_neg (by omega)
  have hnotin : (p, r) ∉ O := by
    intro hmem
    have := hfo _ hmem
    simp only [Apart] at this
    omega
  refine ⟨{ s with pages := rest,
                   mem := upd (fun a => if p ≤ a ∧ a < p + r then 0 else s.mem a) p r },
    ?_, ?_, by simp only [upd_same]⟩
  · unfold find_global_block
    simp only [hdiv, bind_ok, hr, get_size, hgl, if_neg hc0, hcsz, if_neg hlt, hloop, if_true,
      mmap, hpages, if_neg hp1, set_size, if_neg hp0, pure_ok]
  · refine
      { ini := g.ini
        rep := ⟨fun t ht1 ht2 => ?_, ?_⟩
        wf := g.wf
        nb := g.nb
        top := g.top
        own_hdr := ?_
        own_ok := ?_
        own_nodup := List.nodup_cons.mpr ⟨hnotin, g.own_nodup⟩
        own_apart := ?_
        own_free := ?_ }
    · exact ListAt_frame s.mem _ (L t) _ (hat.cache t ht1 ht2) (fun x hx =>
        hout x ((g.wf.lists t).1 x hx).2.1 (hfree x (Or.inl ⟨t, hx⟩)))
    · exact ListAt_frame s.mem _ (c :: l) _ hat.arena (fun x hx =>
        hout x (g.wf.arena.1.1 x hx).2.1 (hfree x (Or.inr hx)))
    · intro o ho
      rcases List.mem_cons.mp ho with h1 | h1
      · rw [h1]; simp only [upd_same]
      · have h16 := BlockSize_ge o.2 (g.own_ok o h1).2.2
        show upd (fun a => if p ≤ a ∧ a < p + r then 0 else s.mem a) p r o.1 = o.2
        rw [(hout o h16 (hfo o h1)).1]
        exact g.own_hdr o h1
    · intro o ho
      rcases List.mem_cons.mp ho with h1 | h1
      · rw [h1]; exact ⟨hp0, hpfit, Or.inr ⟨hrbig, hrC⟩⟩
      · exact g.own_ok o h1
    · intro o ho o' ho' hne
      rcases List.mem_cons.mp ho with h1 | h1
      · rcases List.mem_cons.mp ho' with h2 | h2
        · exact absurd (h1.trans h2.symm) hne
        · rw [h1]; exact Apart_symm _ _ (hfo o' h2)
      · rcases List.mem_cons.mp ho' with h2 | h2
        · rw [h2]; exact hfo o h1
        · exact g.own_apart o h1 o' h2 hne
    · intro o ho x hx
      rcases List.mem_cons.mp ho with h1 | h1
      · rw [h1]; exact hfree x hx
      · exact g.own_free o h1 x hx
/-! ## `xmalloc` keeps the invariant -/

/-- `find_global_block` for a request of the large regime keeps the invariant; the
    block it returns joins the owned blocks with the rounded size. -/
theorem find_global_block_good (fuel : Nat) (s : State) (L : Nat → List (Nat × Nat))
    (A : List (Nat × Nat)) (O : List (Nat × Nat)) (b : Nat) (s' : State) (h : Nat)
    (g : Good s L A O) (hok : MallocOk s O b) (hbig : LOCAL_SIZE_MAX < b + 8)
    (hfuel : A.length < fuel) (hret : find_global_block fuel s (b + 8) = .ok (s', h)) :
    ∃ L' A', Good s' L' A' ((h, round_chunk (b + 8)) :: O) ∧
      s'.mem h = round_chunk (b + 8) := by
  obtain ⟨hb63, hside⟩ := hok
  obtain ⟨hrC, hrbig, hrn, _⟩ := round_chunk_spec (b + 8) hbig
  obtain ⟨nb, hdiv, hr⟩ := div_up_round (b + 8) hb63
  have hside' := hside hbig
  generalize round_chunk (b + 8) = r at hside' hrC hrbig hrn hr ⊢
  have hbs : BlockSize r := Or.inr ⟨hrbig, hrC⟩
  have hrpos : 0 < r := by omega
  cases hA : A with
  | nil =>
    have hgl : s.global_list = 0 := by
      have := g.rep.arena
      rw [hA] at this
      exact this
    rw [find_global_block_empty fuel s (b + 8) nb hdiv hgl] at hret
    cases hret
  | cons c l =>
    subst hA
    by_cases hcr : r ≤ c.2
    · obtain ⟨s1, hs1, post⟩ := find_global_block_head_take fuel s L c.1 c.2 l (b + 8) nb r
        g.rep g.wf hdiv hr hrpos hrC hcr
      rw [hs1] at hret
      injection hret with hret
      injection hret with h1 h2
      subst h1 h2
      exact ⟨_, _, Good_take s s1 L _ _ _ O c.1 r g post g.nb g.top hbs, post.hdr⟩
    · obtain ⟨hex, hmiss⟩ := hside' c l g.rep.arena (by omega)
      cases hff : first_fit r l with
      | some e =>
        obtain ⟨s1, hs1, post⟩ := find_global_block_exact_take fuel s L c l (b + 8) nb r e
          g.rep g.wf hdiv hr (by omega) hex hff (by simp at hfuel; omega)
        rw [hs1] at hret
        injection hret with hret
        injection hret with h1 h2
        subst h1 h2
        exact ⟨_, _, Good_take s s1 L _ _ _ O e.1 r g post g.nb g.top hbs, post.hdr⟩
      | none =>
        obtain ⟨p, rest, hpages, hfresh⟩ := hmiss hff
        obtain ⟨s1, hs1, g1, hm1⟩ := find_global_block_miss_good fuel s L c l O (b + 8) nb r p
          rest g hdiv hr hrbig hrC (by omega) hff (by simp at hfuel; omega) hpages hfresh
        rw [hs1] at hret
        injection hret with hret
        injection hret with h1 h2
        subst h1 h2
        exact ⟨_, _, g1, hm1⟩

/-- The block that serves a request of `b` bytes has the size `block_size b`, a size
    that the allocator hands out. -/
theorem block_size_small (b : Nat) (hb : b + 8 ≤ LOCAL_SIZE_MAX) :
    ∃ i, log_up (b + 8) = .ok i ∧ 4 ≤ i ∧ i ≤ 20 ∧ block_size b = 2 ^ i := by
  obtain ⟨i, hlu, hi, hi20, _, _⟩ := log_up_small (b + 8) hb
  refine ⟨i, hlu, hi, hi20, ?_⟩
  unfold block_size
  rw [if_neg (by omega), hlu]

theorem block_size_large (b : Nat) (hb : LOCAL_SIZE_MAX < b + 8) :
    block_size b = round_chunk (b + 8) := by
  unfold block_size
  rw [if_pos hb]

/-- `xmalloc` keeps the invariant; the block that holds the returned pointer joins
    the owned blocks, with the size `block_size b` in its header. -/
theorem xmalloc_good (fuel : Nat) (s : State) (L : Nat → List (Nat × Nat))
    (A : List (Nat × Nat)) (O : List (Nat × Nat)) (b : Nat) (s' : State) (q : Nat)
    (g : Good s L A O) (hok : MallocOk s O b) (hfuel : A.length < fuel)
    (hret : xmalloc fuel s b = .ok (s', q)) :
    ∃ L' A', Good s' L' A' ((q - 8, block_size b) :: O) ∧ s'.mem (q - 8) = block_size b := by
  have hb63 := hok.1
  have hmod : (b + 8) % WORD = b + 8 := Nat.mod_eq_of_lt (by simp only [WORD]; omega)
  have hini : ¬ (s.init = 0) := by rw [g.ini]; simp
  unfold xmalloc at hret
  rw [if_neg hini] at hret
  simp only [pure_ok, bind_ok, hmod] at hret
  by_cases hbig : b + 8 > LOCAL_SIZE_MAX
  · rw [if_pos hbig] at hret
    cases hf : find_global_block fuel s (b + 8) with
    | error e => rw [hf] at hret; cases hret
    | ok v =>
      obtain ⟨s2, blk⟩ := v
      rw [hf] at hret
      simp only [bind_ok] at hret
      injection hret with hret
      injection hret with h1 h2
      subst h1 h2
      obtain ⟨L', A', g', hm⟩ := find_global_block_good fuel s L A O b s2 blk g hok hbig hfuel hf
      rw [Nat.add_sub_cancel, block_size_large b hbig]
      exact ⟨L', A', g', hm⟩
  · rw [if_neg hbig] at hret
    obtain ⟨i, hlu, hi, hi20, hbs⟩ := block_size_small b (by omega)
    cases hf : find_local_block fuel s (b + 8) with
    | error e => rw [hf] at hret; cases hret
    | ok v =>
      obtain ⟨s2, blk⟩ := v
      rw [hf] at hret
      simp only [bind_ok] at hret
      injection hret with hret
      injection hret with h1 h2
      subst h1 h2
      obtain ⟨L', A', g', hm⟩ := find_local_block_good fuel s L A O (b + 8) i g hlu hi hi20 s2
        blk hf
      rw [Nat.add_sub_cancel, hbs]
      exact ⟨L', A', g', hm⟩
/-! ## `xrealloc` keeps the invariant -/

/-- An owned block of the large regime cut in two by `split_block`: both parts are
    owned blocks. -/
theorem Good_split (s : State) (L : Nat → List (Nat × Nat)) (A : List (Nat × Nat))
    (O : List (Nat × Nat)) (o : Nat × Nat) (r : Nat) (g : Good s L A O) (ho : o ∈ O)
    (hrbig : LOCAL_SIZE_MAX < r) (hrC : LOCAL_SIZE_MAX ∣ r) (hlt : r < o.2)
    (hoC : LOCAL_SIZE_MAX ∣ o.2) :
    Good { s with mem := upd (upd s.mem (o.1 + r) (o.2 - r)) o.1 r } L A
      ((o.1 + r, o.2 - r) :: (o.1, r) :: O.erase o) := by
  obtain ⟨ho0, hofit, _⟩ := g.own_ok o ho
  obtain ⟨hdpos, hdC, hd20⟩ := chunk_dvd_sub o.2 r hoC hrC hlt
  simp only [LOCAL_SIZE_MAX] at hrbig
  have hmem : ∀ o' ∈ O.erase o, o' ∈ O ∧ o' ≠ o := by
    intro o' ho'
    exact ⟨List.mem_of_mem_erase ho', fun h => by
      rw [h] at ho'
      exact (List.Nodup.not_mem_erase g.own_nodup) ho'⟩
  have hin1 : Inside (o.1 + r, o.2 - r) o := by simp only [Inside]; omega
  have hin2 : Inside (o.1, r) o := by simp only [Inside]; omega
  have hold : ∀ o' ∈ O.erase o, Apart o' o ∧ 16 ≤ o'.2 := fun o' ho' =>
    ⟨g.own_apart o' (hmem o' ho').1 o ho (hmem o' ho').2,
      BlockSize_ge o'.2 (g.own_ok o' (hmem o' ho').1).2.2⟩
  have hnew1 : ∀ o' ∈ O.erase o, Apart (o.1 + r, o.2 - r) o' := fun o' ho' =>
    apart_inside _ o o' hin1 (Apart_symm _ _ (hold o' ho').1)
  have hnew2 : ∀ o' ∈ O.erase o, Apart (o.1, r) o' := fun o' ho' =>
    apart_inside _ o o' hin2 (Apart_symm _ _ (hold o' ho').1)
  have h12 : Apart (o.1 + r, o.2 - r) (o.1, r) := by simp only [Apart]; omega
  have hn1 : (o.1 + r, o.2 - r) ∉ (o.1, r) :: O.erase o := by
    intro hm
    rcases List.mem_cons.mp hm with h | h
    · have := congrArg Prod.fst h
      simp only at this
      omega
    · have := hnew1 _ h
      simp only [Apart] at this
      omega
  have hn2 : (o.1, r) ∉ O.erase o := by
    intro hm
    have := hnew2 _ hm
    simp only [Apart] at this
    omega
  have hbs2 : BlockSize (o.2 - r) := by
    by_cases h : o.2 - r = 1048576
    · exact Or.inl ⟨20, by omega, le_refl _, by rw [h]; norm_num⟩
    · exact Or.inr ⟨by simp only [LOCAL_SIZE_MAX]; omega, hdC⟩
  have hcell : ∀ x : Nat × Nat, 16 ≤ x.2 → Apart x o →
      upd (upd s.mem (o.1 + r) (o.2 - r)) o.1 r x.1 = s.mem x.1 ∧
      upd (upd s.mem (o.1 + r) (o.2 - r)) o.1 r (x.1 + 8) = s.mem (x.1 + 8) := by
    intro x hx hap
    simp only [Apart] at hap
    constructor
    · rw [upd_other _ _ _ _ (by omega), upd_other _ _ _ _ (by omega)]
    · rw [upd_other _ _ _ _ (by omega), upd_other _ _ _ _ (by omega)]
  refine
    { ini := g.ini
      rep := ⟨fun t ht1 ht2 => ?_, ?_⟩
      wf := g.wf
      nb := g.nb
      top := g.top
      own_hdr := ?_
      own_ok := ?_
      own_nodup := List.nodup_cons.mpr ⟨hn1, List.nodup_cons.mpr ⟨hn2, g.own_nodup.erase o⟩⟩
      own_apart := ?_
      own_free := ?_ }
  · exact ListAt_frame s.mem _ (L t) _ (g.rep.cache t ht1 ht2) (fun x hx =>
      hcell x ((g.wf.lists t).1 x hx).2.1 (g.own_free o ho x (Or.inl ⟨t, hx⟩)))
  · exact ListAt_frame s.mem _ A _ g.rep.arena (fun x hx =>
      hcell x (g.wf.arena.1.1 x hx).2.1 (g.own_free o ho x (Or.inr hx)))
  · intro x hx
    show upd (upd s.mem (o.1 + r) (o.2 - r)) o.1 r x.1 = x.2
    rcases List.mem_cons.mp hx with h | h
    · rw [h]
      simp only
      rw [upd_other _ _ _ _ (by omega), upd_same]
    · rcases List.mem_cons.mp h with h | h
      · rw [h]
        simp only
        rw [upd_same]
      · rw [(hcell x (hold x h).2 (hold x h).1).1]
        exact g.own_hdr x (hmem x h).1
  · intro x hx
    rcases List.mem_cons.mp hx with h | h
    · rw [h]; exact ⟨by simp only; omega, by simp only; omega, hbs2⟩
    · rcases List.mem_cons.mp h with h | h
      · rw [h]; exact ⟨ho0, by simp only; omega, Or.inr ⟨by simp only [LOCAL_SIZE_MAX]; omega, hrC⟩⟩
      · exact g.own_ok x (hmem x h).1
  · intro x hx y hy hne
    rcases List.mem_cons.mp hx with h | h
    · rcases List.mem_cons.mp hy with h' | h'
      · exact absurd (h.trans h'.symm) hne
      · rcases List.mem_cons.mp h' with h' | h'
        · rw [h, h']; exact h12
        · rw [h]; exact hnew1 y h'
    · rcases List.mem_cons.mp h with h | h
      · rcases List.mem_cons.mp hy with h' | h'
        · rw [h, h']; exact Apart_symm _ _ h12
        · rcases List.mem_cons.mp h' with h' | h'
          · exact absurd (h.trans h'.symm) hne
          · rw [h]; exact hnew2 y h'
      · rcases List.mem_cons.mp hy with h' | h'
        · rw [h']; exact Apart_symm _ _ (hnew1 x h)
        · rcases List.mem_cons.mp h' with h' | h'
          · rw [h']; exact Apart_symm _ _ (hnew2 x h)
          · exact g.own_apart x (hmem x h).1 y (hmem y h').1 hne
  · intro x hx e he
    have hb := IsFree_block L A g.wf e he
    rcases List.mem_cons.mp hx with h | h
    · rw [h]
      have := g.own_free o ho e he
      simp only [Apart] at this ⊢
      omega
    · rcases List.mem_cons.mp h with h | h
      · rw [h]
        have := g.own_free o ho e he
        simp only [Apart] at this ⊢
        omega
      · exact g.own_free x (hmem x h).1 e he
theorem perm_cons_erase_block (O : List (Nat × Nat)) (o : Nat × Nat) (ho : o ∈ O) :
    O.Perm (o :: O.erase o) := by
  induction O with
  | nil => cases ho
  | cons x l ih =>
    by_cases h : x = o
    · subst h
      rw [List.erase_cons_head]
    · have hmem : o ∈ l := by
        rcases List.mem_cons.mp ho with h1 | h1
        · exact absurd h1.symm h
        · exact h1
      rw [List.erase_cons_tail (by simpa using h)]
      exact ((ih hmem).cons x).trans (List.Perm.swap o x _)

/-- After the computation of the size, `xrealloc` of a non-zero request below
    `2 ^ 63` bytes is `xrealloc_resize` at the size `block_size b`. -/
theorem xrealloc_eq (fuel : Nat) (s : State) (prev b : Nat) (hini : s.init = 1)
    (hb0 : b ≠ 0) (hb63 : b + 8 < 9223372036854775808) :
    xrealloc fuel s prev b = xrealloc_resize fuel s prev b (block_size b) := by
  have hmod : (b + 8) % WORD = b + 8 := Nat.mod_eq_of_lt (by simp only [WORD]; omega)
  have hi1 : ¬ (s.init ≠ 1) := by rw [hini]; simp
  unfold xrealloc xrealloc_resize
  rw [if_neg hi1, if_neg hb0]
  by_cases hbig : b + 8 > LOCAL_SIZE_MAX
  · obtain ⟨nb, hdiv, hr⟩ := div_up_round (b + 8) hb63
    rw [block_size_large b hbig]
    simp only [hmod, if_pos hbig, hdiv, bind_ok, pure_ok, hr]
  · obtain ⟨i, hlu, hi, hi20, hbs⟩ := block_size_small b (by omega)
    rw [hbs]
    simp only [hmod, if_neg hbig, hlu, bind_ok, shl_int, if_pos (show i < 31 by omega)]

/-- `xrealloc` of an owned block keeps the invariant.  In the growing case the call
    is a release followed by a request; `hgrow` gives the state between the two. -/
theorem xrealloc_good (fuel : Nat) (s : State) (L : Nat → List (Nat × Nat))
    (A : List (Nat × Nat)) (O : List (Nat × Nat)) (o : Nat × Nat) (b : Nat) (s' : State)
    (q : Nat) (g : Good s L A O) (ho : o ∈ O) (hb63 : b + 8 < 9223372036854775808)
    (hgrow : b ≠ 0 → o.2 < block_size b → ∃ s1 L1 A1, xfree fuel s (o.1 + 8) = .ok s1 ∧
      Good s1 L1 A1 (O.erase o) ∧ MallocOk s1 (O.erase o) b ∧ A1.length < fuel)
    (hfuel : ∀ t, (L t).length + 22 ≤ fuel) (hfuelA : A.length + 22 ≤ fuel)
    (hret : xrealloc fuel s (o.1 + 8) b = .ok (s', q)) :
    ∃ L' A', Good s' L' A'
      (if b = 0 then O.erase o else (q - 8, s'.mem (q - 8)) :: O.erase o) := by
  obtain ⟨ho0, hofit, hosz⟩ := g.own_ok o ho
  have hhdr := g.own_hdr o ho
  have hini : ¬ (s.init ≠ 1) := by rw [g.ini]; simp
  have hsame : Good s L A ((o.1, o.2) :: O.erase o) :=
    Good_perm s L A O _ g (perm_cons_erase_block O o ho)
  have hret0 := hret
  by_cases hb0 : b = 0
  · unfold xrealloc at hret
    rw [if_neg hini, if_pos hb0] at hret
    rw [if_pos hb0]
    obtain ⟨s1, L1, A1, hx, g1⟩ := xfree_good fuel s L A O o g ho hfuel hfuelA
    rw [hx] at hret
    simp only [bind_ok, pure_ok] at hret
    injection hret with hret
    injection hret with h1 h2
    subst h1
    exact ⟨L1, A1, g1⟩
  · rw [xrealloc_eq fuel s (o.1 + 8) b g.ini hb0 hb63] at hret
    rw [if_neg hb0]
    unfold xrealloc_resize at hret
    simp only [Nat.add_sub_cancel, bind_ok, get_size, if_neg ho0, hhdr] at hret
    by_cases h1 : block_size b = o.2
    · rw [if_pos h1] at hret
      injection hret with hret
      injection hret with h2 h3
      subst h2 h3
      rw [Nat.add_sub_cancel, hhdr]
      exact ⟨L, A, hsame⟩
    · rw [if_neg h1] at hret
      by_cases h2 : block_size b > o.2
      · rw [if_pos h2] at hret
        obtain ⟨s1, L1, A1, hx, g1, hok, hA1⟩ := hgrow hb0 h2
        rw [hx] at hret
        simp only [bind_ok] at hret
        obtain ⟨L', A', g', hm⟩ := xmalloc_good fuel s1 L1 A1 (O.erase o) b s' q g1 hok hA1 hret
        rw [hm]
        exact ⟨L', A', g'⟩
      · rw [if_neg h2] at hret
        by_cases h3 : block_size b > LOCAL_SIZE_MAX
        · rw [if_pos h3] at hret
          -- the block is cut in place and its suffix goes to the arena
          have hbigreq : LOCAL_SIZE_MAX < b + 8 := by
            by_contra hcon
            obtain ⟨i, _, _, hi20, hbs⟩ := block_size_small b (by omega)
            have := pow_le_chunk i hi20
            rw [hbs] at h3
            simp only [LOCAL_SIZE_MAX] at h3
            omega
          obtain ⟨hrC, _, _, _⟩ := round_chunk_spec (b + 8) hbigreq
          rw [← block_size_large b hbigreq] at hrC
          generalize hbr : block_size b = r at hret h1 h2 h3 hrC
          have hlt : r < o.2 := by omega
          have hoC : LOCAL_SIZE_MAX ∣ o.2 := by
            rcases hosz with ⟨i, _, hi20, hsz⟩ | ⟨_, hC⟩
            · have := pow_le_chunk i hi20
              simp only [LOCAL_SIZE_MAX] at h3
              omega
            · exact hC
          obtain ⟨hdpos, hdC, _⟩ := chunk_dvd_sub o.2 r hoC hrC hlt
          have g2 := Good_split s L A O o r g ho h3 hrC hlt hoC
          have hin : (o.1 + r, o.2 - r) ∈ (o.1 + r, o.2 - r) :: (o.1, r) :: O.erase o :=
            List.mem_cons_self _ _
          obtain ⟨s2, hs2, post⟩ := insert_global_block_give fuel _ L A (o.1 + r) (o.2 - r)
            g2.rep g2.wf (g2.own_hdr _ hin) (by omega) hdpos hdC (by omega)
            (fun e he => g2.own_free _ hin e he) (by omega)
          have hcalc : xrealloc fuel s (o.1 + 8) b = .ok (s2, o.1 + 8) := by
            obtain ⟨nb, hdiv, hnb⟩ := div_up_round (b + 8) hb63
            rw [← block_size_large b hbigreq, hbr] at hnb
            rw [xrealloc_shrink_path fuel s o.1 b nb r o.2 g.ini hb0
              (Nat.mod_eq_of_lt (by simp only [WORD]; omega)) hbigreq hdiv hnb ho0 hhdr h1 h2 h3,
              split_block_split s o.1 r o.2 ho0 hhdr hlt (by simp only [WORD]; omega), bind_ok]
            simp only [hs2, bind_ok, pure_ok]
          rw [hcalc] at hret0
          simp only [Except.ok.injEq, Prod.mk.injEq] at hret0
          rw [← hret0.1, ← hret0.2]
          have g3 := Good_give _ s2 L A _ _ _ (o.1 + r, o.2 - r) g2 hin post g.nb g.top
          rw [List.erase_cons_head] at g3
          have hm := g3.own_hdr (o.1, r) (List.mem_cons_self _ _)
          simp only at hm
          rw [Nat.add_sub_cancel, hm]
          exact ⟨_, _, g3⟩
        · rw [if_neg h3] at hret
          injection hret with hret
          injection hret with h4 h5
          subst h4 h5
          rw [Nat.add_sub_cancel, hhdr]
          exact ⟨L, A, hsame⟩
/-! ## Every state of a run satisfies the invariant -/

/-- The state after the first-call initialisation satisfies the invariant: the seed
    is the only free block, and the caller owns nothing. -/
theorem initialise_good (p : Nat) (pages : List Nat) (s : State) (hp0 : p ≠ 0)
    (hfit : p + GLOBAL_SIZE_MAX ≤ 9223372036854775808)
    (hs : initialise (fresh (p :: pages)) = .ok s) :
    Good s (fun _ => []) [(p, GLOBAL_SIZE_MAX)] [] := by
  have hcalc : initialise (fresh (p :: pages)) = .ok
      { mem := upd (upd (fun a => if p ≤ a ∧ a < p + GLOBAL_SIZE_MAX then 0 else 0) p
          GLOBAL_SIZE_MAX) (p + 8) 0,
        global_list := p, buckets := fun _ => 0, init := 1, pages := pages } := by
    simp only [initialise, mmap, fresh, bind_ok, if_neg hp0, set_size, set_next, pure_ok]
  rw [hcalc] at hs
  simp only [Except.ok.injEq] at hs
  rw [← hs]
  simp only [GLOBAL_SIZE_MAX] at hfit
  exact
    { ini := rfl
      rep := ⟨fun t _ _ => rfl, ⟨rfl, hp0, by
        show upd (upd _ p GLOBAL_SIZE_MAX) (p + 8) 0 p = GLOBAL_SIZE_MAX
        rw [upd_other _ _ _ _ (by omega), upd_same], by
        show upd (upd _ p GLOBAL_SIZE_MAX) (p + 8) 0 (p + 8) = 0
        rw [upd_same]⟩⟩
      wf := HeapWf_empty _ (ArenaInv_single p GLOBAL_SIZE_MAX hp0 (by norm_num)
        ⟨1024, by norm_num⟩ (by simp only [GLOBAL_SIZE_MAX]; omega))
      nb := fun _ => List.Pairwise.nil
      top := Nat.zero_le _
      own_hdr := fun o ho => by cases ho
      own_ok := fun o ho => by cases ho
      own_nodup := List.nodup_nil
      own_apart := fun o ho => by cases ho
      own_free := fun o ho => by cases ho }

/-- The lengths of the lists of the buckets are bounded. -/
theorem bucket_bound (L : Nat → List (Nat × Nat)) (A : List (Nat × Nat)) (hwf : HeapWf L A) :
    ∃ N, ∀ t, (L t).length ≤ N := by
  refine ⟨((List.range 21).map (fun t => (L t).length)).sum, fun t => ?_⟩
  by_cases ht : t < 21
  · exact List.single_le_sum (fun _ _ => Nat.zero_le _) _
      (List.mem_map.mpr ⟨t, List.mem_range.mpr ht, rfl⟩)
  · rw [hwf.range t (by omega)]
    exact Nat.zero_le _

/-- Every state of a run satisfies the invariant `Good`, for some free lists. -/
theorem Reach_good (s : State) (O : List (Nat × Nat)) (h : Reach s O) :
    ∃ L A, Good s L A O := by
  induction h with
  | init p pages s hp0 hfit hs => exact ⟨_, _, initialise_good p pages s hp0 hfit hs⟩
  | malloc s O b s' q _ hok hret ih =>
    obtain ⟨L, A, g⟩ := ih
    obtain ⟨n, hn⟩ := hret
    obtain ⟨L', A', g', hm⟩ := xmalloc_good (max n (A.length + 1)) s L A O b s' q g hok
      (by have := le_max_right n (A.length + 1); omega) (hn _ (le_max_left _ _))
    rw [hm]
    exact ⟨L', A', g'⟩
  | free s O o s' _ ho hret ih =>
    obtain ⟨L, A, g⟩ := ih
    obtain ⟨n, hn⟩ := hret
    obtain ⟨N, hN⟩ := bucket_bound L A g.wf
    obtain ⟨s1, L', A', hx, g'⟩ := xfree_good (max n (N + A.length + 22)) s L A O o g ho
      (fun t => by have := hN t; have := le_max_right n (N + A.length + 22); omega)
      (by have := le_max_right n (N + A.length + 22); omega)
    have hx' : Except.ok s' = Except.ok s1 := (hn _ (le_max_left _ _)).symm.trans hx
    simp only [Except.ok.injEq] at hx'
    rw [hx']
    exact ⟨L', A', g'⟩
  | realloc s O o b s1 s' q _ ho hb63 hside hret ih =>
    obtain ⟨L, A, g⟩ := ih
    obtain ⟨n, hn⟩ := hret
    obtain ⟨N, hN⟩ := bucket_bound L A g.wf
    by_cases hg : b ≠ 0 ∧ o.2 < block_size b
    · obtain ⟨⟨n1, hn1⟩, hok⟩ := hside hg.1 hg.2
      obtain ⟨s1', L1, A1, hx, g1⟩ := xfree_good (max n1 (N + A.length + 22)) s L A O o g ho
        (fun t => by have := hN t; have := le_max_right n1 (N + A.length + 22); omega)
        (by have := le_max_right n1 (N + A.length + 22); omega)
      have hx' : Except.ok s1 = Except.ok s1' := (hn1 _ (le_max_left _ _)).symm.trans hx
      simp only [Except.ok.injEq] at hx'
      rw [← hx'] at g1
      have hf1 := le_max_left (max n n1) (N + A.length + A1.length + 22)
      have hf2 := le_max_right (max n n1) (N + A.length + A1.length + 22)
      have hf3 := le_max_left n n1
      have hf4 := le_max_right n n1
      exact xrealloc_good (max (max n n1) (N + A.length + A1.length + 22)) s L A O o b s' q g
        ho hb63 (fun _ _ => ⟨s1, L1, A1, hn1 _ (by omega), g1, hok, by omega⟩)
        (fun t => by have := hN t; omega) (by omega) (hn _ (by omega))
    · have hf1 := le_max_left n (N + A.length + 22)
      have hf2 := le_max_right n (N + A.length + 22)
      exact xrealloc_good (max n (N + A.length + 22)) s L A O o b s' q g ho hb63
        (fun h1 h2 => absurd ⟨h1, h2⟩ hg) (fun t => by have := hN t; omega) (by omega)
        (hn _ hf1)
  | write s O o addr v _ ho h1 h2 ih =>
    obtain ⟨L, A, g⟩ := ih
    exact ⟨L, A, Good_write s L A O o addr v g ho h1 h2⟩
/-! ## The invariants of a run: arena sizes, buddies, the cached chunk -/

/-- The first call of `xmalloc` in a process is the initialisation followed by the
    call in the initialised state. -/
theorem xmalloc_first_call (fuel : Nat) (s : State) (b : Nat) (h0 : s.init = 0) :
    xmalloc fuel s b = initialise s >>= fun s1 => xmalloc fuel s1 b := by
  cases hp : s.pages with
  | nil =>
    simp [xmalloc, initialise, mmap, hp, h0, bind, Except.bind]
  | cons p rest =>
    by_cases hp0 : p = 0
    · simp [xmalloc, initialise, mmap, hp, h0, hp0, bind, Except.bind]
    · simp [xmalloc, initialise, mmap, hp, h0, hp0, set_size, set_next, bind, Except.bind,
        pure, Except.pure]

/-- A list held in memory is what `read_list` reads, given fuel above its length. -/
theorem read_list_of_ListAt (s : State) (l : List (Nat × Nat)) :
    ∀ p, ListAt s.mem p l → read_list (l.length + 1) s p = some l := by
  induction l with
  | nil =>
    intro p h
    have hp : p = 0 := h
    simp [read_list, hp]
  | cons e l ih =>
    intro p h
    obtain ⟨h1, h2, h3, h4⟩ := h
    have := ih _ h4
    rw [List.length_cons, read_list, if_neg (by rw [h1]; exact h2), h1, this, h3]
    rfl

/-- C11 at a concrete run: the page source returns the seed at the page-aligned
    address 4096, and after the first call `xmalloc(100)` the arena is the single
    entry at `4096 + C`, an address that is not a multiple of `C`.  The state is a
    state of a run (`Reach`), in which the caller owns the block returned. -/
theorem arena_entry_not_chunk_aligned :
    ∃ s p, 4096 % 4096 = 0 ∧
      xmalloc 8 (fresh [4096]) 100 = .ok (s, p) ∧
      read_list 8 s s.global_list = some [(4096 + LOCAL_SIZE_MAX, 2 ^ 30 - LOCAL_SIZE_MAX)] ∧
      (4096 + LOCAL_SIZE_MAX) % LOCAL_SIZE_MAX ≠ 0 ∧
      Reach s [(p - 8, s.mem (p - 8))] :=
  ⟨_, _, rfl, rfl, rfl, by decide,
    Reach.malloc _ [] 100 _ _ (Reach.init 4096 [] _ (by decide) (by decide) rfl)
      ⟨by decide, fun h => absurd h (by decide)⟩ ⟨0, fun _ _ => rfl⟩⟩

/-- **C11.** Arena entries are `C`-sized.  In every state of a run
    (`Reach`: reached from the first-call initialisation by calls of `xmalloc`, `xfree`
    and `xrealloc` that return and by stores of the caller into the payload of blocks
    it owns, every request being below `2 ^ 63` bytes, no request of the large regime
    being served by the split of an arena entry behind the head, and the page source
    handing out fresh regions), the arena is a finite list in memory, and every entry
    has a size that is a positive multiple of `C`. -/
theorem arena_entries_chunk_sized (s : State) (O : List (Nat × Nat)) (h : Reach s O) :
    ∃ A, read_list (A.length + 1) s s.global_list = some A ∧
      ∀ e ∈ A, 0 < e.2 ∧ LOCAL_SIZE_MAX ∣ e.2 := by
  obtain ⟨L, A, g⟩ := Reach_good s O h
  exact ⟨A, read_list_of_ListAt s A _ g.rep.arena, g.wf.arena.2⟩

/-- C11 at a concrete run: the seed at 4096, one call `xmalloc(100)`. -/
theorem arena_entries_chunk_sized_witness :
    ∃ s p, xmalloc 8 (fresh [4096]) 100 = .ok (s, p) ∧
      Reach s [(p - 8, s.mem (p - 8))] ∧
      ∃ A, read_list (A.length + 1) s s.global_list = some A ∧
        ∀ e ∈ A, 0 < e.2 ∧ LOCAL_SIZE_MAX ∣ e.2 :=
  ⟨_, _, rfl,
    Reach.malloc _ [] 100 _ _ (Reach.init 4096 [] _ (by decide) (by decide) rfl)
      ⟨by decide, fun h => absurd h (by decide)⟩ ⟨0, fun _ _ => rfl⟩,
    arena_entries_chunk_sized _ _
      (Reach.malloc _ [] 100 _ _ (Reach.init 4096 [] _ (by decide) (by decide) rfl)
        ⟨by decide, fun h => absurd h (by decide)⟩ ⟨0, fun _ _ => rfl⟩)⟩

/-- In every state of a run (`Reach`), bucket 20 holds at most one chunk: without the
    split of an arena entry behind the head, `find_local_block` installs a refill chunk
    only in the empty bucket 20, and `insert_local_block` sends a block of `C` bytes to
    the arena when bucket 20 is not empty. -/
theorem cached_chunk_unique (s : State) (O : List (Nat × Nat)) (h : Reach s O) :
    ∃ l, read_list (l.length + 1) s (s.buckets 20) = some l ∧ l.length ≤ 1 := by
  obtain ⟨L, A, g⟩ := Reach_good s O h
  exact ⟨L 20, read_list_of_ListAt s (L 20) _ (g.rep.cache 20 (by norm_num) (le_refl _)),
    g.top⟩

/-- C19 at a concrete run, with `A = 2 ^ 30` the seed.  The caller obtains
    `p1` (block `(A, 2C)`), `p2` (block `(A + 2C, 5C)`, which it keeps) and `p3` (the
    chunk `(A + 7C, C)`), releases `p3` (bucket 20 is then `[(A + 7C, C)]`), obtains
    `p4` (block `(A + 8C, 4C)`), stores three words into the payloads of `p4` and `p2`,
    and releases `p4` and `p1`.  The arena is then `[(A, 2C), (A + 8C, 2^30 - 8C)]` and
    bucket 20 holds one chunk.  `xmalloc(3C - 8)` then splits the entry behind the
    head; the loop of `find_global_block` walks on through the words the caller left,
    and writes the word `A + 3C` into the `next` field of the cached chunk: bucket 20
    is then the list `[(A + 7C, C), (A + 3C, C)]` of two entries, the second inside the
    block of `p2`. -/
theorem second_chunk_cached_after_split_behind_head :
    ∃ s1 p1 s2 p2 s3 p3 s4 s5 p4 s6 s7 s8 p5,
      xmalloc 8 (fresh [1073741824]) (2 * LOCAL_SIZE_MAX - 8) = .ok (s1, p1) ∧
      xmalloc 8 s1 (5 * LOCAL_SIZE_MAX - 8) = .ok (s2, p2) ∧
      xmalloc 8 s2 (LOCAL_SIZE_MAX - 8) = .ok (s3, p3) ∧
      xfree 30 s3 p3 = .ok s4 ∧
      xmalloc 8 s4 (4 * LOCAL_SIZE_MAX - 8) = .ok (s5, p4) ∧
      p4 ≤ 1073741824 + 11 * LOCAL_SIZE_MAX + 8 ∧
      1073741824 + 11 * LOCAL_SIZE_MAX + 16 ≤ (p4 - 8) + s5.mem (p4 - 8) ∧
      p2 ≤ 1073741824 + 3 * LOCAL_SIZE_MAX ∧
      1073741824 + 4 * LOCAL_SIZE_MAX + 16 ≤ (p2 - 8) + s5.mem (p2 - 8) ∧
      xfree 8
        (caller_write
          (caller_write
            (caller_write s5 (1073741824 + 11 * LOCAL_SIZE_MAX + 8)
              (1073741824 + 4 * LOCAL_SIZE_MAX + 8))
            (1073741824 + 4 * LOCAL_SIZE_MAX + 8) (1073741824 + 6 * LOCAL_SIZE_MAX))
          (1073741824 + 3 * LOCAL_SIZE_MAX) LOCAL_SIZE_MAX) p4 = .ok s6 ∧
      xfree 8 s6 p1 = .ok s7 ∧
      read_list 8 s7 s7.global_list =
        some [(1073741824, 2 * LOCAL_SIZE_MAX),
              (1073741824 + 8 * LOCAL_SIZE_MAX, 2 ^ 30 - 8 * LOCAL_SIZE_MAX)] ∧
      read_list 8 s7 (s7.buckets 20) = some [(1073741824 + 7 * LOCAL_SIZE_MAX, LOCAL_SIZE_MAX)] ∧
      xmalloc 8 s7 (3 * LOCAL_SIZE_MAX - 8) = .ok (s8, p5) ∧
      read_list 8 s8 (s8.buckets 20) =
        some [(1073741824 + 7 * LOCAL_SIZE_MAX, LOCAL_SIZE_MAX),
              (1073741824 + 3 * LOCAL_SIZE_MAX, LOCAL_SIZE_MAX)] :=
  ⟨_, _, _, _, _, _, _, _, _, _, _, _, _, rfl, rfl, rfl, rfl, rfl, by decide, by decide,
    by decide, by decide, rfl, rfl, rfl, rfl, rfl, rfl⟩

set_option maxRecDepth 4000

/-- What the split of an arena entry behind the head does to the free lists, at a
    concrete run with `A = 2 ^ 30` the seed.  The caller obtains `p1` (block `(A, 2C)`),
    `p2` (block `(A + 2C, 5C)`, kept), `q1` and `q2` (the blocks of 16 bytes at `A + 7C`
    and `A + 7C + 16`, buddies), releases `q1` (bucket 4 is then `[(A + 7C, 16)]`),
    obtains `p4` (block `(A + 8C, 4C)`), stores two words into the payloads of `p4` and
    `p2`, and releases `p4` and `p1`.  The arena is then `[(A, 2C), (A + 8C, 2^30 - 8C)]`.
    `xmalloc(3C - 8)` splits the entry behind the head, and the loop of
    `find_global_block` walks on through the words the caller left.  Afterwards
    bucket 4 is the list `[(A + 7C, 16), (A + 7C + 16, 16)]`: a block aligned on 32
    together with its buddy, which is the block of `q2` that the caller owns; and the
    arena list has the entries `(A + 7C + 8, A + 7C + 16)` and `(16, 0)`, whose sizes
    are no positive multiples of `C`. -/
theorem split_behind_head_breaks_free_lists :
    ∃ s1 p1 s2 p2 s3 q1 s4 q2 s5 s6 p4 s7 s8 s9 p5,
      xmalloc 8 (fresh [1073741824]) (2 * LOCAL_SIZE_MAX - 8) = .ok (s1, p1) ∧
      xmalloc 8 s1 (5 * LOCAL_SIZE_MAX - 8) = .ok (s2, p2) ∧
      xmalloc 8 s2 8 = .ok (s3, q1) ∧
      xmalloc 8 s3 8 = .ok (s4, q2) ∧
      xfree 8 s4 q1 = .ok s5 ∧
      xmalloc 8 s5 (4 * LOCAL_SIZE_MAX - 8) = .ok (s6, p4) ∧
      p4 ≤ 1073741824 + 11 * LOCAL_SIZE_MAX + 8 ∧
      1073741824 + 11 * LOCAL_SIZE_MAX + 16 ≤ (p4 - 8) + s6.mem (p4 - 8) ∧
      p2 ≤ 1073741824 + 4 * LOCAL_SIZE_MAX + 8 ∧
      1073741824 + 4 * LOCAL_SIZE_MAX + 16 ≤ (p2 - 8) + s6.mem (p2 - 8) ∧
      xfree 8
        (caller_write
          (caller_write s6 (1073741824 + 11 * LOCAL_SIZE_MAX + 8)
            (1073741824 + 4 * LOCAL_SIZE_MAX + 8))
          (1073741824 + 4 * LOCAL_SIZE_MAX + 8) (1073741824 + 10 * LOCAL_SIZE_MAX + 16))
        p4 = .ok s7 ∧
      xfree 8 s7 p1 = .ok s8 ∧
      read_list 8 s8 s8.global_list =
        some [(1073741824, 2 * LOCAL_SIZE_MAX),
              (1073741824 + 8 * LOCAL_SIZE_MAX, 2 ^ 30 - 8 * LOCAL_SIZE_MAX)] ∧
      read_list 8 s8 (s8.buckets 4) = some [(1073741824 + 7 * LOCAL_SIZE_MAX, 16)] ∧
      xmalloc 8 s8 (3 * LOCAL_SIZE_MAX - 8) = .ok (s9, p5) ∧
      read_list 8 s9 (s9.buckets 4) =
        some [(1073741824 + 7 * LOCAL_SIZE_MAX, 16),
              (1073741824 + 7 * LOCAL_SIZE_MAX + 16, 16)] ∧
      (1073741824 + 7 * LOCAL_SIZE_MAX) % 2 ^ (4 + 1) = 0 ∧
      q2 - 8 = 1073741824 + 7 * LOCAL_SIZE_MAX + 16 ∧
      read_list 8 s9 s9.global_list =
        some [(1073741824, 2 * LOCAL_SIZE_MAX),
              (1073741824 + 11 * LOCAL_SIZE_MAX, 2 ^ 30 - 11 * LOCAL_SIZE_MAX),
              (1073741824 + 7 * LOCAL_SIZE_MAX + 8, 1073741824 + 7 * LOCAL_SIZE_MAX + 16),
              (16, 0)] ∧
      (1073741824 + 7 * LOCAL_SIZE_MAX + 16) % LOCAL_SIZE_MAX ≠ 0 :=
  ⟨_, _, _, _, _, _, _, _, _, _, _, _, _, _, _, rfl, rfl, rfl, rfl, rfl, rfl, by decide,
    by decide, by decide, by decide, rfl, rfl, rfl, rfl, rfl, rfl, by decide, rfl, rfl,
    by decide⟩

end ParMalloc
